import Mathlib

/-!
# Clipping a Voronoi DCEL with a box (`VoronoiDiagram.cpp`)

A shallow embedding of `src/VoronoiDiagram.cpp`.  Pointers into the two
`std::list` arenas are handles (natural numbers) that are never reused; a
`std::list` is the list of its live nodes in order, each with its handle.
Pointers to faces are indices into `mFaces`.  Dereferencing a null pointer
or a pointer to an erased node is a `Fault`.
-/

namespace Voronoi

/-- Coordinates (`double` in the source). No arithmetic is done on them here. -/
abbrev Coord := Int

structure Vector2 where
  x : Coord
  y : Coord
deriving DecidableEq, Repr

/-- Modelled from the spec: the enumeration `Box::Side` of `Box.h`, which is
not among the sources; its order is LEFT, BOTTOM, RIGHT, TOP. -/
inductive Side where
  | LEFT
  | BOTTOM
  | RIGHT
  | TOP
deriving DecidableEq, Repr

/-- The cast `static_cast<int>(side)`. -/
def Side.toInt : Side → Nat
  | .LEFT => 0
  | .BOTTOM => 1
  | .RIGHT => 2
  | .TOP => 3

/-- The cast `static_cast<Box::Side>(n)` for `n` in `0..3`. -/
def Side.ofInt : Nat → Side
  | 0 => .LEFT
  | 1 => .BOTTOM
  | 2 => .RIGHT
  | _ => .TOP

/-- Modelled from the spec: `Box::Intersection` of `Box.h`. -/
structure Intersection where
  side : Side
  point : Vector2
deriving DecidableEq, Repr

/-- Modelled from the spec: the box of `Box.h`. Its two queries are not among
the sources and are taken as they come; `getIntersections` gives the filled
part of the array, so that `nbIntersections` is the length of the list. -/
structure Box where
  left : Coord
  bottom : Coord
  right : Coord
  top : Coord
  contains : Vector2 → Bool
  getIntersections : Vector2 → Vector2 → List Intersection

structure Vertex where
  point : Vector2
deriving DecidableEq, Repr

structure HalfEdge where
  origin : Option Nat
  destination : Option Nat
  twin : Option Nat
  incidentFace : Nat
  prev : Option Nat
  next : Option Nat
deriving DecidableEq, Repr

structure Site where
  index : Nat
  point : Vector2
  face : Option Nat
deriving DecidableEq, Repr

structure Face where
  site : Option Nat
  outerComponent : Option Nat
deriving DecidableEq, Repr

/-- The diagram: the two vectors, the two lists, and the number of nodes ever
allocated in each list (the next fresh handle). -/
structure VoronoiDiagram where
  mSites : List Site
  mFaces : List Face
  mVertices : List (Nat × Vertex)
  mHalfEdges : List (Nat × HalfEdge)
  vertexCount : Nat
  halfEdgeCount : Nat
deriving DecidableEq, Repr

inductive Fault where
  | nullDeref
  | dangling
  | outOfFuel
deriving DecidableEq, Repr

/-! ## Nodes of a list by handle -/

def lookup {α : Type} : List (Nat × α) → Nat → Option α
  | [], _ => none
  | (k, a) :: t, h => if k = h then some a else lookup t h

def modify {α : Type} : List (Nat × α) → Nat → (α → α) → List (Nat × α)
  | [], _, _ => []
  | (k, a) :: t, h, f => if k = h then (k, f a) :: t else (k, a) :: modify t h f

def erase {α : Type} : List (Nat × α) → Nat → List (Nat × α)
  | [], _ => []
  | (k, a) :: t, h => if k = h then t else (k, a) :: erase t h

/-- Following a pointer that may be null. -/
def deref {α : Type} : Option α → Except Fault α
  | some a => .ok a
  | none => .error .nullDeref

/-- Reading a node that must be live. -/
def live {α : Type} (l : List (Nat × α)) (h : Nat) : Except Fault α :=
  match lookup l h with
  | some a => .ok a
  | none => .error .dangling

namespace VoronoiDiagram

def getNbSites (d : VoronoiDiagram) : Nat := d.mSites.length

def vertex (d : VoronoiDiagram) (v : Nat) : Except Fault Vertex := live d.mVertices v

def halfEdge (d : VoronoiDiagram) (h : Nat) : Except Fault HalfEdge := live d.mHalfEdges h

def face (d : VoronoiDiagram) (f : Nat) : Except Fault Face :=
  match d.mFaces[f]? with
  | some x => .ok x
  | none => .error .dangling

/-- A write through a half-edge pointer. -/
def setHalfEdge (d : VoronoiDiagram) (h : Nat) (f : HalfEdge → HalfEdge) :
    Except Fault VoronoiDiagram :=
  match lookup d.mHalfEdges h with
  | some _ => .ok { d with mHalfEdges := modify d.mHalfEdges h f }
  | none => .error .dangling

/-- The function `createVertex`: a node at the back of the list, with a fresh handle. -/
def createVertex (d : VoronoiDiagram) (point : Vector2) : VoronoiDiagram × Nat :=
  ({ d with mVertices := d.mVertices ++ [(d.vertexCount, { point := point })],
            vertexCount := d.vertexCount + 1 }, d.vertexCount)

/-- The function `createCorner`; the `default` of its `switch` is not reached, the four
sides being all the values of the enumeration. -/
def createCorner (d : VoronoiDiagram) (box : Box) (side : Side) : VoronoiDiagram × Nat :=
  match side with
  | .LEFT => d.createVertex ⟨box.left, box.top⟩
  | .BOTTOM => d.createVertex ⟨box.left, box.bottom⟩
  | .RIGHT => d.createVertex ⟨box.right, box.bottom⟩
  | .TOP => d.createVertex ⟨box.right, box.top⟩

/-- The function `createHalfEdge`: `emplace_back()` makes a node whose pointers are all
null, then the incident face is set, and the outer component of the face when it is null. -/
def createHalfEdge (d : VoronoiDiagram) (face : Nat) : Except Fault (VoronoiDiagram × Nat) :=
  match d.mFaces[face]? with
  | none => .error .dangling
  | some f =>
    let h := d.halfEdgeCount
    let fresh : HalfEdge :=
      { origin := none, destination := none, twin := none, incidentFace := face,
        prev := none, next := none }
    let d1 := { d with mHalfEdges := d.mHalfEdges ++ [(h, fresh)], halfEdgeCount := h + 1 }
    if f.outerComponent = none then
      .ok ({ d1 with mFaces := d1.mFaces.set face { f with outerComponent := some h } }, h)
    else
      .ok (d1, h)

/-- The function `removeVertex`: the node leaves the list; the pointers to it dangle. -/
def removeVertex (d : VoronoiDiagram) (vertex : Nat) : Except Fault VoronoiDiagram :=
  match lookup d.mVertices vertex with
  | some _ => .ok { d with mVertices := erase d.mVertices vertex }
  | none => .error .dangling

/-- The function `removeHalfEdge`: the node leaves the list; the pointers to it dangle. -/
def removeHalfEdge (d : VoronoiDiagram) (halfEdge : Nat) : Except Fault VoronoiDiagram :=
  match lookup d.mHalfEdges halfEdge with
  | some _ => .ok { d with mHalfEdges := erase d.mHalfEdges halfEdge }
  | none => .error .dangling

/-- One turn of the `while` of `link`: `side` advances, a half-edge is
created after `halfEdge`, ending on the corner of the new side. -/
def linkStep (d : VoronoiDiagram) (box : Box) (start halfEdge side : Nat) :
    Except Fault (VoronoiDiagram × Nat × Nat) := do
  let side1 := (side + 1) % 4
  let s ← d.halfEdge start
  let (d1, n) ← d.createHalfEdge s.incidentFace
  let d2 ← d1.setHalfEdge halfEdge (fun e => { e with next := some n })
  let d3 ← d2.setHalfEdge n (fun e => { e with prev := some halfEdge })
  let cur ← d3.halfEdge halfEdge
  let d4 ← d3.setHalfEdge n (fun e => { e with origin := cur.destination })
  let (d5, c) := d4.createCorner box (Side.ofInt side1)
  let d6 ← d5.setHalfEdge n (fun e => { e with destination := some c })
  pure (d6, n, side1)

/-- The `while (side != endSide)` of `link`. -/
def linkLoop : Nat → VoronoiDiagram → Box → Nat → Nat → Nat → Nat →
    Except Fault (VoronoiDiagram × Nat)
  | 0, _, _, _, _, _, _ => .error .outOfFuel
  | fuel + 1, d, box, start, halfEdge, side, endSide =>
    if side = endSide then .ok (d, halfEdge)
    else
      match linkStep d box start halfEdge side with
      | .error e => .error e
      | .ok (d1, n, side1) => linkLoop fuel d1 box start n side1 endSide

/-- The function `link`, with the fuel of its loop. -/
def linkFuel (fuel : Nat) (d : VoronoiDiagram) (box : Box) (start : Nat) (startSide : Side)
    (end_ : Nat) (endSide : Side) : Except Fault VoronoiDiagram := do
  let (d0, halfEdge) ← linkLoop fuel d box start start startSide.toInt endSide.toInt
  let s ← d0.halfEdge start
  let (d1, n) ← d0.createHalfEdge s.incidentFace
  let d2 ← d1.setHalfEdge halfEdge (fun e => { e with next := some n })
  let d3 ← d2.setHalfEdge n (fun e => { e with prev := some halfEdge })
  let d4 ← d3.setHalfEdge end_ (fun e => { e with prev := some n })
  let d5 ← d4.setHalfEdge n (fun e => { e with next := some end_ })
  let cur ← d5.halfEdge halfEdge
  let d6 ← d5.setHalfEdge n (fun e => { e with origin := cur.destination })
  let e ← d6.halfEdge end_
  d6.setHalfEdge n (fun x => { x with destination := e.origin })

/-- The function `link`: `side` runs over `0..3`, so its loop turns at most
three times. -/
def link (d : VoronoiDiagram) (box : Box) (start : Nat) (startSide : Side)
    (end_ : Nat) (endSide : Side) : Except Fault VoronoiDiagram :=
  linkFuel 4 d box start startSide end_ endSide

end VoronoiDiagram

/-- The locals of `intersect`: the diagram, the two sets, and for the face
being walked the flag and the two cursors, each with its side. -/
structure Walk where
  d : VoronoiDiagram
  processedHalfEdges : List Nat
  verticesToRemove : List Nat
  inside : Bool
  incoming : Option (Nat × Side)
  outgoing : Option (Nat × Side)
deriving DecidableEq, Repr

/-- Insertion into an `unordered_set`. -/
def emplace (s : List Nat) (x : Nat) : List Nat :=
  if x ∈ s then s else s ++ [x]

namespace VoronoiDiagram

/-- The test `processedHalfEdges.find(halfEdge->twin) != end()`, giving the twin. -/
def processedTwin (w : Walk) (e : HalfEdge) : Option Nat :=
  match e.twin with
  | some t => if t ∈ w.processedHalfEdges then some t else none
  | none => none

/-- The statement `if (outgoingHalfEdge != nullptr) link(box, outgoingHalfEdge, outgoingSide,
halfEdge, side)`. -/
def linkPending (w : Walk) (d : VoronoiDiagram) (box : Box) (h : Nat) (side : Side) :
    Except Fault VoronoiDiagram :=
  match w.outgoing with
  | some (o, oside) => d.link box o oside h side
  | none => .ok d

/-- The statement `if (incomingHalfEdge == nullptr) { incomingHalfEdge = halfEdge;
incomingSide = side; }`. -/
def firstIncoming (w : Walk) (h : Nat) (side : Side) : Option (Nat × Side) :=
  match w.incoming with
  | some x => some x
  | none => some (h, side)

/-- The body of the `do ... while` of `intersect` up to `halfEdge = nextHalfEdge`;
gives the new locals and `nextHalfEdge`. -/
def visit (box : Box) (w : Walk) (halfEdge : Option Nat) : Except Fault (Walk × Option Nat) := do
  let h ← deref halfEdge
  let e ← w.d.halfEdge h
  let o ← deref e.origin
  let ov ← w.d.vertex o
  let t ← deref e.destination
  let tv ← w.d.vertex t
  let intersections := box.getIntersections ov.point tv.point
  let nextHalfEdge := e.next
  match intersections with
  | [] =>
    if !w.inside then do
      let d1 ← w.d.removeHalfEdge h
      pure ({ w with d := d1, verticesToRemove := emplace w.verticesToRemove o }, nextHalfEdge)
    else
      pure (w, nextHalfEdge)
  | [i0] =>
    if w.inside then do
      let (d1, dest) ← (match processedTwin w e with
        | some tw => do
          let te ← w.d.halfEdge tw
          pure (w.d, te.origin)
        | none =>
          let (d1, v) := w.d.createVertex i0.point
          pure (d1, some v) : Except Fault (VoronoiDiagram × Option Nat))
      let d2 ← d1.setHalfEdge h (fun x => { x with destination := dest })
      pure ({ w with d := d2, outgoing := some (h, i0.side), inside := !w.inside,
                     processedHalfEdges := emplace w.processedHalfEdges h }, nextHalfEdge)
    else do
      let (d1, orig) ← (match processedTwin w e with
        | some tw => do
          let te ← w.d.halfEdge tw
          pure (w.d, te.destination)
        | none =>
          let (d1, v) := w.d.createVertex i0.point
          pure (d1, some v) : Except Fault (VoronoiDiagram × Option Nat))
      let d2 ← d1.setHalfEdge h (fun x => { x with origin := orig })
      let d3 ← linkPending w d2 box h i0.side
      pure ({ w with d := d3, verticesToRemove := emplace w.verticesToRemove o,
                     incoming := firstIncoming w h i0.side, inside := !w.inside,
                     processedHalfEdges := emplace w.processedHalfEdges h }, nextHalfEdge)
  | [i0, i1] => do
    let (d1, orig, dest) ← (match processedTwin w e with
      | some tw => do
        let te ← w.d.halfEdge tw
        pure (w.d, te.destination, te.origin)
      | none =>
        let (d1, v0) := w.d.createVertex i0.point
        let (d2, v1) := d1.createVertex i1.point
        pure (d2, some v0, some v1) : Except Fault (VoronoiDiagram × Option Nat × Option Nat))
    let d2 ← d1.setHalfEdge h (fun x => { x with origin := orig })
    let d3 ← d2.setHalfEdge h (fun x => { x with destination := dest })
    let d4 ← linkPending w d3 box h i0.side
    pure ({ w with d := d4, verticesToRemove := emplace w.verticesToRemove o,
                   incoming := firstIncoming w h i0.side, outgoing := some (h, i1.side),
                   processedHalfEdges := emplace w.processedHalfEdges h }, nextHalfEdge)
  | _ => pure (w, nextHalfEdge)

/-- The `do ... while (halfEdge != site.face->outerComponent)` of `intersect`. -/
def walk : Nat → Box → Nat → Walk → Option Nat → Except Fault Walk
  | 0, _, _, _, _ => .error .outOfFuel
  | fuel + 1, box, face, w, halfEdge =>
    match visit box w halfEdge with
    | .error e => .error e
    | .ok (w1, nextHalfEdge) =>
      match w1.d.face face with
      | .error e => .error e
      | .ok f =>
        if nextHalfEdge = f.outerComponent then .ok w1
        else walk fuel box face w1 nextHalfEdge

/-- The body of `for (const Site& site : mSites)` of `intersect`. -/
def intersectSite (fuel : Nat) (box : Box) (w : Walk) (site : Site) : Except Fault Walk := do
  let face ← deref site.face
  let f ← w.d.face face
  let h ← deref f.outerComponent
  let e ← w.d.halfEdge h
  let o ← deref e.origin
  let ov ← w.d.vertex o
  let inside := box.contains ov.point
  let outerComponentDirty := !inside
  let w1 ← walk fuel box face
    { w with inside := inside, incoming := none, outgoing := none } (some h)
  let d2 ← (if outerComponentDirty && w1.incoming.isSome then
      match w1.outgoing, w1.incoming with
      | some (o, oside), some (i, iside) => w1.d.link box o oside i iside
      | _, _ => .error .nullDeref
    else pure w1.d : Except Fault VoronoiDiagram)
  let d3 ← (if outerComponentDirty then
      match d2.mFaces[face]? with
      | some f2 =>
        let f3 : Face := { f2 with outerComponent := w1.incoming.map Prod.fst }
        pure { d2 with mFaces := d2.mFaces.set face f3 }
      | none => .error .dangling
    else pure d2 : Except Fault VoronoiDiagram)
  pure { w1 with d := d3 }

/-- The loop `for (const Site& site : mSites)` of `intersect`. -/
def intersectSites (fuel : Nat) (box : Box) : List Site → Walk → Except Fault Walk
  | [], w => .ok w
  | site :: rest, w =>
    match intersectSite fuel box w site with
    | .error e => .error e
    | .ok w1 => intersectSites fuel box rest w1

/-- The loop `for (auto& vertex : verticesToRemove) removeVertex(vertex)` of `intersect`. -/
def removeVertices : List Nat → VoronoiDiagram → Except Fault VoronoiDiagram
  | [], d => .ok d
  | v :: rest, d =>
    match d.removeVertex v with
    | .error e => .error e
    | .ok d1 => removeVertices rest d1

/-- The function `intersect`; `fuel` bounds the turns of each face walk. -/
def intersect (fuel : Nat) (d : VoronoiDiagram) (box : Box) : Except Fault VoronoiDiagram :=
  match intersectSites fuel box d.mSites
      { d := d, processedHalfEdges := [], verticesToRemove := [], inside := false,
        incoming := none, outgoing := none } with
  | .error e => .error e
  | .ok w => removeVertices w.verticesToRemove w.d

end VoronoiDiagram

end Voronoi

namespace Voronoi

/-! ## The lists as finite maps -/

section Store

variable {α : Type}

def keys (l : List (Nat × α)) : List Nat := l.map Prod.fst

end Store

end Voronoi

namespace Voronoi

namespace VoronoiDiagram

/-! ## Views of a diagram and the effect of the primitives -/

/-- The live half-edge at a handle. -/
def he (d : VoronoiDiagram) (h : Nat) : Option HalfEdge := lookup d.mHalfEdges h

/-- The live vertex at a handle. -/
def vx (d : VoronoiDiagram) (v : Nat) : Option Vertex := lookup d.mVertices v

/-- Handles are distinct and below the allocation counters. -/
structure StoreOK (d : VoronoiDiagram) : Prop where
  nodupH : (keys d.mHalfEdges).Nodup
  ltH : ∀ k ∈ keys d.mHalfEdges, k < d.halfEdgeCount
  nodupV : (keys d.mVertices).Nodup
  ltV : ∀ k ∈ keys d.mVertices, k < d.vertexCount

instance (d : VoronoiDiagram) : Decidable (StoreOK d) :=
  decidable_of_iff ((keys d.mHalfEdges).Nodup ∧ (∀ k ∈ keys d.mHalfEdges, k < d.halfEdgeCount) ∧
      (keys d.mVertices).Nodup ∧ (∀ k ∈ keys d.mVertices, k < d.vertexCount))
    ⟨fun h => ⟨h.1, h.2.1, h.2.2.1, h.2.2.2⟩, fun h => ⟨h.1, h.2, h.3, h.4⟩⟩

/-- The half-edge record that `emplace_back` leaves, with its face. -/
def freshHE (face : Nat) : HalfEdge :=
  { origin := none, destination := none, twin := none, incidentFace := face,
    prev := none, next := none }

/-- The faces after `createHalfEdge(face)` makes `h`. -/
def ocInit (faces : List Face) (face h : Nat) : List Face :=
  match faces[face]? with
  | some f => if f.outerComponent = none then faces.set face { f with outerComponent := some h }
              else faces
  | none => faces

def putHE (d : VoronoiDiagram) (h : Nat) (f : HalfEdge → HalfEdge) : VoronoiDiagram :=
  { d with mHalfEdges := modify d.mHalfEdges h f }

def pushHE (d : VoronoiDiagram) (face : Nat) : VoronoiDiagram :=
  { d with mHalfEdges := d.mHalfEdges ++ [(d.halfEdgeCount, freshHE face)],
           halfEdgeCount := d.halfEdgeCount + 1,
           mFaces := ocInit d.mFaces face d.halfEdgeCount }

def pushV (d : VoronoiDiagram) (p : Vector2) : VoronoiDiagram :=
  { d with mVertices := d.mVertices ++ [(d.vertexCount, { point := p })],
           vertexCount := d.vertexCount + 1 }

def dropHE (d : VoronoiDiagram) (h : Nat) : VoronoiDiagram :=
  { d with mHalfEdges := erase d.mHalfEdges h }

def dropV (d : VoronoiDiagram) (v : Nat) : VoronoiDiagram :=
  { d with mVertices := erase d.mVertices v }

/-- The corner point that `createCorner` takes for a side. -/
def cornerPoint (box : Box) : Side → Vector2
  | .LEFT => ⟨box.left, box.top⟩
  | .BOTTOM => ⟨box.left, box.bottom⟩
  | .RIGHT => ⟨box.right, box.bottom⟩
  | .TOP => ⟨box.right, box.top⟩

end VoronoiDiagram

end Voronoi

namespace Voronoi

namespace VoronoiDiagram

/-! ## The effect of `link` -/

/-- The corners made by `r` turns of the loop of `link` from `side`, the first at handle `vc`. -/
def cornerList (box : Box) : Nat → Nat → Nat → List (Nat × Vertex)
  | _, _, 0 => []
  | side, vc, r + 1 =>
    (vc, { point := cornerPoint box (Side.ofInt ((side + 1) % 4)) }) ::
      cornerList box ((side + 1) % 4) (vc + 1) r

/-- The `i`-th half-edge made by `r` turns of the loop of `link` that start after `cur`. -/
def loopEdge (face cur hc vc r : Nat) (curDest : Option Nat) (i : Nat) : HalfEdge :=
  { origin := if i = 0 then curDest else some (vc + i - 1),
    destination := some (vc + i),
    twin := none,
    incidentFace := face,
    prev := some (if i = 0 then cur else hc + i - 1),
    next := if i + 1 < r then some (hc + i + 1) else none }

structure LoopSpec (d d' : VoronoiDiagram) (box : Box) (face cur side r last : Nat)
    (curDest : Option Nat) : Prop where
  ok : StoreOK d'
  last_eq : last = if r = 0 then cur else d.halfEdgeCount + r - 1
  hcount : d'.halfEdgeCount = d.halfEdgeCount + r
  vcount : d'.vertexCount = d.vertexCount + r
  verts : d'.mVertices = d.mVertices ++ cornerList box side d.vertexCount r
  hkeys : keys d'.mHalfEdges = keys d.mHalfEdges ++ List.range' d.halfEdgeCount r
  sites : d'.mSites = d.mSites
  faces : d'.mFaces = if r = 0 then d.mFaces else ocInit d.mFaces face d.halfEdgeCount
  old : ∀ x, x < d.halfEdgeCount → d'.he x =
    if x = cur ∧ 0 < r then (d.he x).map (fun e => { e with next := some d.halfEdgeCount })
    else d.he x
  new : ∀ i, i < r → d'.he (d.halfEdgeCount + i) =
    some (loopEdge face cur d.halfEdgeCount d.vertexCount r curDest i)

end VoronoiDiagram

end Voronoi

namespace Voronoi

namespace VoronoiDiagram

/-- The cyclic distance from `startSide` to `endSide`: the number of turns of the loop of `link`. -/
def turns (startSide endSide : Side) : Nat := (endSide.toInt + 4 - startSide.toInt) % 4

/-- The `i`-th of the `k + 1` half-edges made by `link`. -/
def linkEdge (face start end_ hc vc k : Nat) (startDest endOrig : Option Nat) (i : Nat) :
    HalfEdge :=
  { origin := if i = 0 then startDest else some (vc + i - 1),
    destination := if i = k then endOrig else some (vc + i),
    twin := none,
    incidentFace := face,
    prev := some (if i = 0 then start else hc + i - 1),
    next := some (if i = k then end_ else hc + i + 1) }

structure LinkSpec (d d' : VoronoiDiagram) (box : Box) (start : Nat) (startSide : Side)
    (end_ : Nat) (endSide : Side) (s0 e0 : HalfEdge) : Prop where
  ok : StoreOK d'
  hcount : d'.halfEdgeCount = d.halfEdgeCount + turns startSide endSide + 1
  vcount : d'.vertexCount = d.vertexCount + turns startSide endSide
  verts : d'.mVertices = d.mVertices ++
    cornerList box startSide.toInt d.vertexCount (turns startSide endSide)
  hkeys : keys d'.mHalfEdges = keys d.mHalfEdges ++
    List.range' d.halfEdgeCount (turns startSide endSide + 1)
  sites : d'.mSites = d.mSites
  faces : d'.mFaces = ocInit d.mFaces s0.incidentFace d.halfEdgeCount
  old : ∀ x, x < d.halfEdgeCount → d'.he x = (d.he x).map (fun e =>
    { e with next := if x = start then some d.halfEdgeCount else e.next,
             prev := if x = end_ then some (d.halfEdgeCount + turns startSide endSide)
                     else e.prev })
  new : ∀ i, i ≤ turns startSide endSide → d'.he (d.halfEdgeCount + i) =
    some (linkEdge s0.incidentFace start end_ d.halfEdgeCount d.vertexCount
      (turns startSide endSide) s0.destination e0.origin i)

end VoronoiDiagram

end Voronoi

namespace Voronoi

namespace VoronoiDiagram

/-! ## Chains of `next` and `prev` -/

/-- The `next` pointer of a live half-edge. -/
def nextOf (d : VoronoiDiagram) (h : Nat) : Option Nat := (d.he h).bind HalfEdge.next

/-- The `prev` pointer of a live half-edge. -/
def prevOf (d : VoronoiDiagram) (h : Nat) : Option Nat := (d.he h).bind HalfEdge.prev

/-- From `a`, following `next` passes through the half-edges of the list, in order, and then
reaches `b`; each half-edge reached has the one before it as `prev`. -/
def Chain (d : VoronoiDiagram) : Nat → List Nat → Nat → Prop
  | a, [], b => d.nextOf a = some b ∧ d.prevOf b = some a
  | a, x :: l, b => d.nextOf a = some x ∧ d.prevOf x = some a ∧ Chain d x l b

end VoronoiDiagram

end Voronoi

namespace Voronoi

namespace VoronoiDiagram

/-! ## One turn of the face walk, case by case -/

/-- What a walk needs to read a half-edge: its two end vertices are live. -/
structure Readable (d : VoronoiDiagram) (r : HalfEdge) (o t : Nat) (a b : Vertex) : Prop where
  origin : r.origin = some o
  vo : d.vx o = some a
  destination : r.destination = some t
  vt : d.vx t = some b

/-- The choice of a clipped end: the end of the processed twin, or a new vertex. -/
def EndChoice (w : Walk) (r : HalfEdge) (sel : HalfEdge → Option Nat) (p : Vector2)
    (d1 : VoronoiDiagram) (x : Option Nat) : Prop :=
  (∃ tw rt, processedTwin w r = some tw ∧ w.d.he tw = some rt ∧ d1 = w.d ∧ x = sel rt) ∨
  (processedTwin w r = none ∧ d1 = w.d.pushV p ∧ x = some w.d.vertexCount)

/-- The choice of both clipped ends. -/
def EndChoice2 (w : Walk) (r : HalfEdge) (p0 p1 : Vector2)
    (d1 : VoronoiDiagram) (x y : Option Nat) : Prop :=
  (∃ tw rt, processedTwin w r = some tw ∧ w.d.he tw = some rt ∧ d1 = w.d ∧
    x = rt.destination ∧ y = rt.origin) ∨
  (processedTwin w r = none ∧ d1 = (w.d.pushV p0).pushV p1 ∧ x = some w.d.vertexCount ∧
    y = some (w.d.vertexCount + 1))

/-- The effect of `if (outgoingHalfEdge != nullptr) link(...)`. -/
def LinkChoice (w : Walk) (d2 : VoronoiDiagram) (box : Box) (h : Nat) (side : Side)
    (d3 : VoronoiDiagram) : Prop :=
  (w.outgoing = none ∧ d3 = d2) ∨
  (∃ o os s0 e0, w.outgoing = some (o, os) ∧ d2.he o = some s0 ∧ d2.he h = some e0 ∧
    LinkSpec d2 d3 box o os h side s0 e0)

/-- The processed twin, when there is one, is live. -/
def TwinLive (w : Walk) (r : HalfEdge) : Prop :=
  ∀ tw, processedTwin w r = some tw → ∃ rt, w.d.he tw = some rt

/-- The pending outgoing half-edge, when there is one, is live, is not `h`, and has a face. -/
def OutLive (w : Walk) (h : Nat) : Prop :=
  ∀ o os, w.outgoing = some (o, os) → o ≠ h ∧
    ∃ ro fc, w.d.he o = some ro ∧ w.d.mFaces[ro.incidentFace]? = some fc

end VoronoiDiagram

end Voronoi

namespace Voronoi

namespace VoronoiDiagram

/-! ## The effect of clipping a half-edge, as seen through the views -/

/-- Where a clipped end comes from: the processed twin, or a vertex made in this turn. -/
def Src (w : Walk) (r : HalfEdge) (d2 : VoronoiDiagram) (sel : HalfEdge → Option Nat)
    (x : Option Nat) : Prop :=
  (∃ tw rt, processedTwin w r = some tw ∧ w.d.he tw = some rt ∧ x = sel rt) ∨
  (processedTwin w r = none ∧ ∃ v, x = some v ∧ w.d.vertexCount ≤ v ∧ v < d2.vertexCount)

structure ClipEffect (w : Walk) (h : Nat) (r : HalfEdge) (pts : List Vector2)
    (d2 : VoronoiDiagram) (O D : Option Nat) : Prop where
  ok : StoreOK d2
  he_self : d2.he h = some { r with origin := O, destination := D }
  he_other : ∀ x, x ≠ h → d2.he x = w.d.he x
  faces : d2.mFaces = w.d.mFaces
  sites : d2.mSites = w.d.mSites
  hcount : d2.halfEdgeCount = w.d.halfEdgeCount
  hkeys : keys d2.mHalfEdges = keys w.d.mHalfEdges
  vcount : w.d.vertexCount ≤ d2.vertexCount
  vold : ∀ v, v < w.d.vertexCount → d2.vx v = w.d.vx v
  vnew : ∀ v, w.d.vertexCount ≤ v → v < d2.vertexCount →
    (∃ a, d2.vx v = some a ∧ a.point ∈ pts) ∧ (O = some v ∨ D = some v)
  vnone : processedTwin w r ≠ none → d2.vertexCount = w.d.vertexCount

end VoronoiDiagram

end Voronoi

namespace Voronoi

namespace VoronoiDiagram

/-! ## The effect of `link`, as seen through the views -/

/-- The four corners of the box. -/
def corners (box : Box) : List Vector2 :=
  [cornerPoint box .LEFT, cornerPoint box .BOTTOM, cornerPoint box .RIGHT, cornerPoint box .TOP]

end VoronoiDiagram

end Voronoi

namespace Voronoi

namespace VoronoiDiagram

/-! ## The five outcomes of a turn of the face walk -/

inductive VisitCase (box : Box) (w : Walk) (h : Nat) (r : HalfEdge) (o : Nat)
    (ints : List Intersection) : Walk → Prop
  | remove : ints = [] → w.inside = false →
      VisitCase box w h r o ints
        { w with d := w.d.dropHE h, verticesToRemove := emplace w.verticesToRemove o }
  | keep : (ints = [] ∧ w.inside = true) ∨ 3 ≤ ints.length → VisitCase box w h r o ints w
  | exit (i0 : Intersection) (d2 : VoronoiDiagram) (D : Option Nat) :
      ints = [i0] → w.inside = true → ClipEffect w h r [i0.point] d2 r.origin D →
      Src w r d2 HalfEdge.origin D →
      VisitCase box w h r o ints
        { w with d := d2, outgoing := some (h, i0.side), inside := false,
                 processedHalfEdges := emplace w.processedHalfEdges h }
  | enter (i0 : Intersection) (d2 : VoronoiDiagram) (O : Option Nat) (d3 : VoronoiDiagram) :
      ints = [i0] → w.inside = false → ClipEffect w h r [i0.point] d2 O r.destination →
      Src w r d2 HalfEdge.destination O → LinkChoice w d2 box h i0.side d3 →
      VisitCase box w h r o ints
        { w with d := d3, verticesToRemove := emplace w.verticesToRemove o,
                 incoming := firstIncoming w h i0.side, inside := true,
                 processedHalfEdges := emplace w.processedHalfEdges h }
  | through (i0 i1 : Intersection) (d2 : VoronoiDiagram) (O D : Option Nat)
      (d3 : VoronoiDiagram) :
      ints = [i0, i1] → ClipEffect w h r [i0.point, i1.point] d2 O D →
      Src w r d2 HalfEdge.destination O → Src w r d2 HalfEdge.origin D →
      LinkChoice w d2 box h i0.side d3 →
      VisitCase box w h r o ints
        { w with d := d3, verticesToRemove := emplace w.verticesToRemove o,
                 incoming := firstIncoming w h i0.side, outgoing := some (h, i1.side),
                 processedHalfEdges := emplace w.processedHalfEdges h }

end VoronoiDiagram

end Voronoi

namespace Voronoi

namespace VoronoiDiagram

/-! ## What a turn of the face walk may change -/

/-- The part of the effect of a turn that does not depend on its case. -/
structure VEff (w w' : Walk) (h : Nat) : Prop where
  ok : StoreOK w'.d
  sites : w'.d.mSites = w.d.mSites
  hcount : w.d.halfEdgeCount ≤ w'.d.halfEdgeCount
  vcount : w.d.vertexCount ≤ w'.d.vertexCount
  vold : ∀ v, v < w.d.vertexCount → w'.d.vx v = w.d.vx v
  other : ∀ x, x < w.d.halfEdgeCount → x ≠ h → (∀ o os, w.outgoing = some (o, os) → x ≠ o) →
    w'.d.he x = w.d.he x
  keep : ∀ x r1, w.d.he x = some r1 → x ≠ h → ∃ r', w'.d.he x = some r' ∧
    r'.origin = r1.origin ∧ r'.destination = r1.destination ∧ r'.twin = r1.twin ∧
    r'.incidentFace = r1.incidentFace ∧ r'.prev = r1.prev
  self : ∀ r', w'.d.he h = some r' → ∃ r, w.d.he h = some r ∧ r'.twin = r.twin ∧
    r'.incidentFace = r.incidentFace
  new : ∀ x r', w.d.halfEdgeCount ≤ x → w'.d.he x = some r' → r'.twin = none ∧
    ∃ o os ro, w.outgoing = some (o, os) ∧ w.d.he o = some ro ∧
      r'.incidentFace = ro.incidentFace
  dead : ∀ x, x < w.d.halfEdgeCount → w.d.he x = none → w'.d.he x = none
  proc : ∀ x, x ∈ w'.processedHalfEdges → x ∈ w.processedHalfEdges ∨
    (x = h ∧ ∃ r', w'.d.he h = some r')
  proc_mono : ∀ x, x ∈ w.processedHalfEdges → x ∈ w'.processedHalfEdges
  marks_mono : ∀ x, x ∈ w.verticesToRemove → x ∈ w'.verticesToRemove
  out : ∀ o os, w'.outgoing = some (o, os) → w.outgoing = some (o, os) ∨
    (o = h ∧ ∃ r', w'.d.he h = some r')
  inc : ∀ i s, w'.incoming = some (i, s) → w.incoming = some (i, s) ∨
    (i = h ∧ ∃ r', w'.d.he h = some r')
  faces : (∀ o os ro, w.outgoing = some (o, os) → w.d.he o = some ro →
      ∃ fc, w.d.mFaces[ro.incidentFace]? = some fc ∧ fc.outerComponent ≠ none) →
    w'.d.mFaces = w.d.mFaces

end VoronoiDiagram

end Voronoi

namespace Voronoi

namespace VoronoiDiagram

/-! ## Well-formed diagrams -/

/-- In `d`, the half-edge `b` comes after `a` on a face boundary. -/
def Follows (d : VoronoiDiagram) (a b : Nat) : Prop :=
  d.nextOf a = some b ∧ d.prevOf b = some a ∧
    (d.he b).bind HalfEdge.origin = (d.he a).bind HalfEdge.destination

instance (d : VoronoiDiagram) : DecidableRel (Follows d) := fun a b => by
  delta Follows; infer_instance

/-- The twin of a half-edge, when it has one, is another half-edge, is live, has the half-edge
as twin, and has the same two end vertices, swapped. -/
def TwinOK (d : VoronoiDiagram) (h : Nat) (r : HalfEdge) : Prop :=
  ∀ tw ∈ r.twin, tw ≠ h ∧ (d.he tw).map HalfEdge.twin = some (some h) ∧
    (d.he tw).bind HalfEdge.origin = r.destination ∧
    (d.he tw).bind HalfEdge.destination = r.origin

instance (d : VoronoiDiagram) (h : Nat) (r : HalfEdge) : Decidable (TwinOK d h r) := by
  delta TwinOK; infer_instance

/-- A live half-edge has two live end vertices, a face of the diagram, lies on the cycle of
that face, and has a sound twin. -/
def EdgeOK (d : VoronoiDiagram) (cyc : Nat → List Nat) (h : Nat) (r : HalfEdge) : Prop :=
  (r.origin.bind d.vx).isSome ∧ (r.destination.bind d.vx).isSome ∧
    r.incidentFace < d.mFaces.length ∧ h ∈ cyc r.incidentFace ∧ TwinOK d h r

instance (d : VoronoiDiagram) (cyc : Nat → List Nat) (h : Nat) (r : HalfEdge) :
    Decidable (EdgeOK d cyc h r) := by
  delta EdgeOK; infer_instance

/-- The list `c` is the boundary of face `f`: it starts at the outer component, has no
repetition, consists of half-edges of `f`, each followed by the next, the last by the first. -/
def CycleOK (d : VoronoiDiagram) (f : Nat) (c : List Nat) : Prop :=
  c ≠ [] ∧ c.Nodup ∧ (d.mFaces[f]?).bind Face.outerComponent = c.head? ∧
    (∀ h ∈ c, (d.he h).map HalfEdge.incidentFace = some f) ∧
    List.Chain' (Follows d) (c ++ c.take 1)

/-- Deciding `List.Chain` by going along the list. -/
def decChain {α : Type} (R : α → α → Prop) [DecidableRel R] :
    (a : α) → (l : List α) → Decidable (List.Chain R a l)
  | _, [] => isTrue List.Chain.nil
  | a, b :: l =>
    match (inferInstance : Decidable (R a b)), decChain R b l with
    | isTrue h1, isTrue h2 => isTrue (List.Chain.cons h1 h2)
    | isFalse h1, _ => isFalse (fun hc => h1 (List.chain_cons.1 hc).1)
    | _, isFalse h2 => isFalse (fun hc => h2 (List.chain_cons.1 hc).2)

/-- Deciding `List.Chain'` by going along the list. -/
def decChain' {α : Type} (R : α → α → Prop) [DecidableRel R] :
    (l : List α) → Decidable (List.Chain' R l)
  | [] => isTrue trivial
  | a :: l => decChain R a l

instance (d : VoronoiDiagram) (f : Nat) (c : List Nat) : Decidable (CycleOK d f c) :=
  haveI := decChain' (Follows d) (c ++ c.take 1)
  by delta CycleOK; infer_instance

/-- A well-formed diagram, with the boundary cycle of each face: site `i` owns face `i`,
every face has a closed boundary, and every half-edge is sound and on the boundary of its
face. -/
def WellFormed (d : VoronoiDiagram) (cyc : Nat → List Nat) : Prop :=
  StoreOK d ∧ d.mSites.map Site.face = (List.range d.mFaces.length).map some ∧
    (∀ f, f < d.mFaces.length → CycleOK d f (cyc f)) ∧
    (∀ p ∈ d.mHalfEdges, EdgeOK d cyc p.1 p.2)

instance (d : VoronoiDiagram) (cyc : Nat → List Nat) : Decidable (WellFormed d cyc) := by
  delta WellFormed; infer_instance

/-! ## Induction along a face walk -/

/-- The face of the pending outgoing half-edge has an outer component. -/
def OutFace (w : Walk) : Prop :=
  ∀ o os ro, w.outgoing = some (o, os) → w.d.he o = some ro →
    ∃ fc, w.d.mFaces[ro.incidentFace]? = some fc ∧ fc.outerComponent ≠ none

end VoronoiDiagram

end Voronoi

namespace Voronoi

namespace VoronoiDiagram

/-- A stretch of the boundary of face `f` that leads back to `e0`. -/
structure Path (d0 : VoronoiDiagram) (f e0 : Nat) (l : List Nat) : Prop where
  chain : List.Chain' (Follows d0) (l ++ [e0])
  nodup : l.Nodup
  live : ∀ x ∈ l, ∃ r, d0.he x = some r ∧ r.incidentFace = f

/-! ## The frame of a face walk -/

/-- What holds of the locals of `intersect` while face `f` is walked and the half-edges of
`rem` are still to come: these and the half-edges of later faces are as in `d0`. -/
structure Frame (d0 : VoronoiDiagram) (f : Nat) (rem : List Nat) (w : Walk) : Prop where
  ok : StoreOK w.d
  pend : ∀ x ∈ rem, w.d.he x = d0.he x
  later : ∀ x r0, d0.he x = some r0 → f < r0.incidentFace → w.d.he x = some r0
  verts : ∀ v, v < d0.vertexCount → w.d.vx v = d0.vx v
  hcount : d0.halfEdgeCount ≤ w.d.halfEdgeCount
  vcount : d0.vertexCount ≤ w.d.vertexCount
  sites : w.d.mSites = d0.mSites
  faces : ∀ g, f ≤ g → w.d.mFaces[g]? = d0.mFaces[g]?
  nfaces : w.d.mFaces.length = d0.mFaces.length
  old : ∀ x r, x < d0.halfEdgeCount → w.d.he x = some r →
    ∃ r0, d0.he x = some r0 ∧ r.twin = r0.twin ∧ r.incidentFace = r0.incidentFace
  new : ∀ x r, d0.halfEdgeCount ≤ x → w.d.he x = some r → r.twin = none ∧ r.incidentFace ≤ f
  proc : ∀ x ∈ w.processedHalfEdges, x ∉ rem ∧ ∃ r, w.d.he x = some r ∧ r.incidentFace ≤ f
  out : ∀ o s, w.outgoing = some (o, s) → o ∉ rem ∧ ∃ r, w.d.he o = some r ∧ r.incidentFace = f
  inc : ∀ i s, w.incoming = some (i, s) → i ∉ rem ∧ ∃ r, w.d.he i = some r ∧ r.incidentFace = f

end VoronoiDiagram

end Voronoi

namespace Voronoi

namespace VoronoiDiagram

/-! ## What the walk of a face leaves of the rest -/

/-- From `ws` to `w`, by turns of the walk of face `f`. -/
structure Rel (f : Nat) (ws w : Walk) : Prop where
  other : ∀ x r, ws.d.he x = some r → r.incidentFace ≠ f → w.d.he x = some r
  grow : ∀ x r', w.d.he x = some r' →
    (∃ r, ws.d.he x = some r ∧ r'.incidentFace = r.incidentFace ∧ r'.twin = r.twin) ∨
    (ws.d.halfEdgeCount ≤ x ∧ r'.incidentFace = f ∧ r'.twin = none)
  dead : ∀ x, x < ws.d.halfEdgeCount → ws.d.he x = none → w.d.he x = none
  faces : w.d.mFaces = ws.d.mFaces
  sites : w.d.mSites = ws.d.mSites
  vold : ∀ v, v < ws.d.vertexCount → w.d.vx v = ws.d.vx v
  hcount : ws.d.halfEdgeCount ≤ w.d.halfEdgeCount
  vcount : ws.d.vertexCount ≤ w.d.vertexCount
  marks : ∀ x, x ∈ ws.verticesToRemove → x ∈ w.verticesToRemove
  proc : ∀ x, x ∈ ws.processedHalfEdges → x ∈ w.processedHalfEdges

end VoronoiDiagram

end Voronoi

namespace Voronoi

namespace VoronoiDiagram

/-! ## The body of the loop over the sites -/

/-- The assignment `face->outerComponent = x`. -/
def setOC (d : VoronoiDiagram) (f : Nat) (x : Option Nat) : VoronoiDiagram :=
  match d.mFaces[f]? with
  | some f2 => { d with mFaces := d.mFaces.set f { f2 with outerComponent := x } }
  | none => d

/-- What follows the walk in the body of the loop over the sites. -/
def finishSite (box : Box) (face : Nat) (outerComponentDirty : Bool) (w1 : Walk) :
    Except Fault Walk := do
  let d2 ← (if outerComponentDirty && w1.incoming.isSome then
      match w1.outgoing, w1.incoming with
      | some (o, oside), some (i, iside) => w1.d.link box o oside i iside
      | _, _ => .error .nullDeref
    else pure w1.d : Except Fault VoronoiDiagram)
  let d3 ← (if outerComponentDirty then
      match d2.mFaces[face]? with
      | some f2 =>
        let f3 : Face := { f2 with outerComponent := w1.incoming.map Prod.fst }
        pure { d2 with mFaces := d2.mFaces.set face f3 }
      | none => .error .dangling
    else pure d2 : Except Fault VoronoiDiagram)
  pure { w1 with d := d3 }

/-- The three outcomes of the end of the body of the loop over the sites. -/
inductive FinishCase (box : Box) (f : Nat) (dirty : Bool) (w1 : Walk) : Walk → Prop
  | clean : dirty = false → FinishCase box f dirty w1 w1
  | empty : dirty = true → w1.incoming = none →
      FinishCase box f dirty w1 { w1 with d := w1.d.setOC f none }
  | close (o : Nat) (os : Side) (i : Nat) (is : Side) (so ri : HalfEdge)
      (d2 : VoronoiDiagram) : dirty = true → w1.outgoing = some (o, os) →
      w1.incoming = some (i, is) → w1.d.he o = some so → w1.d.he i = some ri →
      so.incidentFace = f → ri.incidentFace = f → LinkSpec w1.d d2 box o os i is so ri →
      d2.mFaces = w1.d.mFaces →
      FinishCase box f dirty w1 { w1 with d := d2.setOC f (some i) }

end VoronoiDiagram

end Voronoi

namespace Voronoi

namespace VoronoiDiagram

/-! ## Between two faces -/

/-- What holds of the locals of `intersect` before face `f` is walked: the half-edges of the
faces from `f` on are as in `d0`. -/
structure Between (d0 : VoronoiDiagram) (f : Nat) (w : Walk) : Prop where
  ok : StoreOK w.d
  pend : ∀ x r0, d0.he x = some r0 → f ≤ r0.incidentFace → w.d.he x = some r0
  verts : ∀ v, v < d0.vertexCount → w.d.vx v = d0.vx v
  hcount : d0.halfEdgeCount ≤ w.d.halfEdgeCount
  vcount : d0.vertexCount ≤ w.d.vertexCount
  sites : w.d.mSites = d0.mSites
  faces : ∀ g, f ≤ g → w.d.mFaces[g]? = d0.mFaces[g]?
  nfaces : w.d.mFaces.length = d0.mFaces.length
  old : ∀ x r, x < d0.halfEdgeCount → w.d.he x = some r →
    ∃ r0, d0.he x = some r0 ∧ r.twin = r0.twin ∧ r.incidentFace = r0.incidentFace
  new : ∀ x r, d0.halfEdgeCount ≤ x → w.d.he x = some r → r.twin = none ∧ r.incidentFace < f
  proc : ∀ x ∈ w.processedHalfEdges, ∃ r, w.d.he x = some r ∧ r.incidentFace < f

/-- From `ws` to `w`, by the body of the loop for face `f`. -/
structure SiteRel (f : Nat) (ws w : Walk) : Prop where
  other : ∀ x r, ws.d.he x = some r → r.incidentFace ≠ f → w.d.he x = some r
  grow : ∀ x r', w.d.he x = some r' →
    (∃ r, ws.d.he x = some r ∧ r'.incidentFace = r.incidentFace ∧ r'.twin = r.twin) ∨
    (ws.d.halfEdgeCount ≤ x ∧ r'.incidentFace = f ∧ r'.twin = none)
  dead : ∀ x, x < ws.d.halfEdgeCount → ws.d.he x = none → w.d.he x = none
  faces : ∀ g, g ≠ f → w.d.mFaces[g]? = ws.d.mFaces[g]?
  nfaces : w.d.mFaces.length = ws.d.mFaces.length
  sites : w.d.mSites = ws.d.mSites
  vold : ∀ v, v < ws.d.vertexCount → w.d.vx v = ws.d.vx v
  hcount : ws.d.halfEdgeCount ≤ w.d.halfEdgeCount
  vcount : ws.d.vertexCount ≤ w.d.vertexCount
  marks : ∀ x, x ∈ ws.verticesToRemove → x ∈ w.verticesToRemove
  proc : ∀ x, x ∈ ws.processedHalfEdges → x ∈ w.processedHalfEdges

end VoronoiDiagram

end Voronoi

namespace Voronoi

namespace VoronoiDiagram

/-! ## A box that agrees with itself -/

/-- The answer of `box.contains` at the origin of a half-edge. -/
def originIn (box : Box) (d : VoronoiDiagram) (r : HalfEdge) : Bool :=
  match r.origin.bind d.vx with
  | some a => box.contains a.point
  | none => false

/-- The answer of `box.contains` at the destination of a half-edge. -/
def destIn (box : Box) (d : VoronoiDiagram) (r : HalfEdge) : Bool :=
  match r.destination.bind d.vx with
  | some a => box.contains a.point
  | none => false

/-- The answer of `box.getIntersections` for a half-edge. -/
def crossings (box : Box) (d : VoronoiDiagram) (r : HalfEdge) : List Intersection :=
  match r.origin.bind d.vx, r.destination.bind d.vx with
  | some a, some b => box.getIntersections a.point b.point
  | _, _ => []

/-- The way `intersect` reads the number of crossings of a half-edge agrees with
`box.contains` at its two ends: none, both ends on the same side; one, the ends on different
sides; two, both ends outside; never more than two. -/
def AgreesAt (box : Box) (d : VoronoiDiagram) (r : HalfEdge) : Prop :=
  (crossings box d r).length ≤ 2 ∧
  ((crossings box d r).length = 0 → destIn box d r = originIn box d r) ∧
  ((crossings box d r).length = 1 → destIn box d r = !originIn box d r) ∧
  ((crossings box d r).length = 2 → originIn box d r = false ∧ destIn box d r = false)

instance (box : Box) (d : VoronoiDiagram) (r : HalfEdge) : Decidable (AgreesAt box d r) := by
  delta AgreesAt; infer_instance

/-- Inside-tracking agrees with `box.contains` on every half-edge of the diagram. -/
def Agrees (box : Box) (d : VoronoiDiagram) : Prop :=
  ∀ p ∈ d.mHalfEdges, AgreesAt box d p.2

instance (box : Box) (d : VoronoiDiagram) : Decidable (Agrees box d) := by
  delta Agrees; infer_instance

/-- Already walked: a half-edge of an earlier face, or of this face and not to come. -/
def Vis (f : Nat) (rem : List Nat) (x : Nat) (r0 : HalfEdge) : Prop :=
  r0.incidentFace < f ∨ (r0.incidentFace = f ∧ x ∉ rem)

/-- An end that is a vertex made by `intersect`. -/
def FreshAt (d0 d : VoronoiDiagram) (e : Option Nat) : Prop :=
  ∃ v, e = some v ∧ d0.vertexCount ≤ v ∧ v < d.vertexCount

/-- A point that `intersect` may give a new vertex: a corner of the box or a crossing
reported for a half-edge of the diagram. -/
def FreshPt (box : Box) (d0 : VoronoiDiagram) (p : Vector2) : Prop :=
  p ∈ corners box ∨ ∃ x r0, d0.he x = some r0 ∧ p ∈ (crossings box d0 r0).map Intersection.point

/-- What the clipping has done so far, in terms of the diagram `d0` it started from. -/
structure GeoD (d0 : VoronoiDiagram) (box : Box) (f : Nat) (rem : List Nat)
    (d : VoronoiDiagram) (marks proc : List Nat) : Prop where
  gone : ∀ x r0, d0.he x = some r0 → Vis f rem x r0 → crossings box d0 r0 = [] →
    originIn box d0 r0 = false → d.he x = none
  kept : ∀ x r0, d0.he x = some r0 → Vis f rem x r0 →
    ¬ (crossings box d0 r0 = [] ∧ originIn box d0 r0 = false) →
    ∃ r, d.he x = some r ∧ (originIn box d0 r0 = true → r.origin = r0.origin) ∧
      (originIn box d0 r0 = false → FreshAt d0 d r.origin) ∧
      (destIn box d0 r0 = true → r.destination = r0.destination) ∧
      (destIn box d0 r0 = false → FreshAt d0 d r.destination)
  procd : ∀ x r0, d0.he x = some r0 → Vis f rem x r0 → (x ∈ proc ↔ crossings box d0 r0 ≠ [])
  twin : ∀ x y r0 ry0 rx ry, d0.he x = some r0 → Vis f rem x r0 → r0.twin = some y →
    d0.he y = some ry0 → Vis f rem y ry0 → d.he x = some rx → d.he y = some ry →
    rx.destination = ry.origin ∧ rx.origin = ry.destination
  marks : ∀ v, v ∈ marks ↔ ∃ x r0, d0.he x = some r0 ∧ Vis f rem x r0 ∧ r0.origin = some v ∧
    originIn box d0 r0 = false
  newhe : ∀ x r, d0.halfEdgeCount ≤ x → d.he x = some r →
    FreshAt d0 d r.origin ∧ FreshAt d0 d r.destination
  freshv : ∀ v, d0.vertexCount ≤ v → v < d.vertexCount →
    (∃ a, d.vx v = some a ∧ FreshPt box d0 a.point) ∧
    ∃ x r, d.he x = some r ∧ (d0.halfEdgeCount ≤ x ∨ ∃ r0, d0.he x = some r0 ∧ Vis f rem x r0) ∧
      (r.origin = some v ∨ r.destination = some v)

end VoronoiDiagram

end Voronoi

namespace Voronoi

namespace VoronoiDiagram

/-! ## The walk of a face under a box that agrees with itself -/

/-- The locals of `intersect` while face `f` is walked, under `Agrees`. -/
structure GeoW (d0 : VoronoiDiagram) (box : Box) (f e0 : Nat) (rem : List Nat) (w : Walk) :
    Prop where
  geo : GeoD d0 box f rem w.d w.verticesToRemove w.processedHalfEdges
  flag : ∀ r, d0.he ((rem ++ [e0]).headD e0) = some r → w.inside = originIn box d0 r
  out : ∀ o s ro, w.outgoing = some (o, s) → w.d.he o = some ro →
    FreshAt d0 w.d ro.destination
  inc : ∀ i s ri, w.incoming = some (i, s) → w.d.he i = some ri → FreshAt d0 w.d ri.origin
  nodup : w.verticesToRemove.Nodup
  pend : w.incoming ≠ none → w.inside = false → w.outgoing ≠ none

end VoronoiDiagram

end Voronoi

namespace Voronoi

namespace VoronoiDiagram

/-! ## The whole of `intersect` under a box that agrees with itself -/

/-- The locals of `intersect` between two faces, under `Agrees`. -/
def GeoB (d0 : VoronoiDiagram) (box : Box) (cyc : Nat → List Nat) (f : Nat) (w : Walk) : Prop :=
  GeoD d0 box f (cyc f) w.d w.verticesToRemove w.processedHalfEdges ∧ w.verticesToRemove.Nodup

/-- The result of `intersect`, read off the locals at the end of the loop over the sites. -/
structure Final (w : Walk) (d' : VoronoiDiagram) : Prop where
  he : d'.he = w.d.he
  mHalfEdges : d'.mHalfEdges = w.d.mHalfEdges
  mFaces : d'.mFaces = w.d.mFaces
  mSites : d'.mSites = w.d.mSites
  hcount : d'.halfEdgeCount = w.d.halfEdgeCount
  vcount : d'.vertexCount = w.d.vertexCount
  vx : ∀ v, d'.vx v = if v ∈ w.verticesToRemove then none else w.d.vx v

end VoronoiDiagram

end Voronoi

namespace Voronoi

namespace VoronoiDiagram

/-! ## What the clipped diagram is made of -/

/-- Every crossing that the box reports for a half-edge of the diagram, and every corner
of the box, is a point that the box contains. -/
def CrossingsIn (box : Box) (d : VoronoiDiagram) : Prop :=
  (∀ p ∈ d.mHalfEdges, ∀ i ∈ crossings box d p.2, box.contains i.point = true) ∧
  (∀ c ∈ corners box, box.contains c = true)

instance (box : Box) (d : VoronoiDiagram) : Decidable (CrossingsIn box d) := by
  delta CrossingsIn; infer_instance

/-- Every vertex of the diagram is the origin of some half-edge. -/
def VerticesUsed (d : VoronoiDiagram) : Prop :=
  ∀ p ∈ d.mVertices, ∃ q ∈ d.mHalfEdges, q.2.origin = some p.1

instance (d : VoronoiDiagram) : Decidable (VerticesUsed d) := by
  delta VerticesUsed; infer_instance

/-- An end of a half-edge of the clipped diagram: a vertex of the input that the box
contains, or a vertex made by `intersect`. -/
def EndOK (box : Box) (d0 d' : VoronoiDiagram) (e : Option Nat) : Prop :=
  ∃ v a, e = some v ∧ d'.vx v = some a ∧
    ((d0.vx v = some a ∧ box.contains a.point = true) ∨
     (d0.vertexCount ≤ v ∧ FreshPt box d0 a.point))

end VoronoiDiagram

end Voronoi

namespace Voronoi

namespace VoronoiDiagram

/-- The box reports no crossing for any half-edge of the boundary of face `f`. -/
def NoCrossing (box : Box) (d : VoronoiDiagram) (c : List Nat) : Prop :=
  ∀ x ∈ c, ∀ r ∈ d.he x, crossings box d r = []

instance (box : Box) (d : VoronoiDiagram) (c : List Nat) : Decidable (NoCrossing box d c) := by
  delta NoCrossing; infer_instance

/-- The answer of `box.contains` at the origin of the outer component of face `f`, with
which `intersect` starts the walk of the face. -/
def startsInside (box : Box) (d : VoronoiDiagram) (f : Nat) : Bool :=
  match ((d.mFaces[f]?).bind Face.outerComponent).bind d.he with
  | some r => originIn box d r
  | none => false

end VoronoiDiagram

end Voronoi

namespace Voronoi

namespace VoronoiDiagram

/-! ## The state of the loop over the sites when it reaches a face -/

section reach

variable {d0 : VoronoiDiagram} {box : Box} {cyc : Nat → List Nat}

/-- The locals with which `intersect` enters the loop over the sites. -/
def initWalk (d : VoronoiDiagram) : Walk :=
  { d := d, processedHalfEdges := [], verticesToRemove := [], inside := false,
    incoming := none, outgoing := none }

end reach

end VoronoiDiagram

end Voronoi

namespace Voronoi

namespace VoronoiDiagram

/-! ## The boundary that the clipping builds -/

/-- In `d`, the half-edge `b` is the `next` of `a`, and `a` is the `prev` of `b`. -/
def Linked (d : VoronoiDiagram) (a b : Nat) : Prop :=
  d.nextOf a = some b ∧ d.prevOf b = some a

/-- The list `L` is the boundary of face `f` in `d`: it has no repetition, it lists the
half-edges whose incident face is `f`, each is linked to the one after it and the last to the
first, and the outer component of the face is the first, unset when there is none. -/
def IsBoundary (d : VoronoiDiagram) (f : Nat) (L : List Nat) : Prop :=
  L.Nodup ∧ (∀ x, x ∈ L ↔ ∃ r, d.he x = some r ∧ r.incidentFace = f) ∧
    List.Chain' (Linked d) (L ++ L.take 1) ∧
    (d.mFaces[f]?).bind Face.outerComponent = L.head?

/-- The half-edges of face `f` that the walk has kept or made so far, in the order of the
walk: `S` lists them, each is linked to the one after it; while the walk is inside, the last
is linked to the half-edge to come; while it is outside, the last is the pending outgoing
half-edge; the first is the first incoming half-edge, or `e0` for a walk that starts
inside (`b0`). -/
structure ChainW (d0 : VoronoiDiagram) (f e0 : Nat) (b0 : Bool) (rem : List Nat) (w : Walk)
    (S : List Nat) : Prop where
  nodup : S.Nodup
  mem : ∀ x, x ∈ S ↔ (∃ r, w.d.he x = some r ∧ r.incidentFace = f) ∧ x ∉ rem
  chain : List.Chain' (Linked w.d) S
  ahead : w.inside = true → ∀ o ∈ S.getLast?, Linked w.d o ((rem ++ [e0]).headD e0)
  out : w.inside = false → (∀ o s, w.outgoing = some (o, s) → S.getLast? = some o) ∧
    (w.outgoing = none → S = [])
  inc : b0 = false → (∀ i s, w.incoming = some (i, s) → S.head? = some i) ∧
    (w.incoming = none → S = [])
  begun : e0 ∈ rem → rem.head? = some e0 ∧ S = []
  first : b0 = true → e0 ∈ rem ∨ S.head? = some e0
  inside_ne : w.inside = true → S ≠ [] ∨ e0 ∈ rem
  prev0 : b0 = true → w.d.prevOf e0 = d0.prevOf e0

end VoronoiDiagram

end Voronoi

namespace Voronoi

namespace VoronoiDiagram

/-! ## A turn of the walk extends the boundary -/

/-- What the turns of the walk share: the frame, the boundary so far, and the half-edge
`h` of the turn. -/
structure StepCtx (d0 : VoronoiDiagram) (box : Box) (f e0 h : Nat) (rem : List Nat) (w : Walk)
    (r re0 : HalfEdge) (b0 : Bool) (S : List Nat) : Prop where
  fr : Frame d0 f (h :: rem) w
  cw : ChainW d0 f e0 b0 (h :: rem) w S
  hr0 : d0.he h = some r
  hr : w.d.he h = some r
  hface : r.incidentFace = f
  hnext : r.next = some ((rem ++ [e0]).headD e0)
  hnot : h ∉ rem
  hfol : Follows d0 h ((rem ++ [e0]).headD e0)
  hin : w.inside = originIn box d0 r
  he0 : d0.he e0 = some re0
  hb0 : originIn box d0 re0 = b0
  store : StoreOK d0
  live : ∀ x ∈ rem, ∃ rx, d0.he x = some rx

end VoronoiDiagram

end Voronoi

namespace Voronoi

namespace VoronoiDiagram

/-! ## The boundary of a face after its walk -/

/-- The box reports a crossing for the half-edge `x` of `d`. -/
def hasCrossing (box : Box) (d : VoronoiDiagram) (x : Nat) : Bool :=
  match d.he x with
  | some r => !(crossings box d r).isEmpty
  | none => false

/-- The first incoming half-edge of a walk that starts outside: it is the first half-edge
walked so far for which the box reports a crossing. -/
structure FirstW (d0 : VoronoiDiagram) (box : Box) (c : List Nat) (b0 : Bool) (rem : List Nat)
    (w : Walk) (vis : List Nat) : Prop where
  split : c = vis ++ rem
  inc : b0 = false → w.incoming.map Prod.fst = vis.find? (hasCrossing box d0)
  some : b0 = false → w.inside = true → w.incoming ≠ none

/-- What the walk of face `f` leaves of the face: a boundary; for a walk that starts inside,
the face record as it was; for a walk that starts outside, the first half-edge with a
crossing as outer component. -/
def FaceDone (d0 : VoronoiDiagram) (box : Box) (cyc : Nat → List Nat) (d : VoronoiDiagram)
    (g : Nat) : Prop :=
  (∃ L, IsBoundary d g L) ∧
  (startsInside box d0 g = true → d.mFaces[g]? = d0.mFaces[g]?) ∧
  (startsInside box d0 g = false →
    (d.mFaces[g]?).bind Face.outerComponent = (cyc g).find? (hasCrossing box d0))

end VoronoiDiagram

end Voronoi

namespace Voronoi

namespace VoronoiDiagram

/-! ## Walking `next` around a boundary -/

/-- The half-edge reached from `h` by `k` steps of `next`. -/
def iterNext (d : VoronoiDiagram) : Nat → Nat → Option Nat
  | 0, h => some h
  | k + 1, h => (d.nextOf h).bind (iterNext d k)

/-- The number of half-edges of the collection whose incident face is `f`. -/
def faceSize (d : VoronoiDiagram) (f : Nat) : Nat :=
  (d.mHalfEdges.filter (fun p => decide (p.2.incidentFace = f))).length

end VoronoiDiagram

end Voronoi

namespace Voronoi

open VoronoiDiagram

/-! ## Small diagrams and boxes -/

/-- A half-edge record, by its fields in the order origin, destination, twin, face, prev,
next. -/
def mkHE (o t tw f p n : Nat) : HalfEdge :=
  { origin := some o, destination := some t, twin := some tw, incidentFace := f,
    prev := some p, next := some n }

/-- Two faces on the two sides of a triangle `A = (5, 5)`, `B = (5, 20)`, `C = (20, 5)`:
face 0 walks `A → C → B → A` by the half-edges 0, 1, 2, and face 1 walks `A → B → C → A` by
their twins 3, 4, 5. -/
def triangle : VoronoiDiagram :=
  { mSites := [⟨0, ⟨6, 8⟩, some 0⟩, ⟨1, ⟨30, 30⟩, some 1⟩],
    mFaces := [⟨some 0, some 0⟩, ⟨some 1, some 3⟩],
    mVertices := [(0, ⟨⟨5, 5⟩⟩), (1, ⟨⟨5, 20⟩⟩), (2, ⟨⟨20, 5⟩⟩)],
    mHalfEdges := [(0, mkHE 0 2 5 0 2 1), (1, mkHE 2 1 4 0 0 2), (2, mkHE 1 0 3 0 1 0),
                   (3, mkHE 0 1 2 1 5 4), (4, mkHE 1 2 1 1 3 5), (5, mkHE 2 0 0 1 4 3)],
    vertexCount := 3,
    halfEdgeCount := 6 }

/-- The boundary cycles of the two faces of `triangle`. -/
def triangleCyc : Nat → List Nat
  | 0 => [0, 1, 2]
  | 1 => [3, 4, 5]
  | _ => []

/-- The box `[0, 10] × [0, 10]`, with the crossings of the sides of the triangle: `A C`
crosses the right side at `(10, 5)`, `A B` crosses the top side at `(5, 10)`, and `B C`
passes outside. -/
def triangleBox : Box :=
  { left := 0, bottom := 0, right := 10, top := 10,
    contains := fun p => decide (0 ≤ p.x ∧ p.x ≤ 10 ∧ 0 ≤ p.y ∧ p.y ≤ 10),
    getIntersections := fun a b =>
      if (a = ⟨5, 5⟩ ∧ b = ⟨20, 5⟩) ∨ (a = ⟨20, 5⟩ ∧ b = ⟨5, 5⟩) then [⟨.RIGHT, ⟨10, 5⟩⟩]
      else if (a = ⟨5, 5⟩ ∧ b = ⟨5, 20⟩) ∨ (a = ⟨5, 20⟩ ∧ b = ⟨5, 5⟩) then [⟨.TOP, ⟨5, 10⟩⟩]
      else [] }

/-- The diagram of `triangle`, with the half-edge 4 from `B` to `C`, which starts outside the
box, as outer component of face 1. -/
def outerTriangle : VoronoiDiagram :=
  { triangle with mFaces := [⟨some 0, some 0⟩, ⟨some 1, some 4⟩] }

/-- The boundary cycles of the two faces of `outerTriangle`. -/
def outerCyc : Nat → List Nat
  | 0 => [0, 1, 2]
  | 1 => [4, 5, 3]
  | _ => []

/-- The answers of the box for a segment and for its reverse are the same crossings, in
the opposite order, for every two vertices of the diagram. -/
def ReversalConsistent (box : Box) (d : VoronoiDiagram) : Prop :=
  ∀ p ∈ d.mVertices, ∀ q ∈ d.mVertices,
    box.getIntersections q.2.point p.2.point = (box.getIntersections p.2.point q.2.point).reverse

instance (box : Box) (d : VoronoiDiagram) : Decidable (ReversalConsistent box d) := by
  delta ReversalConsistent; infer_instance

/-- Every half-edge of the diagram has a twin. -/
def AllTwins (d : VoronoiDiagram) : Prop := ∀ p ∈ d.mHalfEdges, p.2.twin ≠ none

instance (d : VoronoiDiagram) : Decidable (AllTwins d) := by
  delta AllTwins; infer_instance

/-- A box that says it contains every point, and reports one crossing, on its top side, for
the side `A B` of the triangle: its crossings are the same for a segment and its reverse,
but do not agree with `contains`. -/
def openBox : Box :=
  { left := 0, bottom := 0, right := 10, top := 10,
    contains := fun _ => true,
    getIntersections := fun a b =>
      if (a = ⟨5, 5⟩ ∧ b = ⟨5, 20⟩) ∨ (a = ⟨5, 20⟩ ∧ b = ⟨5, 5⟩) then [⟨.TOP, ⟨5, 10⟩⟩]
      else [] }

/-- The diagram of `triangle`, with the triangle `(1, 1)`, `(1, 5)`, `(5, 1)` inside the box. -/
def smallTriangle : VoronoiDiagram :=
  { triangle with mVertices := [(0, ⟨⟨1, 1⟩⟩), (1, ⟨⟨1, 5⟩⟩), (2, ⟨⟨5, 1⟩⟩)] }

/-- The diagram of `triangle`, with the triangle `(20, 20)`, `(20, 30)`, `(30, 20)` outside
the box. -/
def farTriangle : VoronoiDiagram :=
  { triangle with mVertices := [(0, ⟨⟨20, 20⟩⟩), (1, ⟨⟨20, 30⟩⟩), (2, ⟨⟨30, 20⟩⟩)] }

end Voronoi

namespace Voronoi

/-- The last node of a vector, changed by `f`: a write through `back()`. -/
def modifyBack {α : Type} (l : List α) (f : α → α) : List α :=
  match l.reverse with
  | [] => []
  | a :: t => (f a :: t).reverse

/-- Modelled from the spec: the points of a side of the box, a segment of one of the four
lines `x = left`, `y = bottom`, `x = right`, `y = top`, between the two other bounds of the
box in either order. -/
def onSide (box : Box) (side : Side) (p : Vector2) : Prop :=
  match side with
  | .LEFT => p.x = box.left ∧ min box.bottom box.top ≤ p.y ∧ p.y ≤ max box.bottom box.top
  | .BOTTOM => p.y = box.bottom ∧ min box.left box.right ≤ p.x ∧ p.x ≤ max box.left box.right
  | .RIGHT => p.x = box.right ∧ min box.bottom box.top ≤ p.y ∧ p.y ≤ max box.bottom box.top
  | .TOP => p.y = box.top ∧ min box.left box.right ≤ p.x ∧ p.x ≤ max box.left box.right

instance (box : Box) (side : Side) (p : Vector2) : Decidable (onSide box side p) := by
  delta onSide; cases side <;> infer_instance

/-- Modelled from the spec: the side before `side` in the cyclic order, from which one turn
of the loop of `link`, `side = (side + 1) % 4`, comes to `side`. -/
def prevSide (side : Side) : Side := Side.ofInt ((side.toInt + 3) % 4)

namespace VoronoiDiagram

/-- The members of a diagram before the body of the constructor runs: the two vectors and
the two lists are empty. -/
def empty : VoronoiDiagram :=
  { mSites := [], mFaces := [], mVertices := [], mHalfEdges := [], vertexCount := 0,
    halfEdgeCount := 0 }

/-- The body of the `for` of the constructor: a site with a null face at the back of
`mSites`, a face for it at the back of `mFaces`, and the face of the site set to it. The
vectors have their room reserved, so that the pointers to their elements are the indices. -/
def constructStep (d : VoronoiDiagram) (i : Nat) (point : Vector2) : VoronoiDiagram :=
  let sites1 := d.mSites ++ [{ index := i, point := point, face := none }]
  let faces1 := d.mFaces ++ [{ site := some (sites1.length - 1), outerComponent := none }]
  let sites2 := modifyBack sites1 (fun s => { s with face := some (faces1.length - 1) })
  { d with mSites := sites2, mFaces := faces1 }

/-- The `for (i = 0; i < points.size(); ++i)` of the constructor, from index `i`, with the
points from `points[i]` on. -/
def constructLoop : List Vector2 → Nat → VoronoiDiagram → VoronoiDiagram
  | [], _, d => d
  | point :: rest, i, d => constructLoop rest (i + 1) (constructStep d i point)

/-- The constructor `VoronoiDiagram::VoronoiDiagram(points)`. -/
def construct (points : List Vector2) : VoronoiDiagram :=
  constructLoop points 0 empty

/-- The function `getSite`: the site at index `i`, which must be in range. -/
def getSite (d : VoronoiDiagram) (i : Nat) : Except Fault Site :=
  match d.mSites[i]? with
  | some s => .ok s
  | none => .error .dangling

/-- The function `getFace`: the face at index `i`, which must be in range. -/
def getFace (d : VoronoiDiagram) (i : Nat) : Except Fault Face :=
  match d.mFaces[i]? with
  | some f => .ok f
  | none => .error .dangling

/-- The function `getVertices`: the live vertices, in the order of the list. -/
def getVertices (d : VoronoiDiagram) : List (Nat × Vertex) := d.mVertices

/-- The function `getHalfEdges`: the live half-edges, in the order of the list. -/
def getHalfEdges (d : VoronoiDiagram) : List (Nat × HalfEdge) := d.mHalfEdges

/-- The `do ... while` of `intersect` as `walk` has it, with the list of the values that
`halfEdge` has at the turns of the loop, in order. -/
def walkTrace : Nat → Box → Nat → Walk → Option Nat → Except Fault (Walk × List (Option Nat))
  | 0, _, _, _, _ => .error .outOfFuel
  | fuel + 1, box, face, w, halfEdge =>
    match visit box w halfEdge with
    | .error e => .error e
    | .ok (w1, nextHalfEdge) =>
      match w1.d.face face with
      | .error e => .error e
      | .ok f =>
        if nextHalfEdge = f.outerComponent then .ok (w1, [halfEdge])
        else
          match walkTrace fuel box face w1 nextHalfEdge with
          | .error e => .error e
          | .ok (w2, l) => .ok (w2, halfEdge :: l)

end VoronoiDiagram

/-- A box that contains no point and reports one crossing, on its right side, for the side
from `A` to `C` of the triangle: a walk of face 0 of `triangle` comes in and never goes
out. -/
def entryBox : Box :=
  { left := 0, bottom := 0, right := 10, top := 10,
    contains := fun _ => false,
    getIntersections := fun a b =>
      if a = ⟨5, 5⟩ ∧ b = ⟨20, 5⟩ then [⟨.RIGHT, ⟨10, 5⟩⟩] else [] }

/-- The diagram that `intersect` makes of `farTriangle` with the box `[0, 10]²`: no vertex
and no half-edge is left, and the outer components of the two faces are unset. -/
def farClipped : VoronoiDiagram :=
  { mSites := [⟨0, ⟨6, 8⟩, some 0⟩, ⟨1, ⟨30, 30⟩, some 1⟩],
    mFaces := [⟨some 0, none⟩, ⟨some 1, none⟩],
    mVertices := [],
    mHalfEdges := [],
    vertexCount := 3,
    halfEdgeCount := 6 }

end Voronoi

namespace Voronoi

section Store

variable {α : Type}

@[simp] theorem keys_nil : keys ([] : List (Nat × α)) = [] := rfl

@[simp] theorem keys_cons (p : Nat × α) (l : List (Nat × α)) : keys (p :: l) = p.1 :: keys l := rfl

@[simp] theorem keys_append (l m : List (Nat × α)) : keys (l ++ m) = keys l ++ keys m := by
  simp [keys]

theorem lookup_eq_none_iff (l : List (Nat × α)) (h : Nat) : lookup l h = none ↔ h ∉ keys l := by
  induction l with
  | nil => simp [lookup]
  | cons p t ih =>
    obtain ⟨k, a⟩ := p
    by_cases hk : k = h
    · simp [lookup, hk]
    · simp [lookup, hk, ih, Ne.symm hk]

theorem lookup_isSome_iff (l : List (Nat × α)) (h : Nat) : (lookup l h).isSome ↔ h ∈ keys l := by
  rw [← not_iff_not, ← lookup_eq_none_iff]; simp

theorem mem_of_lookup {l : List (Nat × α)} {h : Nat} {a : α} (hl : lookup l h = some a) :
    (h, a) ∈ l := by
  induction l with
  | nil => simp [lookup] at hl
  | cons p t ih =>
    obtain ⟨k, b⟩ := p
    by_cases hk : k = h
    · simp [lookup, hk] at hl; simp [hk, hl]
    · simp [lookup, hk] at hl; exact List.mem_cons_of_mem _ (ih hl)

theorem lookup_of_mem {l : List (Nat × α)} {h : Nat} {a : α} (nd : (keys l).Nodup)
    (hm : (h, a) ∈ l) : lookup l h = some a := by
  induction l with
  | nil => simp at hm
  | cons p t ih =>
    obtain ⟨k, b⟩ := p
    simp only [keys_cons, List.nodup_cons] at nd
    by_cases hk : k = h
    · subst hk
      rcases List.mem_cons.1 hm with h1 | h1
      · simp [lookup] at h1 ⊢; exact h1.symm
      · exact absurd (List.mem_map_of_mem Prod.fst h1) nd.1
    · rcases List.mem_cons.1 hm with h1 | h1
      · simp at h1; exact absurd h1.1.symm hk
      · simp [lookup, hk, ih nd.2 h1]

theorem lookup_modify (l : List (Nat × α)) (h k : Nat) (f : α → α) :
    lookup (modify l h f) k = if k = h then (lookup l h).map f else lookup l k := by
  induction l with
  | nil => simp [lookup, modify]
  | cons p t ih =>
    obtain ⟨c, a⟩ := p
    by_cases hc : c = h
    · subst hc
      by_cases hk : k = c
      · subst hk; simp [lookup, modify]
      · simp [lookup, modify, hk, Ne.symm hk]
    · by_cases hk : k = h
      · subst hk; simp [lookup, modify, hc, ih]
      · by_cases hck : c = k
        · simp [lookup, modify, hc, hck, hk]
        · simp [lookup, modify, hc, hck, hk, ih]

@[simp] theorem keys_modify (l : List (Nat × α)) (h : Nat) (f : α → α) :
    keys (modify l h f) = keys l := by
  induction l with
  | nil => rfl
  | cons p t ih =>
    obtain ⟨c, a⟩ := p
    by_cases hc : c = h <;> simp [modify, hc, ih]

@[simp] theorem length_modify (l : List (Nat × α)) (h : Nat) (f : α → α) :
    (modify l h f).length = l.length := by
  have := congrArg List.length (keys_modify l h f)
  simpa [keys] using this

theorem keys_erase (l : List (Nat × α)) (h : Nat) : keys (erase l h) = (keys l).erase h := by
  induction l with
  | nil => rfl
  | cons p t ih =>
    obtain ⟨c, a⟩ := p
    by_cases hc : c = h
    · simp [erase, hc]
    · simp [erase, hc, ih, List.erase_cons_tail, beq_iff_eq]

theorem lookup_erase_ne (l : List (Nat × α)) {h k : Nat} (hne : k ≠ h) :
    lookup (erase l h) k = lookup l k := by
  induction l with
  | nil => rfl
  | cons p t ih =>
    obtain ⟨c, a⟩ := p
    by_cases hc : c = h
    · subst hc; simp [erase, lookup, Ne.symm hne]
    · simp [erase, lookup, hc, ih]

theorem lookup_erase_self (l : List (Nat × α)) (h : Nat) (nd : (keys l).Nodup) :
    lookup (erase l h) h = none := by
  rw [lookup_eq_none_iff, keys_erase]
  exact fun hm => (List.Nodup.mem_erase_iff nd).1 hm |>.1 rfl

theorem lookup_erase (l : List (Nat × α)) (h k : Nat) (nd : (keys l).Nodup) :
    lookup (erase l h) k = if k = h then none else lookup l k := by
  by_cases hk : k = h
  · subst hk; simp [lookup_erase_self l k nd]
  · simp [hk, lookup_erase_ne l hk]

theorem lookup_append (l m : List (Nat × α)) (k : Nat) :
    lookup (l ++ m) k = (lookup l k).or (lookup m k) := by
  induction l with
  | nil => simp [lookup]
  | cons p t ih =>
    obtain ⟨c, a⟩ := p
    by_cases hc : c = k <;> simp [lookup, hc, ih]

theorem lookup_push (l : List (Nat × α)) (c : Nat) (a : α) (k : Nat)
    (hfresh : lookup l c = none) :
    lookup (l ++ [(c, a)]) k = if k = c then some a else lookup l k := by
  rw [lookup_append]
  by_cases hk : k = c
  · subst hk; simp [hfresh, lookup]
  · simp [lookup, hk, Ne.symm hk]

end Store

end Voronoi

namespace Voronoi

namespace VoronoiDiagram

theorem he_fresh {d : VoronoiDiagram} (ok : StoreOK d) {k : Nat} (hk : d.halfEdgeCount ≤ k) :
    d.he k = none := by
  rw [he, lookup_eq_none_iff]
  intro hm
  exact absurd (ok.ltH k hm) (by omega)

theorem vx_fresh {d : VoronoiDiagram} (ok : StoreOK d) {k : Nat} (hk : d.vertexCount ≤ k) :
    d.vx k = none := by
  rw [vx, lookup_eq_none_iff]
  intro hm
  exact absurd (ok.ltV k hm) (by omega)

theorem he_lt {d : VoronoiDiagram} (ok : StoreOK d) {k : Nat} {e : HalfEdge}
    (h : d.he k = some e) : k < d.halfEdgeCount := by
  by_contra hc
  rw [he_fresh ok (by omega)] at h
  cases h

theorem vx_lt {d : VoronoiDiagram} (ok : StoreOK d) {k : Nat} {a : Vertex}
    (h : d.vx k = some a) : k < d.vertexCount := by
  by_contra hc
  rw [vx_fresh ok (by omega)] at h
  cases h

theorem mem_keys_iff_he (d : VoronoiDiagram) (k : Nat) :
    k ∈ keys d.mHalfEdges ↔ ∃ e, d.he k = some e := by
  rw [← lookup_isSome_iff, Option.isSome_iff_exists]; rfl

theorem mem_keys_iff_vx (d : VoronoiDiagram) (k : Nat) :
    k ∈ keys d.mVertices ↔ ∃ a, d.vx k = some a := by
  rw [← lookup_isSome_iff, Option.isSome_iff_exists]; rfl

section proj

variable (d : VoronoiDiagram) (h : Nat) (f : HalfEdge → HalfEdge) (face : Nat) (p : Vector2)

@[simp] theorem putHE_mVertices : (d.putHE h f).mVertices = d.mVertices := rfl

@[simp] theorem putHE_mFaces : (d.putHE h f).mFaces = d.mFaces := rfl

@[simp] theorem putHE_mSites : (d.putHE h f).mSites = d.mSites := rfl

@[simp] theorem putHE_vertexCount : (d.putHE h f).vertexCount = d.vertexCount := rfl

@[simp] theorem putHE_halfEdgeCount : (d.putHE h f).halfEdgeCount = d.halfEdgeCount := rfl

@[simp] theorem putHE_vx : (d.putHE h f).vx = d.vx := rfl

@[simp] theorem putHE_keys : keys (d.putHE h f).mHalfEdges = keys d.mHalfEdges := by
  simp [putHE]

theorem putHE_he (k : Nat) :
    (d.putHE h f).he k = if k = h then (d.he h).map f else d.he k := by
  simp [putHE, he, lookup_modify]

@[simp] theorem pushHE_mVertices : (d.pushHE face).mVertices = d.mVertices := rfl

@[simp] theorem pushHE_mFaces : (d.pushHE face).mFaces = ocInit d.mFaces face d.halfEdgeCount := rfl

@[simp] theorem pushHE_mSites : (d.pushHE face).mSites = d.mSites := rfl

@[simp] theorem pushHE_vertexCount : (d.pushHE face).vertexCount = d.vertexCount := rfl

@[simp] theorem pushHE_halfEdgeCount : (d.pushHE face).halfEdgeCount = d.halfEdgeCount + 1 := rfl

@[simp] theorem pushHE_vx : (d.pushHE face).vx = d.vx := rfl

@[simp] theorem pushHE_keys :
    keys (d.pushHE face).mHalfEdges = keys d.mHalfEdges ++ [d.halfEdgeCount] := by
  simp [pushHE]

@[simp] theorem pushV_mHalfEdges : (d.pushV p).mHalfEdges = d.mHalfEdges := rfl

@[simp] theorem pushV_mVertices :
    (d.pushV p).mVertices = d.mVertices ++ [(d.vertexCount, { point := p })] := rfl

@[simp] theorem pushV_mFaces : (d.pushV p).mFaces = d.mFaces := rfl

@[simp] theorem pushV_mSites : (d.pushV p).mSites = d.mSites := rfl

@[simp] theorem pushV_vertexCount : (d.pushV p).vertexCount = d.vertexCount + 1 := rfl

@[simp] theorem pushV_halfEdgeCount : (d.pushV p).halfEdgeCount = d.halfEdgeCount := rfl

@[simp] theorem pushV_he : (d.pushV p).he = d.he := rfl

@[simp] theorem dropHE_mVertices : (d.dropHE h).mVertices = d.mVertices := rfl

@[simp] theorem dropHE_mFaces : (d.dropHE h).mFaces = d.mFaces := rfl

@[simp] theorem dropHE_mSites : (d.dropHE h).mSites = d.mSites := rfl

@[simp] theorem dropHE_vertexCount : (d.dropHE h).vertexCount = d.vertexCount := rfl

@[simp] theorem dropHE_halfEdgeCount : (d.dropHE h).halfEdgeCount = d.halfEdgeCount := rfl

@[simp] theorem dropHE_vx : (d.dropHE h).vx = d.vx := rfl

theorem dropHE_he_ne {k : Nat} (hk : k ≠ h) : (d.dropHE h).he k = d.he k := by
  simp [dropHE, he, lookup_erase_ne _ hk]

@[simp] theorem dropV_mHalfEdges : (d.dropV h).mHalfEdges = d.mHalfEdges := rfl

@[simp] theorem dropV_mFaces : (d.dropV h).mFaces = d.mFaces := rfl

@[simp] theorem dropV_mSites : (d.dropV h).mSites = d.mSites := rfl

@[simp] theorem dropV_vertexCount : (d.dropV h).vertexCount = d.vertexCount := rfl

@[simp] theorem dropV_halfEdgeCount : (d.dropV h).halfEdgeCount = d.halfEdgeCount := rfl

@[simp] theorem dropV_he : (d.dropV h).he = d.he := rfl

end proj

section withOK

variable {d : VoronoiDiagram} (ok : StoreOK d)

include ok

theorem pushHE_he (face k : Nat) :
    (d.pushHE face).he k = if k = d.halfEdgeCount then some (freshHE face) else d.he k := by
  simp only [pushHE, he]
  exact lookup_push _ _ _ _ (he_fresh ok (le_refl _))

theorem pushV_vx (p : Vector2) (k : Nat) :
    (d.pushV p).vx k = if k = d.vertexCount then some { point := p } else d.vx k := by
  simp only [pushV, vx]
  exact lookup_push _ _ _ _ (vx_fresh ok (le_refl _))

theorem dropHE_he (h k : Nat) : (d.dropHE h).he k = if k = h then none else d.he k := by
  simp only [dropHE, he]
  exact lookup_erase _ _ _ ok.nodupH

theorem dropV_vx (v k : Nat) : (d.dropV v).vx k = if k = v then none else d.vx k := by
  simp only [dropV, vx]
  exact lookup_erase _ _ _ ok.nodupV

theorem putHE_ok (h : Nat) (f : HalfEdge → HalfEdge) : StoreOK (d.putHE h f) :=
  ⟨by simpa using ok.nodupH, by simpa using ok.ltH, ok.nodupV, ok.ltV⟩

theorem pushHE_ok (face : Nat) : StoreOK (d.pushHE face) := by
  refine ⟨?_, ?_, ok.nodupV, ok.ltV⟩
  · rw [pushHE_keys]
    refine List.Nodup.append ok.nodupH (List.nodup_singleton _) ?_
    intro a ha hb
    simp only [List.mem_singleton] at hb
    subst hb
    exact absurd (ok.ltH _ ha) (lt_irrefl _)
  · intro k hk
    rw [pushHE_keys, List.mem_append] at hk
    rcases hk with hk | hk
    · have := ok.ltH k hk
      simp only [pushHE_halfEdgeCount]; omega
    · simp only [List.mem_singleton] at hk
      simp only [pushHE_halfEdgeCount]; omega

theorem pushV_ok (p : Vector2) : StoreOK (d.pushV p) := by
  refine ⟨ok.nodupH, ok.ltH, ?_, ?_⟩
  · simp only [pushV_mVertices, keys_append, keys_cons, keys_nil]
    refine List.Nodup.append ok.nodupV (List.nodup_singleton _) ?_
    intro a ha hb
    simp only [List.mem_singleton] at hb
    subst hb
    exact absurd (ok.ltV _ ha) (lt_irrefl _)
  · intro k hk
    simp only [pushV_mVertices, keys_append, keys_cons, keys_nil, List.mem_append,
      List.mem_singleton] at hk
    rcases hk with hk | hk
    · have := ok.ltV k hk
      simp only [pushV_vertexCount]; omega
    · simp only [pushV_vertexCount]; omega

theorem dropHE_ok (h : Nat) : StoreOK (d.dropHE h) := by
  refine ⟨?_, ?_, ok.nodupV, ok.ltV⟩
  · simp only [dropHE, keys_erase]; exact ok.nodupH.erase _
  · intro k hk
    simp only [dropHE, keys_erase] at hk
    exact ok.ltH k (List.mem_of_mem_erase hk)

theorem dropV_ok (v : Nat) : StoreOK (d.dropV v) := by
  refine ⟨ok.nodupH, ok.ltH, ?_, ?_⟩
  · simp only [dropV, keys_erase]; exact ok.nodupV.erase _
  · intro k hk
    simp only [dropV, keys_erase] at hk
    exact ok.ltV k (List.mem_of_mem_erase hk)

end withOK

/-! ### The primitives in terms of the pure updates -/

theorem halfEdge_eq {d : VoronoiDiagram} {h : Nat} {e : HalfEdge} (hl : d.he h = some e) :
    d.halfEdge h = .ok e := by
  simp only [he] at hl
  simp [halfEdge, live, hl]

theorem vertex_eq {d : VoronoiDiagram} {v : Nat} {a : Vertex} (hl : d.vx v = some a) :
    d.vertex v = .ok a := by
  simp only [vx] at hl
  simp [vertex, live, hl]

theorem face_eq {d : VoronoiDiagram} {i : Nat} {f : Face} (hl : d.mFaces[i]? = some f) :
    d.face i = .ok f := by
  simp [face, hl]

theorem setHalfEdge_eq {d : VoronoiDiagram} {h : Nat} {e : HalfEdge} (hl : d.he h = some e)
    (f : HalfEdge → HalfEdge) : d.setHalfEdge h f = .ok (d.putHE h f) := by
  simp only [he] at hl
  simp [setHalfEdge, hl, putHE]

theorem removeHalfEdge_eq {d : VoronoiDiagram} {h : Nat} {e : HalfEdge} (hl : d.he h = some e) :
    d.removeHalfEdge h = .ok (d.dropHE h) := by
  simp only [he] at hl
  simp [removeHalfEdge, hl, dropHE]

theorem removeVertex_eq {d : VoronoiDiagram} {v : Nat} {a : Vertex} (hl : d.vx v = some a) :
    d.removeVertex v = .ok (d.dropV v) := by
  simp only [vx] at hl
  simp [removeVertex, hl, dropV]

theorem createVertex_eq (d : VoronoiDiagram) (p : Vector2) :
    d.createVertex p = (d.pushV p, d.vertexCount) := rfl

theorem createHalfEdge_eq {d : VoronoiDiagram} {face : Nat} {f : Face}
    (hl : d.mFaces[face]? = some f) :
    d.createHalfEdge face = .ok (d.pushHE face, d.halfEdgeCount) := by
  simp only [createHalfEdge, hl, pushHE, ocInit]
  split <;> rfl

theorem createCorner_eq (d : VoronoiDiagram) (box : Box) (side : Side) :
    d.createCorner box side = (d.pushV (cornerPoint box side), d.vertexCount) := by
  cases side <;> rfl

theorem ocInit_length (faces : List Face) (face h : Nat) :
    (ocInit faces face h).length = faces.length := by
  unfold ocInit
  split
  · split <;> simp
  · rfl

theorem ocInit_getElem? (faces : List Face) (face h i : Nat) :
    (ocInit faces face h)[i]? =
      if i = face then (faces[i]?).map (fun f =>
        if f.outerComponent = none then { f with outerComponent := some h } else f)
      else faces[i]? := by
  unfold ocInit
  by_cases hi : i = face
  · subst hi
    cases hf : faces[i]? with
    | none => simp [hf]
    | some f =>
      simp only [if_true, Option.map_some']
      by_cases ho : f.outerComponent = none
      · have hlt : i < faces.length := by
          by_contra hc
          rw [List.getElem?_eq_none (by omega)] at hf
          cases hf
        simp [ho, List.getElem?_set, hlt]
      · simp [ho, hf]
  · cases hf : faces[face]? with
    | none => simp [hi]
    | some f =>
      by_cases ho : f.outerComponent = none
      · simp [ho, hi, List.getElem?_set, Ne.symm hi]
      · simp [ho, hi]

end VoronoiDiagram

end Voronoi

namespace Voronoi

namespace VoronoiDiagram

theorem ocInit_ocInit (faces : List Face) (face h h' : Nat) :
    ocInit (ocInit faces face h) face h' = ocInit faces face h := by
  apply List.ext_getElem?
  intro i
  rw [ocInit_getElem?, ocInit_getElem?]
  by_cases hi : i = face
  · simp only [hi, if_true]
    cases faces[face]? with
    | none => rfl
    | some f =>
      by_cases ho : f.outerComponent = none <;> simp [ho]
  · simp [hi]

/-- One turn of the loop, on a sound store with `start` and `halfEdge` live. -/
theorem linkStep_eq {d : VoronoiDiagram} (ok : StoreOK d) (box : Box) (side : Nat)
    {start cur face : Nat}
    {s0 c0 : HalfEdge} {fc : Face}
    (hs : d.he start = some s0) (hsf : s0.incidentFace = face) (hc : d.he cur = some c0)
    (hf : d.mFaces[face]? = some fc) :
    linkStep d box start cur side = .ok
      ((((((d.pushHE face).putHE cur (fun e => { e with next := some d.halfEdgeCount })).putHE
        d.halfEdgeCount (fun e => { e with prev := some cur })).putHE
        d.halfEdgeCount (fun e => { e with origin := c0.destination })).pushV
        (cornerPoint box (Side.ofInt ((side + 1) % 4)))).putHE
        d.halfEdgeCount (fun e => { e with destination := some d.vertexCount }),
       d.halfEdgeCount, (side + 1) % 4) := by
  have hlt := he_lt ok hc
  have h1 : (d.pushHE face).he cur = some c0 := by
    rw [pushHE_he ok, if_neg (by omega), hc]
  have h2 : ((d.pushHE face).putHE cur (fun e => { e with next := some d.halfEdgeCount })).he
      d.halfEdgeCount = some (freshHE face) := by
    rw [putHE_he, if_neg (by omega), pushHE_he ok, if_pos rfl]
  have h3 : (((d.pushHE face).putHE cur (fun e => { e with next := some d.halfEdgeCount })).putHE
      d.halfEdgeCount (fun e => { e with prev := some cur })).he cur
      = some { c0 with next := some d.halfEdgeCount } := by
    rw [putHE_he, if_neg (by omega), putHE_he, if_pos rfl, h1]; rfl
  have h4 : (((d.pushHE face).putHE cur (fun e => { e with next := some d.halfEdgeCount })).putHE
      d.halfEdgeCount (fun e => { e with prev := some cur })).he d.halfEdgeCount
      = some { freshHE face with prev := some cur } := by
    rw [putHE_he, if_pos rfl, h2]; rfl
  have h5 : (((((d.pushHE face).putHE cur (fun e => { e with next := some d.halfEdgeCount })).putHE
      d.halfEdgeCount (fun e => { e with prev := some cur })).putHE
      d.halfEdgeCount (fun e => { e with origin := c0.destination })).pushV
      (cornerPoint box (Side.ofInt ((side + 1) % 4)))).he d.halfEdgeCount
      = some { freshHE face with prev := some cur, origin := c0.destination } := by
    rw [pushV_he, putHE_he, if_pos rfl, h4]; rfl
  simp only [linkStep, halfEdge_eq hs, hsf, createHalfEdge_eq hf, setHalfEdge_eq h1,
    setHalfEdge_eq h2, halfEdge_eq h3, setHalfEdge_eq h4, createCorner_eq, setHalfEdge_eq h5,
    bind, Except.bind, pure, Except.pure]
  rfl

theorem linkLoop_spec (box : Box) (start face endSide : Nat) (hend : endSide < 4) :
    ∀ (fuel : Nat) (d : VoronoiDiagram) (cur side : Nat) (c0 s0 : HalfEdge) (fc : Face),
      StoreOK d → d.he start = some s0 → s0.incidentFace = face → d.he cur = some c0 →
      d.mFaces[face]? = some fc → side < 4 → (endSide + 4 - side) % 4 < fuel →
      ∃ d' last, linkLoop fuel d box start cur side endSide = .ok (d', last) ∧
        LoopSpec d d' box face cur side ((endSide + 4 - side) % 4) last c0.destination := by
  intro fuel
  induction fuel with
  | zero => intro d cur side c0 s0 fc _ _ _ _ _ _ hr; omega
  | succ fuel ih =>
    intro d cur side c0 s0 fc ok hs hsf hc hf hside hr
    have hltc := he_lt ok hc
    by_cases hse : side = endSide
    · subst hse
      have hr0 : (side + 4 - side) % 4 = 0 := by omega
      refine ⟨d, cur, by simp [linkLoop], ?_⟩
      rw [hr0]
      exact ⟨ok, by simp, by simp, by simp, by simp [cornerList], by simp, rfl, by simp,
        fun x _ => by simp, fun i hi => by omega⟩
    · have hstep := linkStep_eq ok box side hs hsf hc hf
      set d6 := (((((d.pushHE face).putHE cur (fun e => { e with next := some d.halfEdgeCount })).putHE
        d.halfEdgeCount (fun e => { e with prev := some cur })).putHE
        d.halfEdgeCount (fun e => { e with origin := c0.destination })).pushV
        (cornerPoint box (Side.ofInt ((side + 1) % 4)))).putHE
        d.halfEdgeCount (fun e => { e with destination := some d.vertexCount }) with hd6
      have ok6 : StoreOK d6 :=
        putHE_ok (pushV_ok (putHE_ok (putHE_ok (putHE_ok (pushHE_ok ok _) _ _) _ _) _ _) _) _ _
      have he6 : ∀ x, d6.he x =
          if x = d.halfEdgeCount then
            some { origin := c0.destination, destination := some d.vertexCount, twin := none,
                   incidentFace := face, prev := some cur, next := none }
          else if x = cur then some { c0 with next := some d.halfEdgeCount } else d.he x := by
        intro x
        simp only [hd6, putHE_he, pushV_he, pushHE_he ok]
        by_cases hx : x = d.halfEdgeCount
        · subst hx
          have : ¬ d.halfEdgeCount = cur := by omega
          simp [this, freshHE]
        · by_cases hxc : x = cur
          · subst hxc; simp [hx, hc]
          · simp [hx, hxc]
      have hs6 : d6.he start = some (if start = cur then { c0 with next := some d.halfEdgeCount } else s0) := by
        rw [he6, if_neg (by have := he_lt ok hs; omega)]
        by_cases h : start = cur
        · simp [h]
        · simp [h, hs]
      have hsf6 : (if start = cur then { c0 with next := some d.halfEdgeCount } else s0).incidentFace
          = face := by
        by_cases h : start = cur
        · subst h
          rw [hs] at hc
          cases hc
          simp [hsf]
        · simp [h, hsf]
      have hn6 : d6.he d.halfEdgeCount = some
          { origin := c0.destination, destination := some d.vertexCount, twin := none,
            incidentFace := face, prev := some cur, next := none } := by
        rw [he6, if_pos rfl]
      have hf6 : d6.mFaces[face]? = some
          (if fc.outerComponent = none then { fc with outerComponent := some d.halfEdgeCount }
           else fc) := by
        simp [hd6, ocInit_getElem?, hf]
      have hr' : (endSide + 4 - (side + 1) % 4) % 4 = (endSide + 4 - side) % 4 - 1 := by omega
      have hrpos : 0 < (endSide + 4 - side) % 4 := by omega
      obtain ⟨d', last, hrun, sp⟩ := ih d6 d.halfEdgeCount ((side + 1) % 4) _ _ _ ok6 hs6 hsf6 hn6
        hf6 (by omega) (by omega)
      refine ⟨d', last, ?_, ?_⟩
      · simp only [linkLoop, if_neg hse, hstep]
        exact hrun
      · rw [hr'] at sp
        have hc6 : d6.halfEdgeCount = d.halfEdgeCount + 1 := by simp [hd6]
        have hv6 : d6.vertexCount = d.vertexCount + 1 := by simp [hd6]
        generalize (endSide + 4 - side) % 4 = r at sp hrpos ⊢
        obtain ⟨r, rfl⟩ : ∃ r', r = r' + 1 := ⟨r - 1, by omega⟩
        simp only [Nat.add_sub_cancel] at sp
        refine ⟨sp.ok, ?_, ?_, ?_, ?_, ?_, ?_, ?_, ?_, ?_⟩
        · rw [sp.last_eq, hc6]
          by_cases h0 : r = 0
          · simp [h0]
          · simp [h0]
        · rw [sp.hcount, hc6]; omega
        · rw [sp.vcount, hv6]; omega
        · rw [sp.verts, hv6]
          simp [hd6, cornerList]
        · rw [sp.hkeys, hc6]
          simp [hd6, List.range'_succ]
        · rw [sp.sites]; simp [hd6]
        · rw [sp.faces]
          have : d6.mFaces = ocInit d.mFaces face d.halfEdgeCount := by simp [hd6]
          rw [this, ocInit_ocInit]
          simp
        · intro x hx
          rw [sp.old x (by omega), he6]
          have h1 : ¬ x = d.halfEdgeCount := by omega
          simp only [h1, false_and, if_false]
          by_cases hxc : x = cur
          · subst hxc; simp [hc]
          · simp [hxc]
        · intro i hi
          rcases Nat.eq_zero_or_pos i with h0 | hpos
          · subst h0
            rw [Nat.add_zero, sp.old _ (by omega), hc6, hn6]
            by_cases hr0 : 0 < r
            · simp [hr0, loopEdge]
            · simp [hr0, loopEdge]
          · obtain ⟨j, rfl⟩ : ∃ j, i = j + 1 := ⟨i - 1, by omega⟩
            have := sp.new j (by omega)
            rw [hc6, hv6] at this
            have e1 : d.halfEdgeCount + (j + 1) = d.halfEdgeCount + 1 + j := by omega
            rw [e1, this]
            simp only [loopEdge, Option.some.injEq, HalfEdge.mk.injEq, true_and]
            refine ⟨?_, ?_, ?_, ?_⟩
            · by_cases hj : j = 0
              · simp [hj]
              · simp [hj]
            · omega
            · by_cases hj : j = 0
              · simp [hj]
              · simp [hj]
            · by_cases hj : j + 1 < r
              · simp [hj]; omega
              · simp [hj]

end VoronoiDiagram

end Voronoi

namespace Voronoi

namespace VoronoiDiagram

theorem putHE_some {d : VoronoiDiagram} {k : Nat} {e : HalfEdge} (hk : d.he k = some e)
    (h : Nat) (f : HalfEdge → HalfEdge) :
    (d.putHE h f).he k = some (if k = h then f e else e) := by
  rw [putHE_he]
  by_cases hkh : k = h
  · subst hkh; simp [hk]
  · simp [hkh, hk]

theorem putHE_keep {d : VoronoiDiagram} {k : Nat} (h : Nat) (f : HalfEdge → HalfEdge)
    (P : HalfEdge → Prop) (hP : ∀ e, P e → P (f e)) (hk : ∃ r, d.he k = some r ∧ P r) :
    ∃ r, (d.putHE h f).he k = some r ∧ P r := by
  obtain ⟨r, hr, hp⟩ := hk
  rw [putHE_some hr]
  by_cases hkh : k = h
  · exact ⟨_, by rw [if_pos hkh], hP r hp⟩
  · exact ⟨_, by rw [if_neg hkh], hp⟩

theorem putHE_live {d : VoronoiDiagram} {k : Nat} (h : Nat) (f : HalfEdge → HalfEdge)
    (hk : ∃ r, d.he k = some r) : ∃ r, (d.putHE h f).he k = some r := by
  obtain ⟨r, hr, _⟩ := putHE_keep h f (fun _ => True) (fun _ _ => trivial)
    (hk.imp fun r hr => ⟨hr, trivial⟩)
  exact ⟨r, hr⟩

theorem Side.toInt_lt (s : Side) : s.toInt < 4 := by cases s <;> decide

theorem linkFuel_spec {d : VoronoiDiagram} (ok : StoreOK d) (box : Box) {start end_ : Nat}
    (startSide endSide : Side) {s0 e0 : HalfEdge} {fc : Face}
    (hs : d.he start = some s0) (he : d.he end_ = some e0)
    (hf : d.mFaces[s0.incidentFace]? = some fc) (fuel : Nat)
    (hfuel : turns startSide endSide < fuel) :
    ∃ d', linkFuel fuel d box start startSide end_ endSide = .ok d' ∧
      LinkSpec d d' box start startSide end_ endSide s0 e0 := by
  obtain ⟨d0, last, hrun, sp⟩ := linkLoop_spec box start s0.incidentFace endSide.toInt
    (Side.toInt_lt _) fuel d start startSide.toInt s0 s0 fc ok hs rfl hs hf (Side.toInt_lt _)
    hfuel
  obtain ⟨k, hkdef⟩ : ∃ k, k = turns startSide endSide := ⟨_, rfl⟩
  have hk : (endSide.toInt + 4 - startSide.toInt) % 4 = k := hkdef.symm
  rw [hk] at sp
  have hsl := he_lt ok hs
  have hel := he_lt ok he
  have ok0 := sp.ok
  -- the loop result at the three places read after the loop
  have hs0 : d0.he start = some (if 0 < k then { s0 with next := some d.halfEdgeCount } else s0) := by
    rw [sp.old start hsl]
    by_cases h : 0 < k <;> simp [h, hs]
  have he0 : d0.he end_ = some (if end_ = start ∧ 0 < k then { e0 with next := some d.halfEdgeCount } else e0) := by
    rw [sp.old end_ hel]
    by_cases h : end_ = start ∧ 0 < k
    · obtain ⟨h1, h2⟩ := h
      subst h1
      rw [hs] at he
      cases he
      simp [h2, hs]
    · simp [h, he]
  obtain ⟨l0, hl0, hl0d⟩ : ∃ l0, d0.he last = some l0 ∧
      l0.destination = (if k = 0 then s0.destination else some (d.vertexCount + k - 1)) := by
    by_cases h0 : k = 0
    · refine ⟨_, by rw [sp.last_eq, if_pos h0]; exact hs0, ?_⟩
      simp [h0]
    · have := sp.new (k - 1) (by omega)
      have e1 : d.halfEdgeCount + (k - 1) = d.halfEdgeCount + k - 1 := by omega
      rw [e1] at this
      refine ⟨_, by rw [sp.last_eq, if_neg h0]; exact this, ?_⟩
      simp [h0, loopEdge]
      omega
  have hlast_lt : last < d.halfEdgeCount + k := by
    rw [sp.last_eq]; by_cases h0 : k = 0 <;> simp [h0] <;> omega
  have hf0 : d0.mFaces[s0.incidentFace]? = some (if k = 0 then fc else
      (if fc.outerComponent = none then { fc with outerComponent := some d.halfEdgeCount } else fc)) := by
    rw [sp.faces]
    by_cases h0 : k = 0
    · simp [h0, hf]
    · simp [h0, ocInit_getElem?, hf]
  have hc0 : d0.halfEdgeCount = d.halfEdgeCount + k := sp.hcount
  -- the run after the loop
  have hsf : (if 0 < k then { s0 with next := some d.halfEdgeCount } else s0).incidentFace = s0.incidentFace := by
    by_cases h : 0 < k <;> simp [h]
  have hne1 : ¬ last = d.halfEdgeCount + k := by omega
  have hne3 : ¬ end_ = d.halfEdgeCount + k := by omega
  have hne5 : ¬ last = d0.halfEdgeCount := by omega
  have hne6 : ¬ end_ = d0.halfEdgeCount := by omega
  obtain ⟨d1, hd1⟩ : ∃ d1, d1 = d0.pushHE s0.incidentFace := ⟨_, rfl⟩
  obtain ⟨d2, hd2⟩ : ∃ d2, d2 = d1.putHE last
    (fun e => { e with next := some (d.halfEdgeCount + k) }) := ⟨_, rfl⟩
  obtain ⟨d3, hd3⟩ : ∃ d3, d3 = d2.putHE (d.halfEdgeCount + k)
    (fun e => { e with prev := some last }) := ⟨_, rfl⟩
  obtain ⟨d4, hd4⟩ : ∃ d4, d4 = d3.putHE end_
    (fun e => { e with prev := some (d.halfEdgeCount + k) }) := ⟨_, rfl⟩
  obtain ⟨d5, hd5⟩ : ∃ d5, d5 = d4.putHE (d.halfEdgeCount + k)
    (fun e => { e with next := some end_ }) := ⟨_, rfl⟩
  obtain ⟨d6, hd6⟩ : ∃ d6, d6 = d5.putHE (d.halfEdgeCount + k)
    (fun e => { e with origin := l0.destination }) := ⟨_, rfl⟩
  obtain ⟨d7, hd7⟩ : ∃ d7, d7 = d6.putHE (d.halfEdgeCount + k)
    (fun e => { e with destination := e0.origin }) := ⟨_, rfl⟩
  have v1 : ∀ x, d1.he x = if x = d0.halfEdgeCount then some (freshHE s0.incidentFace)
      else d0.he x := fun x => by rw [hd1, pushHE_he ok0]
  have c1 : d0.createHalfEdge s0.incidentFace = .ok (d1, d.halfEdgeCount + k) := by
    rw [createHalfEdge_eq hf0, hd1, hc0]
  have g1 : d1.he last = some l0 := by rw [v1, if_neg hne5, hl0]
  have c2 := setHalfEdge_eq g1 (fun e => { e with next := some (d.halfEdgeCount + k) })
  rw [← hd2] at c2
  have l1n : ∃ r, d1.he (d.halfEdgeCount + k) = some r := by
    rw [v1, if_pos hc0.symm]; exact ⟨_, rfl⟩
  have l1e : ∃ r, d1.he end_ = some r ∧ r.origin = e0.origin := by
    rw [v1, if_neg hne6, he0]
    by_cases h2 : end_ = start ∧ 0 < k
    · exact ⟨{ e0 with next := some d.halfEdgeCount }, by rw [if_pos h2], rfl⟩
    · exact ⟨e0, by rw [if_neg h2], rfl⟩
  have l1l : ∃ r, d1.he last = some r ∧ r.destination = l0.destination := ⟨_, g1, rfl⟩
  obtain ⟨r2, g2⟩ : ∃ r, d2.he (d.halfEdgeCount + k) = some r := hd2 ▸ putHE_live _ _ l1n
  have c3 := setHalfEdge_eq g2 (fun e => { e with prev := some last })
  rw [← hd3] at c3
  have l3e : ∃ r, d3.he end_ = some r ∧ r.origin = e0.origin :=
    hd3 ▸ putHE_keep _ _ _ (fun _ h => h) (hd2 ▸ putHE_keep _ _ _ (fun _ h => h) l1e)
  obtain ⟨r3, g3, -⟩ := l3e
  have c4 := setHalfEdge_eq g3 (fun e => { e with prev := some (d.halfEdgeCount + k) })
  rw [← hd4] at c4
  have l4n : ∃ r, d4.he (d.halfEdgeCount + k) = some r :=
    hd4 ▸ putHE_live _ _ (hd3 ▸ putHE_live _ _ ⟨r2, g2⟩)
  obtain ⟨r4, g4⟩ := l4n
  have c5 := setHalfEdge_eq g4 (fun e => { e with next := some end_ })
  rw [← hd5] at c5
  obtain ⟨r5, g5, hr5⟩ : ∃ r, d5.he last = some r ∧ r.destination = l0.destination :=
    hd5 ▸ putHE_keep _ _ _ (fun _ h => h) (hd4 ▸ putHE_keep _ _ _ (fun _ h => h)
      (hd3 ▸ putHE_keep _ _ _ (fun _ h => h) (hd2 ▸ putHE_keep _ _ _ (fun _ h => h) l1l)))
  have c6r := halfEdge_eq g5
  obtain ⟨r6, g6⟩ : ∃ r, d5.he (d.halfEdgeCount + k) = some r := hd5 ▸ putHE_live _ _ ⟨r4, g4⟩
  have c6 := setHalfEdge_eq g6 (fun e => { e with origin := l0.destination })
  rw [← hd6] at c6
  have hne3' : ¬ end_ = d.halfEdgeCount + k := hne3
  obtain ⟨r7, g7, hr7⟩ : ∃ r, d6.he end_ = some r ∧ r.origin = e0.origin := by
    rw [hd6, putHE_he, if_neg hne3, hd5, putHE_he, if_neg hne3, hd4]
    exact putHE_keep _ _ _ (fun _ h => h) ⟨r3, g3, by
      obtain ⟨r, h1, h2⟩ : ∃ r, d3.he end_ = some r ∧ r.origin = e0.origin :=
        hd3 ▸ putHE_keep _ _ _ (fun _ h => h) (hd2 ▸ putHE_keep _ _ _ (fun _ h => h) l1e)
      rw [g3] at h1; cases h1; exact h2⟩
  have c7r := halfEdge_eq g7
  obtain ⟨r8, g8⟩ : ∃ r, d6.he (d.halfEdgeCount + k) = some r := hd6 ▸ putHE_live _ _ ⟨r6, g6⟩
  have c8 := setHalfEdge_eq g8 (fun e => { e with destination := e0.origin })
  rw [← hd7] at c8
  refine ⟨d7, ?_, ?_⟩
  · simp only [linkFuel, hrun, halfEdge_eq hs0, hsf, c1, c2, c3, c4, c5, c6r, hr5, c6, c7r,
      hr7, c8, bind, Except.bind, pure, Except.pure]
  · have v7 : ∀ x, d7.he x =
        if x = d.halfEdgeCount + k then
          some { origin := l0.destination, destination := e0.origin, twin := none,
                 incidentFace := s0.incidentFace, prev := some last, next := some end_ }
        else (d0.he x).map (fun e =>
          { e with next := if x = last then some (d.halfEdgeCount + k) else e.next,
                   prev := if x = end_ then some (d.halfEdgeCount + k) else e.prev }) := by
      intro x
      by_cases hx : x = d.halfEdgeCount + k
      · subst hx
        simp only [hd7, hd6, hd5, hd4, hd3, hd2, putHE_he, v1, hc0, if_true, Ne.symm hne1,
          Ne.symm hne3, if_false, Option.map_some', freshHE]
      · simp only [hd7, hd6, hd5, hd4, hd3, hd2, putHE_he, v1, hc0, hx, if_false]
        have hx' : ¬ d.halfEdgeCount + k = x := fun h => hx h.symm
        by_cases h1 : x = end_
        · subst h1
          by_cases h2 : x = last
          · subst h2
            cases d0.he x <;> simp [hx, hx']
          · have h2' : ¬ last = x := fun h => h2 h.symm
            cases d0.he x <;> simp [hx, hx', h2, h2', hne1]
        · by_cases h2 : x = last
          · subst h2
            have h1' : ¬ end_ = x := fun h => h1 h.symm
            cases d0.he x <;> simp [hx, hx', h1, h1', hne3]
          · cases d0.he x <;> simp [hx, hx', h1, h2, hne1, hne3]
    refine ⟨?_, ?_, ?_, ?_, ?_, ?_, ?_, ?_, ?_⟩
    · rw [hd7, hd6, hd5, hd4, hd3, hd2, hd1]
      exact putHE_ok (putHE_ok (putHE_ok (putHE_ok (putHE_ok (putHE_ok (pushHE_ok ok0 _)
        _ _) _ _) _ _) _ _) _ _) _ _
    · simp [hd7, hd6, hd5, hd4, hd3, hd2, hd1, hc0, ← hkdef]
    · simp [hd7, hd6, hd5, hd4, hd3, hd2, hd1, sp.vcount, ← hkdef]
    · simp [hd7, hd6, hd5, hd4, hd3, hd2, hd1, sp.verts, ← hkdef]
    · simp [hd7, hd6, hd5, hd4, hd3, hd2, hd1, sp.hkeys, hc0, List.range'_concat, ← hkdef]
    · simp [hd7, hd6, hd5, hd4, hd3, hd2, hd1, sp.sites]
    · have : d7.mFaces = ocInit d0.mFaces s0.incidentFace d0.halfEdgeCount := by
        simp [hd7, hd6, hd5, hd4, hd3, hd2, hd1]
      rw [this, sp.faces, hc0]
      by_cases h0 : k = 0
      · simp [h0]
      · simp [h0, ocInit_ocInit]
    · intro x hx
      rw [← hkdef, v7, if_neg (by omega), sp.old x hx]
      have hxl : x = last ↔ (x = start ∧ k = 0) := by
        rw [sp.last_eq]
        by_cases h0 : k = 0
        · simp [h0]
        · simp [h0]; omega
      cases hdx : d.he x with
      | none => simp
      | some e =>
        by_cases hxs : x = start
        · subst hxs
          by_cases h0 : k = 0
          · simp [hxl, h0]
          · simp [hxl, h0, Nat.pos_of_ne_zero h0]
        · simp [hxl, hxs]
    · intro i hi
      rw [← hkdef] at hi ⊢
      rw [v7]
      by_cases hik : i = k
      · subst hik
        simp only [if_true, linkEdge, hl0d, sp.last_eq]
      · have hlt : i < k := by omega
        rw [if_neg (by omega), sp.new i hlt]
        have hxl : d.halfEdgeCount + i = last ↔ i + 1 = k := by
          rw [sp.last_eq, if_neg (by omega)]; omega
        have hxe : ¬ d.halfEdgeCount + i = end_ := by omega
        simp only [Option.map_some', loopEdge, linkEdge, hxl, hxe, hik, if_false,
          Option.some.injEq, HalfEdge.mk.injEq, true_and, and_true]
        by_cases h1 : i + 1 = k
        · simp [h1]; omega
        · simp [h1]; omega

theorem link_spec {d : VoronoiDiagram} (ok : StoreOK d) (box : Box) {start end_ : Nat}
    (startSide endSide : Side) {s0 e0 : HalfEdge} {fc : Face}
    (hs : d.he start = some s0) (he : d.he end_ = some e0)
    (hf : d.mFaces[s0.incidentFace]? = some fc) :
    ∃ d', link d box start startSide end_ endSide = .ok d' ∧
      LinkSpec d d' box start startSide end_ endSide s0 e0 :=
  linkFuel_spec ok box startSide endSide hs he hf 4 (by unfold turns; omega)

end VoronoiDiagram

end Voronoi

namespace Voronoi

namespace VoronoiDiagram

theorem chain_range' (d : VoronoiDiagram) (b hc : Nat) :
    ∀ (n a : Nat) (_ : d.nextOf a = some hc) (_ : d.prevOf hc = some a)
      (_ : ∀ i, i < n → d.nextOf (hc + i) = some (hc + i + 1))
      (_ : ∀ i, i < n → d.prevOf (hc + i + 1) = some (hc + i))
      (_ : d.nextOf (hc + n) = some b) (_ : d.prevOf b = some (hc + n)),
      Chain d a (List.range' hc (n + 1)) b := by
  intro n
  induction n generalizing hc with
  | zero =>
    intro a h1 h2 _ _ h5 h6
    exact ⟨h1, h2, h5, h6⟩
  | succ n ih =>
    intro a h1 h2 h3 h4 h5 h6
    rw [List.range'_succ]
    refine ⟨h1, h2, ih (hc + 1) hc (h3 0 (by omega)) (h4 0 (by omega)) ?_ ?_ ?_ ?_⟩
    · intro i hi
      have := h3 (i + 1) (by omega)
      rwa [show hc + (i + 1) = hc + 1 + i by omega] at this
    · intro i hi
      have := h4 (i + 1) (by omega)
      rwa [show hc + (i + 1) + 1 = hc + 1 + i + 1 by omega,
        show hc + (i + 1) = hc + 1 + i by omega] at this
    · rwa [show hc + (n + 1) = hc + 1 + n by omega] at h5
    · rwa [show hc + (n + 1) = hc + 1 + n by omega] at h6

theorem LinkSpec.chain {d d' : VoronoiDiagram} {box : Box} {start end_ : Nat}
    {startSide endSide : Side} {s0 e0 : HalfEdge}
    (sp : LinkSpec d d' box start startSide end_ endSide s0 e0)
    (hs : d.he start = some s0) (he : d.he end_ = some e0) (ok : StoreOK d) :
    Chain d' start (List.range' d.halfEdgeCount (turns startSide endSide + 1)) end_ := by
  have hsl := he_lt ok hs
  have hel := he_lt ok he
  apply chain_range'
  · simp [nextOf, sp.old start hsl, hs]
  · have := sp.new 0 (Nat.zero_le _)
    rw [Nat.add_zero] at this
    simp [prevOf, this, linkEdge]
  · intro i hi
    simp only [nextOf, sp.new i (by omega), linkEdge, Option.some_bind]
    rw [if_neg (by omega)]
  · intro i hi
    have := sp.new (i + 1) (by omega)
    rw [show d.halfEdgeCount + (i + 1) = d.halfEdgeCount + i + 1 by omega] at this
    simp only [prevOf, this, linkEdge, Option.some_bind]
    simp
  · simp [nextOf, sp.new _ (le_refl _), linkEdge]
  · simp [prevOf, sp.old end_ hel, he]

end VoronoiDiagram

end Voronoi

namespace Voronoi

namespace VoronoiDiagram

section cases

variable {box : Box} {w : Walk} {h o t : Nat} {r : HalfEdge} {a b : Vertex}

theorem visit_remove (hr : w.d.he h = some r) (rd : Readable w.d r o t a b)
    (hi : box.getIntersections a.point b.point = []) (hin : w.inside = false) :
    visit box w (some h) = .ok
      ({ w with d := w.d.dropHE h, verticesToRemove := emplace w.verticesToRemove o },
       r.next) := by
  simp [visit, deref, halfEdge_eq hr, rd.origin, rd.destination, vertex_eq rd.vo,
    vertex_eq rd.vt, hi, hin, removeHalfEdge_eq hr, bind, Except.bind, pure, Except.pure]

theorem visit_keep (hr : w.d.he h = some r) (rd : Readable w.d r o t a b)
    (hi : (box.getIntersections a.point b.point = [] ∧ w.inside = true) ∨
      3 ≤ (box.getIntersections a.point b.point).length) :
    visit box w (some h) = .ok (w, r.next) := by
  rcases hi with ⟨hi, hin⟩ | hi
  · simp [visit, deref, halfEdge_eq hr, rd.origin, rd.destination, vertex_eq rd.vo,
      vertex_eq rd.vt, hi, hin, bind, Except.bind, pure, Except.pure]
  · match hl : box.getIntersections a.point b.point, hi with
    | _ :: _ :: _ :: _, _ =>
      simp [visit, deref, halfEdge_eq hr, rd.origin, rd.destination, vertex_eq rd.vo,
        vertex_eq rd.vt, hl, bind, Except.bind, pure, Except.pure]

theorem EndChoice.ok1 {sel : HalfEdge → Option Nat} {p : Vector2} {d1 : VoronoiDiagram}
    {x : Option Nat} (c : EndChoice w r sel p d1 x) (ok : StoreOK w.d) : StoreOK d1 := by
  rcases c with ⟨_, _, _, _, h1, _⟩ | ⟨_, h1, _⟩
  · rw [h1]; exact ok
  · rw [h1]; exact pushV_ok ok _

theorem EndChoice.he {sel : HalfEdge → Option Nat} {p : Vector2} {d1 : VoronoiDiagram}
    {x : Option Nat} (c : EndChoice w r sel p d1 x) : d1.he = w.d.he := by
  rcases c with ⟨_, _, _, _, h1, _⟩ | ⟨_, h1, _⟩ <;> rw [h1] <;> rfl

theorem EndChoice.mFaces {sel : HalfEdge → Option Nat} {p : Vector2} {d1 : VoronoiDiagram}
    {x : Option Nat} (c : EndChoice w r sel p d1 x) : d1.mFaces = w.d.mFaces := by
  rcases c with ⟨_, _, _, _, h1, _⟩ | ⟨_, h1, _⟩ <;> rw [h1] <;> rfl

theorem EndChoice2.ok2 {p0 p1 : Vector2} {d1 : VoronoiDiagram}
    {x y : Option Nat} (c : EndChoice2 w r p0 p1 d1 x y) (ok : StoreOK w.d) : StoreOK d1 := by
  rcases c with ⟨_, _, _, _, h1, _⟩ | ⟨_, h1, _⟩
  · rw [h1]; exact ok
  · rw [h1]; exact pushV_ok (pushV_ok ok _) _

theorem EndChoice2.he2 {p0 p1 : Vector2} {d1 : VoronoiDiagram}
    {x y : Option Nat} (c : EndChoice2 w r p0 p1 d1 x y) : d1.he = w.d.he := by
  rcases c with ⟨_, _, _, _, h1, _⟩ | ⟨_, h1, _⟩ <;> rw [h1] <;> rfl

theorem EndChoice2.mFaces2 {p0 p1 : Vector2} {d1 : VoronoiDiagram}
    {x y : Option Nat} (c : EndChoice2 w r p0 p1 d1 x y) : d1.mFaces = w.d.mFaces := by
  rcases c with ⟨_, _, _, _, h1, _⟩ | ⟨_, h1, _⟩ <;> rw [h1] <;> rfl

theorem linkChoice_run (box : Box) {d2 : VoronoiDiagram} (ok2 : StoreOK d2) (side : Side)
    {e0 : HalfEdge} (he : d2.he h = some e0)
    (ol : ∀ o os, w.outgoing = some (o, os) →
      ∃ ro fc, d2.he o = some ro ∧ d2.mFaces[ro.incidentFace]? = some fc) :
    ∃ d3, LinkChoice w d2 box h side d3 ∧ linkPending w d2 box h side = .ok d3 := by
  cases ho : w.outgoing with
  | none => exact ⟨d2, Or.inl ⟨ho, rfl⟩, by simp [linkPending, ho]⟩
  | some p =>
    obtain ⟨o, os⟩ := p
    obtain ⟨ro, fc, hro, hfc⟩ := ol o os ho
    obtain ⟨d3, hrun, sp⟩ := link_spec ok2 box os side hro he hfc
    exact ⟨d3, Or.inr ⟨o, os, ro, e0, ho, hro, he, sp⟩, by simp [linkPending, ho, hrun]⟩

theorem endChoice_exists (tl : TwinLive w r) (sel : HalfEdge → Option Nat) (p : Vector2) :
    ∃ d1 x, EndChoice w r sel p d1 x := by
  cases hp : processedTwin w r with
  | none => exact ⟨_, _, Or.inr ⟨hp, rfl, rfl⟩⟩
  | some tw =>
    obtain ⟨rt, hrt⟩ := tl tw hp
    exact ⟨_, _, Or.inl ⟨tw, rt, hp, hrt, rfl, rfl⟩⟩

theorem endChoice2_exists (tl : TwinLive w r) (p0 p1 : Vector2) :
    ∃ d1 x y, EndChoice2 w r p0 p1 d1 x y := by
  cases hp : processedTwin w r with
  | none => exact ⟨_, _, _, Or.inr ⟨hp, rfl, rfl, rfl⟩⟩
  | some tw =>
    obtain ⟨rt, hrt⟩ := tl tw hp
    exact ⟨_, _, _, Or.inl ⟨tw, rt, hp, hrt, rfl, rfl, rfl⟩⟩

theorem visit_exit (hr : w.d.he h = some r) (rd : Readable w.d r o t a b) (tl : TwinLive w r)
    {i0 : Intersection} (hi : box.getIntersections a.point b.point = [i0])
    (hin : w.inside = true) :
    ∃ d1 x, EndChoice w r HalfEdge.origin i0.point d1 x ∧
      visit box w (some h) = .ok
        ({ w with d := d1.putHE h (fun e => { e with destination := x }),
                  outgoing := some (h, i0.side), inside := false,
                  processedHalfEdges := emplace w.processedHalfEdges h }, r.next) := by
  obtain ⟨d1, x, c⟩ := endChoice_exists tl HalfEdge.origin i0.point
  have h1 : d1.he h = some r := by rw [c.he, hr]
  refine ⟨d1, x, c, ?_⟩
  rcases c with ⟨tw, rt, hp, hrt, rfl, rfl⟩ | ⟨hp, rfl, rfl⟩
  · simp [visit, deref, halfEdge_eq hr, rd.origin, rd.destination, vertex_eq rd.vo,
      vertex_eq rd.vt, hi, hin, bind, Except.bind, pure, Except.pure, hp, halfEdge_eq hrt,
      setHalfEdge_eq h1]
  · simp [visit, deref, halfEdge_eq hr, rd.origin, rd.destination, vertex_eq rd.vo,
      vertex_eq rd.vt, hi, hin, bind, Except.bind, pure, Except.pure, hp, createVertex_eq,
      setHalfEdge_eq h1]

theorem visit_enter (ok : StoreOK w.d) (hr : w.d.he h = some r) (rd : Readable w.d r o t a b)
    (tl : TwinLive w r) (ol : OutLive w h)
    {i0 : Intersection} (hi : box.getIntersections a.point b.point = [i0])
    (hin : w.inside = false) :
    ∃ d1 x d3, EndChoice w r HalfEdge.destination i0.point d1 x ∧
      LinkChoice w (d1.putHE h (fun e => { e with origin := x })) box h i0.side d3 ∧
      visit box w (some h) = .ok
        ({ w with d := d3, verticesToRemove := emplace w.verticesToRemove o,
                  incoming := firstIncoming w h i0.side, inside := true,
                  processedHalfEdges := emplace w.processedHalfEdges h }, r.next) := by
  obtain ⟨d1, x, c⟩ := endChoice_exists tl HalfEdge.destination i0.point
  have h1 : d1.he h = some r := by rw [c.he, hr]
  have ok2 : StoreOK (d1.putHE h (fun e => { e with origin := x })) := putHE_ok (c.ok1 ok) _ _
  have h2 := putHE_some h1 h (fun e => { e with origin := x })
  obtain ⟨d3, lc, hlink⟩ := linkChoice_run (w := w) box ok2 i0.side h2 (by
    intro o' os ho
    obtain ⟨hne, ro, fc, hro, hfc⟩ := ol o' os ho
    refine ⟨ro, fc, ?_, ?_⟩
    · rw [putHE_he, if_neg hne, c.he, hro]
    · rw [putHE_mFaces, c.mFaces, hfc])
  refine ⟨d1, x, d3, c, lc, ?_⟩
  rcases c with ⟨tw, rt, hp, hrt, rfl, rfl⟩ | ⟨hp, rfl, rfl⟩
  · simp [visit, deref, halfEdge_eq hr, rd.origin, rd.destination, vertex_eq rd.vo,
      vertex_eq rd.vt, hi, hin, bind, Except.bind, pure, Except.pure, hp, halfEdge_eq hrt,
      setHalfEdge_eq h1, hlink]
  · simp [visit, deref, halfEdge_eq hr, rd.origin, rd.destination, vertex_eq rd.vo,
      vertex_eq rd.vt, hi, hin, bind, Except.bind, pure, Except.pure, hp, createVertex_eq,
      setHalfEdge_eq h1, hlink]

theorem visit_through (ok : StoreOK w.d) (hr : w.d.he h = some r)
    (rd : Readable w.d r o t a b) (tl : TwinLive w r) (ol : OutLive w h)
    {i0 i1 : Intersection} (hi : box.getIntersections a.point b.point = [i0, i1]) :
    ∃ d1 x y d3, EndChoice2 w r i0.point i1.point d1 x y ∧
      LinkChoice w ((d1.putHE h (fun e => { e with origin := x })).putHE h
        (fun e => { e with destination := y })) box h i0.side d3 ∧
      visit box w (some h) = .ok
        ({ w with d := d3, verticesToRemove := emplace w.verticesToRemove o,
                  incoming := firstIncoming w h i0.side, outgoing := some (h, i1.side),
                  processedHalfEdges := emplace w.processedHalfEdges h }, r.next) := by
  obtain ⟨d1, x, y, c⟩ := endChoice2_exists tl i0.point i1.point
  have h1 : d1.he h = some r := by rw [c.he2, hr]
  have h2 := putHE_some h1 h (fun e => { e with origin := x })
  have h3 := putHE_some h2 h (fun e => { e with destination := y })
  have ok3 : StoreOK ((d1.putHE h (fun e => { e with origin := x })).putHE h
      (fun e => { e with destination := y })) := putHE_ok (putHE_ok (c.ok2 ok) _ _) _ _
  obtain ⟨d3, lc, hlink⟩ := linkChoice_run (w := w) box ok3 i0.side h3 (by
    intro o' os ho
    obtain ⟨hne, ro, fc, hro, hfc⟩ := ol o' os ho
    refine ⟨ro, fc, ?_, ?_⟩
    · rw [putHE_he, if_neg hne, putHE_he, if_neg hne, c.he2, hro]
    · rw [putHE_mFaces, putHE_mFaces, c.mFaces2, hfc])
  refine ⟨d1, x, y, d3, c, lc, ?_⟩
  rcases c with ⟨tw, rt, hp, hrt, rfl, rfl, rfl⟩ | ⟨hp, rfl, rfl, rfl⟩
  · simp [visit, deref, halfEdge_eq hr, rd.origin, rd.destination, vertex_eq rd.vo,
      vertex_eq rd.vt, hi, bind, Except.bind, pure, Except.pure, hp, halfEdge_eq hrt,
      setHalfEdge_eq h1, setHalfEdge_eq h2, hlink]
  · simp [visit, deref, halfEdge_eq hr, rd.origin, rd.destination, vertex_eq rd.vo,
      vertex_eq rd.vt, hi, bind, Except.bind, pure, Except.pure, hp, createVertex_eq,
      setHalfEdge_eq h1, setHalfEdge_eq h2, hlink]

end cases

end VoronoiDiagram

end Voronoi

namespace Voronoi

namespace VoronoiDiagram

section

variable {w : Walk} {h : Nat} {r : HalfEdge}

theorem clipEffect_exit (ok : StoreOK w.d) (hr : w.d.he h = some r) {p : Vector2}
    {d1 : VoronoiDiagram} {x : Option Nat} (c : EndChoice w r HalfEdge.origin p d1 x) :
    ClipEffect w h r [p] (d1.putHE h (fun e => { e with destination := x })) r.origin x ∧
      Src w r (d1.putHE h (fun e => { e with destination := x })) HalfEdge.origin x := by
  have h1 : d1.he h = some r := by rw [c.he, hr]
  rcases c with ⟨tw, rt, hp, hrt, rfl, rfl⟩ | ⟨hp, rfl, rfl⟩
  · refine ⟨⟨putHE_ok ok _ _, by rw [putHE_he, if_pos rfl, hr]; rfl,
      fun y hy => by rw [putHE_he, if_neg hy], rfl, rfl, rfl, by simp, le_refl _,
      fun v _ => rfl, fun v h1 h2 => ?_, fun _ => rfl⟩, Or.inl ⟨tw, rt, hp, hrt, rfl⟩⟩
    simp only [putHE_vertexCount] at h2; omega
  · refine ⟨⟨putHE_ok (pushV_ok ok _) _ _, by rw [putHE_he, if_pos rfl, pushV_he, hr]; rfl,
      fun y hy => by rw [putHE_he, if_neg hy, pushV_he], rfl, rfl, rfl, by simp, by simp,
      fun v hv => ?_, fun v h1 h2 => ?_, fun hn => absurd hp hn⟩,
      Or.inr ⟨hp, _, rfl, le_refl _, by simp⟩⟩
    · rw [putHE_vx, pushV_vx ok, if_neg (by omega)]
    · simp only [putHE_vertexCount, pushV_vertexCount] at h2
      have hv : v = w.d.vertexCount := by omega
      subst hv
      exact ⟨⟨_, by rw [putHE_vx, pushV_vx ok, if_pos rfl], by simp⟩, Or.inr rfl⟩

theorem clipEffect_enter (ok : StoreOK w.d) (hr : w.d.he h = some r) {p : Vector2}
    {d1 : VoronoiDiagram} {x : Option Nat} (c : EndChoice w r HalfEdge.destination p d1 x) :
    ClipEffect w h r [p] (d1.putHE h (fun e => { e with origin := x })) x r.destination ∧
      Src w r (d1.putHE h (fun e => { e with origin := x })) HalfEdge.destination x := by
  have h1 : d1.he h = some r := by rw [c.he, hr]
  rcases c with ⟨tw, rt, hp, hrt, rfl, rfl⟩ | ⟨hp, rfl, rfl⟩
  · refine ⟨⟨putHE_ok ok _ _, by rw [putHE_he, if_pos rfl, hr]; rfl,
      fun y hy => by rw [putHE_he, if_neg hy], rfl, rfl, rfl, by simp, le_refl _,
      fun v _ => rfl, fun v h1 h2 => ?_, fun _ => rfl⟩, Or.inl ⟨tw, rt, hp, hrt, rfl⟩⟩
    simp only [putHE_vertexCount] at h2; omega
  · refine ⟨⟨putHE_ok (pushV_ok ok _) _ _, by rw [putHE_he, if_pos rfl, pushV_he, hr]; rfl,
      fun y hy => by rw [putHE_he, if_neg hy, pushV_he], rfl, rfl, rfl, by simp, by simp,
      fun v hv => ?_, fun v h1 h2 => ?_, fun hn => absurd hp hn⟩,
      Or.inr ⟨hp, _, rfl, le_refl _, by simp⟩⟩
    · rw [putHE_vx, pushV_vx ok, if_neg (by omega)]
    · simp only [putHE_vertexCount, pushV_vertexCount] at h2
      have hv : v = w.d.vertexCount := by omega
      subst hv
      exact ⟨⟨_, by rw [putHE_vx, pushV_vx ok, if_pos rfl], by simp⟩, Or.inl rfl⟩

theorem clipEffect_through (ok : StoreOK w.d) (hr : w.d.he h = some r) {p0 p1 : Vector2}
    {d1 : VoronoiDiagram} {x y : Option Nat} (c : EndChoice2 w r p0 p1 d1 x y) :
    ClipEffect w h r [p0, p1] ((d1.putHE h (fun e => { e with origin := x })).putHE h
        (fun e => { e with destination := y })) x y ∧
      Src w r ((d1.putHE h (fun e => { e with origin := x })).putHE h
        (fun e => { e with destination := y })) HalfEdge.destination x ∧
      Src w r ((d1.putHE h (fun e => { e with origin := x })).putHE h
        (fun e => { e with destination := y })) HalfEdge.origin y := by
  have h1 : d1.he h = some r := by rw [c.he2, hr]
  rcases c with ⟨tw, rt, hp, hrt, rfl, rfl, rfl⟩ | ⟨hp, rfl, rfl, rfl⟩
  · refine ⟨⟨putHE_ok (putHE_ok ok _ _) _ _,
      by rw [putHE_he, if_pos rfl, putHE_he, if_pos rfl, hr]; rfl,
      fun z hz => by rw [putHE_he, if_neg hz, putHE_he, if_neg hz], rfl, rfl, rfl, by simp,
      le_refl _, fun v _ => rfl, fun v h1 h2 => ?_, fun _ => rfl⟩,
      Or.inl ⟨tw, rt, hp, hrt, rfl⟩, Or.inl ⟨tw, rt, hp, hrt, rfl⟩⟩
    simp only [putHE_vertexCount] at h2; omega
  · have ok1 := pushV_ok ok p0
    refine ⟨⟨putHE_ok (putHE_ok (pushV_ok ok1 _) _ _) _ _,
      by rw [putHE_he, if_pos rfl, putHE_he, if_pos rfl, pushV_he, pushV_he, hr]; rfl,
      fun z hz => by rw [putHE_he, if_neg hz, putHE_he, if_neg hz, pushV_he, pushV_he],
      rfl, rfl, rfl, by simp, by simp; omega,
      fun v hv => ?_, fun v h1 h2 => ?_, fun hn => absurd hp hn⟩,
      Or.inr ⟨hp, _, rfl, le_refl _, by simp; omega⟩, Or.inr ⟨hp, _, rfl, by omega, by simp⟩⟩
    · rw [putHE_vx, putHE_vx, pushV_vx ok1, pushV_vertexCount, if_neg (by omega), pushV_vx ok,
        if_neg (by omega)]
    · simp only [putHE_vertexCount, pushV_vertexCount] at h2
      rcases (by omega : v = w.d.vertexCount ∨ v = w.d.vertexCount + 1) with hv | hv
      · subst hv
        exact ⟨⟨_, by rw [putHE_vx, putHE_vx, pushV_vx ok1, pushV_vertexCount,
          if_neg (by omega), pushV_vx ok, if_pos rfl], by simp⟩, Or.inl rfl⟩
      · subst hv
        exact ⟨⟨_, by rw [putHE_vx, putHE_vx, pushV_vx ok1, pushV_vertexCount, if_pos rfl],
          by simp⟩, Or.inr rfl⟩

end

end VoronoiDiagram

end Voronoi

namespace Voronoi

namespace VoronoiDiagram

theorem cornerPoint_mem (box : Box) (s : Side) : cornerPoint box s ∈ corners box := by
  cases s <;> simp [corners]

theorem lookup_cornerList (box : Box) (v : Nat) :
    ∀ (k side vc : Nat), lookup (cornerList box side vc k) v =
      if vc ≤ v ∧ v < vc + k then
        some { point := cornerPoint box (Side.ofInt ((side + 1 + (v - vc)) % 4)) }
      else none := by
  intro k
  induction k with
  | zero =>
    intro side vc
    have : ¬ (vc ≤ v ∧ v < vc + 0) := by omega
    rw [if_neg this]
    rfl
  | succ k ih =>
    intro side vc
    simp only [cornerList, lookup]
    by_cases hv : vc = v
    · subst hv; simp
    · rw [if_neg hv, ih]
      by_cases h1 : vc + 1 ≤ v ∧ v < vc + 1 + k
      · have h2 : vc ≤ v ∧ v < vc + (k + 1) := by omega
        rw [if_pos h1, if_pos h2]
        have e : ((side + 1) % 4 + 1 + (v - (vc + 1))) % 4 = (side + 1 + (v - vc)) % 4 := by omega
        rw [e]
      · have h2 : ¬ (vc ≤ v ∧ v < vc + (k + 1)) := by omega
        rw [if_neg h1, if_neg h2]

theorem LinkSpec.vx {d d' : VoronoiDiagram} {box : Box} {start end_ : Nat}
    {startSide endSide : Side} {s0 e0 : HalfEdge}
    (sp : LinkSpec d d' box start startSide end_ endSide s0 e0) (ok : StoreOK d) (v : Nat) :
    d'.vx v = if v < d.vertexCount then d.vx v
      else if v < d'.vertexCount then
        some (Vertex.mk (cornerPoint box
          (Side.ofInt ((startSide.toInt + 1 + (v - d.vertexCount)) % 4))))
      else none := by
  unfold VoronoiDiagram.vx
  rw [sp.verts, lookup_append, lookup_cornerList, sp.vcount]
  by_cases h1 : v < d.vertexCount
  · rw [if_pos h1, if_neg (by omega)]
    cases lookup d.mVertices v <;> rfl
  · have : lookup d.mVertices v = none := vx_fresh ok (by omega)
    rw [if_neg h1, this]
    by_cases h2 : v < d.vertexCount + turns startSide endSide
    · rw [if_pos h2, if_pos ⟨by omega, h2⟩]; rfl
    · rw [if_neg h2, if_neg (by omega)]; rfl

theorem he_map_self (o : Option HalfEdge) :
    o.map (fun e => { e with next := HalfEdge.next e, prev := HalfEdge.prev e }) = o := by
  cases o <;> rfl

section

variable {w : Walk} {d2 d3 : VoronoiDiagram} {box : Box} {h : Nat} {side : Side}

theorem LinkChoice.ok (lc : LinkChoice w d2 box h side d3) (ok2 : StoreOK d2) : StoreOK d3 := by
  rcases lc with ⟨_, rfl⟩ | ⟨o, os, s0, e0, _, _, _, sp⟩
  · exact ok2
  · exact sp.ok

theorem LinkChoice.sites (lc : LinkChoice w d2 box h side d3) : d3.mSites = d2.mSites := by
  rcases lc with ⟨_, rfl⟩ | ⟨o, os, s0, e0, _, _, _, sp⟩
  · rfl
  · exact sp.sites

theorem LinkChoice.hcount (lc : LinkChoice w d2 box h side d3) :
    d2.halfEdgeCount ≤ d3.halfEdgeCount := by
  rcases lc with ⟨_, rfl⟩ | ⟨o, os, s0, e0, _, _, _, sp⟩
  · exact le_refl _
  · rw [sp.hcount]; omega

theorem LinkChoice.vcount (lc : LinkChoice w d2 box h side d3) :
    d2.vertexCount ≤ d3.vertexCount := by
  rcases lc with ⟨_, rfl⟩ | ⟨o, os, s0, e0, _, _, _, sp⟩
  · exact le_refl _
  · rw [sp.vcount]; omega

/-- The function `link` leaves the faces alone when the face of `start` has an outer
component. -/
theorem LinkChoice.faces (lc : LinkChoice w d2 box h side d3)
    (hoc : ∀ o os ro, w.outgoing = some (o, os) → d2.he o = some ro →
      ∃ fc, d2.mFaces[ro.incidentFace]? = some fc ∧ fc.outerComponent ≠ none) :
    d3.mFaces = d2.mFaces := by
  rcases lc with ⟨_, rfl⟩ | ⟨o, os, s0, e0, ho, hs, _, sp⟩
  · rfl
  · obtain ⟨fc, hfc, hne⟩ := hoc o os s0 ho hs
    rw [sp.faces]
    simp [ocInit, hfc, hne]

theorem LinkChoice.vold (lc : LinkChoice w d2 box h side d3) (ok2 : StoreOK d2) (v : Nat)
    (hv : v < d2.vertexCount) : d3.vx v = d2.vx v := by
  rcases lc with ⟨_, rfl⟩ | ⟨o, os, s0, e0, _, _, _, sp⟩
  · rfl
  · rw [sp.vx ok2, if_pos hv]

/-- The half-edges that were there: `link` changes `next` of `start` and `prev` of `end`. -/
theorem LinkChoice.he_old (lc : LinkChoice w d2 box h side d3) (x : Nat)
    (hx : x < d2.halfEdgeCount) :
    ∃ n p, d3.he x = (d2.he x).map (fun e => { e with next := n e, prev := p e }) ∧
      ((∀ o os, w.outgoing = some (o, os) → x ≠ o) → n = HalfEdge.next) ∧
      (x ≠ h → p = HalfEdge.prev) := by
  rcases lc with ⟨_, rfl⟩ | ⟨o, os, s0, e0, ho, _, _, sp⟩
  · exact ⟨HalfEdge.next, HalfEdge.prev, (he_map_self _).symm, fun _ => rfl, fun _ => rfl⟩
  · refine ⟨_, _, sp.old x hx, fun hne => ?_, fun hne => ?_⟩
    · have := hne o os ho
      funext e; simp [this]
    · funext e; simp [hne]

theorem LinkChoice.he_other (lc : LinkChoice w d2 box h side d3) (x : Nat)
    (hx : x < d2.halfEdgeCount) (hxh : x ≠ h) (hxo : ∀ o os, w.outgoing = some (o, os) → x ≠ o) :
    d3.he x = d2.he x := by
  obtain ⟨n, p, h1, h2, h3⟩ := lc.he_old x hx
  rw [h1, h2 hxo, h3 hxh]
  exact he_map_self _

/-- The same, field by field. -/
theorem LinkChoice.he_keep (lc : LinkChoice w d2 box h side d3) {x : Nat} {r : HalfEdge}
    (hx : d2.he x = some r) (ok2 : StoreOK d2) :
    ∃ r', d3.he x = some r' ∧ r'.origin = r.origin ∧ r'.destination = r.destination ∧
      r'.twin = r.twin ∧ r'.incidentFace = r.incidentFace ∧
      ((∀ o os, w.outgoing = some (o, os) → x ≠ o) → r'.next = r.next) ∧
      (x ≠ h → r'.prev = r.prev) := by
  obtain ⟨n, p, h1, h2, h3⟩ := lc.he_old x (he_lt ok2 hx)
  rw [hx] at h1
  refine ⟨_, h1, rfl, rfl, rfl, rfl, fun hh => ?_, fun hh => ?_⟩
  · rw [h2 hh]
  · rw [h3 hh]

theorem LinkChoice.he_dead (lc : LinkChoice w d2 box h side d3) {x : Nat}
    (hx : x < d2.halfEdgeCount) (hd : d2.he x = none) : d3.he x = none := by
  obtain ⟨n, p, h1, -, -⟩ := lc.he_old x hx
  rw [h1, hd]; rfl

/-- The half-edges that `link` made. -/
theorem LinkChoice.he_new (lc : LinkChoice w d2 box h side d3) (ok2 : StoreOK d2) {x : Nat}
    {r' : HalfEdge} (hx : d2.halfEdgeCount ≤ x) (hr : d3.he x = some r') :
    ∃ o os s0 e0, w.outgoing = some (o, os) ∧ d2.he o = some s0 ∧ d2.he h = some e0 ∧
      r'.twin = none ∧ r'.incidentFace = s0.incidentFace ∧
      (r'.origin = s0.destination ∨
        ∃ v, r'.origin = some v ∧ d2.vertexCount ≤ v ∧ v < d3.vertexCount) ∧
      (r'.destination = e0.origin ∨
        ∃ v, r'.destination = some v ∧ d2.vertexCount ≤ v ∧ v < d3.vertexCount) := by
  rcases lc with ⟨_, rfl⟩ | ⟨o, os, s0, e0, ho, hs, he, sp⟩
  · rw [he_fresh ok2 hx] at hr; cases hr
  · have hlt := he_lt sp.ok hr
    rw [sp.hcount] at hlt
    obtain ⟨i, rfl⟩ : ∃ i, x = d2.halfEdgeCount + i := ⟨x - d2.halfEdgeCount, by omega⟩
    have hi : i ≤ turns os side := by omega
    rw [sp.new i hi] at hr
    cases hr
    refine ⟨o, os, s0, e0, ho, hs, he, rfl, rfl, ?_, ?_⟩
    · simp only [linkEdge]
      by_cases h0 : i = 0
      · left; simp [h0]
      · right; rw [if_neg h0]; exact ⟨_, rfl, by omega, by rw [sp.vcount]; omega⟩
    · simp only [linkEdge]
      by_cases h0 : i = turns os side
      · left; simp [h0]
      · right; rw [if_neg h0]; exact ⟨_, rfl, by omega, by rw [sp.vcount]; omega⟩

/-- The vertices that `link` made: corners of the box, each the end of a new half-edge. -/
theorem LinkChoice.vnew (lc : LinkChoice w d2 box h side d3) (ok2 : StoreOK d2) {v : Nat}
    (h1 : d2.vertexCount ≤ v) (h2 : v < d3.vertexCount) :
    (∃ a, d3.vx v = some a ∧ a.point ∈ corners box) ∧
      ∃ x r', d2.halfEdgeCount ≤ x ∧ d3.he x = some r' ∧ r'.destination = some v := by
  rcases lc with ⟨_, rfl⟩ | ⟨o, os, s0, e0, ho, hs, he, sp⟩
  · omega
  · refine ⟨⟨Vertex.mk (cornerPoint box
        (Side.ofInt ((os.toInt + 1 + (v - d2.vertexCount)) % 4))),
      by rw [sp.vx ok2, if_neg (by omega), if_pos h2], cornerPoint_mem _ _⟩, ?_⟩
    rw [sp.vcount] at h2
    obtain ⟨i, rfl⟩ : ∃ i, v = d2.vertexCount + i := ⟨v - d2.vertexCount, by omega⟩
    refine ⟨d2.halfEdgeCount + i, _, by omega, sp.new i (by omega), ?_⟩
    simp only [linkEdge]
    rw [if_neg (by omega)]

end

end VoronoiDiagram

end Voronoi

namespace Voronoi

namespace VoronoiDiagram

theorem visit_total {box : Box} {w : Walk} {h o t : Nat} {r : HalfEdge} {a b : Vertex}
    (ok : StoreOK w.d) (hr : w.d.he h = some r) (rd : Readable w.d r o t a b)
    (tl : TwinLive w r) (ol : OutLive w h) :
    ∃ w', visit box w (some h) = .ok (w', r.next) ∧
      VisitCase box w h r o (box.getIntersections a.point b.point) w' := by
  match hi : box.getIntersections a.point b.point with
  | [] =>
    cases hin : w.inside with
    | false => exact ⟨_, visit_remove hr rd hi hin, .remove rfl hin⟩
    | true => exact ⟨_, visit_keep hr rd (Or.inl ⟨hi, hin⟩), .keep (Or.inl ⟨rfl, hin⟩)⟩
  | [i0] =>
    cases hin : w.inside with
    | true =>
      obtain ⟨d1, x, c, hrun⟩ := visit_exit hr rd tl hi hin
      obtain ⟨ce, src⟩ := clipEffect_exit ok hr c
      exact ⟨_, hrun, .exit i0 _ x rfl hin ce src⟩
    | false =>
      obtain ⟨d1, x, d3, c, lc, hrun⟩ := visit_enter ok hr rd tl ol hi hin
      obtain ⟨ce, src⟩ := clipEffect_enter ok hr c
      exact ⟨_, hrun, .enter i0 _ x d3 rfl hin ce src lc⟩
  | [i0, i1] =>
    obtain ⟨d1, x, y, d3, c, lc, hrun⟩ := visit_through ok hr rd tl ol hi
    obtain ⟨ce, src1, src2⟩ := clipEffect_through ok hr c
    exact ⟨_, hrun, .through i0 i1 _ x y d3 rfl ce src1 src2 lc⟩
  | _ :: _ :: _ :: _ =>
    exact ⟨_, visit_keep hr rd (Or.inr (by simp [hi])), .keep (Or.inr (by simp))⟩

end VoronoiDiagram

end Voronoi

namespace Voronoi

namespace VoronoiDiagram

theorem mem_emplace {s : List Nat} {x y : Nat} : y ∈ emplace s x ↔ y ∈ s ∨ y = x := by
  unfold emplace
  by_cases h : x ∈ s
  · rw [if_pos h]
    constructor
    · exact Or.inl
    · rintro (h1 | rfl)
      · exact h1
      · exact h
  · rw [if_neg h]; simp

theorem firstIncoming_cases (w : Walk) (h : Nat) (s : Side) :
    (w.incoming = none ∧ firstIncoming w h s = some (h, s)) ∨
    (∃ x, w.incoming = some x ∧ firstIncoming w h s = some x) := by
  unfold firstIncoming
  cases w.incoming with
  | none => exact Or.inl ⟨rfl, rfl⟩
  | some x => exact Or.inr ⟨x, rfl, rfl⟩

/-- The effect of a clip followed by the pending link. -/
theorem clip_link_effect {w : Walk} {h : Nat} {r : HalfEdge} {pts : List Vector2}
    {d2 d3 : VoronoiDiagram} {O D : Option Nat} {box : Box} {side : Side}
    (ok : StoreOK w.d) (hr : w.d.he h = some r)
    (ce : ClipEffect w h r pts d2 O D) {wl : Walk} (lc : LinkChoice wl d2 box h side d3)
    (hwl : ∀ o os, wl.outgoing = some (o, os) → w.outgoing = some (o, os))
    (w' : Walk) (hd : w'.d = d3)
    (hp : ∀ x, x ∈ w'.processedHalfEdges → x ∈ w.processedHalfEdges ∨ x = h)
    (hpm : ∀ x, x ∈ w.processedHalfEdges → x ∈ w'.processedHalfEdges)
    (hm : ∀ x, x ∈ w.verticesToRemove → x ∈ w'.verticesToRemove)
    (ho : w'.outgoing = w.outgoing ∨ ∃ s, w'.outgoing = some (h, s))
    (hinc : w'.incoming = w.incoming ∨ ∃ s, w'.incoming = some (h, s)) :
    VEff w w' h := by
  have hlive : ∃ r', d3.he h = some r' := by
    obtain ⟨r', h1, _⟩ := lc.he_keep ce.he_self ce.ok
    exact ⟨r', h1⟩
  refine ⟨hd ▸ lc.ok ce.ok, by rw [hd, lc.sites, ce.sites],
    by rw [hd]; exact le_trans (le_of_eq ce.hcount.symm) lc.hcount,
    by rw [hd]; exact le_trans ce.vcount lc.vcount, ?_, ?_, ?_, ?_, ?_, ?_, ?_, ?_, hm, ?_, ?_,
    ?_⟩
  · intro v hv
    rw [hd, lc.vold ce.ok v (by have := ce.vcount; omega), ce.vold v hv]
  · intro x hx hxh hxo
    rw [hd, lc.he_other x (by rw [ce.hcount]; exact hx) hxh
      (fun o os ho => hxo o os (hwl o os ho)), ce.he_other x hxh]
  · intro x r1 hx hxh
    have h2 : d2.he x = some r1 := by rw [ce.he_other x hxh, hx]
    obtain ⟨r', h3, h4, h5, h6, h7, -, h8⟩ := lc.he_keep h2 ce.ok
    exact ⟨r', hd ▸ h3, h4, h5, h6, h7, h8 hxh⟩
  · intro r' hr'
    rw [hd] at hr'
    obtain ⟨r'', h3, -, -, h6, h7, -, -⟩ := lc.he_keep ce.he_self ce.ok
    rw [h3] at hr'
    cases hr'
    exact ⟨r, hr, h6, h7⟩
  · intro x r' hx hr'
    rw [hd] at hr'
    obtain ⟨o, os, s0, e0, h1, h2, -, h4, h5, -⟩ :=
      lc.he_new ce.ok (by rw [ce.hcount]; exact hx) hr'
    by_cases hoh : o = h
    · subst hoh
      rw [ce.he_self] at h2; cases h2
      exact ⟨h4, o, os, r, hwl o os h1, hr, h5⟩
    · refine ⟨h4, o, os, s0, hwl o os h1, ?_, h5⟩
      rw [← ce.he_other o hoh, h2]
  · intro x hx hdead
    have hxh : x ≠ h := by rintro rfl; rw [hr] at hdead; cases hdead
    rw [hd]
    exact lc.he_dead (by rw [ce.hcount]; exact hx) (by rw [ce.he_other x hxh, hdead])
  · intro x hx
    rcases hp x hx with h1 | h1
    · exact Or.inl h1
    · exact Or.inr ⟨h1, hd ▸ hlive⟩
  · exact hpm
  · intro o os h1
    rcases ho with h2 | ⟨s, h2⟩
    · exact Or.inl (h2 ▸ h1)
    · rw [h2] at h1
      cases h1
      exact Or.inr ⟨rfl, hd ▸ hlive⟩
  · intro i s h1
    rcases hinc with h2 | ⟨s', h2⟩
    · exact Or.inl (h2 ▸ h1)
    · rw [h2] at h1
      cases h1
      exact Or.inr ⟨rfl, hd ▸ hlive⟩
  · intro hoc
    rw [hd, lc.faces, ce.faces]
    intro o os ro h1 h2
    rw [ce.faces]
    by_cases hoh : o = h
    · subst hoh
      rw [ce.he_self] at h2; cases h2
      exact hoc o os r (hwl o os h1) hr
    · rw [ce.he_other o hoh] at h2
      exact hoc o os ro (hwl o os h1) h2

theorem LinkChoice.none (w : Walk) (d2 : VoronoiDiagram) (box : Box) (h : Nat) (side : Side)
    (hn : w.outgoing = none) : LinkChoice w d2 box h side d2 := Or.inl ⟨hn, rfl⟩

theorem VisitCase.effect {box : Box} {w w' : Walk} {h o : Nat} {r : HalfEdge}
    {ints : List Intersection} (vc : VisitCase box w h r o ints w')
    (ok : StoreOK w.d) (hr : w.d.he h = some r) : VEff w w' h := by
  cases vc with
  | remove hi hin =>
    refine ⟨dropHE_ok ok _, rfl, le_refl _, le_refl _, fun _ _ => rfl, ?_, ?_, ?_, ?_, ?_,
      fun x hx => Or.inl hx, fun x hx => hx, fun x hx => mem_emplace.2 (Or.inl hx),
      fun o os hx => Or.inl hx, fun i s hx => Or.inl hx, fun _ => rfl⟩
    · intro x _ hxh _
      exact dropHE_he_ne _ _ hxh
    · intro x r1 hx hxh
      exact ⟨r1, (dropHE_he_ne _ _ hxh).trans hx, rfl, rfl, rfl, rfl, rfl⟩
    · intro r' hr'
      have : (w.d.dropHE h).he h = none := by rw [dropHE_he ok, if_pos rfl]
      change (w.d.dropHE h).he _ = some r' at hr'
      rw [this] at hr'
      cases hr'
    · intro x r' hx hr'
      have : (w.d.dropHE h).he x = none := by
        rw [dropHE_he ok]; split
        · rfl
        · exact he_fresh ok hx
      change (w.d.dropHE h).he _ = some r' at hr'
      rw [this] at hr'
      cases hr'
    · intro x _ hdead
      show (w.d.dropHE h).he x = none
      rw [dropHE_he ok]; split
      · rfl
      · exact hdead
  | keep hi =>
    exact ⟨ok, rfl, le_refl _, le_refl _, fun _ _ => rfl, fun _ _ _ _ => rfl,
      fun x r1 hx _ => ⟨r1, hx, rfl, rfl, rfl, rfl, rfl⟩,
      fun r' hr' => ⟨r', hr', rfl, rfl⟩,
      fun x r' hx hr' => absurd ((he_fresh ok hx).symm.trans hr') (by simp),
      fun _ _ hd => hd, fun x hx => Or.inl hx, fun x hx => hx, fun x hx => hx,
      fun o os hx => Or.inl hx, fun i s hx => Or.inl hx, fun _ => rfl⟩
  | exit i0 d2 D hi hin ce src =>
    have lc : LinkChoice { w with outgoing := none } d2 box h i0.side d2 := Or.inl ⟨rfl, rfl⟩
    have e := clip_link_effect ok hr ce lc (by intro o os ho; cases ho)
      { w with d := d2, outgoing := some (h, i0.side), inside := false,
               processedHalfEdges := emplace w.processedHalfEdges h } rfl
      (fun x => mem_emplace.1) (fun x hx => mem_emplace.2 (Or.inl hx)) (fun x hx => hx)
      (Or.inr ⟨_, rfl⟩) (Or.inl rfl)
    refine ⟨e.ok, e.sites, e.hcount, e.vcount, e.vold, e.other, e.keep, e.self, e.new, e.dead,
      e.proc, e.proc_mono, e.marks_mono, e.out, e.inc, fun _ => ?_⟩
    exact ce.faces
  | enter i0 d2 O d3 hi hin ce src lc =>
    refine clip_link_effect ok hr ce lc (fun _ _ ho => ho) _ rfl (fun x => mem_emplace.1)
      (fun x hx => mem_emplace.2 (Or.inl hx)) (fun x hx => mem_emplace.2 (Or.inl hx)) (Or.inl rfl) ?_
    rcases firstIncoming_cases w h i0.side with ⟨_, h2⟩ | ⟨x, h1, h2⟩
    · exact Or.inr ⟨_, h2⟩
    · exact Or.inl (by rw [h1]; exact h2)
  | through i0 i1 d2 O D d3 hi ce src1 src2 lc =>
    refine clip_link_effect ok hr ce lc (fun _ _ ho => ho) _ rfl (fun x => mem_emplace.1)
      (fun x hx => mem_emplace.2 (Or.inl hx)) (fun x hx => mem_emplace.2 (Or.inl hx)) (Or.inr ⟨_, rfl⟩) ?_
    rcases firstIncoming_cases w h i0.side with ⟨_, h2⟩ | ⟨x, h1, h2⟩
    · exact Or.inr ⟨_, h2⟩
    · exact Or.inl (by rw [h1]; exact h2)

end VoronoiDiagram

end Voronoi

namespace Voronoi

namespace VoronoiDiagram

theorem walk_induct (box : Box) (f e0 : Nat) (Q : List Nat → Walk → Prop)
    (hpre : ∀ h rem w, Q (h :: rem) w → ∃ r o t a b, w.d.he h = some r ∧
      Readable w.d r o t a b ∧ r.next = some ((rem ++ [e0]).headD e0) ∧ StoreOK w.d ∧
      TwinLive w r ∧ OutLive w h ∧ OutFace w ∧
      (∃ fc, w.d.mFaces[f]? = some fc ∧ fc.outerComponent = some e0) ∧
      ∀ w', VisitCase box w h r o (box.getIntersections a.point b.point) w' → Q rem w') :
    ∀ (rem : List Nat) (h : Nat) (w : Walk), Q (h :: rem) w → (∀ x ∈ rem, x ≠ e0) →
      ∀ fuel, (rem.length + 1 ≤ fuel → ∃ w', walk fuel box f w (some h) = .ok w' ∧ Q [] w') ∧
        (∀ w', walk fuel box f w (some h) = .ok w' → Q [] w') := by
  intro rem
  induction rem with
  | nil =>
    intro h w hq _ fuel
    obtain ⟨r, o, t, a, b, hr, rd, hn, ok, tl, ol, hoc, ⟨fc, hfc, hoc0⟩, hstep⟩ := hpre h [] w hq
    obtain ⟨w1, hrun, vcase⟩ := @visit_total box _ _ _ _ _ _ _ ok hr rd tl ol
    have eff := vcase.effect ok hr
    have hf1 : w1.d.face f = .ok fc := face_eq (by rw [eff.faces hoc, hfc])
    have hq1 := hstep w1 vcase
    cases fuel with
    | zero => exact ⟨fun hh => by omega, fun w' hw => by simp [walk] at hw⟩
    | succ fuel =>
      have hw : walk (fuel + 1) box f w (some h) = .ok w1 := by
        simp [walk, hrun, hf1, hn, hoc0]
      exact ⟨fun _ => ⟨w1, hw, hq1⟩, fun w' hw' => by
        rw [hw] at hw'; cases hw'; exact hq1⟩
  | cons b rem ih =>
    intro h w hq hne fuel
    obtain ⟨r, o, t, a, b', hr, rd, hn, ok, tl, ol, hoc, ⟨fc, hfc, hoc0⟩, hstep⟩ :=
      hpre h (b :: rem) w hq
    obtain ⟨w1, hrun, vcase⟩ := @visit_total box _ _ _ _ _ _ _ ok hr rd tl ol
    have eff := vcase.effect ok hr
    have hf1 : w1.d.face f = .ok fc := face_eq (by rw [eff.faces hoc, hfc])
    have hq1 := hstep w1 vcase
    have hb : b ≠ e0 := hne b (List.mem_cons_self _ _)
    cases fuel with
    | zero => exact ⟨fun hh => by omega, fun w' hw => by simp [walk] at hw⟩
    | succ fuel =>
      have hw : walk (fuel + 1) box f w (some h) = walk fuel box f w1 (some b) := by
        simp [walk, hrun, hf1, hn, hoc0, hb]
      rw [hw]
      obtain ⟨i1, i2⟩ := ih b w1 hq1 (fun x hx => hne x (List.mem_cons_of_mem _ hx)) fuel
      exact ⟨fun hh => i1 (by simp at hh ⊢; omega), i2⟩

end VoronoiDiagram

end Voronoi

namespace Voronoi

namespace VoronoiDiagram

/-! ## What well-formedness gives -/

theorem chain'_step {R : Nat → Nat → Prop} {h e0 : Nat} {rem : List Nat}
    (hc : List.Chain' R ((h :: rem) ++ [e0])) :
    R h ((rem ++ [e0]).headD e0) ∧ List.Chain' R (rem ++ [e0]) := by
  cases rem with
  | nil =>
    simp only [List.nil_append, List.cons_append, List.chain'_cons, List.chain'_singleton,
      and_true] at hc
    exact ⟨hc, List.chain'_singleton _⟩
  | cons b rem =>
    simp only [List.cons_append, List.chain'_cons] at hc
    exact ⟨hc.1, by simpa using hc.2⟩

theorem Follows.next {d : VoronoiDiagram} {a b : Nat} {r : HalfEdge} (hf : Follows d a b)
    (hr : d.he a = some r) : r.next = some b := by
  have := hf.1
  simpa [nextOf, hr] using this

theorem Follows.prev {d : VoronoiDiagram} {a b : Nat} {r : HalfEdge} (hf : Follows d a b)
    (hr : d.he b = some r) : r.prev = some a := by
  have := hf.2.1
  simpa [prevOf, hr] using this

theorem Follows.origin {d : VoronoiDiagram} {a b : Nat} {ra rb : HalfEdge} (hf : Follows d a b)
    (ha : d.he a = some ra) (hb : d.he b = some rb) : rb.origin = ra.destination := by
  have := hf.2.2
  simpa [ha, hb] using this

section wf

variable {d0 : VoronoiDiagram} {cyc : Nat → List Nat}

theorem WellFormed.store (wf : WellFormed d0 cyc) : StoreOK d0 := wf.1

theorem WellFormed.edge (wf : WellFormed d0 cyc) {x : Nat} {r : HalfEdge}
    (hx : d0.he x = some r) : EdgeOK d0 cyc x r :=
  wf.2.2.2 (x, r) (mem_of_lookup hx)

theorem WellFormed.readable (wf : WellFormed d0 cyc) {x : Nat} {r : HalfEdge}
    (hx : d0.he x = some r) : ∃ o t a b, Readable d0 r o t a b := by
  obtain ⟨h1, h2, -⟩ := wf.edge hx
  cases ho : r.origin with
  | none => simp [ho] at h1
  | some o =>
    cases ht : r.destination with
    | none => simp [ht] at h2
    | some t =>
      simp only [ho, ht, Option.some_bind, Option.isSome_iff_exists] at h1 h2
      obtain ⟨a, ha⟩ := h1
      obtain ⟨b, hb⟩ := h2
      exact ⟨o, t, a, b, ho, ha, ht, hb⟩

theorem WellFormed.face_lt (wf : WellFormed d0 cyc) {x : Nat} {r : HalfEdge}
    (hx : d0.he x = some r) : r.incidentFace < d0.mFaces.length := (wf.edge hx).2.2.1

theorem WellFormed.mem_cyc (wf : WellFormed d0 cyc) {x : Nat} {r : HalfEdge}
    (hx : d0.he x = some r) : x ∈ cyc r.incidentFace := (wf.edge hx).2.2.2.1

theorem WellFormed.twin (wf : WellFormed d0 cyc) {x tw : Nat} {r : HalfEdge}
    (hx : d0.he x = some r) (ht : r.twin = some tw) :
    ∃ rt, d0.he tw = some rt ∧ rt.twin = some x ∧ rt.origin = r.destination ∧
      rt.destination = r.origin ∧ tw ≠ x := by
  obtain ⟨h0, h1, h2, h3⟩ := (wf.edge hx).2.2.2.2 tw ht
  cases hq : d0.he tw with
  | none => simp [hq] at h1
  | some rt =>
    simp only [hq, Option.map_some', Option.some.injEq, Option.some_bind] at h1 h2 h3
    exact ⟨rt, rfl, h1, h2, h3, h0⟩

theorem WellFormed.cycle (wf : WellFormed d0 cyc) {f : Nat} (hf : f < d0.mFaces.length) :
    CycleOK d0 f (cyc f) := wf.2.2.1 f hf

theorem WellFormed.cyc_live (wf : WellFormed d0 cyc) {f x : Nat} (hf : f < d0.mFaces.length)
    (hx : x ∈ cyc f) : ∃ r, d0.he x = some r ∧ r.incidentFace = f := by
  have := (wf.cycle hf).2.2.2.1 x hx
  cases hq : d0.he x with
  | none => simp [hq] at this
  | some r => exact ⟨r, rfl, by simpa [hq] using this⟩

/-- The head of the boundary of a face, with the face record. -/
theorem WellFormed.cyc_head (wf : WellFormed d0 cyc) {f : Nat} (hf : f < d0.mFaces.length) :
    ∃ e0 rest fc, cyc f = e0 :: rest ∧ d0.mFaces[f]? = some fc ∧
      fc.outerComponent = some e0 ∧ (∀ x ∈ rest, x ≠ e0) ∧
      List.Chain' (Follows d0) (cyc f ++ [e0]) := by
  obtain ⟨hne, hnd, hoc, -, hch⟩ := wf.cycle hf
  cases hc : cyc f with
  | nil => exact absurd hc hne
  | cons e0 rest =>
    rw [hc] at hnd hoc hch
    have hlt : d0.mFaces[f]? = some (d0.mFaces[f]) := List.getElem?_eq_getElem hf
    refine ⟨e0, rest, _, rfl, hlt, ?_, ?_, ?_⟩
    · simpa [hlt] using hoc
    · intro x hx hxe
      subst hxe
      exact (List.nodup_cons.1 hnd).1 hx
    · simpa using hch

end wf

theorem Path.tail {d0 : VoronoiDiagram} {f e0 h : Nat} {rem : List Nat}
    (p : Path d0 f e0 (h :: rem)) : Path d0 f e0 rem :=
  ⟨(chain'_step p.chain).2, (List.nodup_cons.1 p.nodup).2,
    fun x hx => p.live x (List.mem_cons_of_mem _ hx)⟩

theorem Path.head {d0 : VoronoiDiagram} {f e0 h : Nat} {rem : List Nat}
    (p : Path d0 f e0 (h :: rem)) :
    ∃ r, d0.he h = some r ∧ r.incidentFace = f ∧ r.next = some ((rem ++ [e0]).headD e0) ∧
      h ∉ rem := by
  obtain ⟨r, hr, hf⟩ := p.live h (List.mem_cons_self _ _)
  exact ⟨r, hr, hf, (chain'_step p.chain).1.next hr, (List.nodup_cons.1 p.nodup).1⟩

/-- What a turn leaves of a half-edge that was there before. -/
theorem VEff.back {w w' : Walk} {h x : Nat} {r' : HalfEdge} (e : VEff w w' h)
    (hx : x < w.d.halfEdgeCount) (hxh : x ≠ h) (hr : w'.d.he x = some r') :
    ∃ r1, w.d.he x = some r1 ∧ r'.origin = r1.origin ∧ r'.destination = r1.destination ∧
      r'.twin = r1.twin ∧ r'.incidentFace = r1.incidentFace ∧ r'.prev = r1.prev := by
  cases hq : w.d.he x with
  | none => rw [e.dead x hx hq] at hr; cases hr
  | some r1 =>
    obtain ⟨r'', h1, h2⟩ := e.keep x r1 hq hxh
    rw [h1] at hr; cases hr
    exact ⟨r1, rfl, h2⟩

section frame

variable {d0 : VoronoiDiagram} {cyc : Nat → List Nat} {f e0 h : Nat} {rem : List Nat}

theorem Frame.reads (wf : WellFormed d0 cyc) (fr : Frame d0 f (h :: rem) w)
    {r : HalfEdge} (hr : d0.he h = some r) :
    w.d.he h = some r ∧ ∃ o t a b, Readable d0 r o t a b ∧ Readable w.d r o t a b := by
  refine ⟨(fr.pend h (List.mem_cons_self _ _)).trans hr, ?_⟩
  obtain ⟨o, t, a, b, rd⟩ := wf.readable hr
  refine ⟨o, t, a, b, rd, rd.origin, ?_, rd.destination, ?_⟩
  · rw [fr.verts o (vx_lt wf.store rd.vo), rd.vo]
  · rw [fr.verts t (vx_lt wf.store rd.vt), rd.vt]

theorem Frame.twinLive (fr : Frame d0 f rem w) (r : HalfEdge) : TwinLive w r := by
  intro tw htw
  unfold processedTwin at htw
  cases ht : r.twin with
  | none => simp [ht] at htw
  | some t =>
    simp only [ht] at htw
    by_cases hm : t ∈ w.processedHalfEdges
    · rw [if_pos hm] at htw
      cases htw
      obtain ⟨-, r', hr', -⟩ := fr.proc _ hm
      exact ⟨r', hr'⟩
    · rw [if_neg hm] at htw; cases htw

theorem Frame.face (wf : WellFormed d0 cyc) (fr : Frame d0 f rem w)
    (hf : f < d0.mFaces.length) {rest : List Nat} {fc : Face}
    (hfc : d0.mFaces[f]? = some fc) : w.d.mFaces[f]? = some fc := by
  rw [fr.faces f (le_refl _), hfc]

theorem Frame.outLive (fr : Frame d0 f (h :: rem) w) {fc : Face}
    (hfc : d0.mFaces[f]? = some fc) : OutLive w h := by
  intro o os ho
  obtain ⟨hn, ro, hro, hface⟩ := fr.out o os ho
  refine ⟨fun hh => hn (hh ▸ List.mem_cons_self _ _), ro, fc, hro, ?_⟩
  rw [hface, fr.faces f (le_refl _), hfc]

theorem Frame.outFace (fr : Frame d0 f rem w) {fc : Face}
    (hfc : d0.mFaces[f]? = some fc) (hoc : fc.outerComponent ≠ none) : OutFace w := by
  intro o os ro ho hro
  obtain ⟨-, ro', hro', hface⟩ := fr.out o os ho
  rw [hro] at hro'; cases hro'
  exact ⟨fc, by rw [hface, fr.faces f (le_refl _), hfc], hoc⟩

/-- A turn of the walk, or the closing `link`, keeps the frame. -/
theorem Frame.step (wf : WellFormed d0 cyc) {l l' : List Nat} (fr : Frame d0 f l w)
    (hl : ∀ x ∈ l', x ∈ l ∧ x ≠ h ∧ ∃ rx, d0.he x = some rx)
    {fc : Face} (hfc : d0.mFaces[f]? = some fc)
    (hoc : fc.outerComponent ≠ none) {w' : Walk} {r : HalfEdge} (hr : w.d.he h = some r)
    (hface : r.incidentFace = f) (e : VEff w w' h)
    (hh : h ∈ l ∨ ∃ r', w'.d.he h = some r') : Frame d0 f l' w' := by
  have hself : ∀ x, x ∉ l → x = h → ∃ r', w'.d.he x = some r' ∧ r'.incidentFace = f := by
    rintro x hx rfl
    rcases hh with h1 | ⟨r', hr'⟩
    · exact absurd h1 hx
    · obtain ⟨r1, h1, -, h3⟩ := e.self r' hr'
      rw [hr] at h1; cases h1
      exact ⟨r', hr', h3.trans hface⟩
  have hfaces : w'.d.mFaces = w.d.mFaces := e.faces (fr.outFace hfc hoc)
  have hnot : h ∉ l' := fun hh => (hl h hh).2.1 rfl
  refine ⟨e.ok, ?_, ?_, ?_, le_trans fr.hcount e.hcount, le_trans fr.vcount e.vcount,
    e.sites.trans fr.sites, by rw [hfaces]; exact fr.faces, by rw [hfaces]; exact fr.nfaces,
    ?_, ?_, ?_, ?_, ?_⟩
  · intro x hx
    obtain ⟨hxl, hxh, rx, hrx⟩ := hl x hx
    rw [e.other x (lt_of_lt_of_le (he_lt wf.store hrx) fr.hcount) hxh
      (fun o os ho hh => (fr.out o os ho).1 (hh ▸ hxl))]
    exact fr.pend x hxl
  · intro x rx hrx hlate
    rw [e.other x (lt_of_lt_of_le (he_lt wf.store hrx) fr.hcount) ?_ ?_]
    · exact fr.later x rx hrx hlate
    · rintro rfl
      rw [fr.later x rx hrx hlate] at hr; cases hr; omega
    · intro o os ho hh
      obtain ⟨-, ro, hro, hfo⟩ := fr.out o os ho
      rw [← hh, fr.later x rx hrx hlate] at hro
      cases hro; omega
  · intro v hv
    rw [e.vold v (lt_of_lt_of_le hv fr.vcount)]
    exact fr.verts v hv
  · intro x r' hx hr'
    have hb : ∃ r1, w.d.he x = some r1 ∧ r'.twin = r1.twin ∧
        r'.incidentFace = r1.incidentFace := by
      by_cases hxh : x = h
      · subst hxh
        exact e.self r' hr'
      · obtain ⟨r1, h1, -, -, h4, h5, -⟩ := e.back (lt_of_lt_of_le hx fr.hcount) hxh hr'
        exact ⟨r1, h1, h4, h5⟩
    obtain ⟨r1, h1, h4, h5⟩ := hb
    obtain ⟨rr, h6, h7, h8⟩ := fr.old x r1 hx h1
    exact ⟨rr, h6, h4.trans h7, h5.trans h8⟩
  · intro x r' hx hr'
    by_cases hxw : x < w.d.halfEdgeCount
    · have hb : ∃ r1, w.d.he x = some r1 ∧ r'.twin = r1.twin ∧
          r'.incidentFace = r1.incidentFace := by
        by_cases hxh : x = h
        · subst hxh
          exact e.self r' hr'
        · obtain ⟨r1, h1, -, -, h4, h5, -⟩ := e.back hxw hxh hr'
          exact ⟨r1, h1, h4, h5⟩
      obtain ⟨r1, h1, h4, h5⟩ := hb
      obtain ⟨h6, h7⟩ := fr.new x r1 hx h1
      exact ⟨h4.trans h6, by omega⟩
    · obtain ⟨h1, o, os, ro, ho, hro, h2⟩ := e.new x r' (by omega) hr'
      obtain ⟨-, ro', hro', hfo⟩ := fr.out o os ho
      rw [hro] at hro'; cases hro'
      exact ⟨h1, by omega⟩
  · intro x hx
    rcases e.proc x hx with h1 | ⟨rfl, r', hr'⟩
    · obtain ⟨h2, r1, h3, h4⟩ := fr.proc x h1
      by_cases hxh : x = h
      · obtain ⟨r', h5, h6⟩ := hself x h2 hxh
        exact ⟨fun hh => h2 (hl x hh).1, r', h5, by omega⟩
      · obtain ⟨r', h5, -, -, -, h6, -⟩ := e.keep x r1 h3 hxh
        exact ⟨fun hh => h2 (hl x hh).1, r', h5, by omega⟩
    · obtain ⟨r1, h1, -, h3⟩ := e.self r' hr'
      rw [hr] at h1; cases h1
      exact ⟨hnot, r', hr', by omega⟩
  · intro o os ho
    rcases e.out o os ho with h1 | ⟨rfl, r', hr'⟩
    · obtain ⟨h2, r1, h3, h4⟩ := fr.out o os h1
      by_cases hxh : o = h
      · obtain ⟨r', h5, h6⟩ := hself o h2 hxh
        exact ⟨fun hh => h2 (hl o hh).1, r', h5, h6⟩
      · obtain ⟨r', h5, -, -, -, h6, -⟩ := e.keep o r1 h3 hxh
        exact ⟨fun hh => h2 (hl o hh).1, r', h5, by omega⟩
    · obtain ⟨r1, h1, -, h3⟩ := e.self r' hr'
      rw [hr] at h1; cases h1
      exact ⟨hnot, r', hr', by omega⟩
  · intro o os ho
    rcases e.inc o os ho with h1 | ⟨rfl, r', hr'⟩
    · obtain ⟨h2, r1, h3, h4⟩ := fr.inc o os h1
      by_cases hxh : o = h
      · obtain ⟨r', h5, h6⟩ := hself o h2 hxh
        exact ⟨fun hh => h2 (hl o hh).1, r', h5, h6⟩
      · obtain ⟨r', h5, -, -, -, h6, -⟩ := e.keep o r1 h3 hxh
        exact ⟨fun hh => h2 (hl o hh).1, r', h5, by omega⟩
    · obtain ⟨r1, h1, -, h3⟩ := e.self r' hr'
      rw [hr] at h1; cases h1
      exact ⟨hnot, r', hr', by omega⟩

end frame

end VoronoiDiagram

end Voronoi

namespace Voronoi

namespace VoronoiDiagram

theorem Rel.start (f : Nat) (w : Walk) (b : Bool) :
    Rel f w { w with inside := b, incoming := none, outgoing := none } :=
  ⟨fun _ _ h _ => h, fun _ r' h => Or.inl ⟨r', h, rfl, rfl⟩, fun _ _ h => h, rfl, rfl,
    fun _ _ => rfl, le_refl _, le_refl _, fun _ h => h, fun _ h => h⟩

theorem Rel.turn {f h : Nat} {ws w w' : Walk} (rel : Rel f ws w) (ok : StoreOK w.d)
    {r : HalfEdge} (hr : w.d.he h = some r) (hf : r.incidentFace = f)
    (hout : ∀ o s, w.outgoing = some (o, s) → ∃ ro, w.d.he o = some ro ∧ ro.incidentFace = f)
    (hfaces : w'.d.mFaces = w.d.mFaces) (e : VEff w w' h) : Rel f ws w' := by
  refine ⟨?_, ?_, ?_, hfaces.trans rel.faces, e.sites.trans rel.sites, ?_,
    le_trans rel.hcount e.hcount, le_trans rel.vcount e.vcount,
    fun x hx => e.marks_mono x (rel.marks x hx), fun x hx => e.proc_mono x (rel.proc x hx)⟩
  · intro x rx hx hne
    have h1 := rel.other x rx hx hne
    rw [e.other x (he_lt ok h1) ?_ ?_]
    · exact h1
    · rintro rfl
      rw [hr] at h1; cases h1; exact hne hf
    · intro o s ho hh
      obtain ⟨ro, hro, hfo⟩ := hout o s ho
      rw [← hh, h1] at hro; cases hro; exact hne hfo
  · intro x r' hx
    by_cases hxw : x < w.d.halfEdgeCount
    · have hb : ∃ r1, w.d.he x = some r1 ∧ r'.incidentFace = r1.incidentFace ∧
          r'.twin = r1.twin := by
        by_cases hxh : x = h
        · subst hxh
          obtain ⟨r1, h1, h2, h3⟩ := e.self r' hx
          exact ⟨r1, h1, h3, h2⟩
        · obtain ⟨r1, h1, -, -, h4, h5, -⟩ := e.back hxw hxh hx
          exact ⟨r1, h1, h5, h4⟩
      obtain ⟨r1, h1, h2, h3⟩ := hb
      rcases rel.grow x r1 h1 with ⟨r2, h4, h5, h6⟩ | ⟨h4, h5, h6⟩
      · exact Or.inl ⟨r2, h4, h2.trans h5, h3.trans h6⟩
      · exact Or.inr ⟨h4, h2.trans h5, h3.trans h6⟩
    · obtain ⟨h1, o, os, ro, ho, hro, h2⟩ := e.new x r' (by omega) hx
      obtain ⟨ro', hro', hfo⟩ := hout o os ho
      rw [hro] at hro'; cases hro'
      exact Or.inr ⟨by have := rel.hcount; omega, h2.trans hfo, h1⟩
  · intro x hx hd
    exact e.dead x (lt_of_lt_of_le hx rel.hcount) (rel.dead x hx hd)
  · intro v hv
    rw [e.vold v (lt_of_lt_of_le hv rel.vcount)]
    exact rel.vold v hv

theorem bind_eq_ok {ε α β : Type} {x : Except ε α} {g : α → Except ε β} {b : β} :
    (x >>= g) = .ok b ↔ ∃ a, x = .ok a ∧ g a = .ok b := by
  cases x <;> simp [bind, Except.bind]

/-- The walk of the whole boundary of face `f`, from a state in which it is pending, with
an invariant `J` of the turns. -/
theorem walk_spine {d0 : VoronoiDiagram} {cyc : Nat → List Nat} (wf : WellFormed d0 cyc)
    (box : Box) {f e0 : Nat} {fc : Face} (hfc : d0.mFaces[f]? = some fc)
    (hoc : fc.outerComponent = some e0) (ws : Walk) (J : List Nat → Walk → Prop)
    (hJ : ∀ h rem w w' r o t a b, Path d0 f e0 (h :: rem) → Frame d0 f (h :: rem) w →
      Rel f ws w → J (h :: rem) w → d0.he h = some r → Readable d0 r o t a b →
      VisitCase box w h r o (box.getIntersections a.point b.point) w' →
      Frame d0 f rem w' → J rem w') :
    ∀ (rem : List Nat) (h : Nat) (w : Walk), Path d0 f e0 (h :: rem) →
      Frame d0 f (h :: rem) w → Rel f ws w → J (h :: rem) w → (∀ x ∈ rem, x ≠ e0) →
      ∀ fuel, (rem.length + 1 ≤ fuel → ∃ w', walk fuel box f w (some h) = .ok w' ∧
          Frame d0 f [] w' ∧ Rel f ws w' ∧ J [] w') ∧
        (∀ w', walk fuel box f w (some h) = .ok w' →
          Frame d0 f [] w' ∧ Rel f ws w' ∧ J [] w') := by
  have hocne : fc.outerComponent ≠ none := by rw [hoc]; simp
  have key := walk_induct box f e0
    (fun l w => Path d0 f e0 l ∧ Frame d0 f l w ∧ Rel f ws w ∧ J l w) (by
      rintro h rem w ⟨p, fr, rel, hj⟩
      obtain ⟨r0, hr0, hface, hnext, hnot⟩ := p.head
      obtain ⟨hr, o, t, a, b, rd0, rd⟩ := fr.reads wf hr0
      refine ⟨r0, o, t, a, b, hr, rd, hnext, fr.ok, fr.twinLive r0, fr.outLive hfc,
        fr.outFace hfc hocne, ⟨fc, by rw [fr.faces f (le_refl _), hfc], hoc⟩, ?_⟩
      intro w' vcase
      have e := vcase.effect fr.ok hr
      have fr' : Frame d0 f rem w' := fr.step wf (fun x hx => ⟨List.mem_cons_of_mem _ hx,
          fun hh => hnot (by rw [← hh]; exact hx),
          (p.live x (List.mem_cons_of_mem _ hx)).imp fun _ hh => hh.1⟩)
          hfc hocne hr hface e (Or.inl (List.mem_cons_self _ _))
      refine ⟨p.tail, fr', rel.turn fr.ok hr hface ?_ (e.faces (fr.outFace hfc hocne)) e,
        hJ h rem w w' r0 o t a b p fr rel hj hr0 rd0 vcase fr'⟩
      intro o s ho
      obtain ⟨-, ro, hro, hfo⟩ := fr.out o s ho
      exact ⟨ro, hro, hfo⟩)
  intro rem h w p fr rel hj hne fuel
  obtain ⟨k1, k2⟩ := key rem h w ⟨p, fr, rel, hj⟩ hne fuel
  exact ⟨fun hh => (k1 hh).imp fun w' hw => ⟨hw.1, hw.2.2⟩, fun w' hw => (k2 w' hw).2⟩

end VoronoiDiagram

end Voronoi

namespace Voronoi

namespace VoronoiDiagram

@[simp] theorem setOC_he (d : VoronoiDiagram) (f : Nat) (x : Option Nat) :
    (d.setOC f x).he = d.he := by
  unfold setOC; split <;> rfl

@[simp] theorem setOC_vx (d : VoronoiDiagram) (f : Nat) (x : Option Nat) :
    (d.setOC f x).vx = d.vx := by
  unfold setOC; split <;> rfl

@[simp] theorem setOC_mHalfEdges (d : VoronoiDiagram) (f : Nat) (x : Option Nat) :
    (d.setOC f x).mHalfEdges = d.mHalfEdges := by
  unfold setOC; split <;> rfl

@[simp] theorem setOC_mVertices (d : VoronoiDiagram) (f : Nat) (x : Option Nat) :
    (d.setOC f x).mVertices = d.mVertices := by
  unfold setOC; split <;> rfl

@[simp] theorem setOC_mSites (d : VoronoiDiagram) (f : Nat) (x : Option Nat) :
    (d.setOC f x).mSites = d.mSites := by
  unfold setOC; split <;> rfl

@[simp] theorem setOC_halfEdgeCount (d : VoronoiDiagram) (f : Nat) (x : Option Nat) :
    (d.setOC f x).halfEdgeCount = d.halfEdgeCount := by
  unfold setOC; split <;> rfl

@[simp] theorem setOC_vertexCount (d : VoronoiDiagram) (f : Nat) (x : Option Nat) :
    (d.setOC f x).vertexCount = d.vertexCount := by
  unfold setOC; split <;> rfl

theorem setOC_ok {d : VoronoiDiagram} (ok : StoreOK d) (f : Nat) (x : Option Nat) :
    StoreOK (d.setOC f x) :=
  ⟨by simpa using ok.nodupH, by simpa using ok.ltH, by simpa using ok.nodupV,
    by simpa using ok.ltV⟩

theorem setOC_faces (d : VoronoiDiagram) (f : Nat) (x : Option Nat) (g : Nat) :
    (d.setOC f x).mFaces[g]? =
      if g = f then (d.mFaces[f]?).map (fun f2 => { f2 with outerComponent := x })
      else d.mFaces[g]? := by
  unfold setOC
  cases hq : d.mFaces[f]? with
  | none =>
    by_cases hg : g = f
    · subst hg; simp [hq]
    · simp [hg]
  | some f2 =>
    have hlt : f < d.mFaces.length := by
      by_contra hc
      rw [List.getElem?_eq_none (by omega)] at hq
      cases hq
    by_cases hg : g = f
    · subst hg; simp [List.getElem?_set, hlt]
    · simp [List.getElem?_set, hg, Ne.symm hg]

@[simp] theorem setOC_nfaces (d : VoronoiDiagram) (f : Nat) (x : Option Nat) :
    (d.setOC f x).mFaces.length = d.mFaces.length := by
  unfold setOC; split <;> simp

theorem intersectSite_eq {fuel : Nat} {box : Box} {w : Walk} {site : Site} {f e0 o : Nat}
    {fc : Face} {r : HalfEdge} {a : Vertex} (hs : site.face = some f)
    (hf : w.d.mFaces[f]? = some fc) (hoc : fc.outerComponent = some e0)
    (hr : w.d.he e0 = some r) (ho : r.origin = some o) (ha : w.d.vx o = some a) :
    intersectSite fuel box w site =
      (walk fuel box f { w with inside := (box.contains a.point), incoming := none,
                                outgoing := none } (some e0)) >>=
        finishSite box f (!(box.contains a.point)) := by
  simp only [intersectSite, hs, deref, face_eq hf, hoc, halfEdge_eq hr, ho, vertex_eq ha,
    finishSite, bind, Except.bind, pure, Except.pure]
  all_goals
    cases walk fuel box f { w with inside := (box.contains a.point), incoming := none,
                                   outgoing := none } (some e0) <;> rfl

theorem finish_cases {box : Box} {f : Nat} {dirty : Bool} {w1 : Walk} {fc : Face}
    (ok : StoreOK w1.d) (hf : w1.d.mFaces[f]? = some fc) (hoc : fc.outerComponent ≠ none)
    (hout : ∀ o s, w1.outgoing = some (o, s) → ∃ r, w1.d.he o = some r ∧ r.incidentFace = f)
    (hinc : ∀ i s, w1.incoming = some (i, s) → ∃ r, w1.d.he i = some r ∧ r.incidentFace = f) :
    (∀ w', finishSite box f dirty w1 = .ok w' → FinishCase box f dirty w1 w') ∧
    ((dirty = true → w1.incoming ≠ none → w1.outgoing ≠ none) →
      ∃ w', finishSite box f dirty w1 = .ok w') := by
  cases dirty with
  | false =>
    have : finishSite box f false w1 = .ok w1 := by
      simp [finishSite, bind, Except.bind, pure, Except.pure]
    exact ⟨fun w' h => by rw [this] at h; cases h; exact .clean rfl, fun _ => ⟨_, this⟩⟩
  | true =>
    cases hi : w1.incoming with
    | none =>
      have : finishSite box f true w1 = .ok { w1 with d := w1.d.setOC f none } := by
        simp [finishSite, hi, hf, bind, Except.bind, pure, Except.pure, setOC]
      exact ⟨fun w' h => by rw [this] at h; cases h; exact .empty rfl hi, fun _ => ⟨_, this⟩⟩
    | some p =>
      obtain ⟨i, is⟩ := p
      cases ho : w1.outgoing with
      | none =>
        exact ⟨fun w' h => by simp [finishSite, hi, ho, bind, Except.bind] at h,
          fun hh => absurd rfl (hh rfl (by simp))⟩
      | some q =>
        obtain ⟨o, os⟩ := q
        obtain ⟨so, hso, hfo⟩ := hout o os ho
        obtain ⟨ri, hri, hfi⟩ := hinc i is hi
        obtain ⟨d2, hrun, sp⟩ := link_spec ok box os is hso hri (by rw [hfo]; exact hf)
        have hfaces : d2.mFaces = w1.d.mFaces := by
          rw [sp.faces, hfo]
          simp [ocInit, hf, hoc]
        have : finishSite box f true w1 = .ok { w1 with d := d2.setOC f (some i) } := by
          simp [finishSite, hi, ho, hrun, bind, Except.bind, pure, Except.pure, hfaces, hf,
            setOC]
        exact ⟨fun w' h => by
          rw [this] at h; cases h
          exact .close o os i is so ri d2 rfl ho hi hso hri hfo hfi sp hfaces,
          fun _ => ⟨_, this⟩⟩

end VoronoiDiagram

end Voronoi

namespace Voronoi

namespace VoronoiDiagram

theorem Rel.site {f : Nat} {ws w : Walk} (rel : Rel f ws w) : SiteRel f ws w :=
  ⟨rel.other, rel.grow, rel.dead, fun g _ => by rw [rel.faces], by rw [rel.faces], rel.sites,
    rel.vold, rel.hcount, rel.vcount, rel.marks, rel.proc⟩

theorem Rel.siteOC {f : Nat} {ws w : Walk} (rel : Rel f ws w) (x : Option Nat) :
    SiteRel f ws { w with d := w.d.setOC f x } :=
  ⟨by simpa using rel.other, by simpa using rel.grow, by simpa using rel.dead,
    fun g hg => by simp only [setOC_faces, if_neg hg, rel.faces], by simp [rel.faces],
    by simpa using rel.sites, by simpa using rel.vold, by simpa using rel.hcount,
    by simpa using rel.vcount, rel.marks, rel.proc⟩

theorem clipEffect_trivial {w : Walk} {h : Nat} {r : HalfEdge} (ok : StoreOK w.d)
    (hr : w.d.he h = some r) : ClipEffect w h r [] w.d r.origin r.destination :=
  ⟨ok, hr, fun _ _ => rfl, rfl, rfl, rfl, rfl, le_refl _, fun _ _ => rfl,
    fun v h1 h2 => by omega, fun _ => rfl⟩

/-- The closing `link` of a face, as a turn at the incoming half-edge that clips nothing. -/
theorem link_veff {w : Walk} {d2 : VoronoiDiagram} {box : Box} {o i : Nat} {os is : Side}
    {so ri : HalfEdge} (ok : StoreOK w.d) (ho : w.outgoing = some (o, os))
    (hso : w.d.he o = some so) (hri : w.d.he i = some ri)
    (sp : LinkSpec w.d d2 box o os i is so ri) : VEff w { w with d := d2 } i :=
  clip_link_effect ok hri (clipEffect_trivial ok hri)
    (show LinkChoice w w.d box i is d2 from Or.inr ⟨o, os, so, ri, ho, hso, hri, sp⟩) (fun _ _ h => h) _ rfl
    (fun _ h => Or.inl h) (fun _ h => h) (fun _ h => h) (Or.inl rfl) (Or.inl rfl)

section site

variable {d0 : VoronoiDiagram} {cyc : Nat → List Nat} {f : Nat} {w : Walk}

theorem Between.enter (wf : WellFormed d0 cyc) (bt : Between d0 f w)
    (hf : f < d0.mFaces.length) (b : Bool) :
    Frame d0 f (cyc f) { w with inside := b, incoming := none, outgoing := none } := by
  refine ⟨bt.ok, ?_, fun x r0 h1 h2 => bt.pend x r0 h1 (by omega), bt.verts, bt.hcount,
    bt.vcount, bt.sites, bt.faces, bt.nfaces, bt.old, ?_, ?_, ?_, ?_⟩
  · intro x hx
    obtain ⟨r, hr, hface⟩ := wf.cyc_live hf hx
    rw [hr]
    exact bt.pend x r hr (by omega)
  · intro x r h1 h2
    obtain ⟨h3, h4⟩ := bt.new x r h1 h2
    exact ⟨h3, by omega⟩
  · intro x hx
    obtain ⟨r, hr, hlt⟩ := bt.proc x hx
    refine ⟨fun hc => ?_, r, hr, by omega⟩
    obtain ⟨r0, hr0, hface⟩ := wf.cyc_live hf hc
    have := bt.pend x r0 hr0 (by omega)
    rw [hr] at this; cases this; omega
  · intro o s ho; cases ho
  · intro o s ho; cases ho

theorem Frame.between (fr : Frame d0 f [] w) : Between d0 (f + 1) w :=
  ⟨fr.ok, fun x r0 h1 h2 => fr.later x r0 h1 (by omega), fr.verts, fr.hcount, fr.vcount,
    fr.sites, fun g hg => fr.faces g (by omega), fr.nfaces, fr.old,
    fun x r h1 h2 => by
      obtain ⟨h3, h4⟩ := fr.new x r h1 h2
      exact ⟨h3, by omega⟩,
    fun x hx => by
      obtain ⟨-, r, h3, h4⟩ := fr.proc x hx
      exact ⟨r, h3, by omega⟩⟩

theorem Between.setOC (bt : Between d0 (f + 1) w) (x : Option Nat) :
    Between d0 (f + 1) { w with d := w.d.setOC f x } :=
  ⟨setOC_ok bt.ok _ _, by simpa using bt.pend, by simpa using bt.verts,
    by simpa using bt.hcount, by simpa using bt.vcount, by simpa using bt.sites,
    fun g hg => by
      simp only [setOC_faces, if_neg (show g ≠ f by omega)]
      exact bt.faces g hg,
    by simpa using bt.nfaces, by simpa using bt.old, by simpa using bt.new,
    by simpa using bt.proc⟩

/-- The end of the body of the loop keeps the frame. -/
theorem FinishCase.frame (wf : WellFormed d0 cyc) {box : Box} {dirty : Bool} {ws w1 w' : Walk}
    {fc : Face} (hfc : d0.mFaces[f]? = some fc) (hoc : fc.outerComponent ≠ none)
    (fr1 : Frame d0 f [] w1) (rel1 : Rel f ws w1) (fin : FinishCase box f dirty w1 w') :
    Between d0 (f + 1) w' ∧ SiteRel f ws w' := by
  cases fin with
  | clean _ => exact ⟨fr1.between, rel1.site⟩
  | empty _ _ => exact ⟨fr1.between.setOC none, rel1.siteOC none⟩
  | close o os i is so ri d2 _ ho hi hso hri hfo hfi sp hfaces =>
    have e := link_veff fr1.ok ho hso hri sp
    have fr2 : Frame d0 f [] { w1 with d := d2 } :=
      fr1.step wf (fun x (hx : x ∈ ([] : List Nat)) => by cases hx) hfc hoc hri hfi e
        (Or.inr ((sp.old i (he_lt fr1.ok hri)).symm ▸ by rw [hri]; exact ⟨_, rfl⟩))
    have rel2 : Rel f ws { w1 with d := d2 } :=
      rel1.turn fr1.ok hri hfi (fun o s ho => (fr1.out o s ho).2) hfaces e
    exact ⟨fr2.between.setOC (some i), rel2.siteOC (some i)⟩

/-- The body of the loop for face `f`, with an invariant `Jw` of the turns of its walk and a
property `Jb` of its result. -/
theorem site_spine (wf : WellFormed d0 cyc) (box : Box) (fuel : Nat) (bt : Between d0 f w)
    (hf : f < d0.mFaces.length) {site : Site} (hs : site.face = some f)
    {e0 : Nat} {rest : List Nat} {r0 : HalfEdge} {o t : Nat} {a b : Vertex}
    (hcyc : cyc f = e0 :: rest) (hr0 : d0.he e0 = some r0) (rd : Readable d0 r0 o t a b)
    (Jw : List Nat → Walk → Prop) (Jb : Walk → Prop)
    (hstart : Jw (cyc f)
      { w with inside := (box.contains a.point), incoming := none, outgoing := none })
    (hstep : ∀ h rem w2 w' r o t a b, Path d0 f e0 (h :: rem) → Frame d0 f (h :: rem) w2 →
      Rel f w w2 → Jw (h :: rem) w2 → d0.he h = some r → Readable d0 r o t a b →
      VisitCase box w2 h r o (box.getIntersections a.point b.point) w' →
      Frame d0 f rem w' → Jw rem w')
    (hfin : ∀ w1 w', Frame d0 f [] w1 → Rel f w w1 → Jw [] w1 →
      FinishCase box f (!(box.contains a.point)) w1 w' → Between d0 (f + 1) w' →
      SiteRel f w w' → Jb w') :
    (∀ w', intersectSite fuel box w site = .ok w' →
      Between d0 (f + 1) w' ∧ SiteRel f w w' ∧ Jb w') ∧
    ((cyc f).length ≤ fuel →
      (∀ w1, Frame d0 f [] w1 → Jw [] w1 → box.contains a.point = false →
        w1.incoming ≠ none → w1.outgoing ≠ none) →
      ∃ w', intersectSite fuel box w site = .ok w') := by
  obtain ⟨e0', rest', fc, hcyc', hfc, hoc, hne, hch⟩ := wf.cyc_head hf
  rw [hcyc] at hcyc'
  cases hcyc'
  have hocne : fc.outerComponent ≠ none := by rw [hoc]; simp
  have hwr : w.d.he e0 = some r0 := bt.pend e0 r0 hr0 (by
    have : e0 ∈ cyc f := by rw [hcyc]; exact List.mem_cons_self _ _
    obtain ⟨r, hr, hface⟩ := wf.cyc_live hf this
    rw [hr0] at hr; cases hr; omega)
  have hwa : w.d.vx o = some a := by rw [bt.verts o (vx_lt wf.store rd.vo), rd.vo]
  have hwf : w.d.mFaces[f]? = some fc := by rw [bt.faces f (le_refl _), hfc]
  have p : Path d0 f e0 (e0 :: rest) :=
    ⟨hcyc ▸ hch, hcyc ▸ (wf.cycle hf).2.1, fun x hx => wf.cyc_live hf (hcyc ▸ hx)⟩
  have fr0 := bt.enter wf hf (box.contains a.point)
  rw [hcyc] at fr0 hstart
  have hwalk := walk_spine wf box hfc hoc w Jw hstep rest e0 _ p fr0 (Rel.start f w _) hstart
    hne fuel
  rw [intersectSite_eq hs hwf hoc hwr rd.origin hwa]
  have hfinish : ∀ w1, Frame d0 f [] w1 → _ :=
    fun w1 (fr1 : Frame d0 f [] w1) => @finish_cases box f (!(box.contains a.point)) w1 fc fr1.ok
      (by rw [fr1.faces f (le_refl _), hfc] : w1.d.mFaces[f]? = some fc) hocne
      (fun o s ho => (fr1.out o s ho).2) (fun i s hi => (fr1.inc i s hi).2)
  constructor
  · intro w' hrun
    rw [bind_eq_ok] at hrun
    obtain ⟨w1, hw, hfin'⟩ := hrun
    obtain ⟨fr1, rel1, hj1⟩ := hwalk.2 w1 hw
    have fin := (hfinish w1 fr1).1 w' hfin'
    obtain ⟨bt', sr⟩ := fin.frame wf hfc hocne fr1 rel1
    exact ⟨bt', sr, hfin w1 w' fr1 rel1 hj1 fin bt' sr⟩
  · intro hfuel htot
    obtain ⟨w1, hw, fr1, rel1, hj1⟩ := hwalk.1 (by rw [hcyc] at hfuel; simpa using hfuel)
    obtain ⟨w', hw'⟩ := (hfinish w1 fr1).2 (fun hd => htot w1 fr1 hj1 (by simpa using hd))
    exact ⟨w', by rw [hw]; exact hw'⟩

end site

/-! ## The loop over the sites, and the removal of the vertices -/

theorem sites_induct (P : Nat → Walk → Prop) (box : Box) (fuel : Nat) (sites : List Site)
    (hstep : ∀ f w w' site, sites[f]? = some site → P f w →
      intersectSite fuel box w site = .ok w' → P (f + 1) w') :
    ∀ (n k : Nat) (w w' : Walk), n = sites.length - k → k ≤ sites.length → P k w →
      intersectSites fuel box (sites.drop k) w = .ok w' → P sites.length w' := by
  intro n
  induction n with
  | zero =>
    intro k w w' hn hk hp hrun
    have : k = sites.length := by omega
    subst this
    simp [intersectSites] at hrun
    subst hrun
    exact hp
  | succ n ih =>
    intro k w w' hn hk hp hrun
    have hlt : k < sites.length := by omega
    rw [List.drop_eq_getElem_cons hlt] at hrun
    simp only [intersectSites] at hrun
    cases h1 : intersectSite fuel box w sites[k] with
    | error e => rw [h1] at hrun; cases hrun
    | ok w1 =>
      rw [h1] at hrun
      exact ih (k + 1) w1 w' (by omega) (by omega)
        (hstep k w w1 sites[k] (List.getElem?_eq_getElem hlt) hp h1) hrun

theorem removeVertices_frame : ∀ (l : List Nat) (d d' : VoronoiDiagram),
    removeVertices l d = .ok d' → d'.mHalfEdges = d.mHalfEdges ∧ d'.mFaces = d.mFaces ∧
      d'.mSites = d.mSites ∧ d'.halfEdgeCount = d.halfEdgeCount := by
  intro l
  induction l with
  | nil =>
    intro d d' h
    simp [removeVertices] at h
    subst h
    exact ⟨rfl, rfl, rfl, rfl⟩
  | cons v l ih =>
    intro d d' h
    simp only [removeVertices] at h
    cases h1 : d.removeVertex v with
    | error e => rw [h1] at h; cases h
    | ok d1 =>
      rw [h1] at h
      obtain ⟨h2, h3, h4, h5⟩ := ih d1 d' h
      have : d1 = d.dropV v := by
        unfold removeVertex at h1
        split at h1
        · cases h1; rfl
        · cases h1
      subst this
      exact ⟨h2, h3, h4, h5⟩

theorem WellFormed.siteFace (wf : WellFormed d0 cyc) {f : Nat} {site : Site}
    (hs : d0.mSites[f]? = some site) : site.face = some f ∧ f < d0.mFaces.length := by
  have h1 := wf.2.1
  have h2 : (d0.mSites.map Site.face)[f]? = some site.face := by simp [hs]
  rw [h1] at h2
  simp only [List.getElem?_map, Option.map_eq_some'] at h2
  obtain ⟨a, ha, hb⟩ := h2
  have hlt : f < d0.mFaces.length := by
    by_contra hc
    rw [List.getElem?_eq_none (by simpa using hc)] at ha
    cases ha
  rw [List.getElem?_range hlt] at ha
  cases ha
  exact ⟨hb.symm, hlt⟩

theorem WellFormed.sites_length (wf : WellFormed d0 cyc) :
    d0.mSites.length = d0.mFaces.length := by
  have := congrArg List.length wf.2.1
  simpa using this

theorem between_init (d0 : VoronoiDiagram) (ok : StoreOK d0) :
    Between d0 0 { d := d0, processedHalfEdges := [], verticesToRemove := [],
                   inside := false, incoming := none, outgoing := none } :=
  ⟨ok, fun _ _ h _ => h, fun _ _ => rfl, le_refl _, le_refl _, rfl, fun _ _ => rfl, rfl,
    fun x r _ h => ⟨r, h, rfl, rfl⟩,
    fun x r h1 h2 => absurd ((he_fresh ok h1).symm.trans h2) (by simp),
    fun x hx => by cases hx⟩

/-- The first half-edge of the boundary of a face, with its end vertices. -/
theorem WellFormed.first (wf : WellFormed d0 cyc) {f : Nat} (hf : f < d0.mFaces.length) :
    ∃ e0 rest r0 o t a b, cyc f = e0 :: rest ∧ d0.he e0 = some r0 ∧
      Readable d0 r0 o t a b := by
  obtain ⟨e0, rest, fc, hcyc, -⟩ := wf.cyc_head hf
  have he0 : e0 ∈ cyc f := by rw [hcyc]; exact List.mem_cons_self _ _
  obtain ⟨r0, hr0, -⟩ := wf.cyc_live hf he0
  obtain ⟨o, t, a, b, rd⟩ := wf.readable hr0
  exact ⟨e0, rest, r0, o, t, a, b, hcyc, hr0, rd⟩

/-- The loop over the sites, with a property `Jb` kept by the body. -/
theorem intersect_spine (wf : WellFormed d0 cyc) (box : Box) (fuel : Nat)
    (Jb : Nat → Walk → Prop)
    (h0 : Jb 0 { d := d0, processedHalfEdges := [], verticesToRemove := [],
                 inside := false, incoming := none, outgoing := none })
    (hsite : ∀ f w w' site, d0.mSites[f]? = some site → Between d0 f w → Jb f w →
      intersectSite fuel box w site = .ok w' → Jb (f + 1) w')
    {d' : VoronoiDiagram} (hrun : intersect fuel d0 box = .ok d') :
    ∃ w, Between d0 d0.mFaces.length w ∧ Jb d0.mFaces.length w ∧
      removeVertices w.verticesToRemove w.d = .ok d' := by
  unfold intersect at hrun
  split at hrun
  · cases hrun
  · rename_i w hw
    have := sites_induct (fun k w => Between d0 k w ∧ Jb k w) box fuel d0.mSites
      (fun f w w' site hs bt hr => by
        obtain ⟨e0, rest, r0, o, t, a, b, hcyc, hr0, rd⟩ := wf.first (wf.siteFace hs).2
        exact ⟨((site_spine wf box fuel bt.1 (wf.siteFace hs).2 (wf.siteFace hs).1 hcyc hr0 rd
          (fun _ _ => True) (fun _ => True) trivial (fun _ _ _ _ _ _ _ _ _ _ _ _ _ _ _ _ _ =>
            trivial) (fun _ _ _ _ _ _ _ _ => trivial)).1 w' hr).1,
          hsite f w w' site hs bt.1 bt.2 hr⟩)
      d0.mSites.length 0 _ w rfl (Nat.zero_le _) ⟨between_init d0 wf.store, h0⟩
      (by simpa using hw)
    rw [wf.sites_length] at this
    exact ⟨w, this.1, this.2, hrun⟩

end VoronoiDiagram

end Voronoi

namespace Voronoi

namespace VoronoiDiagram

section

variable {box : Box} {d0 : VoronoiDiagram} {cyc : Nat → List Nat}

theorem Readable.originIn {r : HalfEdge} {o t : Nat} {a b : Vertex}
    (rd : Readable d0 r o t a b) : originIn box d0 r = box.contains a.point := by
  simp [VoronoiDiagram.originIn, rd.origin, rd.vo]

theorem Readable.destIn {r : HalfEdge} {o t : Nat} {a b : Vertex}
    (rd : Readable d0 r o t a b) : destIn box d0 r = box.contains b.point := by
  simp [VoronoiDiagram.destIn, rd.destination, rd.vt]

theorem Readable.crossings {r : HalfEdge} {o t : Nat} {a b : Vertex}
    (rd : Readable d0 r o t a b) :
    crossings box d0 r = box.getIntersections a.point b.point := by
  simp [VoronoiDiagram.crossings, rd.origin, rd.vo, rd.destination, rd.vt]

theorem Agrees.at (ag : Agrees box d0) {x : Nat} {r : HalfEdge} (hx : d0.he x = some r) :
    AgreesAt box d0 r := ag (x, r) (mem_of_lookup hx)

theorem AgreesAt.nil {r : HalfEdge} (ag : AgreesAt box d0 r) (h : crossings box d0 r = []) :
    destIn box d0 r = originIn box d0 r := ag.2.1 (by simp [h])

theorem AgreesAt.one {r : HalfEdge} {i : Intersection} (ag : AgreesAt box d0 r)
    (h : crossings box d0 r = [i]) : destIn box d0 r = !originIn box d0 r :=
  ag.2.2.1 (by simp [h])

theorem AgreesAt.two {r : HalfEdge} {i j : Intersection} (ag : AgreesAt box d0 r)
    (h : crossings box d0 r = [i, j]) : originIn box d0 r = false ∧ destIn box d0 r = false :=
  ag.2.2.2 (by simp [h])

theorem AgreesAt.not_three {r : HalfEdge} (ag : AgreesAt box d0 r) :
    ¬ 3 ≤ (crossings box d0 r).length := by
  have := ag.1; omega

/-- The two half-edges of a twin pair see each other's ends. -/
theorem WellFormed.twin_swap (wf : WellFormed d0 cyc) (box : Box) {x y : Nat} {r : HalfEdge}
    (hx : d0.he x = some r) (ht : r.twin = some y) :
    ∃ ry, d0.he y = some ry ∧ ry.twin = some x ∧ ry.origin = r.destination ∧
      ry.destination = r.origin ∧ y ≠ x ∧ originIn box d0 ry = destIn box d0 r ∧
      destIn box d0 ry = originIn box d0 r := by
  obtain ⟨ry, h1, h2, h3, h4, h5⟩ := wf.twin hx ht
  refine ⟨ry, h1, h2, h3, h4, h5, ?_, ?_⟩
  · simp [VoronoiDiagram.originIn, VoronoiDiagram.destIn, h3]
  · simp [VoronoiDiagram.originIn, VoronoiDiagram.destIn, h4]

/-- The half-edge after has its origin where the half-edge before ends. -/
theorem Follows.originIn_next {a b : Nat} {ra rb : HalfEdge} (hf : Follows d0 a b)
    (ha : d0.he a = some ra) (hb : d0.he b = some rb) :
    originIn box d0 rb = destIn box d0 ra := by
  simp [VoronoiDiagram.originIn, VoronoiDiagram.destIn, hf.origin ha hb]

end

theorem FreshAt.mono {d0 d d' : VoronoiDiagram} {e : Option Nat} (h : FreshAt d0 d e)
    (hle : d.vertexCount ≤ d'.vertexCount) : FreshAt d0 d' e := by
  obtain ⟨v, h1, h2, h3⟩ := h
  exact ⟨v, h1, h2, by omega⟩

theorem Vis.drop {f h x : Nat} {rem : List Nat} {r0 : HalfEdge} (hv : Vis f (h :: rem) x r0) :
    Vis f rem x r0 := by
  rcases hv with h1 | ⟨h1, h2⟩
  · exact Or.inl h1
  · exact Or.inr ⟨h1, fun hh => h2 (List.mem_cons_of_mem _ hh)⟩

theorem Vis.of_tail {f h x : Nat} {rem : List Nat} {r0 : HalfEdge} (hv : Vis f rem x r0)
    (hne : x ≠ h) : Vis f (h :: rem) x r0 := by
  rcases hv with h1 | ⟨h1, h2⟩
  · exact Or.inl h1
  · exact Or.inr ⟨h1, fun hh => by
      rcases List.mem_cons.1 hh with h3 | h3
      · exact hne h3
      · exact h2 h3⟩

end VoronoiDiagram

end Voronoi

namespace Voronoi

namespace VoronoiDiagram

/-! ## A turn of the walk keeps the account of the clipping -/

theorem processedTwin_some {w : Walk} {r : HalfEdge} {tw : Nat} :
    processedTwin w r = some tw ↔ r.twin = some tw ∧ tw ∈ w.processedHalfEdges := by
  unfold processedTwin
  cases r.twin with
  | none => simp
  | some t =>
    by_cases hm : t ∈ w.processedHalfEdges
    · simp only [if_pos hm, Option.some.injEq]
      constructor
      · rintro rfl; exact ⟨rfl, hm⟩
      · rintro ⟨h, _⟩; exact h
    · simp only [if_neg hm, Option.some.injEq]
      constructor
      · intro h; cases h
      · rintro ⟨rfl, h⟩; exact absurd h hm

section step

variable {d0 : VoronoiDiagram} {box : Box} {cyc : Nat → List Nat} {f h : Nat} {rem : List Nat}

/-- A twin that is processed has been walked. -/
theorem Frame.twin_vis (wf : WellFormed d0 cyc) (fr : Frame d0 f (h :: rem) w)
    (hr0 : d0.he h = some r0) {tw : Nat} (ht : r0.twin = some tw)
    (hp : tw ∈ w.processedHalfEdges) :
    ∃ rt0 rt, d0.he tw = some rt0 ∧ Vis f (h :: rem) tw rt0 ∧ w.d.he tw = some rt := by
  obtain ⟨rt0, h1, -⟩ := wf.twin hr0 ht
  obtain ⟨h2, rt, h3, h4⟩ := fr.proc tw hp
  obtain ⟨rt0', h5, -, h6⟩ := fr.old tw rt (he_lt wf.store h1) h3
  rw [h1] at h5; cases h5
  refine ⟨rt0, rt, h1, ?_, h3⟩
  by_cases hlt : rt0.incidentFace < f
  · exact Or.inl hlt
  · exact Or.inr ⟨by omega, h2⟩

theorem GeoD.remove (wf : WellFormed d0 cyc) (fr : Frame d0 f (h :: rem) w)
    (hr0 : d0.he h = some r0) (hface : r0.incidentFace = f) (hnot : h ∉ rem)
    (g : GeoD d0 box f (h :: rem) w.d w.verticesToRemove w.processedHalfEdges)
    {o : Nat} (ho : r0.origin = some o) (hc : crossings box d0 r0 = [])
    (hin : originIn box d0 r0 = false) :
    GeoD d0 box f rem (w.d.dropHE h) (emplace w.verticesToRemove o) w.processedHalfEdges := by
  have hvis : Vis f rem h r0 := Or.inr ⟨hface, hnot⟩
  have hhe : ∀ x, x ≠ h → (w.d.dropHE h).he x = w.d.he x := fun x hx => dropHE_he_ne _ _ hx
  have hdead : (w.d.dropHE h).he h = none := by rw [dropHE_he fr.ok, if_pos rfl]
  refine ⟨?_, ?_, ?_, ?_, ?_, ?_, ?_⟩
  · intro x rx hx hv hcx hix
    by_cases hxh : x = h
    · subst hxh; exact hdead
    · rw [hhe x hxh]; exact g.gone x rx hx (hv.of_tail hxh) hcx hix
  · intro x rx hx hv hn
    by_cases hxh : x = h
    · subst hxh
      rw [hr0] at hx; cases hx
      exact absurd ⟨hc, hin⟩ hn
    · rw [hhe x hxh]; exact g.kept x rx hx (hv.of_tail hxh) hn
  · intro x rx hx hv
    by_cases hxh : x = h
    · subst hxh
      rw [hr0] at hx; cases hx
      have : x ∉ w.processedHalfEdges := fun hm => (fr.proc x hm).1 (List.mem_cons_self _ _)
      simp [this, hc]
    · exact g.procd x rx hx (hv.of_tail hxh)
  · intro x y rx0 ry0 rx ry hx hvx ht hy hvy hlx hly
    have hxh : x ≠ h := by rintro rfl; rw [hdead] at hlx; cases hlx
    have hyh : y ≠ h := by rintro rfl; rw [hdead] at hly; cases hly
    rw [hhe x hxh] at hlx
    rw [hhe y hyh] at hly
    exact g.twin x y rx0 ry0 rx ry hx (hvx.of_tail hxh) ht hy (hvy.of_tail hyh) hlx hly
  · intro v
    rw [mem_emplace, g.marks]
    constructor
    · rintro (⟨x, rx, h1, h2, h3, h4⟩ | rfl)
      · exact ⟨x, rx, h1, h2.drop, h3, h4⟩
      · exact ⟨h, r0, hr0, hvis, ho, hin⟩
    · rintro ⟨x, rx, h1, h2, h3, h4⟩
      by_cases hxh : x = h
      · subst hxh
        rw [hr0] at h1; cases h1
        rw [ho] at h3; cases h3
        exact Or.inr rfl
      · exact Or.inl ⟨x, rx, h1, h2.of_tail hxh, h3, h4⟩
  · intro x r hx hl
    have hxh : x ≠ h := by
      rintro rfl
      have := he_lt wf.store hr0; omega
    rw [hhe x hxh] at hl
    exact g.newhe x r hx hl
  · intro v h1 h2
    obtain ⟨ha, x, r, h3, h4, h5⟩ := g.freshv v h1 h2
    refine ⟨ha, x, r, ?_, ?_, h5⟩
    · have hxh : x ≠ h := by
        rintro rfl
        rcases h4 with h4 | ⟨rr, h6, h7⟩
        · have := he_lt wf.store hr0; omega
        · rcases h7 with h7 | ⟨-, h7⟩
          · rw [hr0] at h6; cases h6; omega
          · exact h7 (List.mem_cons_self _ _)
      rw [hhe x hxh]; exact h3
    · rcases h4 with h4 | ⟨rr, h6, h7⟩
      · exact Or.inl h4
      · exact Or.inr ⟨rr, h6, h7.drop⟩

theorem GeoD.clip (wf : WellFormed d0 cyc) (ag : Agrees box d0)
    (fr : Frame d0 f (h :: rem) w)
    (hr0 : d0.he h = some r0) (hface : r0.incidentFace = f) (hnot : h ∉ rem)
    (g : GeoD d0 box f (h :: rem) w.d w.verticesToRemove w.processedHalfEdges)
    {o : Nat} (ho : r0.origin = some o)
    {pts : List Vector2} {d2 : VoronoiDiagram} {O D : Option Nat}
    (ce : ClipEffect w h r0 pts d2 O D)
    (hpts : ∀ q ∈ pts, q ∈ (crossings box d0 r0).map Intersection.point)
    (hcls : ¬ (crossings box d0 r0 = [] ∧ originIn box d0 r0 = false))
    (hO : if originIn box d0 r0 = true then O = r0.origin
          else Src w r0 d2 HalfEdge.destination O)
    (hD : if destIn box d0 r0 = true then D = r0.destination
          else Src w r0 d2 HalfEdge.origin D)
    {marks' proc' : List Nat}
    (hm : ∀ v, v ∈ marks' ↔ v ∈ w.verticesToRemove ∨ (originIn box d0 r0 = false ∧ v = o))
    (hp : ∀ x, x ∈ proc' ↔ x ∈ w.processedHalfEdges ∨ (x = h ∧ crossings box d0 r0 ≠ [])) :
    GeoD d0 box f rem d2 marks' proc' := by
  have hvis : Vis f rem h r0 := Or.inr ⟨hface, hnot⟩
  have hlt : h < d0.halfEdgeCount := he_lt wf.store hr0
  have hnp : h ∉ w.processedHalfEdges := fun hm => (fr.proc h hm).1 (List.mem_cons_self _ _)
  -- an end taken from the processed twin, or made now, is a new vertex
  have srcO : originIn box d0 r0 = false → FreshAt d0 d2 O := by
    intro hin
    rw [if_neg (by simp [hin])] at hO
    rcases hO with ⟨tw, rt, h1, h2, h3⟩ | ⟨-, v, h1, h2, h3⟩
    · obtain ⟨ht, hpm⟩ := processedTwin_some.1 h1
      obtain ⟨rt0, rt', h4, h5, h6⟩ := fr.twin_vis wf hr0 ht hpm
      obtain ⟨rt0', h7, -, -, -, -, -, h8⟩ := wf.twin_swap box hr0 ht
      rw [h4] at h7; cases h7
      have hc := (g.procd tw rt0 h4 h5).1 hpm
      obtain ⟨r, h9, -, -, -, h10⟩ := g.kept tw rt0 h4 h5 (fun hh => hc hh.1)
      rw [h2] at h9; cases h9
      rw [h3]
      exact (h10 (h8.trans hin)).mono ce.vcount
    · exact ⟨v, h1, le_trans fr.vcount h2, h3⟩
  have srcD : destIn box d0 r0 = false → FreshAt d0 d2 D := by
    intro hin
    rw [if_neg (by simp [hin])] at hD
    rcases hD with ⟨tw, rt, h1, h2, h3⟩ | ⟨-, v, h1, h2, h3⟩
    · obtain ⟨ht, hpm⟩ := processedTwin_some.1 h1
      obtain ⟨rt0, rt', h4, h5, h6⟩ := fr.twin_vis wf hr0 ht hpm
      obtain ⟨rt0', h7, -, -, -, -, h8, -⟩ := wf.twin_swap box hr0 ht
      rw [h4] at h7; cases h7
      have hc := (g.procd tw rt0 h4 h5).1 hpm
      obtain ⟨r, h9, -, h10, -, -⟩ := g.kept tw rt0 h4 h5 (fun hh => hc hh.1)
      rw [h2] at h9; cases h9
      rw [h3]
      exact (h10 (h8.trans hin)).mono ce.vcount
    · exact ⟨v, h1, le_trans fr.vcount h2, h3⟩
  -- the clipped half-edge and its twin, when the twin has been walked
  have key : ∀ y ry0 ry, r0.twin = some y → d0.he y = some ry0 → Vis f (h :: rem) y ry0 →
      w.d.he y = some ry → D = ry.origin ∧ O = ry.destination := by
    intro y ry0 ry ht hy hvy hly
    obtain ⟨ry0', h1, h2, h3, h4, h5, h6, h7⟩ := wf.twin_swap box hr0 ht
    rw [hy] at h1; cases h1
    have hng : ¬ (crossings box d0 ry0 = [] ∧ originIn box d0 ry0 = false) := by
      rintro ⟨hh1, hh2⟩
      rw [g.gone y ry0 hy hvy hh1 hh2] at hly; cases hly
    obtain ⟨r, h8, k1, k2, k3, k4⟩ := g.kept y ry0 hy hvy hng
    rw [hly] at h8; cases h8
    have agy := ag.at hy
    constructor
    · by_cases hd : destIn box d0 r0 = true
      · rw [if_pos hd] at hD
        rw [hD, k1 (h6.trans hd), h3]
      · rw [if_neg hd] at hD
        have hd' : destIn box d0 r0 = false := by simpa using hd
        have hcy : crossings box d0 ry0 ≠ [] := by
          intro hh
          have := agy.nil hh
          exact hng ⟨hh, h6.trans hd'⟩
        have hpy := (g.procd y ry0 hy hvy).2 hcy
        rcases hD with ⟨tw, rt, h9, h10, h11⟩ | ⟨h9, -⟩
        · obtain ⟨h12, -⟩ := processedTwin_some.1 h9
          rw [ht] at h12; cases h12
          rw [hly] at h10; cases h10
          exact h11
        · rw [processedTwin_some.2 ⟨ht, hpy⟩] at h9; cases h9
    · by_cases hd : originIn box d0 r0 = true
      · rw [if_pos hd] at hO
        rw [hO, k3 (h7.trans hd), h4]
      · rw [if_neg hd] at hO
        have hd' : originIn box d0 r0 = false := by simpa using hd
        have hcy : crossings box d0 ry0 ≠ [] := by
          intro hh
          have := agy.nil hh
          rw [h7, hd'] at this
          exact hng ⟨hh, this.symm⟩
        have hpy := (g.procd y ry0 hy hvy).2 hcy
        rcases hO with ⟨tw, rt, h9, h10, h11⟩ | ⟨h9, -⟩
        · obtain ⟨h12, -⟩ := processedTwin_some.1 h9
          rw [ht] at h12; cases h12
          rw [hly] at h10; cases h10
          exact h11
        · rw [processedTwin_some.2 ⟨ht, hpy⟩] at h9; cases h9
  refine ⟨?_, ?_, ?_, ?_, ?_, ?_, ?_⟩
  · intro x rx hx hv hcx hix
    by_cases hxh : x = h
    · subst hxh
      rw [hr0] at hx; cases hx
      exact absurd ⟨hcx, hix⟩ hcls
    · rw [ce.he_other x hxh]; exact g.gone x rx hx (hv.of_tail hxh) hcx hix
  · intro x rx hx hv hn
    by_cases hxh : x = h
    · subst hxh
      rw [hr0] at hx; cases hx
      refine ⟨_, ce.he_self, ?_, srcO, ?_, srcD⟩
      · intro hin; rw [if_pos hin] at hO; exact hO
      · intro hin; rw [if_pos hin] at hD; exact hD
    · rw [ce.he_other x hxh]
      obtain ⟨r, h1, h2, h3, h4, h5⟩ := g.kept x rx hx (hv.of_tail hxh) hn
      exact ⟨r, h1, h2, fun hh => (h3 hh).mono ce.vcount, h4, fun hh => (h5 hh).mono ce.vcount⟩
  · intro x rx hx hv
    rw [hp]
    by_cases hxh : x = h
    · subst hxh
      rw [hr0] at hx; cases hx
      simp [hnp]
    · simp only [hxh, false_and, or_false]
      exact g.procd x rx hx (hv.of_tail hxh)
  · intro x y rx0 ry0 rx ry hx hvx ht hy hvy hlx hly
    by_cases hxh : x = h
    · subst hxh
      rw [hr0] at hx; cases hx
      obtain ⟨-, -, -, -, -, hyx, -⟩ := wf.twin_swap box hr0 ht
      rw [ce.he_self] at hlx; cases hlx
      rw [ce.he_other y hyx] at hly
      exact key y ry0 ry ht hy (hvy.of_tail hyx) hly
    · by_cases hyh : y = h
      · subst hyh
        rw [hr0] at hy; cases hy
        obtain ⟨ry0', h1, h2, -⟩ := wf.twin_swap box hx ht
        rw [hr0] at h1; cases h1
        rw [ce.he_self] at hly; cases hly
        rw [ce.he_other x hxh] at hlx
        obtain ⟨k1, k2⟩ := key x rx0 rx h2 hx (hvx.of_tail hxh) hlx
        exact ⟨k2.symm, k1.symm⟩
      · rw [ce.he_other x hxh] at hlx
        rw [ce.he_other y hyh] at hly
        exact g.twin x y rx0 ry0 rx ry hx (hvx.of_tail hxh) ht hy (hvy.of_tail hyh) hlx hly
  · intro v
    rw [hm, g.marks]
    constructor
    · rintro (⟨x, rx, h1, h2, h3, h4⟩ | ⟨h1, rfl⟩)
      · exact ⟨x, rx, h1, h2.drop, h3, h4⟩
      · exact ⟨h, r0, hr0, hvis, ho, h1⟩
    · rintro ⟨x, rx, h1, h2, h3, h4⟩
      by_cases hxh : x = h
      · subst hxh
        rw [hr0] at h1; cases h1
        rw [ho] at h3; cases h3
        exact Or.inr ⟨h4, rfl⟩
      · exact Or.inl ⟨x, rx, h1, h2.of_tail hxh, h3, h4⟩
  · intro x r hx hl
    rw [ce.he_other x (by omega)] at hl
    obtain ⟨h1, h2⟩ := g.newhe x r hx hl
    exact ⟨h1.mono ce.vcount, h2.mono ce.vcount⟩
  · intro v h1 h2
    by_cases hv : v < w.d.vertexCount
    · obtain ⟨⟨a, ha, hpt⟩, x, r, h3, h4, h5⟩ := g.freshv v h1 hv
      refine ⟨⟨a, by rw [ce.vold v hv]; exact ha, hpt⟩, x, r, ?_, ?_, h5⟩
      · have hxh : x ≠ h := by
          rintro rfl
          rcases h4 with h4 | ⟨rr, h6, h7⟩
          · omega
          · rcases h7 with h7 | ⟨-, h7⟩
            · rw [hr0] at h6; cases h6; omega
            · exact h7 (List.mem_cons_self _ _)
        rw [ce.he_other x hxh]; exact h3
      · rcases h4 with h4 | ⟨rr, h6, h7⟩
        · exact Or.inl h4
        · exact Or.inr ⟨rr, h6, h7.drop⟩
    · obtain ⟨⟨a, ha, hpt⟩, href⟩ := ce.vnew v (by omega) h2
      exact ⟨⟨a, ha, Or.inr ⟨h, r0, hr0, hpts _ hpt⟩⟩, h, _, ce.he_self,
        Or.inr ⟨r0, hr0, hvis⟩, href⟩

end step

end VoronoiDiagram

end Voronoi

namespace Voronoi

namespace VoronoiDiagram

/-! ## Links keep the account of the clipping -/

section link

variable {d0 : VoronoiDiagram} {box : Box} {cyc : Nat → List Nat} {f h : Nat} {rem : List Nat}

theorem GeoD.link {d2 d3 : VoronoiDiagram} {wl : Walk} {side : Side} {marks proc : List Nat}
    (store : StoreOK d0) (ok2 : StoreOK d2) (hc0 : d0.halfEdgeCount ≤ d2.halfEdgeCount)
    (g : GeoD d0 box f rem d2 marks proc) (lc : LinkChoice wl d2 box h side d3)
    (hout : ∀ o os s0, wl.outgoing = some (o, os) → d2.he o = some s0 →
      FreshAt d0 d2 s0.destination)
    (hend : ∀ e0, wl.outgoing ≠ none → d2.he h = some e0 → FreshAt d0 d2 e0.origin) :
    GeoD d0 box f rem d3 marks proc := by
  have hvc := lc.vcount
  have back : ∀ x r, x < d2.halfEdgeCount → d3.he x = some r →
      ∃ r2, d2.he x = some r2 ∧ r.origin = r2.origin ∧ r.destination = r2.destination := by
    intro x r hx hl
    cases hq : d2.he x with
    | none => rw [lc.he_dead hx hq] at hl; cases hl
    | some r2 =>
      obtain ⟨r', h1, h2, h3, -⟩ := lc.he_keep hq ok2
      rw [hl] at h1; cases h1
      exact ⟨r2, rfl, h2, h3⟩
  refine ⟨?_, ?_, g.procd, ?_, g.marks, ?_, ?_⟩
  · intro x r0 hx hv hcx hix
    exact lc.he_dead (lt_of_lt_of_le (he_lt store hx) hc0) (g.gone x r0 hx hv hcx hix)
  · intro x r0 hx hv hn
    obtain ⟨r, h1, h2, h3, h4, h5⟩ := g.kept x r0 hx hv hn
    obtain ⟨r', k1, k2, k3, -⟩ := lc.he_keep h1 ok2
    refine ⟨r', k1, ?_, ?_, ?_, ?_⟩
    · intro hh; rw [k2]; exact h2 hh
    · intro hh; rw [k2]; exact (h3 hh).mono hvc
    · intro hh; rw [k3]; exact h4 hh
    · intro hh; rw [k3]; exact (h5 hh).mono hvc
  · intro x y rx0 ry0 rx ry hx hvx ht hy hvy hlx hly
    obtain ⟨rx2, h1, h2, h3⟩ := back x rx (lt_of_lt_of_le (he_lt store hx) hc0) hlx
    obtain ⟨ry2, k1, k2, k3⟩ := back y ry (lt_of_lt_of_le (he_lt store hy) hc0) hly
    rw [h2, h3, k2, k3]
    exact g.twin x y rx0 ry0 rx2 ry2 hx hvx ht hy hvy h1 k1
  · intro x r hx hl
    by_cases hx2 : x < d2.halfEdgeCount
    · obtain ⟨r2, h1, h2, h3⟩ := back x r hx2 hl
      obtain ⟨k1, k2⟩ := g.newhe x r2 hx h1
      rw [h2, h3]
      exact ⟨k1.mono hvc, k2.mono hvc⟩
    · obtain ⟨o, os, s0, e0, h1, h2, h3, -, -, h4, h5⟩ := lc.he_new ok2 (by omega) hl
      constructor
      · rcases h4 with h4 | ⟨v, h4, h6, h7⟩
        · rw [h4]; exact (hout o os s0 h1 h2).mono hvc
        · have := g.freshv
          exact ⟨v, h4, by
            have : d0.vertexCount ≤ d2.vertexCount := by
              by_contra hcon
              obtain ⟨v', -, q1, q2⟩ := hout o os s0 h1 h2
              omega
            omega, h7⟩
      · rcases h5 with h5 | ⟨v, h5, h6, h7⟩
        · rw [h5]; exact (hend e0 (by rw [h1]; simp) h3).mono hvc
        · exact ⟨v, h5, by
            have : d0.vertexCount ≤ d2.vertexCount := by
              by_contra hcon
              obtain ⟨v', -, q1, q2⟩ := hout o os s0 h1 h2
              omega
            omega, h7⟩
  · intro v h1 h2
    by_cases hv : v < d2.vertexCount
    · obtain ⟨⟨a, ha, hpt⟩, x, r, h3, h4, h5⟩ := g.freshv v h1 hv
      obtain ⟨r', k1, k2, k3, -⟩ := lc.he_keep h3 ok2
      refine ⟨⟨a, by rw [lc.vold ok2 v hv]; exact ha, hpt⟩, x, r', k1, h4, ?_⟩
      rw [k2, k3]; exact h5
    · obtain ⟨⟨a, ha, hpt⟩, x, r', k1, k2, k3⟩ := lc.vnew ok2 (by omega) h2
      exact ⟨⟨a, ha, Or.inl hpt⟩, x, r', k2, Or.inl (by omega), Or.inr k3⟩

/-- The account of the clipping reads the diagram through its views only. -/
theorem GeoD.congr {f' : Nat} {rem' : List Nat} {d d' : VoronoiDiagram}
    {marks proc : List Nat} (g : GeoD d0 box f rem d marks proc)
    (hv : ∀ x r0, d0.he x = some r0 → (Vis f rem x r0 ↔ Vis f' rem' x r0))
    (hhe : d'.he = d.he) (hvx : d'.vx = d.vx) (hvc : d'.vertexCount = d.vertexCount) :
    GeoD d0 box f' rem' d' marks proc := by
  have hfr : ∀ e, FreshAt d0 d' e ↔ FreshAt d0 d e := by
    intro e; unfold FreshAt; rw [hvc]
  refine ⟨?_, ?_, ?_, ?_, ?_, ?_, ?_⟩
  · intro x r0 hx hvis hcx hix
    rw [hhe]; exact g.gone x r0 hx ((hv x r0 hx).2 hvis) hcx hix
  · intro x r0 hx hvis hn
    rw [hhe]; simp only [hfr]
    exact g.kept x r0 hx ((hv x r0 hx).2 hvis) hn
  · intro x r0 hx hvis
    exact g.procd x r0 hx ((hv x r0 hx).2 hvis)
  · intro x y rx0 ry0 rx ry hx hvx' ht hy hvy hlx hly
    rw [hhe] at hlx hly
    exact g.twin x y rx0 ry0 rx ry hx ((hv x rx0 hx).2 hvx') ht hy ((hv y ry0 hy).2 hvy) hlx hly
  · intro v
    rw [g.marks]
    constructor
    · rintro ⟨x, r0, h1, h2, h3⟩
      exact ⟨x, r0, h1, (hv x r0 h1).1 h2, h3⟩
    · rintro ⟨x, r0, h1, h2, h3⟩
      exact ⟨x, r0, h1, (hv x r0 h1).2 h2, h3⟩
  · intro x r hx hl
    rw [hhe] at hl; simp only [hfr]
    exact g.newhe x r hx hl
  · intro v h1 h2
    rw [hvc] at h2
    obtain ⟨ha, x, r, h3, h4, h5⟩ := g.freshv v h1 h2
    refine ⟨by rw [hvx]; exact ha, x, r, by rw [hhe]; exact h3, ?_, h5⟩
    rcases h4 with h4 | ⟨r0, h6, h7⟩
    · exact Or.inl h4
    · exact Or.inr ⟨r0, h6, (hv x r0 h6).1 h7⟩

/-- When face `f` is done, what is walked is what is walked when face `f + 1` starts. -/
theorem vis_next (wf : WellFormed d0 cyc) {x : Nat} {r0 : HalfEdge} (hx : d0.he x = some r0) :
    Vis f [] x r0 ↔ Vis (f + 1) (cyc (f + 1)) x r0 := by
  constructor
  · rintro (h1 | ⟨h1, -⟩)
    · exact Or.inl (by omega)
    · exact Or.inl (by omega)
  · rintro (h1 | ⟨h1, h2⟩)
    · by_cases hh : r0.incidentFace < f
      · exact Or.inl hh
      · exact Or.inr ⟨by omega, by simp⟩
    · exact absurd (h1 ▸ wf.mem_cyc hx) h2

theorem vis_start (wf : WellFormed d0 cyc) {x : Nat} {r0 : HalfEdge} (hx : d0.he x = some r0) :
    Vis f (cyc f) x r0 ↔ r0.incidentFace < f := by
  constructor
  · rintro (h1 | ⟨h1, h2⟩)
    · exact h1
    · exact absurd (h1 ▸ wf.mem_cyc hx) h2
  · exact Or.inl

theorem geoD_init (wf : WellFormed d0 cyc) : GeoD d0 box 0 (cyc 0) d0 [] [] := by
  have hno : ∀ x r0, d0.he x = some r0 → ¬ Vis 0 (cyc 0) x r0 := by
    intro x r0 hx hv
    have := (vis_start wf hx).1 hv
    omega
  refine ⟨?_, ?_, ?_, ?_, ?_, ?_, ?_⟩
  · intro x r0 hx hv; exact absurd hv (hno x r0 hx)
  · intro x r0 hx hv; exact absurd hv (hno x r0 hx)
  · intro x r0 hx hv; exact absurd hv (hno x r0 hx)
  · intro x y rx0 ry0 rx ry hx hv; exact absurd hv (hno x rx0 hx)
  · intro v
    simp only [List.not_mem_nil, false_iff]
    rintro ⟨x, r0, hx, hv, -⟩
    exact hno x r0 hx hv
  · intro x r hx hl
    have := he_lt wf.store hl; omega
  · intro v h1 h2; omega

end link

end VoronoiDiagram

end Voronoi

namespace Voronoi

namespace VoronoiDiagram

theorem nodup_emplace {s : List Nat} (hs : s.Nodup) (x : Nat) : (emplace s x).Nodup := by
  unfold emplace
  by_cases h : x ∈ s
  · rw [if_pos h]; exact hs
  · rw [if_neg h]
    exact List.Nodup.append hs (List.nodup_singleton x) (by
      intro a ha hb
      rw [List.mem_singleton] at hb
      exact h (hb ▸ ha))

section step

variable {d0 : VoronoiDiagram} {box : Box} {cyc : Nat → List Nat} {f e0 h : Nat}

theorem geoW_step (wf : WellFormed d0 cyc) (ag : Agrees box d0)
    (p : Path d0 f e0 (h :: rem)) (fr : Frame d0 f (h :: rem) w)
    (gw : GeoW d0 box f e0 (h :: rem) w) (hr0 : d0.he h = some r)
    (rd : Readable d0 r o t a b)
    (vc : VisitCase box w h r o (box.getIntersections a.point b.point) w')
    (fr' : Frame d0 f rem w') : GeoW d0 box f e0 rem w' := by
  have hr : w.d.he h = some r := (fr.reads wf hr0).1
  obtain ⟨r1, hr1, hface, -, hnot⟩ := p.head
  rw [hr0] at hr1; cases hr1
  have hfol : Follows d0 h ((rem ++ [e0]).headD e0) := (chain'_step p.chain).1
  have agh : AgreesAt box d0 r := ag.at hr0
  have hcr : crossings box d0 r = box.getIntersections a.point b.point := rd.crossings
  have hin : w.inside = originIn box d0 r := gw.flag r (by simpa using hr0)
  have e := vc.effect fr.ok hr
  have hvis : Vis f rem h r := Or.inr ⟨hface, hnot⟩
  -- what is needed of the new state, from the new account
  have fin : ∀ (g' : GeoD d0 box f rem w'.d w'.verticesToRemove w'.processedHalfEdges),
      w'.inside = destIn box d0 r →
      (w'.outgoing = w.outgoing ∨ ∃ s, w'.outgoing = some (h, s) ∧
        crossings box d0 r ≠ [] ∧ destIn box d0 r = false) →
      (w'.incoming = w.incoming ∨ ∃ s, w'.incoming = some (h, s) ∧
        crossings box d0 r ≠ [] ∧ originIn box d0 r = false) →
      w'.verticesToRemove.Nodup →
      (w'.incoming ≠ none → w'.inside = false → w'.outgoing ≠ none) →
      GeoW d0 box f e0 rem w' := by
    intro g' hfl hout hinc hnd hpe
    refine ⟨g', ?_, ?_, ?_, hnd, hpe⟩
    · intro rn hn
      rw [hfl]; exact (hfol.originIn_next hr0 hn).symm
    · intro o' s' ro ho hro
      rcases hout with hout | ⟨s, hout, hne, hd⟩
      · rw [hout] at ho
        obtain ⟨hno, r2, hr2, -⟩ := fr.out o' s' ho
        have hoh : o' ≠ h := fun hh => hno (hh ▸ List.mem_cons_self _ _)
        obtain ⟨r3, k1, -, k2, -⟩ := e.keep o' r2 hr2 hoh
        rw [hro] at k1; cases k1
        rw [k2]; exact (gw.out o' s' r2 ho hr2).mono e.vcount
      · rw [hout] at ho; cases ho
        obtain ⟨r3, k1, -, -, -, k2⟩ := g'.kept h r hr0 hvis (fun hh => hne hh.1)
        rw [hro] at k1; cases k1
        exact k2 hd
    · intro i' s' ri hi hri
      rcases hinc with hinc | ⟨s, hinc, hne, hd⟩
      · rw [hinc] at hi
        obtain ⟨hno, r2, hr2, -⟩ := fr.inc i' s' hi
        have hih : i' ≠ h := fun hh => hno (hh ▸ List.mem_cons_self _ _)
        obtain ⟨r3, k1, k2, -⟩ := e.keep i' r2 hr2 hih
        rw [hri] at k1; cases k1
        rw [k2]; exact (gw.inc i' s' r2 hi hr2).mono e.vcount
      · rw [hinc] at hi; cases hi
        obtain ⟨r3, k1, -, k2, -⟩ := g'.kept h r hr0 hvis (fun hh => hne hh.1)
        rw [hri] at k1; cases k1
        exact k2 hd
  -- the pending link of an entering half-edge
  have linked : ∀ {d2 d3 : VoronoiDiagram} {pts : List Vector2} {O D : Option Nat}
      {side : Side} {marks' proc' : List Nat},
      ClipEffect w h r pts d2 O D → GeoD d0 box f rem d2 marks' proc' →
      originIn box d0 r = false → crossings box d0 r ≠ [] →
      LinkChoice w d2 box h side d3 → GeoD d0 box f rem d3 marks' proc' := by
    intro d2 d3 pts O D side marks' proc' ce g2 ho hne lc
    refine g2.link wf.store ce.ok (le_trans fr.hcount (le_of_eq ce.hcount.symm)) lc ?_ ?_
    · intro o' s' s0 hout hs0
      obtain ⟨hno, r2, hr2, -⟩ := fr.out o' s' hout
      have hoh : o' ≠ h := fun hh => hno (hh ▸ List.mem_cons_self _ _)
      rw [ce.he_other o' hoh, hr2] at hs0; cases hs0
      exact (gw.out o' s' _ hout hr2).mono ce.vcount
    · intro e0' _ he0
      obtain ⟨r3, k1, -, k2, -⟩ := g2.kept h r hr0 hvis (fun hh => hne hh.1)
      rw [he0] at k1; cases k1
      exact k2 ho
  cases vc with
  | remove hi hin0 =>
    have hc : crossings box d0 r = [] := hcr.trans hi
    have ho : originIn box d0 r = false := by rw [← hin]; exact hin0
    refine fin (GeoD.remove wf fr hr0 hface hnot gw.geo rd.origin hc ho) ?_ (Or.inl rfl)
      (Or.inl rfl) (nodup_emplace gw.nodup _) gw.pend
    show w.inside = _
    rw [agh.nil hc, hin]
  | keep hk =>
    rcases hk with ⟨hi, hin1⟩ | hk
    · have hc : crossings box d0 r = [] := hcr.trans hi
      have ho : originIn box d0 r = true := by rw [← hin]; exact hin1
      have hd : destIn box d0 r = true := by rw [agh.nil hc, ho]
      refine fin (GeoD.clip wf ag fr hr0 hface hnot gw.geo rd.origin
        (clipEffect_trivial fr.ok hr) (by simp) (by simp [ho]) (by simp [ho]) (by simp [hd])
        (by simp [ho]) (by simp [hc])) ?_ (Or.inl rfl) (Or.inl rfl) gw.nodup gw.pend
      rw [hd]; exact hin1
    · rw [← hcr] at hk
      exact absurd hk agh.not_three
  | exit i0 d2 D hi hin1 ce src =>
    have hc : crossings box d0 r = [i0] := hcr.trans hi
    have ho : originIn box d0 r = true := by rw [← hin]; exact hin1
    have hd : destIn box d0 r = false := by rw [agh.one hc, ho]; rfl
    refine fin (GeoD.clip wf ag fr hr0 hface hnot gw.geo rd.origin ce (by simp [hc])
        (by simp [ho]) (by simp [ho]) (by simpa [hd] using src)
        (by simp [ho]) (by simp [hc, mem_emplace])) ?_
      (Or.inr ⟨_, rfl, by simp [hc], hd⟩) (Or.inl rfl) gw.nodup (by simp)
    rw [hd]
  | enter i0 d2 O d3 hi hin0 ce src lc =>
    have hc : crossings box d0 r = [i0] := hcr.trans hi
    have ho : originIn box d0 r = false := by rw [← hin]; exact hin0
    have hd : destIn box d0 r = true := by rw [agh.one hc, ho]; rfl
    have g2 : GeoD d0 box f rem d2 (emplace w.verticesToRemove o)
        (emplace w.processedHalfEdges h) :=
      GeoD.clip wf ag fr hr0 hface hnot gw.geo rd.origin ce (by simp [hc])
        (by simp [hc]) (by simpa [ho] using src) (by simp [hd])
        (by simp [ho, mem_emplace]) (by simp [hc, mem_emplace])
    refine fin (linked ce g2 ho (by simp [hc]) lc) ?_ (Or.inl rfl) ?_
      (nodup_emplace gw.nodup _) (by simp)
    · rw [hd]
    · rcases firstIncoming_cases w h i0.side with ⟨-, hh⟩ | ⟨x, hx, hh⟩
      · exact Or.inr ⟨_, hh, by simp [hc], ho⟩
      · exact Or.inl (hh.trans hx.symm)
  | through i0 i1 d2 O D d3 hi ce src1 src2 lc =>
    have hc : crossings box d0 r = [i0, i1] := hcr.trans hi
    obtain ⟨ho, hd⟩ := agh.two hc
    have g2 : GeoD d0 box f rem d2 (emplace w.verticesToRemove o)
        (emplace w.processedHalfEdges h) :=
      GeoD.clip wf ag fr hr0 hface hnot gw.geo rd.origin ce (by simp [hc])
        (by simp [hc]) (by simpa [ho] using src1) (by simpa [hd] using src2)
        (by simp [ho, mem_emplace]) (by simp [hc, mem_emplace])
    refine fin (linked ce g2 ho (by simp [hc]) lc) ?_ (Or.inr ⟨_, rfl, by simp [hc], hd⟩) ?_
      (nodup_emplace gw.nodup _) (by simp)
    · show w.inside = _
      rw [hd, hin, ho]
    · rcases firstIncoming_cases w h i0.side with ⟨-, hh⟩ | ⟨x, hx, hh⟩
      · exact Or.inr ⟨_, hh, by simp [hc], ho⟩
      · exact Or.inl (hh.trans hx.symm)

end step

end VoronoiDiagram

end Voronoi

namespace Voronoi

namespace VoronoiDiagram

section site

variable {d0 : VoronoiDiagram} {box : Box} {cyc : Nat → List Nat} {f : Nat} {w : Walk}

/-- The body of the loop for face `f`, with a further invariant `Kw` of the turns. -/
theorem geo_site (wf : WellFormed d0 cyc) (ag : Agrees box d0) (fuel : Nat)
    (bt : Between d0 f w) (gb : GeoB d0 box cyc f w) {site : Site}
    (hs : d0.mSites[f]? = some site)
    {e0 : Nat} {rest : List Nat} {r0 : HalfEdge} {o t : Nat} {a b : Vertex}
    (hcyc : cyc f = e0 :: rest) (hr0 : d0.he e0 = some r0) (rd : Readable d0 r0 o t a b)
    (Kw : List Nat → Walk → Prop) (Kb : Walk → Prop)
    (hstart : Kw (cyc f)
      { w with inside := (box.contains a.point), incoming := none, outgoing := none })
    (hstep : ∀ h rem w2 w' r o t a b, Path d0 f e0 (h :: rem) → Frame d0 f (h :: rem) w2 →
      Rel f w w2 → GeoW d0 box f e0 (h :: rem) w2 → Kw (h :: rem) w2 → d0.he h = some r →
      Readable d0 r o t a b →
      VisitCase box w2 h r o (box.getIntersections a.point b.point) w' →
      Frame d0 f rem w' → GeoW d0 box f e0 rem w' → Kw rem w')
    (hfin : ∀ w1 w', Frame d0 f [] w1 → Rel f w w1 → GeoW d0 box f e0 [] w1 → Kw [] w1 →
      FinishCase box f (!(box.contains a.point)) w1 w' → Between d0 (f + 1) w' →
      SiteRel f w w' → Kb w') :
    (∀ w', intersectSite fuel box w site = .ok w' →
      Between d0 (f + 1) w' ∧ SiteRel f w w' ∧ GeoB d0 box cyc (f + 1) w' ∧ Kb w') ∧
    ((cyc f).length ≤ fuel → ∃ w', intersectSite fuel box w site = .ok w') := by
  obtain ⟨hsf, hf⟩ := wf.siteFace hs
  have key := site_spine wf box fuel bt hf hsf hcyc hr0 rd
    (fun rem w2 => GeoW d0 box f e0 rem w2 ∧ Kw rem w2)
    (fun w' => GeoB d0 box cyc (f + 1) w' ∧ Kb w')
    ⟨⟨gb.1, (by
        intro r hr
        rw [hcyc] at hr
        simp only [List.cons_append, List.headD_cons] at hr
        rw [hr0] at hr; cases hr
        exact rd.originIn.symm),
      (by intro _ _ _ hh; cases hh), (by intro _ _ _ hh; cases hh), gb.2,
      fun hh => absurd rfl hh⟩, hstart⟩
    (fun h rem w2 w' r o t a b p fr rel hj hr rdh vc fr' =>
      have gw' := geoW_step wf ag p fr hj.1 hr rdh vc fr'
      ⟨gw', hstep h rem w2 w' r o t a b p fr rel hj.1 hj.2 hr rdh vc fr' gw'⟩)
    (fun w1 w' fr1 rel1 hj fin bt' sr => by
      refine ⟨⟨?_, ?_⟩, hfin w1 w' fr1 rel1 hj.1 hj.2 fin bt' sr⟩
      · cases fin with
        | clean _ => exact hj.1.geo.congr (fun x r0 hx => vis_next wf hx) rfl rfl rfl
        | empty _ _ =>
          exact hj.1.geo.congr (fun x r0 hx => vis_next wf hx) (by simp) (by simp) (by simp)
        | close o' os' i' is' so ri d2 hd ho hi hso hri hfo hfi sp hfaces =>
          have g2 : GeoD d0 box f [] d2 w1.verticesToRemove w1.processedHalfEdges :=
            hj.1.geo.link wf.store fr1.ok fr1.hcount
              (show LinkChoice w1 w1.d box i' is' d2 from
                Or.inr ⟨o', os', so, ri, ho, hso, hri, sp⟩)
              (fun o2 s2 s0 h1 h2 => hj.1.out o2 s2 s0 h1 h2)
              (fun e1 _ h2 => hj.1.inc i' is' e1 hi h2)
          exact g2.congr (fun x r0 hx => vis_next wf hx) (by simp) (by simp) (by simp)
      · cases fin with
        | clean _ => exact hj.1.nodup
        | empty _ _ => exact hj.1.nodup
        | close => exact hj.1.nodup)
  refine ⟨fun w' hrun => ?_, fun hfuel => key.2 hfuel ?_⟩
  · obtain ⟨h1, h2, h3, h4⟩ := key.1 w' hrun
    exact ⟨h1, h2, h3, h4⟩
  · intro w1 fr1 hj hc hi
    refine hj.1.pend hi ?_
    rw [hj.1.flag r0 (by simpa using hr0), rd.originIn, hc]

end site

theorem sites_run (P : Nat → Walk → Prop) (box : Box) (fuel : Nat) (sites : List Site)
    (hstep : ∀ f w site, sites[f]? = some site → P f w →
      ∃ w', intersectSite fuel box w site = .ok w' ∧ P (f + 1) w') :
    ∀ (n k : Nat) (w : Walk), n = sites.length - k → k ≤ sites.length → P k w →
      ∃ w', intersectSites fuel box (sites.drop k) w = .ok w' ∧ P sites.length w' := by
  intro n
  induction n with
  | zero =>
    intro k w hn hk hp
    have : k = sites.length := by omega
    subst this
    exact ⟨w, by simp [intersectSites], hp⟩
  | succ n ih =>
    intro k w hn hk hp
    have hlt : k < sites.length := by omega
    obtain ⟨w1, h1, hp1⟩ := hstep k w sites[k] (List.getElem?_eq_getElem hlt) hp
    obtain ⟨w', h2, hp'⟩ := ih (k + 1) w1 (by omega) (by omega) hp1
    refine ⟨w', ?_, hp'⟩
    rw [List.drop_eq_getElem_cons hlt]
    simp only [intersectSites, h1]
    exact h2

/-- The removal of the marked vertices: it goes through when each mark is live and listed
once, and removes these vertices and nothing else. -/
theorem removeVertices_spec : ∀ (l : List Nat) (d : VoronoiDiagram), StoreOK d → l.Nodup →
    (∀ v ∈ l, ∃ a, d.vx v = some a) →
    ∃ d', removeVertices l d = .ok d' ∧ d'.mHalfEdges = d.mHalfEdges ∧ d'.mFaces = d.mFaces ∧
      d'.mSites = d.mSites ∧ d'.halfEdgeCount = d.halfEdgeCount ∧
      d'.vertexCount = d.vertexCount ∧
      (∀ v, d'.vx v = if v ∈ l then none else d.vx v) := by
  intro l
  induction l with
  | nil =>
    intro d _ _ _
    exact ⟨d, rfl, rfl, rfl, rfl, rfl, rfl, fun v => by simp⟩
  | cons x l ih =>
    intro d ok hnd hl
    obtain ⟨a, ha⟩ := hl x (List.mem_cons_self _ _)
    obtain ⟨hx, hnd'⟩ := List.nodup_cons.1 hnd
    obtain ⟨d', h1, h2, h3, h4, h5, h6, h7⟩ := ih (d.dropV x) (dropV_ok ok x) hnd' (by
      intro v hv
      obtain ⟨c, hc⟩ := hl v (List.mem_cons_of_mem _ hv)
      refine ⟨c, ?_⟩
      rw [dropV_vx ok, if_neg (fun hh : v = x => hx (hh ▸ hv))]
      exact hc)
    refine ⟨d', ?_, h2, h3, h4, h5, h6, ?_⟩
    · simp only [removeVertices, removeVertex_eq ha]
      exact h1
    · intro v
      rw [h7 v, dropV_vx ok]
      by_cases hv : v = x
      · subst hv; simp
      · by_cases hv' : v ∈ l
        · simp [hv']
        · simp [hv, hv']

section whole

variable {d0 : VoronoiDiagram} {box : Box} {cyc : Nat → List Nat}

/-- At the end, every half-edge of the input has been walked. -/
theorem vis_all (wf : WellFormed d0 cyc) {x : Nat} {r0 : HalfEdge} (hx : d0.he x = some r0) :
    Vis d0.mFaces.length (cyc d0.mFaces.length) x r0 :=
  Or.inl (wf.face_lt hx)

/-- Under `Agrees` and with fuel for the longest face boundary, `intersect` returns; `Kb`
is a further invariant of the loop over the sites. -/
theorem intersect_geo (wf : WellFormed d0 cyc) (ag : Agrees box d0) (fuel : Nat)
    (hfuel : ∀ f, f < d0.mFaces.length → (cyc f).length ≤ fuel)
    (Kb : Nat → Walk → Prop)
    (h0 : Kb 0 { d := d0, processedHalfEdges := [], verticesToRemove := [],
                 inside := false, incoming := none, outgoing := none })
    (hsite : ∀ f w w' site, d0.mSites[f]? = some site → Between d0 f w →
      GeoB d0 box cyc f w → Kb f w → intersectSite fuel box w site = .ok w' →
      Kb (f + 1) w') :
    ∃ w d', intersect fuel d0 box = .ok d' ∧ Between d0 d0.mFaces.length w ∧
      GeoB d0 box cyc d0.mFaces.length w ∧ Kb d0.mFaces.length w ∧ Final w d' := by
  have run := sites_run (fun k w => Between d0 k w ∧ GeoB d0 box cyc k w ∧ Kb k w) box fuel
    d0.mSites (fun f w site hs hp => by
      obtain ⟨hsf, hf⟩ := wf.siteFace hs
      obtain ⟨e0, rest, r0, o, t, a, b, hcyc, hr0, rd⟩ := wf.first hf
      have key := geo_site wf ag fuel hp.1 hp.2.1 hs hcyc hr0 rd (fun _ _ => True)
        (fun _ => True) trivial (fun _ _ _ _ _ _ _ _ _ _ _ _ _ _ _ _ _ _ _ => trivial)
        (fun _ _ _ _ _ _ _ _ _ => trivial)
      obtain ⟨w', hw'⟩ := key.2 (hfuel f hf)
      obtain ⟨k1, -, k3, -⟩ := key.1 w' hw'
      exact ⟨w', hw', k1, k3, hsite f w w' site hs hp.1 hp.2.1 hp.2.2 hw'⟩)
    d0.mSites.length 0 _ rfl (Nat.zero_le _)
    ⟨between_init d0 wf.store, ⟨geoD_init wf, List.nodup_nil⟩, h0⟩
  obtain ⟨w, hw, bt, gb, kb⟩ := run
  rw [wf.sites_length] at bt gb kb
  obtain ⟨d', h1, h2, h3, h4, h5, h6, h7⟩ := removeVertices_spec w.verticesToRemove w.d bt.ok
    gb.2 (by
      intro v hv
      obtain ⟨x, rx, hx, -, hor, -⟩ := (gb.1.marks v).1 hv
      obtain ⟨o, t, a, b, rd⟩ := wf.readable hx
      rw [rd.origin] at hor; cases hor
      exact ⟨a, by rw [bt.verts _ (vx_lt wf.store rd.vo)]; exact rd.vo⟩)
  refine ⟨w, d', ?_, bt, gb, kb, ⟨by funext k; unfold he; rw [h2], h2, h3, h4, h5, h6, h7⟩⟩
  unfold intersect
  simp only [List.drop_zero] at hw
  rw [hw]
  exact h1

end whole

end VoronoiDiagram

end Voronoi

namespace Voronoi

namespace VoronoiDiagram

section final

variable {d0 d' : VoronoiDiagram} {box : Box} {cyc : Nat → List Nat} {w : Walk}

/-- A marked vertex is a vertex of the input that the box does not contain. -/
theorem GeoB.mark (wf : WellFormed d0 cyc) (gb : GeoB d0 box cyc d0.mFaces.length w) {v : Nat}
    (hv : v ∈ w.verticesToRemove) : ∃ a, d0.vx v = some a ∧ box.contains a.point = false := by
  obtain ⟨x, rx, hx, -, hor, hin⟩ := (gb.1.marks v).1 hv
  obtain ⟨o, t, a, b, rd⟩ := wf.readable hx
  rw [rd.origin] at hor; cases hor
  exact ⟨a, rd.vo, by rw [← hin, rd.originIn]⟩

theorem Final.fresh (wf : WellFormed d0 cyc) (bt : Between d0 d0.mFaces.length w)
    (gb : GeoB d0 box cyc d0.mFaces.length w) (fin : Final w d') {e : Option Nat}
    (hf : FreshAt d0 w.d e) : EndOK box d0 d' e := by
  obtain ⟨v, h1, h2, h3⟩ := hf
  obtain ⟨⟨a, ha, hpt⟩, -⟩ := gb.1.freshv v h2 h3
  refine ⟨v, a, h1, ?_, Or.inr ⟨h2, hpt⟩⟩
  rw [fin.vx, if_neg, ha]
  intro hm
  obtain ⟨c, hc, -⟩ := gb.mark wf hm
  have := vx_lt wf.store hc
  omega

theorem Final.old (wf : WellFormed d0 cyc) (bt : Between d0 d0.mFaces.length w)
    (gb : GeoB d0 box cyc d0.mFaces.length w) (fin : Final w d') {v : Nat} {a : Vertex}
    (ha : d0.vx v = some a) (hin : box.contains a.point = true) : d'.vx v = some a := by
  rw [fin.vx, if_neg, bt.verts v (vx_lt wf.store ha), ha]
  intro hm
  obtain ⟨c, hc, hc'⟩ := gb.mark wf hm
  rw [ha] at hc; cases hc
  rw [hin] at hc'; cases hc'

/-- The two ends of every half-edge of the clipped diagram. -/
theorem Final.ends (wf : WellFormed d0 cyc) (bt : Between d0 d0.mFaces.length w)
    (gb : GeoB d0 box cyc d0.mFaces.length w) (fin : Final w d') {x : Nat} {r : HalfEdge}
    (hx : d'.he x = some r) : EndOK box d0 d' r.origin ∧ EndOK box d0 d' r.destination := by
  rw [fin.he] at hx
  by_cases hlt : x < d0.halfEdgeCount
  · obtain ⟨r0, hr0, -, -⟩ := bt.old x r hlt hx
    have hv := vis_all wf hr0
    have hn : ¬ (crossings box d0 r0 = [] ∧ originIn box d0 r0 = false) := by
      rintro ⟨h1, h2⟩
      rw [gb.1.gone x r0 hr0 hv h1 h2] at hx; cases hx
    obtain ⟨r', h1, h2, h3, h4, h5⟩ := gb.1.kept x r0 hr0 hv hn
    rw [hx] at h1; cases h1
    obtain ⟨o, t, a, b, rd⟩ := wf.readable hr0
    constructor
    · cases ho : originIn box d0 r0 with
      | true =>
        rw [rd.originIn] at ho
        exact ⟨o, a, (h2 (by rw [rd.originIn, ho])).trans rd.origin,
          fin.old wf bt gb rd.vo ho, Or.inl ⟨rd.vo, ho⟩⟩
      | false => exact fin.fresh wf bt gb (h3 ho)
    · cases ho : destIn box d0 r0 with
      | true =>
        rw [rd.destIn] at ho
        exact ⟨t, b, (h4 (by rw [rd.destIn, ho])).trans rd.destination,
          fin.old wf bt gb rd.vt ho, Or.inl ⟨rd.vt, ho⟩⟩
      | false => exact fin.fresh wf bt gb (h5 ho)
  · obtain ⟨h1, h2⟩ := gb.1.newhe x r (by omega) hx
    exact ⟨fin.fresh wf bt gb h1, fin.fresh wf bt gb h2⟩

/-- A surviving half-edge and its surviving twin share their two end vertices. -/
theorem Final.twins (wf : WellFormed d0 cyc) (bt : Between d0 d0.mFaces.length w)
    (gb : GeoB d0 box cyc d0.mFaces.length w) (fin : Final w d') {e t : Nat}
    {re rt : HalfEdge} (he : d'.he e = some re) (ht : re.twin = some t)
    (hl : d'.he t = some rt) :
    re.destination = rt.origin ∧ re.origin = rt.destination := by
  rw [fin.he] at he hl
  by_cases hlt : e < d0.halfEdgeCount
  · obtain ⟨r0, hr0, h1, -⟩ := bt.old e re hlt he
    rw [h1] at ht
    obtain ⟨rt0, h2, -⟩ := wf.twin hr0 ht
    exact gb.1.twin e t r0 rt0 re rt hr0 (vis_all wf hr0) ht h2 (vis_all wf h2) he hl
  · obtain ⟨h1, -⟩ := bt.new e re (by omega) he
    rw [h1] at ht; cases ht

/-- Every vertex of the clipped diagram is an end of one of its half-edges. -/
theorem Final.used (wf : WellFormed d0 cyc) (hu : VerticesUsed d0)
    (bt : Between d0 d0.mFaces.length w)
    (gb : GeoB d0 box cyc d0.mFaces.length w) (fin : Final w d') {v : Nat} {a : Vertex}
    (hv : d'.vx v = some a) :
    ∃ x r, d'.he x = some r ∧ (r.origin = some v ∨ r.destination = some v) := by
  rw [fin.vx] at hv
  by_cases hm : v ∈ w.verticesToRemove
  · rw [if_pos hm] at hv; cases hv
  · rw [if_neg hm] at hv
    rw [fin.he]
    by_cases hlt : v < d0.vertexCount
    · rw [bt.verts v hlt] at hv
      obtain ⟨q, hq, hqo⟩ := hu (v, a) (mem_of_lookup hv)
      have hx : d0.he q.1 = some q.2 := lookup_of_mem wf.store.nodupH hq
      have hvis := vis_all wf hx
      have hin : originIn box d0 q.2 = true := by
        cases ho : originIn box d0 q.2 with
        | true => rfl
        | false => exact absurd ((gb.1.marks v).2 ⟨q.1, q.2, hx, hvis, hqo, ho⟩) hm
      obtain ⟨r, h1, h2, -⟩ := gb.1.kept q.1 q.2 hx hvis (fun hh => by
        rw [hh.2] at hin; cases hin)
      exact ⟨q.1, r, h1, Or.inl ((h2 hin).trans hqo)⟩
    · obtain ⟨-, x, r, h1, -, h2⟩ := gb.1.freshv v (by omega) (vx_lt bt.ok hv)
      exact ⟨x, r, h1, h2⟩

end final

end VoronoiDiagram

end Voronoi

namespace Voronoi

namespace VoronoiDiagram

/-! ## Faces that the box does not cross -/

theorem VisitCase.nil_inside {box : Box} {w w' : Walk} {h o : Nat} {r : HalfEdge}
    (vc : VisitCase box w h r o [] w') (hin : w.inside = true) : w' = w := by
  cases vc with
  | remove _ h0 => rw [hin] at h0; cases h0
  | keep _ => rfl
  | exit _ _ _ hi => cases hi
  | enter _ _ _ _ hi => cases hi
  | through _ _ _ _ _ _ hi => cases hi

theorem VisitCase.nil_outside {box : Box} {w w' : Walk} {h o : Nat} {r : HalfEdge}
    (vc : VisitCase box w h r o [] w') (hin : w.inside = false) :
    w' = { w with d := w.d.dropHE h, verticesToRemove := emplace w.verticesToRemove o } := by
  cases vc with
  | remove _ _ => rfl
  | keep hk =>
    rcases hk with ⟨-, h1⟩ | hk
    · rw [hin] at h1; cases h1
    · simp at hk
  | exit _ _ _ hi => cases hi
  | enter _ _ _ _ hi => cases hi
  | through _ _ _ _ _ _ hi => cases hi

section quiet

variable {d0 : VoronoiDiagram} {box : Box} {cyc : Nat → List Nat} {f : Nat}

theorem startsInside_eq (wf : WellFormed d0 cyc) (hf : f < d0.mFaces.length)
    {e0 : Nat} {rest : List Nat} {r0 : HalfEdge} {o t : Nat} {a b : Vertex}
    (hcyc : cyc f = e0 :: rest) (hr0 : d0.he e0 = some r0) (rd : Readable d0 r0 o t a b) :
    startsInside box d0 f = box.contains a.point := by
  obtain ⟨e0', rest', fc, h1, h2, h3, -⟩ := wf.cyc_head hf
  rw [hcyc] at h1; cases h1
  simp [startsInside, h2, h3, hr0, rd.originIn]

/-- The body of the loop for a face inside the box that the box does not cross: nothing
changes. -/
theorem quiet_site (wf : WellFormed d0 cyc) (fuel : Nat) {w : Walk} (bt : Between d0 f w)
    {site : Site} (hs : d0.mSites[f]? = some site)
    (hin : startsInside box d0 f = true) (hz : NoCrossing box d0 (cyc f)) :
    ∀ w', intersectSite fuel box w site = .ok w' → w'.d = w.d := by
  obtain ⟨hsf, hf⟩ := wf.siteFace hs
  obtain ⟨e0, rest, r0, o, t, a, b, hcyc, hr0, rd⟩ := wf.first hf
  have ha : box.contains a.point = true := by rw [← startsInside_eq wf hf hcyc hr0 rd, hin]
  have key := site_spine wf box fuel bt hf hsf hcyc hr0 rd
    (fun _ w2 => w2 = { w with inside := true, incoming := none, outgoing := none })
    (fun w' => w'.d = w.d) (by rw [ha])
    (fun h rem w2 w' r o t a b p _ _ hj hr rdh vc _ => by
      have hmem : h ∈ cyc f := by
        obtain ⟨r', h1, h2⟩ := p.live h (List.mem_cons_self _ _)
        rw [hr] at h1; cases h1
        exact h2 ▸ wf.mem_cyc hr
      have hc := hz h hmem r hr
      rw [rdh.crossings] at hc
      rw [hc] at vc
      rw [vc.nil_inside (by rw [hj]), hj])
    (fun w1 w' _ _ hj fin _ _ => by
      cases fin with
      | clean _ => rw [hj]
      | empty hd _ => rw [ha] at hd; cases hd
      | close _ _ _ _ _ _ _ hd => rw [ha] at hd; cases hd)
  intro w' hrun
  exact (key.1 w' hrun).2.2

/-- The body of the loop for a face outside the box that the box does not cross: it
returns, every half-edge of the boundary is removed, the outer component is unset, and
nothing is made. -/
theorem outside_site (wf : WellFormed d0 cyc) (fuel : Nat) {w : Walk} (bt : Between d0 f w)
    {site : Site} (hs : d0.mSites[f]? = some site)
    (hin : startsInside box d0 f = false) (hz : NoCrossing box d0 (cyc f))
    (hfuel : (cyc f).length ≤ fuel) :
    ∃ w', intersectSite fuel box w site = .ok w' ∧
      w'.d.halfEdgeCount = w.d.halfEdgeCount ∧ w'.d.vertexCount = w.d.vertexCount ∧
      w'.d.mVertices = w.d.mVertices ∧
      (∀ x, w'.d.he x = if x ∈ cyc f then none else w.d.he x) ∧
      (w'.d.mFaces[f]?).map Face.outerComponent = some none ∧
      (∀ g, g ≠ f → w'.d.mFaces[g]? = w.d.mFaces[g]?) ∧
      w'.processedHalfEdges = w.processedHalfEdges := by
  obtain ⟨hsf, hf⟩ := wf.siteFace hs
  obtain ⟨e0, rest, r0, o, t, a, b, hcyc, hr0, rd⟩ := wf.first hf
  have ha : box.contains a.point = false := by rw [← startsInside_eq wf hf hcyc hr0 rd, hin]
  have key := site_spine wf box fuel bt hf hsf hcyc hr0 rd
    (fun rem w2 => w2.inside = false ∧ w2.incoming = none ∧ w2.outgoing = none ∧
      w2.d.halfEdgeCount = w.d.halfEdgeCount ∧ w2.d.vertexCount = w.d.vertexCount ∧
      w2.d.mVertices = w.d.mVertices ∧ w2.d.mFaces = w.d.mFaces ∧
      w2.processedHalfEdges = w.processedHalfEdges ∧
      (∀ x, w2.d.he x = if x ∈ cyc f ∧ x ∉ rem then none else w.d.he x))
    (fun w' => w'.d.halfEdgeCount = w.d.halfEdgeCount ∧ w'.d.vertexCount = w.d.vertexCount ∧
      w'.d.mVertices = w.d.mVertices ∧
      (∀ x, w'.d.he x = if x ∈ cyc f then none else w.d.he x) ∧
      (w'.d.mFaces[f]?).map Face.outerComponent = some none ∧
      (∀ g, g ≠ f → w'.d.mFaces[g]? = w.d.mFaces[g]?) ∧
      w'.processedHalfEdges = w.processedHalfEdges)
    ⟨ha, rfl, rfl, rfl, rfl, rfl, rfl, rfl, fun x => by simp⟩
    (fun h rem w2 w' r o t a b p fr _ hj hr rdh vc _ => by
      have hmem : h ∈ cyc f := by
        obtain ⟨r', h1, h2⟩ := p.live h (List.mem_cons_self _ _)
        rw [hr] at h1; cases h1
        exact h2 ▸ wf.mem_cyc hr
      have hc := hz h hmem r hr
      rw [rdh.crossings] at hc
      rw [hc] at vc
      have hw' := vc.nil_outside hj.1
      subst hw'
      obtain ⟨j1, j2, j3, j4, j5, j6, j7, j8, j9⟩ := hj
      refine ⟨j1, j2, j3, j4, j5, j6, j7, j8, fun x => ?_⟩
      show (w2.d.dropHE h).he x = _
      rw [dropHE_he fr.ok, j9 x]
      obtain ⟨-, -, -, -, hnot⟩ := p.head
      by_cases hxh : x = h
      · subst hxh; simp [hmem, hnot]
      · simp [hxh])
    (fun w1 w' fr1 _ hj fin _ _ => by
      obtain ⟨-, j2, j3, j4, j5, j6, j7, j8, j9⟩ := hj
      cases fin with
      | clean hd => rw [ha] at hd; cases hd
      | empty _ _ =>
        refine ⟨by simpa using j4, by simpa using j5, by simpa using j6,
          fun x => by simpa using j9 x, ?_, ?_, j8⟩
        · show ((w1.d.setOC f none).mFaces[f]?).map _ = _
          rw [setOC_faces, if_pos rfl]
          have : f < w1.d.mFaces.length := by rw [fr1.nfaces]; exact hf
          simp [List.getElem?_eq_getElem this]
        · intro g hg
          show (w1.d.setOC f none).mFaces[g]? = _
          rw [setOC_faces, if_neg hg, j7]
      | close _ _ _ _ _ _ _ _ _ hi => rw [j2] at hi; cases hi)
  obtain ⟨w', hw'⟩ := key.2 hfuel (fun w1 _ hj _ hi => absurd hj.2.1 hi)
  exact ⟨w', hw', (key.1 w' hw').2.2⟩

end quiet

end VoronoiDiagram

end Voronoi

namespace Voronoi

namespace VoronoiDiagram

/-! ## Runs of `intersect` -/

section runs

variable {d0 d' : VoronoiDiagram} {box : Box} {cyc : Nat → List Nat}

/-- What a run of `intersect` leaves, for well-formed input. -/
theorem intersect_run (wf : WellFormed d0 cyc) (fuel : Nat) (Jb : Nat → Walk → Prop)
    (h0 : Jb 0 { d := d0, processedHalfEdges := [], verticesToRemove := [],
                 inside := false, incoming := none, outgoing := none })
    (hsite : ∀ f w w' site, d0.mSites[f]? = some site → Between d0 f w → Jb f w →
      intersectSite fuel box w site = .ok w' → SiteRel f w w' → Jb (f + 1) w')
    (hrun : intersect fuel d0 box = .ok d') :
    ∃ w, Between d0 d0.mFaces.length w ∧ Jb d0.mFaces.length w ∧ d'.he = w.d.he ∧
      d'.mFaces = w.d.mFaces := by
  obtain ⟨w, bt, jb, hrem⟩ := intersect_spine wf box fuel Jb h0 (fun f w w' site hs bt hj hr => by
    obtain ⟨e0, rest, r0, o, t, a, b, hcyc, hr0, rd⟩ := wf.first (wf.siteFace hs).2
    have sr := ((site_spine wf box fuel bt (wf.siteFace hs).2 (wf.siteFace hs).1 hcyc hr0 rd
      (fun _ _ => True) (fun _ => True) trivial (fun _ _ _ _ _ _ _ _ _ _ _ _ _ _ _ _ _ =>
        trivial) (fun _ _ _ _ _ _ _ _ => trivial)).1 w' hr).2.1
    exact hsite f w w' site hs bt hj hr sr) hrun
  obtain ⟨h1, h2, -⟩ := removeVertices_frame _ _ _ hrem
  exact ⟨w, bt, jb, by funext k; unfold he; rw [h1], h2⟩

/-- What a run of `intersect` leaves, for well-formed input and a box that agrees with
itself. -/
theorem intersect_geo_run (wf : WellFormed d0 cyc) (ag : Agrees box d0) (fuel : Nat)
    (hrun : intersect fuel d0 box = .ok d') :
    ∃ w, Between d0 d0.mFaces.length w ∧ GeoB d0 box cyc d0.mFaces.length w ∧ Final w d' := by
  obtain ⟨w, bt, gb, hrem⟩ := intersect_spine wf box fuel (GeoB d0 box cyc)
    ⟨geoD_init wf, List.nodup_nil⟩ (fun f w w' site hs bt hj hr => by
      obtain ⟨e0, rest, r0, o, t, a, b, hcyc, hr0, rd⟩ := wf.first (wf.siteFace hs).2
      exact ((geo_site wf ag fuel bt hj hs hcyc hr0 rd (fun _ _ => True)
        (fun _ => True) trivial (fun _ _ _ _ _ _ _ _ _ _ _ _ _ _ _ _ _ _ _ => trivial)
        (fun _ _ _ _ _ _ _ _ _ => trivial)).1 w' hr).2.2.1) hrun
  obtain ⟨d'', h1, h2, h3, h4, h5, h6, h7⟩ := removeVertices_spec w.verticesToRemove w.d bt.ok
    gb.2 (by
      intro v hv
      obtain ⟨x, rx, hx, -, hor, -⟩ := (gb.1.marks v).1 hv
      obtain ⟨o, t, a, b, rd⟩ := wf.readable hx
      rw [rd.origin] at hor; cases hor
      exact ⟨a, by rw [bt.verts _ (vx_lt wf.store rd.vo)]; exact rd.vo⟩)
  rw [hrem] at h1; cases h1
  exact ⟨w, bt, gb, ⟨by funext k; unfold he; rw [h2], h2, h3, h4, h5, h6, h7⟩⟩

/-- Under `Agrees` and with fuel for the longest face boundary, `intersect` returns. -/
theorem intersect_total (wf : WellFormed d0 cyc) (ag : Agrees box d0) (fuel : Nat)
    (hfuel : ∀ f, f < d0.mFaces.length → (cyc f).length ≤ fuel) :
    ∃ d', intersect fuel d0 box = .ok d' := by
  obtain ⟨w, d', h, -⟩ := intersect_geo wf ag fuel hfuel (fun _ _ => True) trivial
    (fun _ _ _ _ _ _ _ _ _ => trivial)
  exact ⟨d', h⟩

/-- Along a boundary without crossings that starts inside, every end is inside. -/
theorem quiet_ends (ag : Agrees box d0) : ∀ (l : List Nat),
    List.Chain' (Follows d0) l → (∀ x ∈ l, ∃ r, d0.he x = some r ∧ crossings box d0 r = []) →
    (∀ x r, l.head? = some x → d0.he x = some r → originIn box d0 r = true) →
    ∀ x ∈ l, ∀ r, d0.he x = some r → originIn box d0 r = true ∧ destIn box d0 r = true := by
  intro l
  induction l with
  | nil => intro _ _ _ x hx; cases hx
  | cons a l ih =>
    intro hch hz hh x hx r hr
    obtain ⟨ra, hra, hca⟩ := hz a (List.mem_cons_self _ _)
    have hoa : originIn box d0 ra = true := hh a ra rfl hra
    have hda : destIn box d0 ra = true := by rw [(ag.at hra).nil hca, hoa]
    rcases List.mem_cons.1 hx with rfl | hx'
    · rw [hra] at hr; cases hr
      exact ⟨hoa, hda⟩
    · refine ih (List.Chain'.tail hch) (fun y hy => hz y (List.mem_cons_of_mem _ hy)) ?_ x hx'
        r hr
      intro y ry hy hry
      cases l with
      | nil => cases hy
      | cons b l' =>
        simp only [List.head?_cons, Option.some.injEq] at hy
        have hf : Follows d0 a b := (List.chain'_cons.1 hch).1
        rw [← hy] at hry
        rw [hf.originIn_next hra hry, hda]

end runs

end VoronoiDiagram

end Voronoi

namespace Voronoi

namespace VoronoiDiagram

section reach

variable {d0 : VoronoiDiagram} {box : Box} {cyc : Nat → List Nat}

theorem between_reach (wf : WellFormed d0 cyc) (fuel : Nat) {f : Nat}
    (hf : f ≤ d0.mFaces.length) {w : Walk}
    (hrun : intersectSites fuel box (d0.mSites.take f) d0.initWalk = .ok w) :
    Between d0 f w := by
  have hlen : (d0.mSites.take f).length = f := by
    rw [List.length_take, wf.sites_length]; omega
  have := sites_induct (fun k w => Between d0 k w) box fuel (d0.mSites.take f)
    (fun g w w' site hs bt hr => by
      have hs' : d0.mSites[g]? = some site := by
        rw [List.getElem?_take] at hs
        split at hs
        · exact hs
        · cases hs
      obtain ⟨e0, rest, r0, o, t, a, b, hcyc, hr0, rd⟩ := wf.first (wf.siteFace hs').2
      exact ((site_spine wf box fuel bt (wf.siteFace hs').2 (wf.siteFace hs').1 hcyc hr0 rd
        (fun _ _ => True) (fun _ => True) trivial (fun _ _ _ _ _ _ _ _ _ _ _ _ _ _ _ _ _ =>
          trivial) (fun _ _ _ _ _ _ _ _ => trivial)).1 w' hr).1)
    (d0.mSites.take f).length 0 d0.initWalk w rfl (Nat.zero_le _) (between_init d0 wf.store)
    (by simpa using hrun)
  rwa [hlen] at this

/-- After the turn of a face outside the box that the box does not cross, nothing is left
of the face, whatever the later turns do. -/
theorem outside_run (wf : WellFormed d0 cyc) (fuel : Nat) {f : Nat}
    (hf : f < d0.mFaces.length) (hin : startsInside box d0 f = false)
    (hz : NoCrossing box d0 (cyc f)) (hfuel : (cyc f).length ≤ fuel) {d' : VoronoiDiagram}
    (hrun : intersect fuel d0 box = .ok d') :
    (d'.mFaces[f]?).map Face.outerComponent = some none ∧ (∀ x ∈ cyc f, d'.he x = none) ∧
      (∀ x r, d'.he x = some r → r.incidentFace ≠ f) := by
  obtain ⟨w, bt, jb, hhe, hfaces⟩ := intersect_run wf fuel
    (fun k w => f < k → (w.d.mFaces[f]?).map Face.outerComponent = some none ∧
      (∀ x ∈ cyc f, w.d.he x = none) ∧ (∀ x r, w.d.he x = some r → r.incidentFace ≠ f))
    (fun h => absurd h (Nat.not_lt_zero _))
    (fun g w w' site hs bt hj hr sr hlt => by
      by_cases hg : g = f
      · subst hg
        obtain ⟨w'', h1, -, -, -, h2, h3, -⟩ := outside_site wf fuel bt hs hin hz hfuel
        rw [hr] at h1; cases h1
        refine ⟨h3, fun x hx => by rw [h2, if_pos hx], fun x r hx hfr => ?_⟩
        rw [h2] at hx
        split at hx
        · cases hx
        · rename_i hnot
          by_cases hxl : x < d0.halfEdgeCount
          · obtain ⟨r0, k1, -, k2⟩ := bt.old x r hxl hx
            exact hnot (by rw [← hfr, k2]; exact wf.mem_cyc k1)
          · have := (bt.new x r (by omega) hx).2
            omega
      · obtain ⟨j1, j2, j3⟩ := hj (by omega)
        refine ⟨by rw [sr.faces f (Ne.symm hg)]; exact j1, fun x hx => ?_, fun x r hx => ?_⟩
        · obtain ⟨r0, k1, -⟩ := wf.cyc_live hf hx
          exact sr.dead x (lt_of_lt_of_le (he_lt wf.store k1) bt.hcount) (j2 x hx)
        · rcases sr.grow x r hx with ⟨r1, k1, k2, -⟩ | ⟨-, k2, -⟩
          · rw [k2]; exact j3 x r1 k1
          · rw [k2]; exact hg) hrun
  obtain ⟨j1, j2, j3⟩ := jb hf
  rw [hhe, hfaces]
  exact ⟨j1, j2, j3⟩

end reach

end VoronoiDiagram

end Voronoi

namespace Voronoi

namespace VoronoiDiagram

/-! ## More fuel does not change `link` -/

theorem linkLoop_mono : ∀ (fuel : Nat) (d : VoronoiDiagram) (box : Box)
    (start halfEdge side endSide : Nat) (r : VoronoiDiagram × Nat),
    linkLoop fuel d box start halfEdge side endSide = .ok r →
    linkLoop (fuel + 1) d box start halfEdge side endSide = .ok r := by
  intro fuel
  induction fuel with
  | zero => intro d box start halfEdge side endSide r h; simp [linkLoop] at h
  | succ n ih =>
    intro d box start halfEdge side endSide r h
    rw [linkLoop] at h ⊢
    by_cases hs : side = endSide
    · rw [if_pos hs] at h ⊢; exact h
    · rw [if_neg hs] at h ⊢
      cases hq : linkStep d box start halfEdge side with
      | error e => rw [hq] at h; cases h
      | ok v =>
        obtain ⟨d1, n', side1⟩ := v
        rw [hq] at h
        exact ih d1 box start n' side1 endSide r h

theorem linkFuel_mono {fuel : Nat} {d d' : VoronoiDiagram} {box : Box} {start end_ : Nat}
    {startSide endSide : Side}
    (h : linkFuel fuel d box start startSide end_ endSide = .ok d') :
    linkFuel (fuel + 1) d box start startSide end_ endSide = .ok d' := by
  unfold linkFuel at h ⊢
  cases hq : linkLoop fuel d box start start startSide.toInt endSide.toInt with
  | error e => rw [hq] at h; simp [bind, Except.bind] at h
  | ok r =>
    rw [linkLoop_mono fuel d box start start _ _ r hq]
    rw [hq] at h
    exact h

theorem linkFuel_ge {d d' : VoronoiDiagram} {box : Box} {start end_ : Nat}
    {startSide endSide : Side} (h : d.link box start startSide end_ endSide = .ok d') :
    ∀ fuel, 4 ≤ fuel → linkFuel fuel d box start startSide end_ endSide = .ok d' := by
  intro fuel hf
  induction fuel with
  | zero => omega
  | succ n ih =>
    by_cases hn : n = 3
    · subst hn; exact h
    · exact linkFuel_mono (ih (by omega))

end VoronoiDiagram

end Voronoi

namespace Voronoi

namespace VoronoiDiagram

theorem chain'_transfer {R R' : Nat → Nat → Prop} : ∀ (S : List Nat), List.Chain' R S →
    (∀ a b, a ∈ S.dropLast → b ∈ S.tail → R a b → R' a b) → List.Chain' R' S := by
  intro S
  induction S with
  | nil => intro _ _; exact List.chain'_nil
  | cons a S ih =>
    intro hc hh
    cases S with
    | nil => exact List.chain'_singleton a
    | cons b S' =>
      obtain ⟨h1, h2⟩ := List.chain'_cons.1 hc
      refine List.chain'_cons.2 ⟨hh a b (by simp) (by simp) h1, ih h2 ?_⟩
      intro x y hx hy hr
      refine hh x y ?_ ?_ hr
      · simp only [List.dropLast_cons₂, List.mem_cons]
        exact Or.inr hx
      · simp only [List.tail_cons]
        exact List.mem_of_mem_tail hy

theorem ne_getLast_of_mem_dropLast {S : List Nat} (nd : S.Nodup) {a o : Nat}
    (ha : a ∈ S.dropLast) (ho : S.getLast? = some o) : a ≠ o := by
  have h := List.dropLast_append_getLast? o ho
  rw [← h] at nd
  rintro rfl
  exact (List.nodup_append.1 nd).2.2 ha (List.mem_singleton_self a)

theorem ne_head_of_mem_tail {S : List Nat} (nd : S.Nodup) {b i : Nat}
    (hb : b ∈ S.tail) (hi : S.head? = some i) : b ≠ i := by
  cases S with
  | nil => cases hi
  | cons x S' =>
    simp only [List.head?_cons, Option.some.injEq] at hi
    subst hi
    rintro rfl
    exact (List.nodup_cons.1 nd).1 hb

theorem chain_linked (d : VoronoiDiagram) : ∀ (l : List Nat) (a b : Nat), Chain d a l b →
    List.Chain' (Linked d) (a :: l ++ [b]) := by
  intro l
  induction l with
  | nil =>
    intro a b h
    exact List.chain'_cons.2 ⟨h, List.chain'_singleton b⟩
  | cons x l ih =>
    intro a b h
    obtain ⟨h1, h2, h3⟩ := h
    exact List.chain'_cons.2 ⟨⟨h1, h2⟩, ih x b h3⟩

theorem nextOf_some {d : VoronoiDiagram} {a b : Nat} (h : d.nextOf a = some b) :
    ∃ r, d.he a = some r ∧ r.next = some b := by
  unfold nextOf at h
  cases hq : d.he a with
  | none => rw [hq] at h; cases h
  | some r => rw [hq] at h; exact ⟨r, rfl, h⟩

theorem prevOf_some {d : VoronoiDiagram} {a b : Nat} (h : d.prevOf b = some a) :
    ∃ r, d.he b = some r ∧ r.prev = some a := by
  unfold prevOf at h
  cases hq : d.he b with
  | none => rw [hq] at h; cases h
  | some r => rw [hq] at h; exact ⟨r, rfl, h⟩

section link

variable {d d' : VoronoiDiagram} {box : Box} {o h : Nat} {os side : Side} {s0 e0 : HalfEdge}

theorem LinkSpec.nextOf_old (sp : LinkSpec d d' box o os h side s0 e0)
    {a : Nat} (ha : a ≠ o) (hlt : a < d.halfEdgeCount) : d'.nextOf a = d.nextOf a := by
  unfold nextOf
  rw [sp.old a hlt]
  cases d.he a <;> simp [ha]

theorem LinkSpec.prevOf_old (sp : LinkSpec d d' box o os h side s0 e0)
    {b : Nat} (hb : b ≠ h) (hlt : b < d.halfEdgeCount) : d'.prevOf b = d.prevOf b := by
  unfold prevOf
  rw [sp.old b hlt]
  cases d.he b <;> simp [hb]

theorem LinkSpec.linked_keep (sp : LinkSpec d d' box o os h side s0 e0) (ok : StoreOK d)
    {a b : Nat} (ha : a ≠ o) (hb : b ≠ h) (hl : Linked d a b) : Linked d' a b := by
  obtain ⟨ra, hra, -⟩ := nextOf_some hl.1
  obtain ⟨rb, hrb, -⟩ := prevOf_some hl.2
  exact ⟨(sp.nextOf_old ha (he_lt ok hra)).trans hl.1,
    (sp.prevOf_old hb (he_lt ok hrb)).trans hl.2⟩

/-- The half-edges of a face after a link: those of before, and for the face of `start`
the new ones. -/
theorem LinkSpec.face_mem (sp : LinkSpec d d' box o os h side s0 e0) (ok : StoreOK d)
    (g x : Nat) :
    (∃ r, d'.he x = some r ∧ r.incidentFace = g) ↔
      ((∃ r, d.he x = some r ∧ r.incidentFace = g) ∨
       (g = s0.incidentFace ∧ x ∈ List.range' d.halfEdgeCount (turns os side + 1))) := by
  by_cases hx : x < d.halfEdgeCount
  · rw [sp.old x hx]
    have hnot : x ∉ List.range' d.halfEdgeCount (turns os side + 1) := by
      intro hm
      have := (List.mem_range'_1.1 hm).1
      omega
    cases hq : d.he x with
    | none => simp [hnot]
    | some r => simp [hnot]
  · have hdead : d.he x = none := he_fresh ok (by omega)
    by_cases hx2 : x < d.halfEdgeCount + (turns os side + 1)
    · have hm : x ∈ List.range' d.halfEdgeCount (turns os side + 1) :=
        List.mem_range'_1.2 ⟨by omega, hx2⟩
      have := sp.new (x - d.halfEdgeCount) (by omega)
      rw [show d.halfEdgeCount + (x - d.halfEdgeCount) = x by omega] at this
      rw [this, hdead]
      simp [linkEdge, hm, eq_comm]
    · have hnot : x ∉ List.range' d.halfEdgeCount (turns os side + 1) := by
        intro hm
        have := (List.mem_range'_1.1 hm).2
        omega
      have : d'.he x = none := he_fresh sp.ok (by rw [sp.hcount]; omega)
      rw [this, hdead]
      simp [hnot]

end link

section clip

variable {w : Walk} {h : Nat} {r : HalfEdge} {pts : List Vector2} {d2 : VoronoiDiagram}

theorem ClipEffect.nextOf_eq (ce : ClipEffect w h r pts d2 O D) (hr : w.d.he h = some r)
    (a : Nat) : d2.nextOf a = w.d.nextOf a := by
  unfold nextOf
  by_cases ha : a = h
  · subst ha; rw [ce.he_self, hr]; rfl
  · rw [ce.he_other a ha]

theorem ClipEffect.prevOf_eq (ce : ClipEffect w h r pts d2 O D) (hr : w.d.he h = some r)
    (a : Nat) : d2.prevOf a = w.d.prevOf a := by
  unfold prevOf
  by_cases ha : a = h
  · subst ha; rw [ce.he_self, hr]; rfl
  · rw [ce.he_other a ha]

theorem ClipEffect.linked_iff (ce : ClipEffect w h r pts d2 O D) (hr : w.d.he h = some r)
    (a b : Nat) : Linked d2 a b ↔ Linked w.d a b := by
  unfold Linked
  rw [ce.nextOf_eq hr, ce.prevOf_eq hr]

theorem ClipEffect.face_mem_clip (ce : ClipEffect w h r pts d2 O D) (hr : w.d.he h = some r)
    (g x : Nat) :
    (∃ r', d2.he x = some r' ∧ r'.incidentFace = g) ↔
      (∃ r', w.d.he x = some r' ∧ r'.incidentFace = g) := by
  by_cases hx : x = h
  · subst hx; rw [ce.he_self, hr]; simp
  · rw [ce.he_other x hx]

end clip

end VoronoiDiagram

end Voronoi

namespace Voronoi

namespace VoronoiDiagram

section step

variable {d0 : VoronoiDiagram} {box : Box} {f e0 h : Nat}

theorem StepCtx.notS (c : StepCtx d0 box f e0 h rem w r re0 b0 S) : h ∉ S :=
  fun hm => ((c.cw.mem h).1 hm).2 (List.mem_cons_self _ _)

theorem StepCtx.at_start (c : StepCtx d0 box f e0 h rem w r re0 b0 S) (hm : e0 ∈ h :: rem) :
    h = e0 ∧ S = [] ∧ w.inside = b0 := by
  obtain ⟨h1, h2⟩ := c.cw.begun hm
  have h3 : h = e0 := by simpa using h1
  refine ⟨h3, h2, ?_⟩
  have h4 := c.he0
  rw [← h3, c.hr0] at h4
  cases h4
  rw [c.hin]; exact c.hb0

theorem StepCtx.e0rem (c : StepCtx d0 box f e0 h rem w r re0 b0 S) : e0 ∉ rem := by
  intro hm
  obtain ⟨h1, -, -⟩ := c.at_start (List.mem_cons_of_mem _ hm)
  exact c.hnot (h1 ▸ hm)

theorem StepCtx.head_of_ne (c : StepCtx d0 box f e0 h rem w r re0 b0 S) (hb : b0 = true)
    (hflag : w.inside = false) : S.head? = some e0 ∧ e0 ≠ h := by
  have hno : e0 ∉ h :: rem := by
    intro hm
    obtain ⟨-, -, h3⟩ := c.at_start hm
    rw [hflag, hb] at h3; cases h3
  rcases c.cw.first hb with h1 | h1
  · exact absurd h1 hno
  · exact ⟨h1, fun hh => hno (hh ▸ List.mem_cons_self _ _)⟩

theorem StepCtx.ahead_next (c : StepCtx d0 box f e0 h rem w r re0 b0 S)
    (fr' : Frame d0 f rem w') (gw' : GeoW d0 box f e0 rem w')
    (hn : w'.d.nextOf h = w.d.nextOf h)
    (hp : b0 = true → w'.d.prevOf e0 = d0.prevOf e0) (hins : w'.inside = true) :
    Linked w'.d h ((rem ++ [e0]).headD e0) := by
  refine ⟨by rw [hn]; simp [nextOf, c.hr, c.hnext], ?_⟩
  have hfol := c.hfol.2.1
  cases rem with
  | nil =>
    simp only [List.nil_append, List.headD_cons] at hfol ⊢
    have hb : b0 = true := by
      rw [← c.hb0, ← gw'.flag re0 (by simpa using c.he0), hins]
    rw [hp hb, hfol]
  | cons y rem' =>
    simp only [List.cons_append, List.headD_cons] at hfol ⊢
    unfold prevOf at hfol ⊢
    rw [fr'.pend y (List.mem_cons_self _ _)]
    exact hfol

/-- The turn that removes `h`. -/
theorem StepCtx.removeTurn (c : StepCtx d0 box f e0 h rem w r re0 b0 S)
    (hin0 : w.inside = false) (hd : w'.d = w.d.dropHE h) (hi : w'.inside = w.inside)
    (hout : w'.outgoing = w.outgoing) (hinc : w'.incoming = w.incoming) :
    ChainW d0 f e0 b0 rem w' S := by
  have hhe : ∀ x, w'.d.he x = if x = h then none else w.d.he x := by
    intro x; rw [hd, dropHE_he c.fr.ok]
  have hS : ∀ x ∈ S, x ≠ h := fun x hx hh => c.notS (hh ▸ hx)
  have hlink : ∀ a b, a ≠ h → b ≠ h → Linked w.d a b → Linked w'.d a b := by
    intro a b ha hb hl
    unfold Linked nextOf prevOf at hl ⊢
    rw [hhe a, hhe b, if_neg ha, if_neg hb]
    exact hl
  refine ⟨c.cw.nodup, ?_, ?_, ?_, ?_, ?_, fun hm => absurd hm c.e0rem, ?_, ?_, ?_⟩
  · intro x
    rw [c.cw.mem x, hhe x]
    by_cases hx : x = h
    · subst hx; simp
    · simp [hx]
  · exact chain'_transfer S c.cw.chain (fun a b ha hb hl =>
      hlink a b (hS a (List.mem_of_mem_dropLast ha)) (hS b (List.mem_of_mem_tail hb)) hl)
  · intro hh; rw [hi, hin0] at hh; cases hh
  · intro _; rw [hout]; exact c.cw.out hin0
  · intro hb; rw [hinc]; exact c.cw.inc hb
  · intro hb; exact Or.inr (c.head_of_ne hb hin0).1
  · intro hh; rw [hi, hin0] at hh; cases hh
  · intro hb
    rw [← c.cw.prev0 hb]
    unfold prevOf
    rw [hhe e0, if_neg (c.head_of_ne hb hin0).2]

/-- The turn that keeps `h`, clipped at its destination or not at all. -/
theorem StepCtx.keepTurn (c : StepCtx d0 box f e0 h rem w r re0 b0 S)
    (fr' : Frame d0 f rem w') (gw' : GeoW d0 box f e0 rem w')
    {pts : List Vector2} {d2 : VoronoiDiagram} {O D : Option Nat}
    (ce : ClipEffect w h r pts d2 O D) (hin1 : w.inside = true) (hd : w'.d = d2)
    (hinc : w'.incoming = w.incoming)
    (hcase : w'.inside = true ∨ ∃ s, w'.outgoing = some (h, s)) :
    ChainW d0 f e0 b0 rem w' (S ++ [h]) := by
  have hSne : b0 = false → S ≠ [] := by
    intro hb
    rcases c.cw.inside_ne hin1 with h1 | h1
    · exact h1
    · obtain ⟨-, -, h3⟩ := c.at_start h1
      rw [hin1, hb] at h3; cases h3
  have hp0 : b0 = true → w'.d.prevOf e0 = d0.prevOf e0 := by
    intro hb
    rw [hd, ce.prevOf_eq c.hr, c.cw.prev0 hb]
  refine ⟨?_, ?_, ?_, ?_, ?_, ?_, fun hm => absurd hm c.e0rem, ?_, ?_, hp0⟩
  · exact List.Nodup.append c.cw.nodup (List.nodup_singleton h) (by
      intro x hx hx'
      rw [List.mem_singleton] at hx'
      exact c.notS (hx' ▸ hx))
  · intro x
    rw [List.mem_append, List.mem_singleton, c.cw.mem x, hd, ce.face_mem_clip c.hr]
    by_cases hx : x = h
    · subst hx
      simp [c.hr, c.hface, c.hnot]
    · simp [hx]
  · rw [hd]
    refine List.Chain'.append (c.cw.chain.imp fun a b hl => (ce.linked_iff c.hr a b).2 hl)
      (List.chain'_singleton h) ?_
    intro x hx y hy
    simp only [List.head?_cons, Option.mem_def, Option.some.injEq] at hy
    subst hy
    rw [ce.linked_iff c.hr]
    simpa using c.cw.ahead hin1 x hx
  · intro hins o ho
    rw [List.getLast?_concat] at ho
    simp only [Option.mem_def, Option.some.injEq] at ho
    subst ho
    exact c.ahead_next fr' gw' (by rw [hd, ce.nextOf_eq c.hr]) hp0 hins
  · intro hins
    rcases hcase with h1 | ⟨s, h1⟩
    · rw [h1] at hins; cases hins
    · refine ⟨fun o s' ho => ?_, fun ho => ?_⟩
      · rw [h1] at ho; cases ho
        exact List.getLast?_concat S
      · rw [h1] at ho; cases ho
  · intro hb
    rw [hinc]
    refine ⟨fun i s hi => ?_, fun hi => absurd ((c.cw.inc hb).2 hi) (hSne hb)⟩
    rw [List.head?_append_of_ne_nil _ (hSne hb)]
    exact (c.cw.inc hb).1 i s hi
  · intro hb
    right
    rcases c.cw.first hb with h1 | h1
    · obtain ⟨h2, h3, -⟩ := c.at_start h1
      rw [h3, h2]; rfl
    · cases S with
      | nil => cases h1
      | cons x S' => simpa using h1
  · intro _; left; simp

/-- The turn that clips `h` at its origin and links the pending outgoing half-edge, when
there is one, to it. -/
theorem StepCtx.enterTurn (c : StepCtx d0 box f e0 h rem w r re0 b0 S)
    (fr' : Frame d0 f rem w') (gw' : GeoW d0 box f e0 rem w')
    {pts : List Vector2} {d2 d3 : VoronoiDiagram} {O D : Option Nat} {side : Side}
    (ce : ClipEffect w h r pts d2 O D) (lc : LinkChoice w d2 box h side d3)
    (hin0 : w.inside = false) (hd : w'.d = d3)
    (hinc : w'.incoming = firstIncoming w h side)
    (hcase : w'.inside = true ∨ ∃ s, w'.outgoing = some (h, s)) :
    ∃ S', ChainW d0 f e0 b0 rem w' S' := by
  have hb0 : b0 = true → S.head? = some e0 ∧ e0 ≠ h := fun hb => c.head_of_ne hb hin0
  have hout' : ∀ S', S'.getLast? = some h → w'.inside = false →
      (∀ o s, w'.outgoing = some (o, s) → S'.getLast? = some o) ∧
      (w'.outgoing = none → S' = []) := by
    intro S' hl hins
    rcases hcase with h1 | ⟨s, h1⟩
    · rw [h1] at hins; cases hins
    · refine ⟨fun o s' ho => ?_, fun ho => ?_⟩
      · rw [h1] at ho; cases ho
        exact hl
      · rw [h1] at ho; cases ho
  rcases lc with ⟨hno, rfl⟩ | ⟨o, os, s0, e0', ho, hs0, he0', sp⟩
  · -- nothing is pending: `h` is the first half-edge that is kept
    have hS : S = [] := (c.cw.out hin0).2 hno
    subst hS
    have hbf : b0 = false := by
      cases hb : b0 with
      | false => rfl
      | true => have := (hb0 hb).1; cases this
    have hp0 : b0 = true → w'.d.prevOf e0 = d0.prevOf e0 := by
      intro hb; rw [hbf] at hb; cases hb
    refine ⟨[h], List.nodup_singleton h, ?_, List.chain'_singleton h, ?_, hout' [h] rfl, ?_,
      fun hm => absurd hm c.e0rem, fun hb => (by rw [hbf] at hb; cases hb),
      fun _ => Or.inl (by simp), hp0⟩
    · intro x
      rw [List.mem_singleton, hd, ce.face_mem_clip c.hr]
      by_cases hx : x = h
      · subst hx
        simp [c.hr, c.hface, c.hnot]
      · have := c.cw.mem x
        simp only [List.not_mem_nil, List.mem_cons, not_or, false_iff] at this
        simp only [hx, false_iff]
        exact fun hh => this ⟨hh.1, hx, hh.2⟩
    · intro hins o' ho'
      simp only [List.getLast?_singleton, Option.mem_def, Option.some.injEq] at ho'
      subst ho'
      exact c.ahead_next fr' gw' (by rw [hd, ce.nextOf_eq c.hr]) hp0 hins
    · intro _
      have hnone : w.incoming = none := by
        cases hq : w.incoming with
        | none => rfl
        | some p =>
          obtain ⟨i, s⟩ := p
          have := (c.cw.inc hbf).1 i s hq
          cases this
      rw [hinc]
      simp [firstIncoming, hnone]
  · -- the pending outgoing half-edge is the last that was kept
    have hlast : S.getLast? = some o := (c.cw.out hin0).1 o os ho
    have hSne : S ≠ [] := by rintro rfl; cases hlast
    obtain ⟨hno, ro, hro, hfo⟩ := c.fr.out o os ho
    have hoh : o ≠ h := fun hh => hno (hh ▸ List.mem_cons_self _ _)
    rw [ce.he_other o hoh, hro] at hs0
    cases hs0
    have hhc : d2.halfEdgeCount = w.d.halfEdgeCount := ce.hcount
    have hlt : ∀ x ∈ S, x < d2.halfEdgeCount := by
      intro x hx
      obtain ⟨⟨rx, hrx, -⟩, -⟩ := (c.cw.mem x).1 hx
      rw [hhc]; exact he_lt c.fr.ok hrx
    have hhlt : h < d2.halfEdgeCount := by rw [hhc]; exact he_lt c.fr.ok c.hr
    have hnews : ∀ x ∈ List.range' d2.halfEdgeCount (turns os side + 1),
        d2.halfEdgeCount ≤ x := fun x hx => (List.mem_range'_1.1 hx).1
    have hchain := chain_linked d3 _ o h (sp.chain (by rw [ce.he_other o hoh]; exact hro) he0'
      ce.ok)
    rw [List.cons_append, List.chain'_cons'] at hchain
    have hp0 : b0 = true → w'.d.prevOf e0 = d0.prevOf e0 := by
      intro hb
      rw [hd, sp.prevOf_old (hb0 hb).2 (by
        rw [hhc]; exact lt_of_lt_of_le (he_lt c.store c.he0) c.fr.hcount),
        ce.prevOf_eq c.hr, c.cw.prev0 hb]
    refine ⟨S ++ (List.range' d2.halfEdgeCount (turns os side + 1) ++ [h]), ?_, ?_, ?_, ?_,
      hout' _ (by rw [← List.append_assoc]; exact List.getLast?_concat _), ?_,
      fun hm => absurd hm c.e0rem, ?_, fun _ => Or.inl (by simp), hp0⟩
    · refine List.Nodup.append c.cw.nodup (List.Nodup.append (List.nodup_range' _ _)
        (List.nodup_singleton h) ?_) ?_
      · intro x hx hx'
        rw [List.mem_singleton] at hx'
        have := hnews x hx
        omega
      · intro x hx hx'
        rcases List.mem_append.1 hx' with h1 | h1
        · have := hnews x h1
          have := hlt x hx
          omega
        · rw [List.mem_singleton] at h1
          exact c.notS (h1 ▸ hx)
    · intro x
      rw [List.mem_append, List.mem_append, List.mem_singleton, c.cw.mem x, hd,
        sp.face_mem ce.ok f x, ce.face_mem_clip c.hr]
      have hnr : ∀ y ∈ List.range' d2.halfEdgeCount (turns os side + 1), y ∉ rem ∧ y ≠ h := by
        intro y hy
        have h1 := hnews y hy
        refine ⟨fun hm => ?_, by omega⟩
        obtain ⟨ry, hry⟩ := c.live y hm
        have := he_lt c.store hry
        have := c.fr.hcount
        omega
      by_cases hx : x = h
      · subst hx
        simp [c.hr, c.hface, c.hnot]
      · constructor
        · rintro (⟨h1, h2⟩ | h1 | h1)
          · exact ⟨Or.inl h1, fun hm => h2 (List.mem_cons_of_mem _ hm)⟩
          · exact ⟨Or.inr ⟨hfo.symm, h1⟩, (hnr x h1).1⟩
          · exact absurd h1 hx
        · rintro ⟨h1 | ⟨-, h1⟩, h2⟩
          · exact Or.inl ⟨h1, fun hm => by
              rcases List.mem_cons.1 hm with h3 | h3
              · exact hx h3
              · exact h2 h3⟩
          · exact Or.inr (Or.inl h1)
    · rw [hd]
      refine List.Chain'.append ?_ hchain.2 ?_
      · refine chain'_transfer S c.cw.chain (fun a b ha hb hl => ?_)
        refine sp.linked_keep ce.ok (ne_getLast_of_mem_dropLast c.cw.nodup ha hlast)
          (fun hh => c.notS (hh ▸ List.mem_of_mem_tail hb)) ((ce.linked_iff c.hr a b).2 hl)
      · intro x hx y hy
        rw [hlast] at hx
        simp only [Option.mem_def, Option.some.injEq] at hx
        subst hx
        exact hchain.1 y hy
    · intro hins o' ho'
      rw [← List.append_assoc, List.getLast?_concat] at ho'
      simp only [Option.mem_def, Option.some.injEq] at ho'
      subst ho'
      exact c.ahead_next fr' gw' (by
        rw [hd, sp.nextOf_old (Ne.symm hoh) hhlt, ce.nextOf_eq c.hr]) hp0 hins
    · intro hb
      have hsome : ∃ i s, w.incoming = some (i, s) := by
        cases hq : w.incoming with
        | none => exact absurd ((c.cw.inc hb).2 hq) hSne
        | some p => exact ⟨p.1, p.2, rfl⟩
      obtain ⟨i, s, hi⟩ := hsome
      rw [hinc]
      have : firstIncoming w h side = some (i, s) := by simp [firstIncoming, hi]
      rw [this]
      refine ⟨fun i' s' hh => ?_, fun hh => by cases hh⟩
      cases hh
      rw [List.head?_append_of_ne_nil _ hSne]
      exact (c.cw.inc hb).1 i s hi
    · intro hb
      right
      rw [List.head?_append_of_ne_nil _ hSne]
      exact (hb0 hb).1

end step

end VoronoiDiagram

end Voronoi

namespace Voronoi

namespace VoronoiDiagram

section step

variable {d0 : VoronoiDiagram} {box : Box} {cyc : Nat → List Nat} {f e0 h : Nat}

theorem chainW_step (wf : WellFormed d0 cyc) (ag : Agrees box d0)
    (p : Path d0 f e0 (h :: rem)) (fr : Frame d0 f (h :: rem) w)
    (gw : GeoW d0 box f e0 (h :: rem) w) (he0 : d0.he e0 = some re0)
    (hb0 : originIn box d0 re0 = b0)
    (cw : ∃ S, ChainW d0 f e0 b0 (h :: rem) w S) (hr0 : d0.he h = some r)
    (rd : Readable d0 r o t a b)
    (vc : VisitCase box w h r o (box.getIntersections a.point b.point) w')
    (fr' : Frame d0 f rem w') (gw' : GeoW d0 box f e0 rem w') :
    ∃ S', ChainW d0 f e0 b0 rem w' S' := by
  obtain ⟨S, cw⟩ := cw
  have hr : w.d.he h = some r := (fr.reads wf hr0).1
  obtain ⟨r1, hr1, hface, hnext, hnot⟩ := p.head
  rw [hr0] at hr1; cases hr1
  have hin : w.inside = originIn box d0 r := gw.flag r (by simpa using hr0)
  have c : StepCtx d0 box f e0 h rem w r re0 b0 S :=
    ⟨fr, cw, hr0, hr, hface, hnext, hnot, (chain'_step p.chain).1, hin, he0, hb0, wf.store,
      fun x hx => (p.live x (List.mem_cons_of_mem _ hx)).imp fun _ hh => hh.1⟩
  have agh : AgreesAt box d0 r := ag.at hr0
  have hcr : crossings box d0 r = box.getIntersections a.point b.point := rd.crossings
  cases vc with
  | remove hi hin0 => exact ⟨S, c.removeTurn hin0 rfl rfl rfl rfl⟩
  | keep hk =>
    rcases hk with ⟨-, hin1⟩ | hk
    · exact ⟨_, c.keepTurn fr' gw' (clipEffect_trivial fr.ok hr) hin1 rfl rfl (Or.inl hin1)⟩
    · rw [← hcr] at hk
      exact absurd hk agh.not_three
  | exit i0 d2 D hi hin1 ce src =>
    exact ⟨_, c.keepTurn fr' gw' ce hin1 rfl rfl (Or.inr ⟨_, rfl⟩)⟩
  | enter i0 d2 O d3 hi hin0 ce src lc =>
    exact c.enterTurn fr' gw' ce lc hin0 rfl rfl (Or.inl rfl)
  | through i0 i1 d2 O D d3 hi ce src1 src2 lc =>
    have hin0 : w.inside = false := by rw [hin]; exact (agh.two (hcr.trans hi)).1
    exact c.enterTurn fr' gw' ce lc hin0 rfl rfl (Or.inr ⟨_, rfl⟩)

theorem firstW_step (ag : Agrees box d0) {c : List Nat}
    (gw : GeoW d0 box f e0 (h :: rem) w)
    (fw : ∃ vis, FirstW d0 box c b0 (h :: rem) w vis) (hr0 : d0.he h = some r)
    (rd : Readable d0 r o t a b)
    (vc : VisitCase box w h r o (box.getIntersections a.point b.point) w') :
    ∃ vis', FirstW d0 box c b0 rem w' vis' := by
  obtain ⟨vis, fw⟩ := fw
  have hin : w.inside = originIn box d0 r := gw.flag r (by simpa using hr0)
  have agh : AgreesAt box d0 r := ag.at hr0
  have hcr : crossings box d0 r = box.getIntersections a.point b.point := rd.crossings
  have hsplit : c = (vis ++ [h]) ++ rem := by rw [fw.split]; simp
  have hfind : (vis ++ [h]).find? (hasCrossing box d0) =
      (vis.find? (hasCrossing box d0)).or
        (if (crossings box d0 r).isEmpty then none else some h) := by
    rw [List.find?_append]
    congr 1
    simp only [List.find?_cons, List.find?_nil, hasCrossing, hr0]
    cases (crossings box d0 r).isEmpty <;> rfl
  have same : ∀ (hinc : w'.incoming = w.incoming),
      ((crossings box d0 r).isEmpty = true ∨ (b0 = false → w.incoming ≠ none)) →
      b0 = false → w'.incoming.map Prod.fst = (vis ++ [h]).find? (hasCrossing box d0) := by
    intro hinc hc hb
    rw [hinc, hfind, fw.inc hb]
    rcases hc with hc | hc
    · rw [hc]; simp
    · have := hc hb
      rw [← fw.inc hb]
      cases hq : w.incoming with
      | none => exact absurd hq this
      | some p => simp
  have enter : ∀ (side : Side), w'.incoming = firstIncoming w h side →
      crossings box d0 r ≠ [] →
      b0 = false → w'.incoming.map Prod.fst = (vis ++ [h]).find? (hasCrossing box d0) := by
    intro side hinc hc hb
    have hne : (crossings box d0 r).isEmpty = false := by
      cases hq : crossings box d0 r with
      | nil => exact absurd hq hc
      | cons _ _ => rfl
    rw [hinc, hfind, ← fw.inc hb, hne]
    cases hq : w.incoming with
    | none => simp [firstIncoming, hq]
    | some p => simp [firstIncoming, hq]
  cases vc with
  | remove hi hin0 =>
    refine ⟨vis ++ [h], hsplit, same rfl (Or.inl (by rw [hcr, hi]; rfl)), ?_⟩
    intro _ hh
    change w.inside = true at hh
    rw [hin0] at hh; cases hh
  | keep hk =>
    rcases hk with ⟨hi, hin1⟩ | hk
    · exact ⟨vis ++ [h], hsplit, same rfl (Or.inl (by rw [hcr, hi]; rfl)),
        fun hb _ => fw.some hb hin1⟩
    · rw [← hcr] at hk
      exact absurd hk agh.not_three
  | exit i0 d2 D hi hin1 ce src =>
    refine ⟨vis ++ [h], hsplit, same rfl (Or.inr fun hb => fw.some hb hin1), ?_⟩
    intro _ hh
    cases hh
  | enter i0 d2 O d3 hi hin0 ce src lc =>
    refine ⟨vis ++ [h], hsplit, enter i0.side rfl (by rw [hcr, hi]; simp), ?_⟩
    intro _ _
    show firstIncoming w h i0.side ≠ none
    rcases firstIncoming_cases w h i0.side with ⟨-, hh⟩ | ⟨x, -, hh⟩ <;> rw [hh] <;> simp
  | through i0 i1 d2 O D d3 hi ce src1 src2 lc =>
    refine ⟨vis ++ [h], hsplit, enter i0.side rfl (by rw [hcr, hi]; simp), ?_⟩
    intro _ _
    show firstIncoming w h i0.side ≠ none
    rcases firstIncoming_cases w h i0.side with ⟨-, hh⟩ | ⟨x, -, hh⟩ <;> rw [hh] <;> simp

end step

end VoronoiDiagram

end Voronoi

namespace Voronoi

namespace VoronoiDiagram

/-! ## The boundaries after `intersect` -/

theorem linked_setOC (d : VoronoiDiagram) (f : Nat) (x : Option Nat) (a b : Nat) :
    Linked (d.setOC f x) a b ↔ Linked d a b := by
  unfold Linked nextOf prevOf
  simp

section finish

variable {d0 : VoronoiDiagram} {box : Box} {cyc : Nat → List Nat} {f e0 : Nat}

theorem chainW_finish (fr1 : Frame d0 f [] w1) (gw1 : GeoW d0 box f e0 [] w1)
    (cw : ChainW d0 f e0 b0 [] w1 S) (hfc : d0.mFaces[f]? = some fc)
    (hoc : fc.outerComponent = some e0) (he0 : d0.he e0 = some re0)
    (hb0 : originIn box d0 re0 = b0) (fin : FinishCase box f (!b0) w1 w') :
    ∃ L, IsBoundary w'.d f L := by
  have hflag : w1.inside = b0 := by
    rw [gw1.flag re0 (by simpa using he0), hb0]
  have hwf : w1.d.mFaces[f]? = some fc := by rw [fr1.faces f (le_refl _), hfc]
  have hmem : ∀ x, x ∈ S ↔ ∃ r, w1.d.he x = some r ∧ r.incidentFace = f := by
    intro x; rw [cw.mem x]; simp
  cases fin with
  | clean hd =>
    have hb : b0 = true := by simpa using hd
    have hhead : S.head? = some e0 := by
      rcases cw.first hb with h1 | h1
      · cases h1
      · exact h1
    have htake : S.take 1 = [e0] := by
      cases S with
      | nil => cases hhead
      | cons x S' =>
        simp only [List.head?_cons, Option.some.injEq] at hhead
        subst hhead; rfl
    refine ⟨S, cw.nodup, hmem, ?_, by rw [hwf, hhead]; simpa using hoc⟩
    rw [htake]
    refine List.Chain'.append cw.chain (List.chain'_singleton e0) ?_
    intro x hx y hy
    simp only [List.head?_cons, Option.mem_def, Option.some.injEq] at hy
    subst hy
    simpa using cw.ahead (by rw [hflag, hb]) x hx
  | empty hd hinc =>
    have hb : b0 = false := by simpa using hd
    have hS : S = [] := (cw.inc hb).2 hinc
    subst hS
    refine ⟨[], List.nodup_nil, by simpa using hmem, by simp, ?_⟩
    show ((w1.d.setOC f none).mFaces[f]?).bind Face.outerComponent = _
    rw [setOC_faces, if_pos rfl, hwf]
    rfl
  | close o os i is so ri d2 hd ho hi hso hri hfo hfi sp hfaces =>
    have hb : b0 = false := by simpa using hd
    have hhead : S.head? = some i := (cw.inc hb).1 i is hi
    have hlast : S.getLast? = some o := (cw.out (by rw [hflag, hb])).1 o os ho
    have hSne : S ≠ [] := by rintro rfl; cases hhead
    have hchain := chain_linked d2 _ o i (sp.chain hso hri fr1.ok)
    rw [List.cons_append, List.chain'_cons'] at hchain
    have hnews : ∀ x ∈ List.range' w1.d.halfEdgeCount (turns os is + 1),
        w1.d.halfEdgeCount ≤ x := fun x hx => (List.mem_range'_1.1 hx).1
    have hlt : ∀ x ∈ S, x < w1.d.halfEdgeCount := by
      intro x hx
      obtain ⟨rx, hrx, -⟩ := (hmem x).1 hx
      exact he_lt fr1.ok hrx
    have htake : (S ++ List.range' w1.d.halfEdgeCount (turns os is + 1)).take 1 = [i] := by
      cases S with
      | nil => cases hhead
      | cons x S' =>
        simp only [List.head?_cons, Option.some.injEq] at hhead
        subst hhead; rfl
    refine ⟨S ++ List.range' w1.d.halfEdgeCount (turns os is + 1), ?_, ?_, ?_, ?_⟩
    · refine List.Nodup.append cw.nodup (List.nodup_range' _ _) ?_
      intro x hx hx'
      have := hnews x hx'
      have := hlt x hx
      omega
    · intro x
      show _ ↔ ∃ r, (d2.setOC f (some i)).he x = some r ∧ _
      rw [setOC_he, sp.face_mem fr1.ok f x, List.mem_append, hmem x]
      constructor
      · rintro (h1 | h1)
        · exact Or.inl h1
        · exact Or.inr ⟨hfo.symm, h1⟩
      · rintro (h1 | ⟨-, h1⟩)
        · exact Or.inl h1
        · exact Or.inr h1
    · rw [htake, List.append_assoc]
      show List.Chain' (Linked (d2.setOC f (some i))) _
      refine List.Chain'.imp (fun a b hl => (linked_setOC d2 f (some i) a b).2 hl) ?_
      refine List.Chain'.append ?_ hchain.2 ?_
      · exact chain'_transfer S cw.chain (fun a b ha hb' hl =>
          sp.linked_keep fr1.ok (ne_getLast_of_mem_dropLast cw.nodup ha hlast)
            (ne_head_of_mem_tail cw.nodup hb' hhead) hl)
      · intro x hx y hy
        rw [hlast] at hx
        simp only [Option.mem_def, Option.some.injEq] at hx
        subst hx
        exact hchain.1 y hy
    · show ((d2.setOC f (some i)).mFaces[f]?).bind Face.outerComponent = _
      rw [setOC_faces, if_pos rfl, hfaces, hwf, List.head?_append_of_ne_nil _ hSne, hhead]
      rfl

theorem firstW_finish {vis : List Nat} (fr1 : Frame d0 f [] w1)
    (fw : FirstW d0 box (cyc f) b0 [] w1 vis) (hfc : d0.mFaces[f]? = some fc)
    (fin : FinishCase box f (!b0) w1 w') :
    (b0 = true → w'.d.mFaces[f]? = d0.mFaces[f]?) ∧
    (b0 = false →
      (w'.d.mFaces[f]?).bind Face.outerComponent = (cyc f).find? (hasCrossing box d0)) := by
  have hwf : w1.d.mFaces[f]? = some fc := by rw [fr1.faces f (le_refl _), hfc]
  have hvis : cyc f = vis := by rw [fw.split]; simp
  cases fin with
  | clean hd =>
    have hb : b0 = true := by simpa using hd
    exact ⟨fun _ => fr1.faces f (le_refl _), fun hh => by rw [hb] at hh; cases hh⟩
  | empty hd hinc =>
    have hb : b0 = false := by simpa using hd
    refine ⟨fun hh => (by rw [hb] at hh; cases hh), fun _ => ?_⟩
    show ((w1.d.setOC f none).mFaces[f]?).bind Face.outerComponent = _
    rw [setOC_faces, if_pos rfl, hwf, hvis, ← fw.inc hb, hinc]
    rfl
  | close o os i is so ri d2 hd ho hi hso hri hfo hfi sp hfaces =>
    have hb : b0 = false := by simpa using hd
    refine ⟨fun hh => (by rw [hb] at hh; cases hh), fun _ => ?_⟩
    show ((d2.setOC f (some i)).mFaces[f]?).bind Face.outerComponent = _
    rw [setOC_faces, if_pos rfl, hfaces, hwf, hvis, ← fw.inc hb, hi]
    rfl

end finish

section whole

variable {d0 : VoronoiDiagram} {box : Box} {cyc : Nat → List Nat}

/-- The body of the loop for a later face leaves a face that is done as it is. -/
theorem FaceDone.keep {f g : Nat} {w w' : Walk} (sr : SiteRel f w w') (hg : g ≠ f)
    (fd : FaceDone d0 box cyc w.d g) : FaceDone d0 box cyc w'.d g := by
  obtain ⟨⟨L, nd, hmem, hch, hoc⟩, h2, h3⟩ := fd
  have hface := sr.faces g hg
  refine ⟨⟨L, nd, ?_, ?_, by rw [hface]; exact hoc⟩, fun hh => by rw [hface]; exact h2 hh,
    fun hh => by rw [hface]; exact h3 hh⟩
  · intro x
    rw [hmem x]
    constructor
    · rintro ⟨r, h1, h2⟩
      exact ⟨r, sr.other x r h1 (by rw [h2]; exact hg), h2⟩
    · rintro ⟨r, h1, h2⟩
      rcases sr.grow x r h1 with ⟨r1, k1, k2, -⟩ | ⟨-, k2, -⟩
      · exact ⟨r1, k1, k2 ▸ h2⟩
      · exact absurd (k2.symm.trans h2) (Ne.symm hg)
  · have hrec : ∀ x ∈ L ++ L.take 1, w'.d.he x = w.d.he x := by
      intro x hx
      have hx' : x ∈ L := by
        rcases List.mem_append.1 hx with h1 | h1
        · exact h1
        · exact List.mem_of_mem_take h1
      obtain ⟨r, h1, h2⟩ := (hmem x).1 hx'
      rw [h1, sr.other x r h1 (by rw [h2]; exact hg)]
    refine (List.Chain'.iff_mem.1 hch).imp ?_
    rintro a b ⟨ha, hb, hl⟩
    unfold Linked nextOf prevOf at hl ⊢
    rw [hrec a ha, hrec b hb]
    exact hl

/-- Under `Agrees` and with fuel for the longest face boundary, `intersect` returns a
diagram in which every face is done. -/
theorem intersect_boundaries (wf : WellFormed d0 cyc) (ag : Agrees box d0) (fuel : Nat)
    (hfuel : ∀ f, f < d0.mFaces.length → (cyc f).length ≤ fuel) :
    ∃ w d', intersect fuel d0 box = .ok d' ∧ Between d0 d0.mFaces.length w ∧
      GeoB d0 box cyc d0.mFaces.length w ∧ Final w d' ∧
      ∀ g, g < d0.mFaces.length → FaceDone d0 box cyc d' g := by
  obtain ⟨w, d', hrun, bt, gb, kb, fin⟩ := intersect_geo wf ag fuel hfuel
    (fun k w => ∀ g, g < k → FaceDone d0 box cyc w.d g)
    (fun g hg => absurd hg (Nat.not_lt_zero _))
    (fun f w w' site hs bt gb hk hr => by
      obtain ⟨hsf, hf⟩ := wf.siteFace hs
      obtain ⟨e0, rest, r0, o, t, a, b, hcyc, hr0, rd⟩ := wf.first hf
      obtain ⟨e0', rest', fc, hcyc', hfc, hoc, -⟩ := wf.cyc_head hf
      rw [hcyc] at hcyc'; cases hcyc'
      have hb0 : originIn box d0 r0 = box.contains a.point := rd.originIn
      have hstart : startsInside box d0 f = box.contains a.point :=
        startsInside_eq wf hf hcyc hr0 rd
      have hmem0 : ∀ x, x ∈ ([] : List Nat) ↔
          (∃ r, w.d.he x = some r ∧ r.incidentFace = f) ∧ x ∉ cyc f := by
        intro x
        simp only [List.not_mem_nil, false_iff, not_and, not_not]
        rintro ⟨r, h1, h2⟩
        have h3 : d0.he x = some r := by
          by_cases hx : x < d0.halfEdgeCount
          · obtain ⟨rr, k1, -, k2⟩ := bt.old x r hx h1
            have := bt.pend x rr k1 (by rw [← k2, h2])
            rw [h1] at this; cases this
            exact k1
          · have := (bt.new x r (by omega) h1).2
            omega
        exact h2 ▸ wf.mem_cyc h3
      have hprev0 : w.d.prevOf e0 = d0.prevOf e0 := by
        unfold prevOf
        rw [bt.pend e0 r0 hr0 (by
          obtain ⟨rr, k1, k2⟩ := wf.cyc_live hf (by rw [hcyc]; simp : e0 ∈ cyc f)
          rw [hr0] at k1; cases k1
          omega)]
        rw [hr0]
      have cw0 : ChainW d0 f e0 (box.contains a.point) (cyc f)
          { w with inside := (box.contains a.point), incoming := none, outgoing := none }
          [] :=
        { nodup := List.nodup_nil
          mem := hmem0
          chain := List.chain'_nil
          ahead := fun _ o ho => by cases ho
          out := fun _ => ⟨fun _ _ hh => (by cases hh), fun _ => rfl⟩
          inc := fun _ => ⟨fun _ _ hh => (by cases hh), fun _ => rfl⟩
          begun := fun _ => ⟨by rw [hcyc]; rfl, rfl⟩
          first := fun _ => Or.inl (by rw [hcyc]; simp)
          inside_ne := fun _ => Or.inr (by rw [hcyc]; simp)
          prev0 := fun _ => hprev0 }
      have fw0 : FirstW d0 box (cyc f) (box.contains a.point) (cyc f)
          { w with inside := (box.contains a.point), incoming := none, outgoing := none }
          [] :=
        { split := by simp
          inc := fun _ => rfl
          some := fun hb hh => by
            change box.contains a.point = true at hh
            rw [hb] at hh; cases hh }
      have key := (geo_site wf ag fuel bt gb hs hcyc hr0 rd
        (fun rem w2 => (∃ S, ChainW d0 f e0 (box.contains a.point) rem w2 S) ∧
          ∃ vis, FirstW d0 box (cyc f) (box.contains a.point) rem w2 vis)
        (fun w' => FaceDone d0 box cyc w'.d f)
        ⟨⟨[], cw0⟩, ⟨[], fw0⟩⟩
        (fun h rem w2 w' r o t a b p fr rel gw kw hr rdh vc fr' gw' =>
          ⟨chainW_step wf ag p fr gw hr0 hb0 kw.1 hr rdh vc fr' gw',
            firstW_step ag gw kw.2 hr rdh vc⟩)
        (fun w1 w' fr1 rel1 gw1 kw fin bt' sr => by
          obtain ⟨⟨S, cw⟩, ⟨vis, fw⟩⟩ := kw
          have h1 := chainW_finish fr1 gw1 cw hfc hoc hr0 hb0 fin
          have h2 := firstW_finish fr1 fw hfc fin
          exact ⟨h1, fun hh => h2.1 (by rw [← hstart]; exact hh),
            fun hh => h2.2 (by rw [← hstart]; exact hh)⟩)).1 w' hr
      obtain ⟨-, sr, -, fd⟩ := key
      intro g hg
      by_cases hgf : g = f
      · subst hgf; exact fd
      · exact (hk g (by omega)).keep sr hgf)
  refine ⟨w, d', hrun, bt, gb, fin, fun g hg => ?_⟩
  obtain ⟨⟨L, nd, hmem, hch, hoc⟩, h2, h3⟩ := kb g hg
  refine ⟨⟨L, nd, by rw [fin.he]; exact hmem, ?_, by rw [fin.mFaces]; exact hoc⟩,
    fun hh => by rw [fin.mFaces]; exact h2 hh, fun hh => by rw [fin.mFaces]; exact h3 hh⟩
  refine hch.imp ?_
  intro a b hl
  unfold Linked nextOf prevOf at hl ⊢
  rw [fin.he]
  exact hl

end whole

end VoronoiDiagram

end Voronoi

namespace Voronoi

namespace VoronoiDiagram

theorem iterNext_chain (d : VoronoiDiagram) : ∀ (k : Nat) (a : Nat) (l : List Nat),
    List.Chain' (Linked d) (a :: l) → k < (a :: l).length →
    iterNext d k a = (a :: l)[k]? := by
  intro k
  induction k with
  | zero => intro a l _ _; simp [iterNext]
  | succ k ih =>
    intro a l hc hk
    cases l with
    | nil => simp at hk
    | cons b l' =>
      obtain ⟨h1, h2⟩ := List.chain'_cons.1 hc
      simp only [iterNext, h1.1, Option.some_bind, List.getElem?_cons_succ]
      exact ih b l' h2 (by simpa using hk)

theorem boundary_length {d : VoronoiDiagram} {f : Nat} {L : List Nat}
    (ok : (keys d.mHalfEdges).Nodup)
    (hb : IsBoundary d f L) : L.length = faceSize d f := by
  obtain ⟨nd, hmem, -, -⟩ := hb
  unfold faceSize
  rw [← List.length_map (d.mHalfEdges.filter (fun p => decide (p.2.incidentFace = f)))
    Prod.fst]
  apply List.Perm.length_eq
  rw [List.perm_ext_iff_of_nodup nd]
  · intro x
    rw [hmem x, List.mem_map]
    constructor
    · rintro ⟨r, h1, h2⟩
      exact ⟨(x, r), List.mem_filter.2 ⟨mem_of_lookup h1, by simpa using h2⟩, rfl⟩
    · rintro ⟨p, h1, rfl⟩
      obtain ⟨h2, h3⟩ := List.mem_filter.1 h1
      exact ⟨p.2, lookup_of_mem ok h2, by simpa using h3⟩
  · have hsub : List.Sublist
        ((d.mHalfEdges.filter (fun p => decide (p.2.incidentFace = f))).map Prod.fst)
        (keys d.mHalfEdges) := by
      unfold keys
      exact List.Sublist.map _ (List.filter_sublist _)
    exact ok.sublist hsub

/-- Walking `next` from the outer component of a face with a boundary: the walk comes back
after as many steps as the face has half-edges and not before, it goes over all the
half-edges of the face and no other, and `prev` undoes each step. -/
theorem boundary_walk {d : VoronoiDiagram} {f h : Nat} {L : List Nat}
    (ok : (keys d.mHalfEdges).Nodup)
    (hb : IsBoundary d f L) (hoc : (d.mFaces[f]?).bind Face.outerComponent = some h) :
    0 < faceSize d f ∧ iterNext d (faceSize d f) h = some h ∧
    (∀ k, 0 < k → k < faceSize d f → iterNext d k h ≠ some h) ∧
    (∀ k, k < faceSize d f → ∃ x r y, iterNext d k h = some x ∧ d.he x = some r ∧
      r.incidentFace = f ∧ r.next = some y ∧ d.prevOf y = some x) ∧
    (∀ x r, d.he x = some r → r.incidentFace = f →
      ∃ k, k < faceSize d f ∧ iterNext d k h = some x) := by
  have hlen := boundary_length ok hb
  obtain ⟨nd, hmem, hch, hhead⟩ := hb
  rw [hoc] at hhead
  cases L with
  | nil => cases hhead
  | cons x T =>
    simp only [List.head?_cons, Option.some.injEq] at hhead
    subst hhead
    rw [← hlen]
    have hch' : List.Chain' (Linked d) (h :: (T ++ [h])) := by simpa using hch
    have hit : ∀ k, k < (h :: T).length + 1 → iterNext d k h = (h :: (T ++ [h]))[k]? :=
      fun k hk => iterNext_chain d k h (T ++ [h]) hch' (by simpa using hk)
    have hget : ∀ k (hk : k < (h :: T).length),
        iterNext d k h = some ((h :: T).get ⟨k, hk⟩) := by
      intro k hk
      rw [hit k (by omega)]
      have : (h :: (T ++ [h]))[k]? = (h :: T)[k]? := by
        rw [show h :: (T ++ [h]) = (h :: T) ++ [h] by rfl, List.getElem?_append_left hk]
      rw [this, List.getElem?_eq_getElem hk]
      rfl
    refine ⟨by simp, ?_, ?_, ?_, ?_⟩
    · rw [hit _ (by omega)]
      rw [show h :: (T ++ [h]) = (h :: T) ++ [h] by rfl,
        List.getElem?_append_right (le_refl _)]
      simp
    · intro k hk0 hk
      rw [hget k hk]
      intro hh
      simp only [Option.some.injEq] at hh
      have h0 : (h :: T).get ⟨0, by simp⟩ = h := rfl
      have := (List.Nodup.get_inj_iff nd).1 (hh.trans h0.symm)
      simp only [Fin.mk.injEq] at this
      omega
    · intro k hk
      have hx := List.get_mem (h :: T) k hk
      obtain ⟨r, h1, h2⟩ := (hmem _).1 hx
      have hl := List.chain'_iff_get.1 hch' k (by simp at hk ⊢; omega)
      have hk0 : (h :: (T ++ [h])).get ⟨k, by simp at hk ⊢; omega⟩ =
          (h :: T).get ⟨k, hk⟩ := by
        simp only [List.get_eq_getElem]
        exact @List.getElem_append_left _ k (h :: T) [h] hk _
      rw [hk0] at hl
      obtain ⟨r', h3, h4⟩ := nextOf_some hl.1
      rw [h1] at h3; cases h3
      exact ⟨_, r, _, hget k hk, h1, h2, h4, hl.2⟩
    · intro x r hx hf
      have hxm : x ∈ h :: T := (hmem x).2 ⟨r, hx, hf⟩
      obtain ⟨n, hn⟩ := List.get_of_mem hxm
      exact ⟨n.1, n.2, by rw [hget n.1 n.2, ← hn]⟩

end VoronoiDiagram

end Voronoi

namespace Voronoi

namespace VoronoiDiagram

theorem cornerList_eq (box : Box) : ∀ (k side vc : Nat),
    cornerList box side vc k = (List.range k).map (fun i =>
      (vc + i, Vertex.mk (cornerPoint box (Side.ofInt ((side + 1 + i) % 4))))) := by
  intro k
  induction k with
  | zero => intro side vc; rfl
  | succ k ih =>
    intro side vc
    rw [cornerList, ih, List.range_succ_eq_map, List.map_cons, List.map_map]
    congr 1
    apply List.map_congr_left
    intro i _
    simp only [Function.comp, Nat.add_zero]
    rw [show vc + 1 + i = vc + (i + 1) by omega,
      show ((side + 1) % 4 + 1 + i) % 4 = (side + 1 + (i + 1)) % 4 by omega]

end VoronoiDiagram

end Voronoi

namespace Voronoi

/-! ## Removal from a list -/

theorem modifyBack_append {α : Type} (l : List α) (a : α) (f : α → α) :
    modifyBack (l ++ [a]) f = l ++ [f a] := by
  simp [modifyBack]

namespace VoronoiDiagram

/-! ## The constructor -/

theorem constructStep_eq (d : VoronoiDiagram) (i : Nat) (p : Vector2)
    (hs : d.mSites.length = i) (hf : d.mFaces.length = i) :
    constructStep d i p =
      { d with mSites := d.mSites ++ [{ index := i, point := p, face := some i }],
               mFaces := d.mFaces ++ [{ site := some i, outerComponent := none }] } := by
  simp only [constructStep, modifyBack_append, List.length_append, List.length_singleton,
    Nat.add_sub_cancel, hs, hf]

theorem constructLoop_spec : ∀ (ps : List Vector2) (i : Nat) (d : VoronoiDiagram),
    d.mSites.length = i → d.mFaces.length = i →
    (constructLoop ps i d).mSites.length = i + ps.length ∧
    (constructLoop ps i d).mFaces.length = i + ps.length ∧
    (∀ j, j < i → (constructLoop ps i d).mSites[j]? = d.mSites[j]? ∧
      (constructLoop ps i d).mFaces[j]? = d.mFaces[j]?) ∧
    (∀ k p, ps[k]? = some p →
      (constructLoop ps i d).mSites[i + k]? =
        some { index := i + k, point := p, face := some (i + k) } ∧
      (constructLoop ps i d).mFaces[i + k]? =
        some { site := some (i + k), outerComponent := none }) ∧
    (constructLoop ps i d).mVertices = d.mVertices ∧
    (constructLoop ps i d).mHalfEdges = d.mHalfEdges ∧
    (constructLoop ps i d).vertexCount = d.vertexCount ∧
    (constructLoop ps i d).halfEdgeCount = d.halfEdgeCount := by
  intro ps
  induction ps with
  | nil =>
    intro i d hs hf
    refine ⟨hs, hf, fun j _ => ⟨rfl, rfl⟩, fun k p hk => by simp at hk, rfl, rfl, rfl, rfl⟩
  | cons q rest ih =>
    intro i d hs hf
    have hstep := constructStep_eq d i q hs hf
    obtain ⟨h1, h2, h3, h4, h5, h6, h7, h8⟩ := ih (i + 1) (constructStep d i q)
      (by rw [hstep]; simp [hs]) (by rw [hstep]; simp [hf])
    simp only [constructLoop]
    refine ⟨by rw [h1]; simp; omega, by rw [h2]; simp; omega, fun j hj => ?_, fun k p hk => ?_,
      by rw [h5, hstep], by rw [h6, hstep], by rw [h7, hstep], by rw [h8, hstep]⟩
    · obtain ⟨k1, k2⟩ := h3 j (by omega)
      rw [k1, k2, hstep]
      exact ⟨List.getElem?_append_left (by omega), List.getElem?_append_left (by omega)⟩
    · cases k with
      | zero =>
        simp only [List.getElem?_cons_zero, Option.some.injEq] at hk
        subst hk
        obtain ⟨k1, k2⟩ := h3 i (by omega)
        simp only [Nat.add_zero]
        rw [k1, k2, hstep]
        constructor
        · rw [List.getElem?_append_right (by omega)]; simp [hs]
        · rw [List.getElem?_append_right (by omega)]; simp [hf]
      | succ k =>
        simp only [List.getElem?_cons_succ] at hk
        have := h4 k p hk
        rwa [show i + 1 + k = i + (k + 1) by omega] at this

/-! ## The flag and the two cursors along a face walk -/

theorem firstIncoming_some (w : Walk) (h : Nat) (s : Side) :
    ∃ x, firstIncoming w h s = some x := by
  unfold firstIncoming
  split
  · exact ⟨_, rfl⟩
  · exact ⟨_, rfl⟩

/-- What a turn of the walk does to `inside` and to the two cursors, when it returns:
nothing, or it goes out, or it comes in, or it passes through. -/
theorem visit_flags {box : Box} {w w1 : Walk} {h n : Option Nat}
    (hv : visit box w h = .ok (w1, n)) :
    (w1.inside = w.inside ∧ w1.incoming = w.incoming ∧ w1.outgoing = w.outgoing) ∨
    (w.inside = true ∧ w1.inside = false ∧ w1.incoming = w.incoming ∧
      ∃ x, w1.outgoing = some x) ∨
    (w.inside = false ∧ w1.inside = true ∧ (∃ x, w1.incoming = some x) ∧
      w1.outgoing = w.outgoing) ∨
    (w1.inside = w.inside ∧ (∃ x, w1.incoming = some x) ∧ ∃ x, w1.outgoing = some x) := by
  unfold visit at hv
  simp only [bind_eq_ok] at hv
  obtain ⟨h', -, e, -, o, -, ov, -, t, -, tv, -, hv⟩ := hv
  split at hv
  · split at hv
    · simp only [bind_eq_ok] at hv
      obtain ⟨d1, -, hv⟩ := hv
      cases hv
      exact Or.inl ⟨rfl, rfl, rfl⟩
    · cases hv
      exact Or.inl ⟨rfl, rfl, rfl⟩
  · split at hv
    · rename_i hin
      simp only [bind_eq_ok] at hv
      obtain ⟨⟨d1, dest⟩, -, d2, -, hv⟩ := hv
      cases hv
      exact Or.inr (Or.inl ⟨hin, by simp [hin], rfl, _, rfl⟩)
    · rename_i hin
      simp only [bind_eq_ok] at hv
      obtain ⟨⟨d1, dest⟩, -, d2, -, d3, -, hv⟩ := hv
      cases hv
      exact Or.inr (Or.inr (Or.inl ⟨by simpa using hin, by simpa using hin,
        firstIncoming_some _ _ _, rfl⟩))
  · simp only [bind_eq_ok] at hv
    obtain ⟨⟨d1, orig, dest⟩, -, d2, -, d3, -, d4, -, hv⟩ := hv
    cases hv
    exact Or.inr (Or.inr (Or.inr ⟨rfl, firstIncoming_some _ _ _, _, rfl⟩))
  · cases hv
    exact Or.inl ⟨rfl, rfl, rfl⟩

/-- Outside the box, a first incoming half-edge comes with a last outgoing one. -/
theorem visit_pending {box : Box} {w w1 : Walk} {h n : Option Nat}
    (hv : visit box w h = .ok (w1, n))
    (hi : w.inside = false → w.incoming ≠ none → w.outgoing ≠ none) :
    w1.inside = false → w1.incoming ≠ none → w1.outgoing ≠ none := by
  intro h1 h2
  rcases visit_flags hv with ⟨k1, k2, k3⟩ | ⟨-, -, -, x, k⟩ | ⟨-, k, -⟩ | ⟨-, -, x, k⟩
  · rw [k3]
    exact hi (k1 ▸ h1) (k2 ▸ h2)
  · rw [k]; simp
  · rw [k] at h1; cases h1
  · rw [k]; simp

theorem walk_pending (box : Box) (f : Nat) :
    ∀ (fuel : Nat) (w w' : Walk) (h : Option Nat), walk fuel box f w h = .ok w' →
      (w.inside = false → w.incoming ≠ none → w.outgoing ≠ none) →
      w'.inside = false → w'.incoming ≠ none → w'.outgoing ≠ none := by
  intro fuel
  induction fuel with
  | zero =>
    intro w w' h hw
    simp [walk] at hw
  | succ fuel ih =>
    intro w w' h hw hi
    unfold walk at hw
    split at hw
    · cases hw
    · rename_i w1 n hv
      split at hw
      · cases hw
      · split at hw
        · cases hw
          exact visit_pending hv hi
        · exact ih w1 w' n hw (visit_pending hv hi)

/-! ## The half-edges that a face walk visits -/

/-- The walk with its trace is the walk. -/
theorem walkTrace_walk (box : Box) (f : Nat) :
    ∀ (fuel : Nat) (w : Walk) (h : Option Nat),
      walk fuel box f w h = (walkTrace fuel box f w h).map Prod.fst := by
  intro fuel
  induction fuel with
  | zero => intro w h; rfl
  | succ fuel ih =>
    intro w h
    unfold walk walkTrace
    cases hv : visit box w h with
    | error e => rfl
    | ok p =>
      obtain ⟨w1, n⟩ := p
      simp only
      cases hf : w1.d.face f with
      | error e => rfl
      | ok fc =>
        simp only
        by_cases hn : n = fc.outerComponent
        · rw [if_pos hn, if_pos hn]; rfl
        · rw [if_neg hn, if_neg hn, ih w1 n]
          cases walkTrace fuel box f w1 n with
          | error e => rfl
          | ok q => rfl

theorem walkTrace_induct (box : Box) (f e0 : Nat) (Q : List Nat → Walk → Prop)
    (hpre : ∀ h rem w, Q (h :: rem) w → ∃ r o t a b, w.d.he h = some r ∧
      Readable w.d r o t a b ∧ r.next = some ((rem ++ [e0]).headD e0) ∧ StoreOK w.d ∧
      TwinLive w r ∧ OutLive w h ∧ OutFace w ∧
      (∃ fc, w.d.mFaces[f]? = some fc ∧ fc.outerComponent = some e0) ∧
      ∀ w', VisitCase box w h r o (box.getIntersections a.point b.point) w' → Q rem w') :
    ∀ (rem : List Nat) (h : Nat) (w : Walk), Q (h :: rem) w → (∀ x ∈ rem, x ≠ e0) →
      ∀ fuel, rem.length + 1 ≤ fuel →
        ∃ w', walkTrace fuel box f w (some h) = .ok (w', (h :: rem).map some) ∧ Q [] w' := by
  intro rem
  induction rem with
  | nil =>
    intro h w hq _ fuel hfuel
    obtain ⟨r, o, t, a, b, hr, rd, hn, ok, tl, ol, hoc, ⟨fc, hfc, hoc0⟩, hstep⟩ := hpre h [] w hq
    obtain ⟨w1, hrun, vcase⟩ := @visit_total box _ _ _ _ _ _ _ ok hr rd tl ol
    have eff := vcase.effect ok hr
    have hf1 : w1.d.face f = .ok fc := face_eq (by rw [eff.faces hoc, hfc])
    have hq1 := hstep w1 vcase
    cases fuel with
    | zero => omega
    | succ fuel =>
      exact ⟨w1, by simp [walkTrace, hrun, hf1, hn, hoc0], hq1⟩
  | cons b rem ih =>
    intro h w hq hne fuel hfuel
    obtain ⟨r, o, t, a, b', hr, rd, hn, ok, tl, ol, hoc, ⟨fc, hfc, hoc0⟩, hstep⟩ :=
      hpre h (b :: rem) w hq
    obtain ⟨w1, hrun, vcase⟩ := @visit_total box _ _ _ _ _ _ _ ok hr rd tl ol
    have eff := vcase.effect ok hr
    have hf1 : w1.d.face f = .ok fc := face_eq (by rw [eff.faces hoc, hfc])
    have hq1 := hstep w1 vcase
    have hb : b ≠ e0 := hne b (List.mem_cons_self _ _)
    cases fuel with
    | zero => omega
    | succ fuel =>
      obtain ⟨w', hw', hq'⟩ := ih b w1 hq1 (fun x hx => hne x (List.mem_cons_of_mem _ hx)) fuel
        (by simp at hfuel ⊢; omega)
      exact ⟨w', by simp [walkTrace, hrun, hf1, hn, hoc0, hb, hw'], hq'⟩

/-- From the locals with which the loop over the sites reaches face `f`, and with either
value of `inside`, the walk of the face returns and visits the half-edges of the boundary of
the face in `d0`, in order. -/
theorem walkTrace_cycle {d0 : VoronoiDiagram} {cyc : Nat → List Nat} (wf : WellFormed d0 cyc)
    (box : Box) {f : Nat} (hf : f < d0.mFaces.length) {w : Walk} (bt : Between d0 f w)
    (b : Bool) (fuel : Nat) (hfuel : (cyc f).length ≤ fuel) :
    ∃ e0 w', (w.d.mFaces[f]?).map Face.outerComponent = some (some e0) ∧
      walkTrace fuel box f { w with inside := b, incoming := none, outgoing := none }
        (some e0) = .ok (w', (cyc f).map some) := by
  obtain ⟨e0, rest, fc, hcyc, hfc, hoc, hne, hch⟩ := wf.cyc_head hf
  have hocne : fc.outerComponent ≠ none := by rw [hoc]; simp
  have hwf : w.d.mFaces[f]? = some fc := by rw [bt.faces f (le_refl _), hfc]
  have p : Path d0 f e0 (e0 :: rest) :=
    ⟨hcyc ▸ hch, hcyc ▸ (wf.cycle hf).2.1, fun x hx => wf.cyc_live hf (hcyc ▸ hx)⟩
  have fr0 := bt.enter wf hf b
  rw [hcyc] at fr0
  have key := walkTrace_induct box f e0
    (fun l w2 => Path d0 f e0 l ∧ Frame d0 f l w2) (by
      rintro h rem w2 ⟨p, fr⟩
      obtain ⟨r0, hr0, hface, hnext, hnot⟩ := p.head
      obtain ⟨hr, o, t, a, b, rd0, rd⟩ := fr.reads wf hr0
      refine ⟨r0, o, t, a, b, hr, rd, hnext, fr.ok, fr.twinLive r0, fr.outLive hfc,
        fr.outFace hfc hocne, ⟨fc, by rw [fr.faces f (le_refl _), hfc], hoc⟩, ?_⟩
      intro w' vcase
      have e := vcase.effect fr.ok hr
      exact ⟨p.tail, fr.step wf (fun x hx => ⟨List.mem_cons_of_mem _ hx,
          fun hh => hnot (by rw [← hh]; exact hx),
          (p.live x (List.mem_cons_of_mem _ hx)).imp fun _ hh => hh.1⟩)
          hfc hocne hr hface e (Or.inl (List.mem_cons_self _ _))⟩)
    rest e0 _ ⟨p, fr0⟩ hne fuel (by rw [hcyc] at hfuel; simpa using hfuel)
  obtain ⟨w', hw', -⟩ := key
  exact ⟨e0, w', by rw [hwf]; simp [hoc], by rw [hcyc]; exact hw'⟩

/-! ## The corners of the box -/

theorem cornerPoint_onSide (box : Box) (s : Side) :
    onSide box s (cornerPoint box s) ∧ onSide box (prevSide s) (cornerPoint box s) := by
  cases s <;> simp [onSide, cornerPoint, prevSide, Side.toInt, Side.ofInt]

theorem onSide_corner (box : Box) (s : Side) (p : Vector2)
    (h1 : onSide box s p) (h2 : onSide box (prevSide s) p) : p = cornerPoint box s := by
  obtain ⟨x, y⟩ := p
  cases s <;>
    simp only [onSide, prevSide, Side.toInt, Side.ofInt] at h1 h2 <;>
    simp only [cornerPoint, Vector2.mk.injEq] <;>
    exact ⟨by first | exact h1.1 | exact h2.1, by first | exact h1.1 | exact h2.1⟩

theorem cornerPoint_injective (box : Box) (hx : box.left ≠ box.right)
    (hy : box.top ≠ box.bottom) : Function.Injective (cornerPoint box) := by
  intro s s' h
  cases s <;> cases s' <;> simp only [cornerPoint, Vector2.mk.injEq] at h <;>
    first
    | rfl
    | exact absurd h.1 hx
    | exact absurd h.1.symm hx
    | exact absurd h.2 hy
    | exact absurd h.2.symm hy

end VoronoiDiagram

end Voronoi

namespace Voronoi

namespace VoronoiDiagram

/-! ## The half-edges that `link` makes -/

/-- A half-edge that is there after `link` and was not there before is one of the
`turns + 1` that `link` made. -/
theorem LinkSpec.created {d d' : VoronoiDiagram} {box : Box} {start end_ : Nat}
    {startSide endSide : Side} {s0 e0 : HalfEdge}
    (sp : LinkSpec d d' box start startSide end_ endSide s0 e0) {x : Nat} {r : HalfEdge}
    (hold : d.he x = none) (hnew : d'.he x = some r) :
    ∃ i, i ≤ turns startSide endSide ∧ x = d.halfEdgeCount + i := by
  have hm : x ∈ keys d'.mHalfEdges := (mem_keys_iff_he d' x).2 ⟨r, hnew⟩
  rw [sp.hkeys, List.mem_append] at hm
  rcases hm with hm | hm
  · obtain ⟨r0, hr0⟩ := (mem_keys_iff_he d x).1 hm
    rw [hold] at hr0; cases hr0
  · obtain ⟨h1, h2⟩ := List.mem_range'_1.1 hm
    exact ⟨x - d.halfEdgeCount, by omega, by omega⟩

/-- A half-edge that was there before `link` is still there, with the ends, the twin and
the face that it had. -/
theorem LinkSpec.kept {d d' : VoronoiDiagram} {box : Box} {start end_ : Nat}
    {startSide endSide : Side} {s0 e0 : HalfEdge}
    (sp : LinkSpec d d' box start startSide end_ endSide s0 e0) (ok : StoreOK d) {x : Nat}
    {r : HalfEdge} (hx : d.he x = some r) :
    ∃ r', d'.he x = some r' ∧ r'.origin = r.origin ∧ r'.destination = r.destination ∧
      r'.twin = r.twin ∧ r'.incidentFace = r.incidentFace := by
  rw [sp.old x (he_lt ok hx), hx]
  exact ⟨_, rfl, rfl, rfl, rfl, rfl⟩

theorem prevSide_ofInt {side : Nat} (hs : side < 4) :
    prevSide (Side.ofInt ((side + 1) % 4)) = Side.ofInt side := by
  interval_cases side <;> rfl

theorem prevSide_toInt (s : Side) : ((prevSide s).toInt + 1) % 4 = s.toInt := by
  cases s <;> rfl

end VoronoiDiagram

end Voronoi

namespace Voronoi

open VoronoiDiagram

/-! ## The claims -/

/-- C1 (amended): for a well-formed diagram and a box whose crossing counts agree with
`box.contains` at the two ends of every half-edge, `intersect` returns with fuel for the
longest face boundary, and in its result every half-edge whose twin is also there has the
origin of the twin as destination and the destination of the twin as origin, as the same
vertex handles. -/
theorem intersect_twin_ends (d0 : VoronoiDiagram) (box : Box) (cyc : Nat → List Nat)
    (fuel : Nat) (wf : WellFormed d0 cyc) (ag : Agrees box d0)
    (hfuel : ∀ f, f < d0.mFaces.length → (cyc f).length ≤ fuel) :
    ∃ d', intersect fuel d0 box = .ok d' ∧
      ∀ e t re rt, d'.he e = some re → re.twin = some t → d'.he t = some rt →
        ∃ u v, re.origin = some u ∧ re.destination = some v ∧
          rt.origin = some v ∧ rt.destination = some u := by
  obtain ⟨d', hrun⟩ := intersect_total wf ag fuel hfuel
  obtain ⟨w, bt, gb, fin⟩ := intersect_geo_run wf ag fuel hrun
  refine ⟨d', hrun, fun e t re rt he ht hl => ?_⟩
  obtain ⟨⟨u, -, hu, -⟩, ⟨v, -, hv, -⟩⟩ := fin.ends wf bt gb he
  obtain ⟨h1, h2⟩ := fin.twins wf bt gb he ht hl
  exact ⟨u, v, hu, hv, h1 ▸ hv, h2 ▸ hu⟩

set_option maxRecDepth 100000 in
/-- C1, on the triangle: the premises hold, and the conclusion for the box `[0, 10]²`. -/
theorem intersect_twin_ends_triangle :
    WellFormed triangle triangleCyc ∧ Agrees triangleBox triangle ∧
    ∃ d', intersect 3 triangle triangleBox = .ok d' ∧
      ∀ e t re rt, d'.he e = some re → re.twin = some t → d'.he t = some rt →
        ∃ u v, re.origin = some u ∧ re.destination = some v ∧
          rt.origin = some v ∧ rt.destination = some u :=
  ⟨by decide, by decide,
    intersect_twin_ends triangle triangleBox triangleCyc 3 (by decide) (by decide) (by decide)⟩

set_option maxRecDepth 100000 in
/-- C1 as stated fails: the triangle is well-formed and the crossings of `openBox` are the
same for a segment and its reverse, and yet after `intersect` the half-edge 2 and its twin 3
are both there and the destination of 2, the new vertex 3, is not the origin of 3. -/
theorem twin_ends_need_agreement :
    WellFormed triangle triangleCyc ∧ ReversalConsistent openBox triangle ∧
    ∃ d', intersect 3 triangle openBox = .ok d' ∧
      ∃ re rt, d'.he 2 = some re ∧ re.twin = some 3 ∧ d'.he 3 = some rt ∧
        re.destination = some 3 ∧ rt.origin = some 0 :=
  ⟨by decide, by decide, _, rfl, _, _, rfl, rfl, rfl, rfl, rfl⟩

/-- C3: for a well-formed diagram and a box that agrees with itself, whose reported
crossings and four corners it contains, `intersect` returns with fuel for the longest face
boundary, and every half-edge of its result has a live origin and a live destination at
points that the box contains. -/
theorem intersect_ends_in_box (d0 : VoronoiDiagram) (box : Box) (cyc : Nat → List Nat)
    (fuel : Nat) (wf : WellFormed d0 cyc) (ag : Agrees box d0) (hc : CrossingsIn box d0)
    (hfuel : ∀ f, f < d0.mFaces.length → (cyc f).length ≤ fuel) :
    ∃ d', intersect fuel d0 box = .ok d' ∧
      ∀ x r, d'.he x = some r →
        (∃ o a, r.origin = some o ∧ d'.vx o = some a ∧ box.contains a.point = true) ∧
        (∃ t b, r.destination = some t ∧ d'.vx t = some b ∧ box.contains b.point = true) := by
  obtain ⟨d', hrun⟩ := intersect_total wf ag fuel hfuel
  obtain ⟨w, bt, gb, fin⟩ := intersect_geo_run wf ag fuel hrun
  have key : ∀ e, EndOK box d0 d' e →
      ∃ v a, e = some v ∧ d'.vx v = some a ∧ box.contains a.point = true := by
    rintro e ⟨v, a, h1, h2, h3⟩
    refine ⟨v, a, h1, h2, ?_⟩
    rcases h3 with ⟨-, h3⟩ | ⟨-, h3 | ⟨x, r0, hx, hp⟩⟩
    · exact h3
    · exact hc.2 _ h3
    · obtain ⟨i, hi, hip⟩ := List.mem_map.1 hp
      rw [← hip]
      exact hc.1 (x, r0) (mem_of_lookup hx) i hi
  refine ⟨d', hrun, fun x r hx => ?_⟩
  obtain ⟨h1, h2⟩ := fin.ends wf bt gb hx
  exact ⟨key _ h1, key _ h2⟩

set_option maxRecDepth 100000 in
/-- C3, on the triangle and the box `[0, 10]²`. -/
theorem intersect_ends_in_box_triangle :
    WellFormed triangle triangleCyc ∧ Agrees triangleBox triangle ∧
    CrossingsIn triangleBox triangle ∧
    ∃ d', intersect 3 triangle triangleBox = .ok d' ∧
      ∀ x r, d'.he x = some r →
        (∃ o a, r.origin = some o ∧ d'.vx o = some a ∧
          triangleBox.contains a.point = true) ∧
        (∃ t b, r.destination = some t ∧ d'.vx t = some b ∧
          triangleBox.contains b.point = true) :=
  ⟨by decide, by decide, by decide,
    intersect_ends_in_box triangle triangleBox triangleCyc 3 (by decide) (by decide)
      (by decide) (by decide)⟩

/-- C4: for a well-formed diagram in which every vertex is the origin of some half-edge and a
box that agrees with itself, `intersect` returns with fuel for the longest face boundary,
and the vertices of its result are exactly the ends of its half-edges: every vertex is the
origin or the destination of a half-edge, and the origin and the destination of every
half-edge are vertices. -/
theorem intersect_vertices_exact (d0 : VoronoiDiagram) (box : Box) (cyc : Nat → List Nat)
    (fuel : Nat) (wf : WellFormed d0 cyc) (ag : Agrees box d0) (hu : VerticesUsed d0)
    (hfuel : ∀ f, f < d0.mFaces.length → (cyc f).length ≤ fuel) :
    ∃ d', intersect fuel d0 box = .ok d' ∧
      (∀ v a, d'.vx v = some a →
        ∃ x r, d'.he x = some r ∧ (r.origin = some v ∨ r.destination = some v)) ∧
      (∀ x r, d'.he x = some r →
        (∃ o a, r.origin = some o ∧ d'.vx o = some a) ∧
        (∃ t b, r.destination = some t ∧ d'.vx t = some b)) := by
  obtain ⟨d', hrun⟩ := intersect_total wf ag fuel hfuel
  obtain ⟨w, bt, gb, fin⟩ := intersect_geo_run wf ag fuel hrun
  refine ⟨d', hrun, fun v a hv => fin.used wf hu bt gb hv, fun x r hx => ?_⟩
  obtain ⟨⟨o, a, h1, h2, -⟩, ⟨t, b, h3, h4, -⟩⟩ := fin.ends wf bt gb hx
  exact ⟨⟨o, a, h1, h2⟩, ⟨t, b, h3, h4⟩⟩

set_option maxRecDepth 100000 in
/-- C4, on the triangle and the box `[0, 10]²`. -/
theorem intersect_vertices_exact_triangle :
    WellFormed triangle triangleCyc ∧ Agrees triangleBox triangle ∧ VerticesUsed triangle ∧
    ∃ d', intersect 3 triangle triangleBox = .ok d' ∧
      (∀ v a, d'.vx v = some a →
        ∃ x r, d'.he x = some r ∧ (r.origin = some v ∨ r.destination = some v)) ∧
      (∀ x r, d'.he x = some r →
        (∃ o a, r.origin = some o ∧ d'.vx o = some a) ∧
        (∃ t b, r.destination = some t ∧ d'.vx t = some b)) :=
  ⟨by decide, by decide, by decide,
    intersect_vertices_exact triangle triangleBox triangleCyc 3 (by decide) (by decide)
      (by decide) (by decide)⟩

/-- C5: for a well-formed diagram and a box that agrees with itself, `intersect` returns
with fuel for the longest face boundary, and keeps the number of faces. For every face whose
walk starts inside the box, the face record is as it was, so the outer component is the one
of the input, and that half-edge is still in the collection with the face as incident face.
For every face whose walk starts outside the box, the outer component is the first half-edge
of the boundary for which the box reports a crossing, the first incoming one, and is unset
when there is none; when it is set, that half-edge is in the collection with the face as
incident face. For every face of the result whose outer component is set: the outer component
is a half-edge of the collection with the face as incident face; walking `next` from it comes
back to it and meets every half-edge of the face. -/
theorem intersect_outer_components (d0 : VoronoiDiagram) (box : Box) (cyc : Nat → List Nat)
    (fuel : Nat) (wf : WellFormed d0 cyc) (ag : Agrees box d0)
    (hfuel : ∀ f, f < d0.mFaces.length → (cyc f).length ≤ fuel) :
    ∃ d', intersect fuel d0 box = .ok d' ∧ d'.mFaces.length = d0.mFaces.length ∧
      (∀ f, f < d0.mFaces.length →
        (startsInside box d0 f = true →
          ∃ fc h r, d0.mFaces[f]? = some fc ∧ fc.outerComponent = some h ∧
            d'.mFaces[f]? = some fc ∧ (cyc f).head? = some h ∧
            d'.he h = some r ∧ r.incidentFace = f) ∧
        (startsInside box d0 f = false →
          (d'.mFaces[f]?).bind Face.outerComponent = (cyc f).find? (hasCrossing box d0) ∧
          ∀ h, (cyc f).find? (hasCrossing box d0) = some h →
            ∃ fc r, d'.mFaces[f]? = some fc ∧ fc.outerComponent = some h ∧
              d'.he h = some r ∧ r.incidentFace = f)) ∧
      ∀ f fc h, d'.mFaces[f]? = some fc → fc.outerComponent = some h →
        (∃ r, d'.he h = some r ∧ r.incidentFace = f) ∧
        iterNext d' (faceSize d' f) h = some h ∧
        (∀ x r, d'.he x = some r → r.incidentFace = f →
          ∃ k, k < faceSize d' f ∧ iterNext d' k h = some x) ∧
        (startsInside box d0 f = true → d0.mFaces[f]? = some fc) ∧
        (startsInside box d0 f = false →
          (cyc f).find? (hasCrossing box d0) = some h) := by
  obtain ⟨w, d', hrun, bt, gb, fin, hdone⟩ := intersect_boundaries wf ag fuel hfuel
  have hlen : d'.mFaces.length = d0.mFaces.length := by rw [fin.mFaces, bt.nfaces]
  have key : ∀ f fc h, d'.mFaces[f]? = some fc → fc.outerComponent = some h →
      (∃ r, d'.he h = some r ∧ r.incidentFace = f) ∧
      iterNext d' (faceSize d' f) h = some h ∧
      (∀ x r, d'.he x = some r → r.incidentFace = f →
        ∃ k, k < faceSize d' f ∧ iterNext d' k h = some x) ∧
      (startsInside box d0 f = true → d0.mFaces[f]? = some fc) ∧
      (startsInside box d0 f = false →
        (cyc f).find? (hasCrossing box d0) = some h) := by
    intro f fc h hfc hoc
    have hf : f < d0.mFaces.length := by
      rw [← hlen]
      by_contra hc
      rw [List.getElem?_eq_none (by omega)] at hfc
      cases hfc
    obtain ⟨⟨L, hb⟩, k2, k3⟩ := hdone f hf
    have hoc' : (d'.mFaces[f]?).bind Face.outerComponent = some h := by rw [hfc]; exact hoc
    obtain ⟨h0, h1, -, h3, h4⟩ :=
      boundary_walk (by rw [fin.mHalfEdges]; exact bt.ok.nodupH) hb hoc'
    refine ⟨?_, h1, h4, fun hh => by rw [← k2 hh, hfc], fun hh => by rw [← k3 hh, hoc']⟩
    obtain ⟨x, r, y, e1, e2, e3, -⟩ := h3 0 h0
    simp only [iterNext, Option.some.injEq] at e1
    subst e1
    exact ⟨r, e2, e3⟩
  refine ⟨d', hrun, hlen, fun f hf => ⟨fun hin => ?_, fun hout => ?_⟩, key⟩
  · obtain ⟨e0, rest, fc, hcyc, hfc, hoc, -, -⟩ := wf.cyc_head hf
    obtain ⟨-, k2, -⟩ := hdone f hf
    have hfc' : d'.mFaces[f]? = some fc := by rw [k2 hin, hfc]
    obtain ⟨⟨r, hr, hface⟩, -⟩ := key f fc e0 hfc' hoc
    exact ⟨fc, e0, r, hfc, hoc, hfc', by rw [hcyc]; rfl, hr, hface⟩
  · obtain ⟨-, -, k3⟩ := hdone f hf
    refine ⟨k3 hout, fun h hh => ?_⟩
    have hoc' := k3 hout
    rw [hh] at hoc'
    cases hfc : d'.mFaces[f]? with
    | none => rw [hfc] at hoc'; cases hoc'
    | some fc =>
      rw [hfc] at hoc'
      obtain ⟨⟨r, hr, hface⟩, -⟩ := key f fc h hfc hoc'
      exact ⟨fc, r, rfl, hoc', hr, hface⟩

set_option maxRecDepth 100000 in
/-- C5, on the triangle with the box `[0, 10]²`: the walk of face 0 starts inside the box
and the walk of face 1 starts outside, at the half-edge 4, and comes in by the half-edge
5. -/
theorem intersect_outer_components_triangle :
    WellFormed outerTriangle outerCyc ∧ Agrees triangleBox outerTriangle ∧
    startsInside triangleBox outerTriangle 0 = true ∧
    startsInside triangleBox outerTriangle 1 = false ∧
    (outerCyc 1).find? (hasCrossing triangleBox outerTriangle) = some 5 ∧
    ∃ d', intersect 3 outerTriangle triangleBox = .ok d' ∧
      d'.mFaces.length = outerTriangle.mFaces.length ∧
      (∀ f, f < outerTriangle.mFaces.length →
        (startsInside triangleBox outerTriangle f = true →
          ∃ fc h r, outerTriangle.mFaces[f]? = some fc ∧ fc.outerComponent = some h ∧
            d'.mFaces[f]? = some fc ∧ (outerCyc f).head? = some h ∧
            d'.he h = some r ∧ r.incidentFace = f) ∧
        (startsInside triangleBox outerTriangle f = false →
          (d'.mFaces[f]?).bind Face.outerComponent =
            (outerCyc f).find? (hasCrossing triangleBox outerTriangle) ∧
          ∀ h, (outerCyc f).find? (hasCrossing triangleBox outerTriangle) = some h →
            ∃ fc r, d'.mFaces[f]? = some fc ∧ fc.outerComponent = some h ∧
              d'.he h = some r ∧ r.incidentFace = f)) ∧
      ∀ f fc h, d'.mFaces[f]? = some fc → fc.outerComponent = some h →
        (∃ r, d'.he h = some r ∧ r.incidentFace = f) ∧
        iterNext d' (faceSize d' f) h = some h ∧
        (∀ x r, d'.he x = some r → r.incidentFace = f →
          ∃ k, k < faceSize d' f ∧ iterNext d' k h = some x) ∧
        (startsInside triangleBox outerTriangle f = true →
          outerTriangle.mFaces[f]? = some fc) ∧
        (startsInside triangleBox outerTriangle f = false →
          (outerCyc f).find? (hasCrossing triangleBox outerTriangle) = some h) :=
  ⟨by decide, by decide, by decide, by decide, by decide,
    intersect_outer_components outerTriangle triangleBox outerCyc 3 (by decide) (by decide)
      (by decide)⟩

/-- C6 (amended): for a well-formed diagram, in every result of `intersect` a half-edge of
the input that is still there has the twin field it had, and when that twin is also there
the twin of the twin is the half-edge itself; a half-edge made by `link` has no twin.
Under `Agrees` and with fuel for the longest face boundary, `intersect` returns. -/
theorem intersect_twins_kept (d0 : VoronoiDiagram) (box : Box) (cyc : Nat → List Nat)
    (fuel : Nat) (wf : WellFormed d0 cyc) :
    (∀ d', intersect fuel d0 box = .ok d' →
      (∀ x r, d'.he x = some r → x < d0.halfEdgeCount →
        ∃ r0, d0.he x = some r0 ∧ r.twin = r0.twin ∧
          ∀ t rt, r.twin = some t → d'.he t = some rt → rt.twin = some x) ∧
      (∀ x r, d'.he x = some r → d0.halfEdgeCount ≤ x → r.twin = none)) ∧
    (Agrees box d0 → (∀ f, f < d0.mFaces.length → (cyc f).length ≤ fuel) →
      ∃ d', intersect fuel d0 box = .ok d') := by
  refine ⟨fun d' hrun => ?_, fun ag hfuel => intersect_total wf ag fuel hfuel⟩
  obtain ⟨w, bt, -, hhe, -⟩ := intersect_run wf fuel (fun _ _ => True) trivial
    (fun _ _ _ _ _ _ _ _ _ => trivial) hrun
  rw [hhe]
  refine ⟨fun x r hx hlt => ?_, fun x r hx hge => (bt.new x r hge hx).1⟩
  obtain ⟨r0, h1, h2, -⟩ := bt.old x r hlt hx
  refine ⟨r0, h1, h2, fun t rt ht hl => ?_⟩
  rw [h2] at ht
  obtain ⟨rt0, k1, k2, -⟩ := wf.twin h1 ht
  obtain ⟨rt0', k3, k4, -⟩ := bt.old t rt (he_lt wf.store k1) hl
  rw [k1] at k3; cases k3
  rw [k4, k2]

set_option maxRecDepth 100000 in
/-- C6 (amended), on the triangle and the box `[0, 10]²`. -/
theorem intersect_twins_kept_triangle :
    WellFormed triangle triangleCyc ∧
    ((∀ d', intersect 3 triangle triangleBox = .ok d' →
      (∀ x r, d'.he x = some r → x < triangle.halfEdgeCount →
        ∃ r0, triangle.he x = some r0 ∧ r.twin = r0.twin ∧
          ∀ t rt, r.twin = some t → d'.he t = some rt → rt.twin = some x) ∧
      (∀ x r, d'.he x = some r → triangle.halfEdgeCount ≤ x → r.twin = none)) ∧
    (Agrees triangleBox triangle →
      (∀ f, f < triangle.mFaces.length → (triangleCyc f).length ≤ 3) →
      ∃ d', intersect 3 triangle triangleBox = .ok d')) :=
  ⟨by decide, intersect_twins_kept triangle triangleBox triangleCyc 3 (by decide)⟩

set_option maxRecDepth 100000 in
/-- C6 as stated fails: the triangle is well-formed and each of its half-edges has a twin,
and yet after `intersect` the half-edge 6, made by `link` along the right side of the box,
is in the result and has no twin. -/
theorem link_edges_have_no_twin :
    WellFormed triangle triangleCyc ∧ AllTwins triangle ∧
    ∃ d', intersect 3 triangle triangleBox = .ok d' ∧
      ∃ r, d'.he 6 = some r ∧ r.twin = none :=
  ⟨by decide, by decide, _, rfl, _, rfl, rfl⟩

/-- C7: for a well-formed diagram and a face whose outer component starts at a point that
the box contains and whose boundary the box does not cross, every result of `intersect`
has the face record and every half-edge of the boundary of the face as they were, and under
`Agrees` also each vertex that these half-edges reference; under `Agrees` and with fuel for
the longest face boundary, `intersect` returns. -/
theorem inside_face_unchanged (d0 : VoronoiDiagram) (box : Box) (cyc : Nat → List Nat)
    (fuel f : Nat) (wf : WellFormed d0 cyc) (hf : f < d0.mFaces.length)
    (hin : startsInside box d0 f = true) (hz : NoCrossing box d0 (cyc f)) :
    (∀ d', intersect fuel d0 box = .ok d' →
      d'.mFaces[f]? = d0.mFaces[f]? ∧
      (∀ x ∈ cyc f, ∃ r, d0.he x = some r ∧ d'.he x = some r) ∧
      (Agrees box d0 → ∀ x ∈ cyc f, ∀ r, d0.he x = some r →
        ∀ v, r.origin = some v ∨ r.destination = some v →
          ∃ a, d0.vx v = some a ∧ d'.vx v = some a)) ∧
    (Agrees box d0 → (∀ g, g < d0.mFaces.length → (cyc g).length ≤ fuel) →
      ∃ d', intersect fuel d0 box = .ok d') := by
  refine ⟨fun d' hrun => ?_, fun ag hfuel => intersect_total wf ag fuel hfuel⟩
  obtain ⟨w, bt, ⟨j1, j2⟩, hhe, hfaces⟩ := intersect_run wf fuel
    (fun _ w => (∀ x ∈ cyc f, w.d.he x = d0.he x) ∧ w.d.mFaces[f]? = d0.mFaces[f]?)
    ⟨fun _ _ => rfl, rfl⟩
    (fun g w w' site hs bt hj hr sr => by
      by_cases hg : g = f
      · subst hg
        rw [quiet_site wf fuel bt hs hin hz w' hr]
        exact hj
      · refine ⟨fun x hx => ?_, ?_⟩
        · obtain ⟨r, h1, h2⟩ := wf.cyc_live hf hx
          rw [h1, sr.other x r (by rw [hj.1 x hx, h1]) (by rw [h2]; exact Ne.symm hg)]
        · rw [sr.faces f (Ne.symm hg)]
          exact hj.2) hrun
  refine ⟨by rw [hfaces]; exact j2, fun x hx => ?_, fun ag x hx r hr v hv => ?_⟩
  · obtain ⟨r, h1, -⟩ := wf.cyc_live hf hx
    exact ⟨r, h1, by rw [hhe, j1 x hx, h1]⟩
  · obtain ⟨w2, bt2, gb2, fin⟩ := intersect_geo_run wf ag fuel hrun
    obtain ⟨e0, rest, fc, hcyc, hfc, hoc, -, hch⟩ := wf.cyc_head hf
    have hall := quiet_ends ag (cyc f) (List.Chain'.left_of_append hch) (fun y hy => by
        obtain ⟨ry, h1, -⟩ := wf.cyc_live hf hy
        exact ⟨ry, h1, hz y hy ry h1⟩) (fun y ry hy hry => by
        rw [hcyc] at hy
        simp only [List.head?_cons, Option.some.injEq] at hy
        subst hy
        simpa [startsInside, hfc, hoc, hry] using hin) x hx r hr
    obtain ⟨o, t, a, b, rd⟩ := wf.readable hr
    rcases hv with hv | hv
    · rw [rd.origin] at hv; cases hv
      exact ⟨a, rd.vo, fin.old wf bt2 gb2 rd.vo (by rw [← rd.originIn, hall.1])⟩
    · rw [rd.destination] at hv; cases hv
      exact ⟨b, rd.vt, fin.old wf bt2 gb2 rd.vt (by rw [← rd.destIn, hall.2])⟩

set_option maxRecDepth 100000 in
/-- C7, on the triangle inside the box `[0, 10]²` and its face 0. -/
theorem inside_face_unchanged_small :
    WellFormed smallTriangle triangleCyc ∧ startsInside triangleBox smallTriangle 0 = true ∧
    NoCrossing triangleBox smallTriangle (triangleCyc 0) ∧
    ((∀ d', intersect 3 smallTriangle triangleBox = .ok d' →
      d'.mFaces[0]? = smallTriangle.mFaces[0]? ∧
      (∀ x ∈ triangleCyc 0, ∃ r, smallTriangle.he x = some r ∧ d'.he x = some r) ∧
      (Agrees triangleBox smallTriangle → ∀ x ∈ triangleCyc 0, ∀ r,
        smallTriangle.he x = some r → ∀ v, r.origin = some v ∨ r.destination = some v →
          ∃ a, smallTriangle.vx v = some a ∧ d'.vx v = some a)) ∧
    (Agrees triangleBox smallTriangle →
      (∀ g, g < smallTriangle.mFaces.length → (triangleCyc g).length ≤ 3) →
      ∃ d', intersect 3 smallTriangle triangleBox = .ok d')) :=
  ⟨by decide, by decide, by decide,
    inside_face_unchanged smallTriangle triangleBox triangleCyc 3 0 (by decide) (by decide)
      (by decide) (by decide)⟩

/-- C8: for a well-formed diagram and a face whose outer component starts at a point that the
box does not contain and whose boundary the box does not cross, with fuel for that boundary:
from the locals that the loop over the sites has when it reaches the face, the body of the
loop returns, makes no half-edge and no vertex (so `link` is not called), removes every
half-edge of the boundary and no other, and unsets the outer component; in every result of
`intersect` the outer component of the face is unset, the half-edges of its boundary are
gone, and no half-edge has the face as incident face. Under `Agrees` and with fuel for the
longest face boundary, `intersect` returns. -/
theorem outside_face_removed (d0 : VoronoiDiagram) (box : Box) (cyc : Nat → List Nat)
    (fuel f : Nat) (wf : WellFormed d0 cyc) (hf : f < d0.mFaces.length)
    (hout : startsInside box d0 f = false) (hz : NoCrossing box d0 (cyc f))
    (hfuel : (cyc f).length ≤ fuel) :
    (∀ w site, intersectSites fuel box (d0.mSites.take f) d0.initWalk = .ok w →
      d0.mSites[f]? = some site →
      ∃ w', intersectSite fuel box w site = .ok w' ∧
        w'.d.halfEdgeCount = w.d.halfEdgeCount ∧ w'.d.vertexCount = w.d.vertexCount ∧
        w'.d.mVertices = w.d.mVertices ∧
        (∀ x, w'.d.he x = if x ∈ cyc f then none else w.d.he x) ∧
        (w'.d.mFaces[f]?).map Face.outerComponent = some none) ∧
    (∀ d', intersect fuel d0 box = .ok d' →
      (d'.mFaces[f]?).map Face.outerComponent = some none ∧ (∀ x ∈ cyc f, d'.he x = none) ∧
      (∀ x r, d'.he x = some r → r.incidentFace ≠ f)) ∧
    (Agrees box d0 → (∀ g, g < d0.mFaces.length → (cyc g).length ≤ fuel) →
      ∃ d', intersect fuel d0 box = .ok d') := by
  refine ⟨fun w site hw hs => ?_, fun d' hrun => outside_run wf fuel hf hout hz hfuel hrun,
    fun ag hfuel' => intersect_total wf ag fuel hfuel'⟩
  obtain ⟨w', h1, h2, h3, h4, h5, h6, -⟩ :=
    outside_site wf fuel (between_reach wf fuel (le_of_lt hf) hw) hs hout hz hfuel
  exact ⟨w', h1, h2, h3, h4, h5, h6⟩

set_option maxRecDepth 100000 in
/-- C8, on the triangle outside the box `[0, 10]²` and its face 0. -/
theorem outside_face_removed_far :
    WellFormed farTriangle triangleCyc ∧ startsInside triangleBox farTriangle 0 = false ∧
    NoCrossing triangleBox farTriangle (triangleCyc 0) ∧
    ((∀ w site,
      intersectSites 3 triangleBox (farTriangle.mSites.take 0) farTriangle.initWalk = .ok w →
      farTriangle.mSites[0]? = some site →
      ∃ w', intersectSite 3 triangleBox w site = .ok w' ∧
        w'.d.halfEdgeCount = w.d.halfEdgeCount ∧ w'.d.vertexCount = w.d.vertexCount ∧
        w'.d.mVertices = w.d.mVertices ∧
        (∀ x, w'.d.he x = if x ∈ triangleCyc 0 then none else w.d.he x) ∧
        (w'.d.mFaces[0]?).map Face.outerComponent = some none) ∧
    (∀ d', intersect 3 farTriangle triangleBox = .ok d' →
      (d'.mFaces[0]?).map Face.outerComponent = some none ∧
      (∀ x ∈ triangleCyc 0, d'.he x = none) ∧
      (∀ x r, d'.he x = some r → r.incidentFace ≠ 0)) ∧
    (Agrees triangleBox farTriangle →
      (∀ g, g < farTriangle.mFaces.length → (triangleCyc g).length ≤ 3) →
      ∃ d', intersect 3 farTriangle triangleBox = .ok d')) :=
  ⟨by decide, by decide, by decide,
    outside_face_removed farTriangle triangleBox triangleCyc 3 0 (by decide) (by decide)
      (by decide) (by decide) (by decide)⟩

/-- C9: for live half-edges `start` and `end_`, which may be the same, and any two sides,
`link` returns, and in its result following `next` from `start` passes through half-edges
that were not there before, at least one, and then reaches `end_`; each half-edge reached
has the one before it as `prev`. -/
theorem link_chain (d : VoronoiDiagram) (box : Box) (start end_ : Nat)
    (startSide endSide : Side) (s0 e0 : HalfEdge) (fc : Face) (ok : StoreOK d)
    (hs : d.he start = some s0) (he : d.he end_ = some e0)
    (hf : d.mFaces[s0.incidentFace]? = some fc) :
    ∃ d' l, d.link box start startSide end_ endSide = .ok d' ∧ l ≠ [] ∧
      (∀ x ∈ l, d.he x = none ∧ ∃ r, d'.he x = some r) ∧ Chain d' start l end_ := by
  obtain ⟨d', hrun, sp⟩ := link_spec ok box startSide endSide hs he hf
  refine ⟨d', List.range' d.halfEdgeCount (turns startSide endSide + 1), hrun, by simp,
    fun x hx => ?_, sp.chain hs he ok⟩
  obtain ⟨h1, h2⟩ := List.mem_range'_1.1 hx
  refine ⟨he_fresh ok h1, ?_⟩
  have := sp.new (x - d.halfEdgeCount) (by omega)
  rw [show d.halfEdgeCount + (x - d.halfEdgeCount) = x by omega] at this
  exact ⟨_, this⟩

set_option maxRecDepth 100000 in
/-- C9, on the triangle: a link from half-edge 0 on the right side to half-edge 2 on the top
side. -/
theorem link_chain_triangle :
    StoreOK triangle ∧
    ∃ d' l, triangle.link triangleBox 0 .RIGHT 2 .TOP = .ok d' ∧ l ≠ [] ∧
      (∀ x ∈ l, triangle.he x = none ∧ ∃ r, d'.he x = some r) ∧ Chain d' 0 l 2 :=
  ⟨by decide,
    link_chain triangle triangleBox 0 2 .RIGHT .TOP (mkHE 0 2 5 0 2 1) (mkHE 1 0 3 0 1 0)
      ⟨some 0, some 0⟩ (by decide) rfl rfl rfl⟩

/-- C10: for live half-edges `start` and `end_` and any two sides, with `k` the cyclic
distance `(endSide - startSide) mod 4`, `link` returns, and so does its loop under any
larger bound on its turns, with the same result: `k` new vertices, at the corners of the
sides `startSide + 1, ..., endSide` (mod 4) in that order, and `k + 1` new half-edges; when
the two sides are the same there is no new vertex, and the one new half-edge goes from the
destination of `start` to the origin of `end_`, between `start` and `end_`. -/
theorem link_counts (d : VoronoiDiagram) (box : Box) (start end_ : Nat)
    (startSide endSide : Side) (s0 e0 : HalfEdge) (fc : Face) (fuel : Nat) (ok : StoreOK d)
    (hs : d.he start = some s0) (he : d.he end_ = some e0)
    (hf : d.mFaces[s0.incidentFace]? = some fc) (hfuel : 4 ≤ fuel) :
    ∃ d', d.link box start startSide end_ endSide = .ok d' ∧
      linkFuel fuel d box start startSide end_ endSide = .ok d' ∧
      ((turns startSide endSide : Nat) : Int) =
        ((endSide.toInt : Int) - (startSide.toInt : Int)) % 4 ∧
      (startSide.toInt + turns startSide endSide) % 4 = endSide.toInt ∧
      d'.mVertices = d.mVertices ++ (List.range (turns startSide endSide)).map (fun i =>
        (d.vertexCount + i,
          Vertex.mk (cornerPoint box (Side.ofInt ((startSide.toInt + 1 + i) % 4))))) ∧
      keys d'.mHalfEdges = keys d.mHalfEdges ++
        List.range' d.halfEdgeCount (turns startSide endSide + 1) ∧
      (startSide = endSide → d'.mVertices = d.mVertices ∧
        d'.he d.halfEdgeCount = some
          { origin := s0.destination, destination := e0.origin, twin := none,
            incidentFace := s0.incidentFace, prev := some start, next := some end_ }) := by
  obtain ⟨d', hrun, sp⟩ := link_spec ok box startSide endSide hs he hf
  refine ⟨d', hrun, linkFuel_ge hrun fuel hfuel, ?_, ?_, ?_, sp.hkeys, fun hse => ?_⟩
  · unfold turns
    have h1 := VoronoiDiagram.Side.toInt_lt startSide
    have h2 := VoronoiDiagram.Side.toInt_lt endSide
    omega
  · unfold turns
    have h1 := VoronoiDiagram.Side.toInt_lt startSide
    have h2 := VoronoiDiagram.Side.toInt_lt endSide
    omega
  · rw [sp.verts, cornerList_eq]
  · have hk : turns startSide endSide = 0 := by
      subst hse
      unfold turns
      have h1 := VoronoiDiagram.Side.toInt_lt startSide
      omega
    have hnew := sp.new 0 (Nat.zero_le _)
    rw [sp.verts, hk]
    rw [hk] at hnew
    exact ⟨by simp [cornerList], by simpa [linkEdge] using hnew⟩

set_option maxRecDepth 100000 in
/-- C10, on the triangle: a link from half-edge 0 on the right side to half-edge 2 on the
top side, one corner away. -/
theorem link_counts_triangle :
    StoreOK triangle ∧ 4 ≤ 7 ∧
    ∃ d', triangle.link triangleBox 0 .RIGHT 2 .TOP = .ok d' ∧
      linkFuel 7 triangle triangleBox 0 .RIGHT 2 .TOP = .ok d' ∧
      ((turns .RIGHT .TOP : Nat) : Int) =
        ((Side.TOP.toInt : Int) - (Side.RIGHT.toInt : Int)) % 4 ∧
      (Side.RIGHT.toInt + turns .RIGHT .TOP) % 4 = Side.TOP.toInt ∧
      d'.mVertices = triangle.mVertices ++ (List.range (turns .RIGHT .TOP)).map (fun i =>
        (triangle.vertexCount + i,
          Vertex.mk (cornerPoint triangleBox (Side.ofInt ((Side.RIGHT.toInt + 1 + i) % 4))))) ∧
      keys d'.mHalfEdges = keys triangle.mHalfEdges ++
        List.range' triangle.halfEdgeCount (turns .RIGHT .TOP + 1) ∧
      (Side.RIGHT = Side.TOP → d'.mVertices = triangle.mVertices ∧
        d'.he triangle.halfEdgeCount = some
          { origin := (mkHE 0 2 5 0 2 1).destination, destination := (mkHE 1 0 3 0 1 0).origin,
            twin := none, incidentFace := (mkHE 0 2 5 0 2 1).incidentFace, prev := some 0,
            next := some 2 }) :=
  ⟨by decide, by decide,
    link_counts triangle triangleBox 0 2 .RIGHT .TOP (mkHE 0 2 5 0 2 1) (mkHE 1 0 3 0 1 0)
      ⟨some 0, some 0⟩ 7 (by decide) rfl rfl rfl (by decide)⟩

end Voronoi

namespace Voronoi

open VoronoiDiagram

/-- C11: for live half-edges `start` and `end_` and any two sides, with `k` the number of
turns of the loop, `link` returns and makes the half-edges `halfEdgeCount + i` for
`i = 0, ..., k` and no other; the origin of each is the destination of its `prev`, which is
`start` for the first and the half-edge made before it for the others, so that the origin of
the first is the destination that `start` had; the destination of each one but the last is a
vertex that was not there before, at the corner of the side that the loop has come to; the
destination of the last is the origin that `end_` had; `start` and `end_` keep their origin
and destination. -/
theorem link_ends (d : VoronoiDiagram) (box : Box) (start end_ : Nat)
    (startSide endSide : Side) (s0 e0 : HalfEdge) (fc : Face) (ok : StoreOK d)
    (hs : d.he start = some s0) (he : d.he end_ = some e0)
    (hf : d.mFaces[s0.incidentFace]? = some fc) :
    ∃ d', d.link box start startSide end_ endSide = .ok d' ∧
      keys d'.mHalfEdges = keys d.mHalfEdges ++
        List.range' d.halfEdgeCount (turns startSide endSide + 1) ∧
      (∀ i, i ≤ turns startSide endSide →
        ∃ r p rp, d'.he (d.halfEdgeCount + i) = some r ∧ r.prev = some p ∧
          p = (if i = 0 then start else d.halfEdgeCount + i - 1) ∧
          d'.he p = some rp ∧ r.origin = rp.destination ∧
          (i = 0 → r.origin = s0.destination) ∧
          (i < turns startSide endSide → ∃ c, r.destination = some c ∧ d.vx c = none ∧
            d'.vx c = some (Vertex.mk
              (cornerPoint box (Side.ofInt ((startSide.toInt + 1 + i) % 4))))) ∧
          (i = turns startSide endSide → r.destination = e0.origin)) ∧
      (∃ s1, d'.he start = some s1 ∧ s1.origin = s0.origin ∧
        s1.destination = s0.destination) ∧
      (∃ e1, d'.he end_ = some e1 ∧ e1.origin = e0.origin ∧
        e1.destination = e0.destination) := by
  obtain ⟨d', hrun, sp⟩ := link_spec ok box startSide endSide hs he hf
  obtain ⟨s1, hs1, hso, hsd, -⟩ := sp.kept ok hs
  obtain ⟨e1, he1, heo, hed, -⟩ := sp.kept ok he
  refine ⟨d', hrun, sp.hkeys, fun i hi => ?_, ⟨s1, hs1, hso, hsd⟩, ⟨e1, he1, heo, hed⟩⟩
  have hnew := sp.new i hi
  have hprev : ∃ rp, d'.he (if i = 0 then start else d.halfEdgeCount + i - 1) = some rp ∧
      (if i = 0 then s0.destination else some (d.vertexCount + i - 1)) = rp.destination := by
    by_cases h0 : i = 0
    · rw [if_pos h0, if_pos h0]
      exact ⟨s1, hs1, hsd.symm⟩
    · rw [if_neg h0, if_neg h0]
      have hp := sp.new (i - 1) (by omega)
      rw [show d.halfEdgeCount + (i - 1) = d.halfEdgeCount + i - 1 by omega] at hp
      refine ⟨_, hp, ?_⟩
      simp only [linkEdge]
      rw [if_neg (by omega), show d.vertexCount + (i - 1) = d.vertexCount + i - 1 by omega]
  obtain ⟨rp, hrp, horig⟩ := hprev
  refine ⟨_, _, rp, hnew, rfl, rfl, hrp, horig, fun h0 => ?_, fun hlt => ?_, fun hk => ?_⟩
  · simp [linkEdge, h0]
  · refine ⟨d.vertexCount + i, by simp only [linkEdge]; rw [if_neg (by omega)],
      vx_fresh ok (by omega), ?_⟩
    rw [sp.vx ok, if_neg (by omega), if_pos (by rw [sp.vcount]; omega)]
    rw [show d.vertexCount + i - d.vertexCount = i by omega]
  · simp [linkEdge, hk]

set_option maxRecDepth 100000 in
/-- C11, on the triangle: a link from half-edge 0 on the right side to half-edge 2 on the
top side, one corner away. -/
theorem link_ends_triangle :
    StoreOK triangle ∧
    ∃ d', triangle.link triangleBox 0 .RIGHT 2 .TOP = .ok d' ∧
      keys d'.mHalfEdges = keys triangle.mHalfEdges ++
        List.range' triangle.halfEdgeCount (turns .RIGHT .TOP + 1) ∧
      (∀ i, i ≤ turns .RIGHT .TOP →
        ∃ r p rp, d'.he (triangle.halfEdgeCount + i) = some r ∧ r.prev = some p ∧
          p = (if i = 0 then 0 else triangle.halfEdgeCount + i - 1) ∧
          d'.he p = some rp ∧ r.origin = rp.destination ∧
          (i = 0 → r.origin = (mkHE 0 2 5 0 2 1).destination) ∧
          (i < turns .RIGHT .TOP → ∃ c, r.destination = some c ∧ triangle.vx c = none ∧
            d'.vx c = some (Vertex.mk
              (cornerPoint triangleBox (Side.ofInt ((Side.RIGHT.toInt + 1 + i) % 4))))) ∧
          (i = turns .RIGHT .TOP → r.destination = (mkHE 1 0 3 0 1 0).origin)) ∧
      (∃ s1, d'.he 0 = some s1 ∧ s1.origin = (mkHE 0 2 5 0 2 1).origin ∧
        s1.destination = (mkHE 0 2 5 0 2 1).destination) ∧
      (∃ e1, d'.he 2 = some e1 ∧ e1.origin = (mkHE 1 0 3 0 1 0).origin ∧
        e1.destination = (mkHE 1 0 3 0 1 0).destination) :=
  ⟨by decide,
    link_ends triangle triangleBox 0 2 .RIGHT .TOP (mkHE 0 2 5 0 2 1) (mkHE 1 0 3 0 1 0)
      ⟨some 0, some 0⟩ (by decide) rfl rfl rfl⟩

/-- C12: for live half-edges `start` and `end_` and any two sides, `link` returns; every
half-edge of its result that was not there before has the incident face of `start`, and
there is one; when the outer component of that face is set, no face changes; when it is
unset, it becomes the first half-edge made; the other faces do not change in either case;
every half-edge that was there before is still there with the incident face that it had. -/
theorem link_faces (d : VoronoiDiagram) (box : Box) (start end_ : Nat)
    (startSide endSide : Side) (s0 e0 : HalfEdge) (fc : Face) (ok : StoreOK d)
    (hs : d.he start = some s0) (he : d.he end_ = some e0)
    (hf : d.mFaces[s0.incidentFace]? = some fc) :
    ∃ d', d.link box start startSide end_ endSide = .ok d' ∧
      (∀ x r, d.he x = none → d'.he x = some r → r.incidentFace = s0.incidentFace) ∧
      (∃ x r, d.he x = none ∧ d'.he x = some r) ∧
      (fc.outerComponent ≠ none → d'.mFaces = d.mFaces) ∧
      (fc.outerComponent = none → d'.mFaces[s0.incidentFace]? =
        some { fc with outerComponent := some d.halfEdgeCount }) ∧
      (∀ g, g ≠ s0.incidentFace → d'.mFaces[g]? = d.mFaces[g]?) ∧
      (∀ x r, d.he x = some r → ∃ r', d'.he x = some r' ∧
        r'.incidentFace = r.incidentFace) := by
  obtain ⟨d', hrun, sp⟩ := link_spec ok box startSide endSide hs he hf
  refine ⟨d', hrun, fun x r hold hnew => ?_, ⟨d.halfEdgeCount, _, he_fresh ok (le_refl _),
    sp.new 0 (Nat.zero_le _)⟩, fun hoc => ?_, fun hoc => ?_, fun g hg => ?_,
    fun x r hx => ?_⟩
  · obtain ⟨i, hi, rfl⟩ := sp.created hold hnew
    rw [sp.new i hi] at hnew
    cases hnew
    rfl
  · rw [sp.faces]
    simp [ocInit, hf, hoc]
  · rw [sp.faces, ocInit_getElem?, if_pos rfl, hf]
    simp [hoc]
  · rw [sp.faces, ocInit_getElem?, if_neg hg]
  · obtain ⟨r', h1, -, -, -, h2⟩ := sp.kept ok hx
    exact ⟨r', h1, h2⟩

set_option maxRecDepth 100000 in
/-- C12, on the triangle: a link from half-edge 0 on the right side to half-edge 2 on the
top side. -/
theorem link_faces_triangle :
    StoreOK triangle ∧
    ∃ d', triangle.link triangleBox 0 .RIGHT 2 .TOP = .ok d' ∧
      (∀ x r, triangle.he x = none → d'.he x = some r →
        r.incidentFace = (mkHE 0 2 5 0 2 1).incidentFace) ∧
      (∃ x r, triangle.he x = none ∧ d'.he x = some r) ∧
      ((⟨some 0, some 0⟩ : Face).outerComponent ≠ none → d'.mFaces = triangle.mFaces) ∧
      ((⟨some 0, some 0⟩ : Face).outerComponent = none →
        d'.mFaces[(mkHE 0 2 5 0 2 1).incidentFace]? =
          some { (⟨some 0, some 0⟩ : Face) with
            outerComponent := some triangle.halfEdgeCount }) ∧
      (∀ g, g ≠ (mkHE 0 2 5 0 2 1).incidentFace → d'.mFaces[g]? = triangle.mFaces[g]?) ∧
      (∀ x r, triangle.he x = some r → ∃ r', d'.he x = some r' ∧
        r'.incidentFace = r.incidentFace) :=
  ⟨by decide,
    link_faces triangle triangleBox 0 2 .RIGHT .TOP (mkHE 0 2 5 0 2 1) (mkHE 1 0 3 0 1 0)
      ⟨some 0, some 0⟩ (by decide) rfl rfl rfl⟩

/-- C13: for every diagram and box, `createCorner` appends one vertex, with the next fresh
handle, which it returns, at the point `(left, top)` for LEFT, `(left, bottom)` for BOTTOM,
`(right, bottom)` for RIGHT and `(right, top)` for TOP, and changes nothing else; the sides
have the numbers 0, 1, 2, 3 in this order; the corner of a side is on the side and on the
side before it in the cyclic order, and is the only point on both; a turn of the loop of
`link`, from `side` to `(side + 1) % 4`, makes a half-edge whose destination is a new vertex
at a point on these two sides; the four corners are distinct when `left ≠ right` and
`top ≠ bottom`. -/
theorem createCorner_corners (d : VoronoiDiagram) (box : Box) :
    d.createCorner box .LEFT =
      ({ d with mVertices := d.mVertices ++ [(d.vertexCount, ⟨⟨box.left, box.top⟩⟩)],
                vertexCount := d.vertexCount + 1 }, d.vertexCount) ∧
    d.createCorner box .BOTTOM =
      ({ d with mVertices := d.mVertices ++ [(d.vertexCount, ⟨⟨box.left, box.bottom⟩⟩)],
                vertexCount := d.vertexCount + 1 }, d.vertexCount) ∧
    d.createCorner box .RIGHT =
      ({ d with mVertices := d.mVertices ++ [(d.vertexCount, ⟨⟨box.right, box.bottom⟩⟩)],
                vertexCount := d.vertexCount + 1 }, d.vertexCount) ∧
    d.createCorner box .TOP =
      ({ d with mVertices := d.mVertices ++ [(d.vertexCount, ⟨⟨box.right, box.top⟩⟩)],
                vertexCount := d.vertexCount + 1 }, d.vertexCount) ∧
    [Side.LEFT, Side.BOTTOM, Side.RIGHT, Side.TOP].map Side.toInt = [0, 1, 2, 3] ∧
    (∀ s, ((prevSide s).toInt + 1) % 4 = s.toInt ∧
      (d.createCorner box s).1.mVertices =
        d.mVertices ++ [((d.createCorner box s).2, ⟨cornerPoint box s⟩)] ∧
      onSide box s (cornerPoint box s) ∧ onSide box (prevSide s) (cornerPoint box s) ∧
      ∀ q, onSide box s q → onSide box (prevSide s) q → q = cornerPoint box s) ∧
    (∀ start cur side s0 c0 fc, StoreOK d → d.he start = some s0 → d.he cur = some c0 →
      d.mFaces[s0.incidentFace]? = some fc → side < 4 →
      ∃ d' n r c a, linkStep d box start cur side = .ok (d', n, (side + 1) % 4) ∧
        d.he n = none ∧ d'.he n = some r ∧ r.destination = some c ∧ d.vx c = none ∧
        d'.vx c = some a ∧ a.point = cornerPoint box (Side.ofInt ((side + 1) % 4)) ∧
        onSide box (Side.ofInt side) a.point ∧
        onSide box (Side.ofInt ((side + 1) % 4)) a.point) ∧
    (box.left ≠ box.right → box.top ≠ box.bottom →
      ∀ s s', (d.createCorner box s).1.mVertices = (d.createCorner box s').1.mVertices →
        s = s') := by
  refine ⟨rfl, rfl, rfl, rfl, rfl, fun s => ⟨prevSide_toInt s, by cases s <;> rfl,
    (cornerPoint_onSide box s).1, (cornerPoint_onSide box s).2,
    fun q h1 h2 => onSide_corner box s q h1 h2⟩, ?_, fun hx hy s s' h => ?_⟩
  · intro start cur side s0 c0 fc ok hs hc hf hside
    have hstep := linkStep_eq ok box side hs rfl hc hf
    have ok5 : StoreOK (((((d.pushHE s0.incidentFace).putHE cur
        (fun e => { e with next := some d.halfEdgeCount })).putHE d.halfEdgeCount
        (fun e => { e with prev := some cur })).putHE d.halfEdgeCount
        (fun e => { e with origin := c0.destination }))) :=
      putHE_ok (putHE_ok (putHE_ok (pushHE_ok ok _) _ _) _ _) _ _
    have hnew : ∃ r0, (d.pushHE s0.incidentFace).he d.halfEdgeCount = some r0 :=
      ⟨_, by rw [pushHE_he ok, if_pos rfl]⟩
    obtain ⟨r1, hr1⟩ := putHE_live d.halfEdgeCount
      (fun e => { e with origin := c0.destination })
      (putHE_live d.halfEdgeCount (fun e => { e with prev := some cur })
        (putHE_live cur (fun e => { e with next := some d.halfEdgeCount }) hnew))
    have hcorner := cornerPoint_onSide box (Side.ofInt ((side + 1) % 4))
    rw [prevSide_ofInt hside] at hcorner
    refine ⟨_, _, { r1 with destination := some d.vertexCount }, d.vertexCount,
      ⟨cornerPoint box (Side.ofInt ((side + 1) % 4))⟩, hstep,
      he_fresh ok (le_refl _), ?_, rfl, vx_fresh ok (le_refl _), ?_, rfl, hcorner.2,
      hcorner.1⟩
    · rw [putHE_he, if_pos rfl, pushV_he, hr1]
      rfl
    · rw [putHE_vx, pushV_vx ok5]
      exact if_pos rfl
  · rw [createCorner_eq, createCorner_eq] at h
    simp only [pushV_mVertices, List.append_cancel_left_eq, List.cons.injEq, Prod.mk.injEq,
      Vertex.mk.injEq, true_and, and_true] at h
    exact cornerPoint_injective box hx hy h

set_option maxRecDepth 100000 in
/-- C13, on the triangle and the box `[0, 10]²`: the corners of the box are distinct, and
a turn of the loop of `link` after the half-edge 0, from the right side to the top side,
ends at `(10, 10)`. -/
theorem createCorner_corners_triangle :
    (∀ s s', (triangle.createCorner triangleBox s).1.mVertices =
        (triangle.createCorner triangleBox s').1.mVertices → s = s') ∧
    ∃ d' n r c a, linkStep triangle triangleBox 0 0 2 = .ok (d', n, (2 + 1) % 4) ∧
      triangle.he n = none ∧ d'.he n = some r ∧ r.destination = some c ∧
      triangle.vx c = none ∧ d'.vx c = some a ∧
      a.point = cornerPoint triangleBox (Side.ofInt ((2 + 1) % 4)) ∧
      onSide triangleBox (Side.ofInt 2) a.point ∧
      onSide triangleBox (Side.ofInt ((2 + 1) % 4)) a.point :=
  ⟨(createCorner_corners triangle triangleBox).2.2.2.2.2.2.2 (by decide) (by decide),
    (createCorner_corners triangle triangleBox).2.2.2.2.2.2.1 0 0 2 (mkHE 0 2 5 0 2 1)
      (mkHE 0 2 5 0 2 1) ⟨some 0, some 0⟩ (by decide) rfl rfl rfl (by decide)⟩

/-- C14: for a face of the diagram, `createHalfEdge` returns the next fresh handle and
appends one half-edge with this handle at the end of the list, with the face as incident
face and its other pointers null; the outer component of the face becomes the new half-edge
when it was unset, and the face keeps its record when it was set; the half-edges that were
there, the other faces, the vertices and the sites do not change. -/
theorem createHalfEdge_appends (d : VoronoiDiagram) (face : Nat) (f : Face)
    (hf : d.mFaces[face]? = some f) :
    ∃ d', d.createHalfEdge face = .ok (d', d.halfEdgeCount) ∧
      d'.mHalfEdges = d.mHalfEdges ++
        [(d.halfEdgeCount, { origin := none, destination := none, twin := none,
                             incidentFace := face, prev := none, next := none })] ∧
      d'.halfEdgeCount = d.halfEdgeCount + 1 ∧
      (f.outerComponent = none →
        d'.mFaces[face]? = some { f with outerComponent := some d.halfEdgeCount }) ∧
      (f.outerComponent ≠ none → d'.mFaces[face]? = some f) ∧
      (∀ g, g ≠ face → d'.mFaces[g]? = d.mFaces[g]?) ∧
      d'.mFaces.length = d.mFaces.length ∧
      d'.mVertices = d.mVertices ∧ d'.vertexCount = d.vertexCount ∧ d'.mSites = d.mSites ∧
      (StoreOK d → d.he d.halfEdgeCount = none ∧
        (∃ r, d'.he d.halfEdgeCount = some r ∧ r.incidentFace = face) ∧
        ∀ x, x ≠ d.halfEdgeCount → d'.he x = d.he x) := by
  refine ⟨d.pushHE face, createHalfEdge_eq hf, rfl, rfl, fun hoc => ?_, fun hoc => ?_,
    fun g hg => ?_, ocInit_length _ _ _, rfl, rfl, rfl, fun ok => ⟨he_fresh ok (le_refl _),
      ⟨_, by rw [pushHE_he ok, if_pos rfl], rfl⟩, fun x hx => by rw [pushHE_he ok, if_neg hx]⟩⟩
  · rw [pushHE_mFaces, ocInit_getElem?, if_pos rfl, hf]
    simp [hoc]
  · rw [pushHE_mFaces, ocInit_getElem?, if_pos rfl, hf]
    simp [hoc]
  · rw [pushHE_mFaces, ocInit_getElem?, if_neg hg]

set_option maxRecDepth 100000 in
/-- C14, on the face 0 of `farClipped`, whose outer component is unset. -/
theorem createHalfEdge_appends_unset :
    ∃ d', farClipped.createHalfEdge 0 = .ok (d', farClipped.halfEdgeCount) ∧
      d'.mHalfEdges = farClipped.mHalfEdges ++
        [(farClipped.halfEdgeCount, { origin := none, destination := none, twin := none,
                                      incidentFace := 0, prev := none, next := none })] ∧
      d'.halfEdgeCount = farClipped.halfEdgeCount + 1 ∧
      ((⟨some 0, none⟩ : Face).outerComponent = none →
        d'.mFaces[0]? = some { (⟨some 0, none⟩ : Face) with
          outerComponent := some farClipped.halfEdgeCount }) ∧
      ((⟨some 0, none⟩ : Face).outerComponent ≠ none → d'.mFaces[0]? = some ⟨some 0, none⟩) ∧
      (∀ g, g ≠ 0 → d'.mFaces[g]? = farClipped.mFaces[g]?) ∧
      d'.mFaces.length = farClipped.mFaces.length ∧
      d'.mVertices = farClipped.mVertices ∧ d'.vertexCount = farClipped.vertexCount ∧
      d'.mSites = farClipped.mSites ∧
      (StoreOK farClipped → farClipped.he farClipped.halfEdgeCount = none ∧
        (∃ r, d'.he farClipped.halfEdgeCount = some r ∧ r.incidentFace = 0) ∧
        ∀ x, x ≠ farClipped.halfEdgeCount → d'.he x = farClipped.he x) :=
  createHalfEdge_appends farClipped 0 ⟨some 0, none⟩ rfl

/-- C15: for every list of points, the constructed diagram has as many sites, and as many
faces, as there are points; for every `i` below that number, `getSite i` is the site with
index `i`, the point `points[i]` and the face `i`, and `getFace i` is the face with the site
`i` and no outer component; there is no vertex and no half-edge. -/
theorem construct_sites_faces (points : List Vector2) :
    (construct points).getNbSites = points.length ∧
    (construct points).mFaces.length = points.length ∧
    (∀ i (hi : i < points.length),
      (construct points).getSite i =
        .ok { index := i, point := points[i], face := some i } ∧
      (construct points).getFace i = .ok { site := some i, outerComponent := none }) ∧
    (construct points).getVertices = [] ∧ (construct points).getHalfEdges = [] ∧
    (construct points).vertexCount = 0 ∧ (construct points).halfEdgeCount = 0 := by
  obtain ⟨h1, h2, -, h4, h5, h6, h7, h8⟩ := constructLoop_spec points 0 empty rfl rfl
  refine ⟨by simpa [getNbSites, construct] using h1, by simpa [construct] using h2,
    fun i hi => ?_, h5, h6, h7, h8⟩
  obtain ⟨k1, k2⟩ := h4 i points[i] (List.getElem?_eq_getElem hi)
  rw [Nat.zero_add] at k1 k2
  exact ⟨by simp only [getSite, construct, k1], by simp only [getFace, construct, k2]⟩

/-- C15, on three points. -/
theorem construct_sites_faces_three :
    construct [⟨1, 2⟩, ⟨3, 4⟩, ⟨5, 6⟩] =
      { mSites := [⟨0, ⟨1, 2⟩, some 0⟩, ⟨1, ⟨3, 4⟩, some 1⟩, ⟨2, ⟨5, 6⟩, some 2⟩],
        mFaces := [⟨some 0, none⟩, ⟨some 1, none⟩, ⟨some 2, none⟩],
        mVertices := [], mHalfEdges := [], vertexCount := 0, halfEdgeCount := 0 } ∧
    (construct [⟨1, 2⟩, ⟨3, 4⟩, ⟨5, 6⟩]).getNbSites = 3 :=
  ⟨rfl, (construct_sites_faces [⟨1, 2⟩, ⟨3, 4⟩, ⟨5, 6⟩]).1⟩

set_option maxRecDepth 100000 in
/-- C17: `farTriangle` is well-formed and the box `[0, 10]²` agrees with itself on it; with
fuel for the boundaries, `intersect` makes `farClipped` of it, in which the two faces have
no outer component; and `intersect` on `farClipped` with the same box is not `farClipped`
again: with any fuel it follows the null outer component of face 0. -/
theorem intersect_not_idempotent :
    WellFormed farTriangle triangleCyc ∧ Agrees triangleBox farTriangle ∧
    (∀ fuel, 3 ≤ fuel → intersect fuel farTriangle triangleBox = .ok farClipped) ∧
    (farClipped.mFaces[0]?).map Face.outerComponent = some none ∧
    (∀ fuel, intersect fuel farClipped triangleBox = .error .nullDeref) ∧
    (∀ fuel, intersect fuel farClipped triangleBox ≠ .ok farClipped) := by
  refine ⟨by decide, by decide, fun fuel hfuel => ?_, rfl, fun _ => rfl,
    fun _ h => Except.noConfusion h⟩
  obtain ⟨n, rfl⟩ := Nat.exists_eq_add_of_le' hfuel
  rfl

/-- C18: for a well-formed diagram, any box and a face `f`, from the locals with which the
loop over the sites reaches the face, with either value of `inside` and with fuel for the
boundary of the face: the walk starts at the outer component of the face, returns, and the
values of `halfEdge` at its turns are the half-edges of the boundary of the face in the input
diagram, in order, each once; in the input diagram each of them has the one after it as
`next`, and the last has the first. -/
theorem walk_visits_cycle (d0 : VoronoiDiagram) (box : Box) (cyc : Nat → List Nat)
    (fuel0 fuel f : Nat) (w : Walk) (b : Bool) (wf : WellFormed d0 cyc)
    (hf : f < d0.mFaces.length)
    (hw : intersectSites fuel0 box (d0.mSites.take f) d0.initWalk = .ok w)
    (hfuel : (cyc f).length ≤ fuel) :
    ∃ e0 w', (w.d.mFaces[f]?).map Face.outerComponent = some (some e0) ∧
      walkTrace fuel box f { w with inside := b, incoming := none, outgoing := none }
        (some e0) = .ok (w', (cyc f).map some) ∧
      walk fuel box f { w with inside := b, incoming := none, outgoing := none }
        (some e0) = .ok w' ∧
      (cyc f).Nodup ∧ (cyc f).head? = some e0 ∧
      List.Chain' (fun x y => d0.nextOf x = some y) (cyc f ++ [e0]) := by
  obtain ⟨e0, w', h1, h2⟩ := walkTrace_cycle wf box hf (between_reach wf fuel0 (le_of_lt hf) hw)
    b fuel hfuel
  obtain ⟨e0', rest, fc, hcyc, hfc, hoc, -, hch⟩ := wf.cyc_head hf
  have hbt := between_reach wf fuel0 (le_of_lt hf) hw
  have he : e0' = e0 := by
    rw [hbt.faces f (le_refl _), hfc] at h1
    simpa [hoc] using h1
  subst he
  refine ⟨e0', w', h1, h2, by rw [walkTrace_walk, h2]; rfl, (wf.cycle hf).2.1,
    by rw [hcyc]; rfl, List.Chain'.imp (fun _ _ hxy => hxy.1) hch⟩

set_option maxRecDepth 100000 in
/-- C18, on the triangle and the box `[0, 10]²`: the walk of face 0, in which the first
half-edge goes out of the box, the second is removed, and the third comes in and is linked
to the first. -/
theorem walk_visits_cycle_triangle :
    WellFormed triangle triangleCyc ∧
    ∃ e0 w', (triangle.initWalk.d.mFaces[0]?).map Face.outerComponent = some (some e0) ∧
      walkTrace 3 triangleBox 0
        { triangle.initWalk with inside := true, incoming := none, outgoing := none }
        (some e0) = .ok (w', (triangleCyc 0).map some) ∧
      walk 3 triangleBox 0
        { triangle.initWalk with inside := true, incoming := none, outgoing := none }
        (some e0) = .ok w' ∧
      (triangleCyc 0).Nodup ∧ (triangleCyc 0).head? = some e0 ∧
      List.Chain' (fun x y => triangle.nextOf x = some y) (triangleCyc 0 ++ [e0]) :=
  ⟨by decide,
    walk_visits_cycle triangle triangleBox triangleCyc 3 3 0 triangle.initWalk true
      (by decide) (by decide) rfl (by decide)⟩

/-- C19: when a face walk that starts with `inside` false and the two cursors unset returns
with `inside` false and `incomingHalfEdge` set, then `outgoingHalfEdge` is set, with its
side, so that the closing `link` has its `start`; and the walk of face 0 of `triangle` with
`entryBox` starts with `inside` false and returns with `inside` true, the half-edge 0 as
`incomingHalfEdge` and `outgoingHalfEdge` unset, so that `intersect` follows a null
pointer in the closing `link`. -/
theorem closing_link_start (fuel : Nat) (box : Box) (f : Nat) (w w1 : Walk)
    (h : Option Nat)
    (hrun : walk fuel box f { w with inside := false, incoming := none, outgoing := none } h
      = .ok w1)
    (hend : w1.inside = false) :
    (∀ i iside, w1.incoming = some (i, iside) → ∃ o oside, w1.outgoing = some (o, oside)) ∧
    (∃ w2, walk 3 entryBox 0
        { triangle.initWalk with inside := false, incoming := none, outgoing := none }
        (some 0) = .ok w2 ∧
      w2.inside = true ∧ w2.incoming = some (0, .RIGHT) ∧ w2.outgoing = none) ∧
    intersect 3 triangle entryBox = .error .nullDeref := by
  refine ⟨fun i iside hi => ?_, ⟨_, rfl, rfl, rfl, rfl⟩, rfl⟩
  have := walk_pending box f fuel _ w1 h hrun (fun _ hh => absurd rfl hh) hend
    (by rw [hi]; simp)
  cases ho : w1.outgoing with
  | none => exact absurd ho this
  | some p => exact ⟨p.1, p.2, rfl⟩

/-- C19, on `outerTriangle` and the box `[0, 10]²`: the walk of face 1 starts outside the
box at the half-edge 4, which is removed, comes in by the half-edge 5 and goes out by the
half-edge 3. -/
theorem closing_link_start_outer :
    ∃ w1, walk 3 triangleBox 1
        { outerTriangle.initWalk with inside := false, incoming := none, outgoing := none }
        (some 4) = .ok w1 ∧
      w1.inside = false ∧ w1.incoming = some (5, .RIGHT) ∧ w1.outgoing = some (3, .TOP) ∧
      ∀ i iside, w1.incoming = some (i, iside) → ∃ o oside, w1.outgoing = some (o, oside) :=
  ⟨_, rfl, rfl, rfl, rfl,
    (closing_link_start 3 triangleBox 1 outerTriangle.initWalk _ (some 4) rfl rfl).1⟩

/-- C20: for a diagram with distinct handles and a live half-edge `h`, `removeHalfEdge h`
returns and changes no face, and `h` is no longer in the list: a face with `h` as outer
component keeps it, and it designates no half-edge; and for a face with no outer component,
`createHalfEdge` and then `removeHalfEdge` of the half-edge made leave the face with that
half-edge as outer component and not in the list. -/
theorem removeHalfEdge_keeps_faces (d : VoronoiDiagram) (h : Nat) (r : HalfEdge)
    (ok : StoreOK d) (hh : d.he h = some r) :
    (∃ d', d.removeHalfEdge h = .ok d' ∧ d'.mFaces = d.mFaces ∧ d'.he h = none ∧
      ∀ (f : Nat) (fc : Face), d.mFaces[f]? = some fc → fc.outerComponent = some h →
        (d'.mFaces[f]?).bind Face.outerComponent = some h ∧ d'.he h = none) ∧
    (∀ (f : Nat) (fc : Face), d.mFaces[f]? = some fc → fc.outerComponent = none →
      ∃ d1 x d2, d.createHalfEdge f = .ok (d1, x) ∧ d1.removeHalfEdge x = .ok d2 ∧
        (d2.mFaces[f]?).bind Face.outerComponent = some x ∧ d2.he x = none) := by
  constructor
  · refine ⟨d.dropHE h, removeHalfEdge_eq hh, rfl, by rw [dropHE_he ok, if_pos rfl],
      fun f fc hf hoc => ⟨?_, by rw [dropHE_he ok, if_pos rfl]⟩⟩
    show (d.mFaces[f]?).bind Face.outerComponent = some h
    rw [hf]
    exact hoc
  · intro f fc hf hoc
    have hnew : (d.pushHE f).he d.halfEdgeCount = some (freshHE f) := by
      rw [pushHE_he ok, if_pos rfl]
    refine ⟨d.pushHE f, d.halfEdgeCount, (d.pushHE f).dropHE d.halfEdgeCount,
      createHalfEdge_eq hf, removeHalfEdge_eq hnew, ?_,
      by rw [dropHE_he (pushHE_ok ok f), if_pos rfl]⟩
    rw [dropHE_mFaces, pushHE_mFaces, ocInit_getElem?, if_pos rfl, hf]
    simp [hoc]

set_option maxRecDepth 100000 in
/-- C20, on the triangle: the half-edge 3, the outer component of face 1. -/
theorem removeHalfEdge_keeps_faces_triangle :
    StoreOK triangle ∧
    (∃ d', triangle.removeHalfEdge 3 = .ok d' ∧ d'.mFaces = triangle.mFaces ∧
      d'.he 3 = none ∧
      ∀ (f : Nat) (fc : Face), triangle.mFaces[f]? = some fc → fc.outerComponent = some 3 →
        (d'.mFaces[f]?).bind Face.outerComponent = some 3 ∧ d'.he 3 = none) ∧
    (∀ (f : Nat) (fc : Face), triangle.mFaces[f]? = some fc → fc.outerComponent = none →
      ∃ d1 x d2, triangle.createHalfEdge f = .ok (d1, x) ∧ d1.removeHalfEdge x = .ok d2 ∧
        (d2.mFaces[f]?).bind Face.outerComponent = some x ∧ d2.he x = none) :=
  ⟨by decide, removeHalfEdge_keeps_faces triangle 3 (mkHE 0 1 2 1 5 4) (by decide) rfl⟩

end Voronoi

